import Mathlib

/-!
# THaDecData: channel mapping and per-event decode

A shallow embedding of `src/src/THaDecData.C` (class `BdataLoc`, the
mapping-file loader `SetupDecData`, `DefaultMap`, `Decode`, `TrigBits`,
`VdcEff`) together with theorems about it.

Conventions of the embedding:
* `Int_t` values are `Int`, `UInt_t` values are `Nat`; a conversion of an
  `Int_t` to `UInt_t` is `toUInt_t` (reduction modulo `2^32`), and unsigned
  arithmetic that can overflow carries an explicit `% 2^32`.
* `std::vector<BdataLoc*>` is a `List BdataLoc`; the position in the list
  stands for the pointer.
-/

namespace Podd

set_option maxRecDepth 100000

/-- The value an `Int_t` takes when it is converted to `UInt_t`. -/
def toUInt_t (x : Int) : Nat := (x % 4294967296).toNat

/-! ## BdataLoc -/

/-- Constant `BdataLoc::MxHits`. -/
def MxHits : Int := 16

/-- The array `UInt_t rdata[MxHits]`: sixteen cells. -/
structure HitArray where
  cells : List Nat
  size_ok : cells.length = 16
deriving DecidableEq, Repr

/-- Read of `rdata[i]` (`0` stands for a read outside the array). -/
def HitArray.get (a : HitArray) (i : Nat) : Nat := a.cells.getD i 0

/-- Write `rdata[i] = v`. -/
def HitArray.set (a : HitArray) (i : Nat) (v : Nat) : HitArray :=
  ⟨a.cells.set i v, by rw [List.length_set]; exact a.size_ok⟩

/-- The array content a constructor leaves behind (indeterminate in C++,
all zero here). -/
def HitArray.zero : HitArray := ⟨List.replicate 16 0, by simp⟩

/-- Class `BdataLoc`: one data location with its multihit buffer. -/
structure BdataLoc where
  fName : String
  crate : Int
  slot : Int
  chan : Int
  header : Nat
  ntoskip : Int
  rdata : HitArray
  ndata : Int
  search_choice : Int
  loaded_once : Bool
deriving DecidableEq, Repr

namespace BdataLoc

/-- Method `Clear`: `ndata=0; loaded_once = kFALSE;` (the cells keep their
content). -/
def Clear (b : BdataLoc) : BdataLoc :=
  { b with ndata := 0, loaded_once := false }

/-- Constructor for a (crate, slot, channel) selection. -/
def mkSlot (nm : String) (cra slo cha : Int) : BdataLoc :=
  Clear { fName := nm, crate := cra, slot := slo, chan := cha, header := 0,
          ntoskip := 0, rdata := HitArray.zero, ndata := 0,
          search_choice := 0, loaded_once := false }

/-- Constructor for a header search. -/
def mkHeader (nm : String) (cra : Int) (head : Nat) (skip : Int) : BdataLoc :=
  Clear { fName := nm, crate := cra, slot := 0, chan := 0, header := head,
          ntoskip := skip, rdata := HitArray.zero, ndata := 0,
          search_choice := 1, loaded_once := false }

/-- Method `IsSlot`. -/
def IsSlot (b : BdataLoc) : Bool := b.search_choice == 0

/-- Method `Load`: `if (ndata<MxHits) rdata[ndata++]=data; loaded_once = kTRUE;`. -/
def Load (b : BdataLoc) (data : Nat) : BdataLoc :=
  if b.ndata < MxHits then
    { b with rdata := b.rdata.set b.ndata.toNat data, ndata := b.ndata + 1,
             loaded_once := true }
  else
    { b with loaded_once := true }

/-- Method `DidLoad`. -/
def DidLoad (b : BdataLoc) : Bool := b.loaded_once

/-- Method `NumHits`. -/
def NumHits (b : BdataLoc) : Int := b.ndata

/-- Method `Get`: `(i >= 0 && ndata > i) ? rdata[i] : 0`. -/
def Get (b : BdataLoc) (i : Int) : Nat :=
  if i ≥ 0 ∧ b.ndata > i then b.rdata.get i.toNat else 0

/-- Comparison with a name, `operator==( const char* aname )`. -/
def nameIs (b : BdataLoc) (aname : String) : Bool := b.fName == aname

/-- Comparison of the hardware definitions, `operator==( const BdataLoc& rhs )`. -/
def hwEq (b rhs : BdataLoc) : Bool :=
  b.search_choice == rhs.search_choice && b.crate == rhs.crate &&
    ((b.search_choice == 0 && b.slot == rhs.slot && b.chan == rhs.chan) ||
     (b.search_choice == 1 && b.header == rhs.header && b.ntoskip == rhs.ntoskip))

/-- Negated comparison, `operator!=`. -/
def hwNe (b rhs : BdataLoc) : Bool := !(hwEq b rhs)

/-- Method `SetSlot`. -/
def SetSlot (b : BdataLoc) (cr sl ch : Int) : BdataLoc :=
  { b with crate := cr, slot := sl, chan := ch, header := 0, ntoskip := 0,
           search_choice := 0 }

/-- Method `SetHeader`. -/
def SetHeader (b : BdataLoc) (cr : Int) (hd : Nat) (sk : Int) : BdataLoc :=
  { b with crate := cr, header := hd, ntoskip := sk, slot := 0, chan := 0,
           search_choice := 1 }

/-- Successive calls `Load(v_1)`, ..., `Load(v_k)`. -/
def loadAll (b : BdataLoc) (vs : List Nat) : BdataLoc := vs.foldl Load b

end BdataLoc


/-! ## Collaborators of the decoder -/

/-- Modelled from the spec: the raw event-buffer interface (class `THaEvData`,
not among the sources), section 6: `numHits(crate, slot, chan)`,
`hitValue(crate, slot, chan, index)`, `rawWord(crate, position)`,
`rocBufferLength(crate)` and `eventType()`, each returning an `Int_t`. -/
structure THaEvData where
  GetNumHits : Int → Int → Int → Int
  GetData : Int → Int → Int → Int → Int
  GetRawData : Int → Int → Int
  GetRocLength : Int → Int
  GetEvType : Int

/-- Modelled from the spec: the trigger-bit pattern (ROOT class `TBits`, member
`bits` declared in the absent header `THaDecData.h`): a bit set with a bit
count `fNbits`; the bits are kept as the binary digits of `fAllBits`. `Decode`
hands the bit numbers `1..GetNbits()` to `TrigBits`, the number `GetNbits()`
itself included, so a bit number at or beyond the bit count can be written:
as in the ROOT class, the set then grows. -/
structure TBits where
  fNbits : Nat
  fAllBits : Nat
deriving DecidableEq, Repr

namespace TBits

/-- Method `GetNbits`. -/
def GetNbits (t : TBits) : Nat := t.fNbits

/-- Method `TestBitNumber`. -/
def TestBitNumber (t : TBits) (bitnumber : Nat) : Bool :=
  decide (bitnumber < t.fNbits) && t.fAllBits.testBit bitnumber

/-- Method `SetBitNumber(bitnumber, value)`: a bit number at or beyond the bit
count enlarges the set to `bitnumber + 1` bits. -/
def SetBitNumber (t : TBits) (bitnumber : Nat) (value : Bool) : TBits :=
  { fNbits := if bitnumber ≥ t.fNbits then bitnumber + 1 else t.fNbits,
    fAllBits :=
      if value then t.fAllBits ||| (1 <<< bitnumber)
      else if t.fAllBits.testBit bitnumber then t.fAllBits ^^^ (1 <<< bitnumber)
      else t.fAllBits }

/-- Method `ResetBitNumber`. -/
def ResetBitNumber (t : TBits) (bitnumber : Nat) : TBits :=
  t.SetBitNumber bitnumber false

end TBits

/-- Modelled from the spec: what a global analyzer variable refers to. The
variable list (`gHaVars`, class `THaVarList`) is not among the sources. A
variable bound by `DefineChannel` refers to the storage of one `BdataLoc`,
which is named here by its collection and position. -/
inductive VarTarget where
  | member (field : String)
  | crateLoc (i : Nat)
  | wordLoc (i : Nat)
  | foreign (vals : List Int)
deriving DecidableEq, Repr

/-- Modelled from the spec: one entry of the global variable list. -/
structure THaVar where
  name : String
  target : VarTarget
deriving DecidableEq, Repr

/-- Modelled from the spec: lookup in the variable list, first match wins. -/
def varFind (vars : List THaVar) (name : String) : Option THaVar :=
  vars.find? (fun v => v.name == name)

/-- Modelled from the spec: `define(name, ...)` of the variable registry; a
name that is already defined is not redefined. -/
def varDefine (vars : List THaVar) (name : String) (target : VarTarget) : List THaVar :=
  match varFind vars name with
  | some _ => vars
  | none => vars ++ [{ name := name, target := target }]

/-- Modelled from the spec: `remove(name)` of the variable registry. -/
def varRemoveName (vars : List THaVar) (name : String) : List THaVar :=
  vars.eraseP (fun v => v.name == name)

/-- Modelled from the spec: the histogram sink (ROOT class `TH1F`); a histogram
is the list of its fills `(x, weight)` since the last reset. -/
abbrev TH1F := List (Int × Rat)

/-- Apply `f` to the entry at position `n` of a list, if there is one. -/
def modifyAt {α : Type} (f : α → α) : Nat → List α → List α
  | _, [] => []
  | 0, x :: xs => f x :: xs
  | n + 1, x :: xs => x :: modifyAt f n xs

/-- Modes of `SetupDecData`, `enum EMode`. -/
inductive EMode where
  | kDefine
  | kDelete
deriving DecidableEq, Repr

/-- Class `THaDecData`, with the statics of the class and of `VdcEff` and the
global variable list it works on. `fStatus` holds `enum EStatus` as its
integer (`kOK = 0`, `kNotinit = 1`). The scalar outputs and the members
`bits`, `cnt1`, `hist` are declared in the absent header. -/
structure THaDecData where
  isZombie : Bool
  fStatus : Int
  fIsSetup : Bool
  fPrefix : String
  bits : TBits
  evtypebits : Nat
  evtype : Nat
  ctimel : Nat
  ctimer : Nat
  pulser1 : Nat
  synchadc1 : Nat
  synchadc2 : Nat
  synchadc3 : Nat
  synchadc4 : Nat
  synchadc14 : Nat
  timestamp : Nat
  timeroc1 : Nat
  timeroc2 : Nat
  timeroc3 : Nat
  timeroc4 : Nat
  timeroc14 : Nat
  rftime1 : Nat
  rftime2 : Nat
  edtpl : Nat
  edtpr : Nat
  lenroc12 : Int
  lenroc16 : Int
  fCrateLoc : List BdataLoc
  fWordLoc : List BdataLoc
  hist : List TH1F
  cnt1 : Int
  gHaVars : List THaVar
  sink : List (List TH1F)
  fgVdcEffFirst : Int
  cnt : Nat
  xcnt : List Nat
  eff : List Nat
  varp : List (Option String)
deriving DecidableEq, Repr

/-! ## Text utilities used by the loader -/

/-- C `isspace` in the "C" locale. -/
def isspace (c : Char) : Bool :=
  c == ' ' || c == '\t' || c == '\n' || c == '\x0b' || c == '\x0c' || c == '\r'

/-- Worker of `vsplit`: `cur` holds the characters of the field being read,
last one first. -/
def vsplitAux : List Char → List Char → List String
  | cur, [] => if cur.isEmpty then [] else [String.mk cur.reverse]
  | cur, c :: cs =>
    if isspace c then
      if cur.isEmpty then vsplitAux [] cs
      else String.mk cur.reverse :: vsplitAux [] cs
    else vsplitAux (c :: cur) cs

/-- Modelled from the spec: `vsplit` (not among the sources) splits a line into
its whitespace-separated fields. -/
def vsplit (s : String) : List String := vsplitAux [] s.toList

/-- The value of a decimal digit character. -/
def digitVal (c : Char) : Nat := c.toNat - 48

/-- The digit-reading loop of `atoi`: stops at the first character that is
not a decimal digit. -/
def atoiDigits : Nat → List Char → Nat
  | acc, [] => acc
  | acc, c :: cs => if c.isDigit then atoiDigits (acc * 10 + digitVal c) cs else acc

/-- An integer reduced to the range of `Int_t` (two's complement). -/
def wrapInt_t (x : Int) : Int := (x + 2147483648) % 4294967296 - 2147483648

/-- C library `atoi`: optional whitespace, an optional sign, decimal digits.
A value outside the range of `Int_t` is undefined in C and wraps here. -/
def atoi (s : String) : Int :=
  match s.toList.dropWhile isspace with
  | '-' :: cs => wrapInt_t (-(atoiDigits 0 cs : Int))
  | '+' :: cs => wrapInt_t (atoiDigits 0 cs : Int)
  | cs => wrapInt_t (atoiDigits 0 cs : Int)

/-- The table `chex` of `header_str_to_base16`. -/
def chex : List Char := "0123456789abcdef".toList

/-- The search `strchr(chex,tolower(*p))`: the position in `chex`, if any. -/
def chexIndex (c : Char) : Option Nat :=
  let k := chex.indexOf c.toLower
  if k < 16 then some k else none

/-- One step of the loop of `header_str_to_base16` on the pair
`(result, power)`, both of type `UInt_t`. -/
def hexStep (st : Nat × Nat) (c : Char) : Nat × Nat :=
  match chexIndex c with
  | some q => ((st.1 + q * st.2) % 4294967296, (st.2 * 16) % 4294967296)
  | none => st

/-- Function `header_str_to_base16`: the characters are visited from the last
to the first. -/
def header_str_to_base16 (hdr : String) : Nat :=
  (hdr.toList.reverse.foldl hexStep (0, 1)).1

/-- The text `Form("bit%d",i)`. -/
def Form_bit (i : Nat) : String := "bit" ++ Nat.repr i

/-! ## The loader -/

/-- The names of the table `vars` of `SetupDecData`. -/
def varsNames : List String :=
  ["evtypebits", "evtype", "ctimel", "ctimer", "pulser1", "synchadc1",
   "synchadc2", "synchadc3", "synchadc4", "synchadc14", "times100k",
   "timeroc1", "timeroc2", "timeroc3", "timeroc4", "timeroc14", "rftime1",
   "rftime2", "edtpl", "edtpr", "lenroc12", "lenroc16"]

/-- The member each entry of the table `vars` is tied to. -/
def varsMembers : List String :=
  ["evtypebits", "evtype", "ctimel", "ctimer", "pulser1", "synchadc1",
   "synchadc2", "synchadc3", "synchadc4", "synchadc14", "timestamp",
   "timeroc1", "timeroc2", "timeroc3", "timeroc4", "timeroc14", "rftime1",
   "rftime2", "edtpl", "edtpr", "lenroc12", "lenroc16"]

/-- The variable list after one variable per entry of the table `vars` has
been defined under the prefix `pfx`. -/
def defineVarsList (pfx : String) (vars : List THaVar) : List THaVar :=
  (varsNames.zip varsMembers).foldl
    (fun vs nm => varDefine vs (pfx ++ nm.1) (VarTarget.member nm.2)) vars

/-- The variable list after the variables of the table `vars` have been
removed. -/
def removeVarsList (pfx : String) (vars : List THaVar) : List THaVar :=
  varsNames.foldl (fun vs nm => varRemoveName vs (pfx ++ nm)) vars

namespace THaDecData

/-- Method `IsOK`. -/
def IsOK (s : THaDecData) : Bool := s.fStatus == 0

/-- Modelled from the spec: `DefineVarsFromList( vars, mode )` (body not among
the sources) defines, or removes, one global variable per entry of `vars`,
named with the prefix, and reports success. -/
def DefineVarsFromList (s : THaDecData) (mode : EMode) : Int × THaDecData :=
  match mode with
  | EMode.kDefine => (0, { s with gHaVars := defineVarsList s.fPrefix s.gHaVars })
  | EMode.kDelete => (0, { s with gHaVars := removeVarsList s.fPrefix s.gHaVars })

/-- Method `DefineChannel`, for the `BdataLoc` whose storage is `ref`. -/
def DefineChannel (s : THaDecData) (b : BdataLoc) (ref : VarTarget) (mode : EMode) :
    THaDecData :=
  let nm := s.fPrefix ++ b.fName
  match mode with
  | EMode.kDefine => { s with gHaVars := varDefine s.gHaVars nm ref }
  | EMode.kDelete => { s with gHaVars := varRemoveName s.gHaVars nm }

/-- Method `BookHist`: one histogram per entry of `histdefs`. -/
def BookHist (s : THaDecData) : THaDecData :=
  { s with hist := s.hist ++ List.replicate 18 [] }

/-- Method `WriteHist`. -/
def WriteHist (s : THaDecData) : THaDecData :=
  { s with sink := s.sink ++ [s.hist] }

/-- Method `Clear`. -/
def Clear (s : THaDecData) : THaDecData :=
  { s with evtypebits := 0, evtype := 0, ctimel := 0, ctimer := 0, pulser1 := 0,
           synchadc1 := 0, synchadc2 := 0, synchadc3 := 0, synchadc4 := 0,
           synchadc14 := 0, timestamp := 0, timeroc1 := 0, timeroc2 := 0,
           timeroc3 := 0, timeroc4 := 0, timeroc14 := 0, rftime1 := 0,
           rftime2 := 0, edtpl := 0, edtpr := 0, lenroc12 := 0, lenroc16 := 0,
           fWordLoc := s.fWordLoc.map BdataLoc.Clear,
           fCrateLoc := s.fCrateLoc.map BdataLoc.Clear }

/-- Method `Reset`. -/
def Reset (s : THaDecData) : THaDecData :=
  { s.Clear with hist := s.Clear.hist.map (fun _ => []), fgVdcEffFirst := 2 }

/-- Method `DefaultMap`. -/
def DefaultMap (s : THaDecData) : Int × THaDecData :=
  let crateLoc1 := s.fCrateLoc ++
    [BdataLoc.mkSlot "synchadc1" 1 25 16,
     BdataLoc.mkSlot "synchadc2" 2 24 48,
     BdataLoc.mkSlot "synchadc3" 3 22 0,
     BdataLoc.mkSlot "synchadc4" 4 17 48,
     BdataLoc.mkSlot "synchadc14" 14 1 5,
     BdataLoc.mkSlot "ctimel" 4 21 48,
     BdataLoc.mkSlot "ctimer" 2 16 32,
     BdataLoc.mkSlot "pulser1" 3 3 7,
     BdataLoc.mkHeader "timestamp" 14 0xfca56000 2]
  let wordLoc1 := s.fWordLoc ++
    [BdataLoc.mkHeader "timeroc1" 1 0xfabc0004 4,
     BdataLoc.mkHeader "timeroc2" 2 0xfabc0004 4,
     BdataLoc.mkHeader "timeroc3" 3 0xfabc0004 4,
     BdataLoc.mkHeader "timeroc4" 4 0xfabc0004 4,
     BdataLoc.mkHeader "timeroc14" 14 0xfadcb0b4 1]
  let crateLoc2 := crateLoc1 ++
    [BdataLoc.mkSlot "rftime1" 2 16 50,
     BdataLoc.mkSlot "rftime2" 2 16 51,
     BdataLoc.mkSlot "edtpl" 3 9 81,
     BdataLoc.mkSlot "edtpr" 2 12 48]
  let crateLoc3 := crateLoc2 ++
    (List.range s.bits.GetNbits).map
      (fun (i : Nat) => BdataLoc.mkSlot (Form_bit (i + 1)) 3 5 (64 + (i : Int)))
  (0, { s with fCrateLoc := crateLoc3, fWordLoc := wordLoc1 })

/-- The `BdataLoc` a mapping line describes (`new BdataLoc(...)` in the loop
of `SetupDecData`), from the fields 1 to 5 of the line. -/
def lineLoc (f0 f1 f2 f3 f4 : String) : BdataLoc :=
  let crate := atoi f2
  let is_slot := f1 == "crate"
  if is_slot then BdataLoc.mkSlot f0 crate (atoi f3) (atoi f4)
  else BdataLoc.mkHeader f0 crate (header_str_to_base16 f3) (atoi f4)

/-- The branch `if( already_defined )` of the loop of `SetupDecData`: the
`BdataLoc` found under the name is given the new hardware definition when it
differs from `b`. -/
def updateLoc (is_slot : Bool) (b p : BdataLoc) : BdataLoc :=
  if p.hwNe b then
    if is_slot then p.SetSlot b.crate b.slot b.chan
    else p.SetHeader b.crate b.header b.ntoskip
  else p

/-- The branch `if( !already_defined )` of the loop of `SetupDecData`. -/
def insertLoc (s : THaDecData) (found is_slot : Bool) (b : BdataLoc) : THaDecData :=
  let ref := if is_slot then VarTarget.crateLoc s.fCrateLoc.length
             else VarTarget.wordLoc s.fWordLoc.length
  let s1 := if is_slot then { s with fCrateLoc := s.fCrateLoc ++ [b] }
            else { s with fWordLoc := s.fWordLoc ++ [b] }
  if !found then s1.DefineChannel b ref EMode.kDefine else s1

/-- One turn of the loop `while (getline(decdatafile, sinput))` of
`SetupDecData`. -/
def setupLine (re_init : Bool) (s : THaDecData) (sinput : String) : THaDecData :=
  match vsplit sinput with
  | f0 :: f1 :: f2 :: f3 :: f4 :: _ =>
    if f0 == "#" then s
    else
      let found := varsNames.contains f0
      let is_slot := f1 == "crate"
      let b := lineLoc f0 f1 f2 f3 f4
      if re_init then
        match s.fWordLoc.findIdx? (fun p => b.fName == p.fName) with
        | some i => { s with fWordLoc := modifyAt (updateLoc is_slot b) i s.fWordLoc }
        | none =>
          match s.fCrateLoc.findIdx? (fun p => b.fName == p.fName) with
          | some i => { s with fCrateLoc := modifyAt (updateLoc is_slot b) i s.fCrateLoc }
          | none => insertLoc s found is_slot b
      else insertLoc s found is_slot b
  | _ => s

/-- The branch `if( mode != kDefine )` of `SetupDecData`. -/
def setupDelete (s : THaDecData) : THaDecData :=
  let s1 := s.fCrateLoc.enum.foldl
    (fun st p => st.DefineChannel p.2 (VarTarget.crateLoc p.1) EMode.kDelete) s
  let s2 := s.fWordLoc.enum.foldl
    (fun st p => st.DefineChannel p.2 (VarTarget.wordLoc p.1) EMode.kDelete) s1
  { s2 with fCrateLoc := [], fWordLoc := [], hist := [] }

/-- Method `SetupDecData( run_time, mode )`. The argument `decdatafile` is the
list of the lines of the first candidate file that opens, `none` when no
candidate opens. -/
def SetupDecData (decdatafile : Option (List String)) (mode : EMode) (s : THaDecData) :
    Int × THaDecData :=
  let re_init := (mode == EMode.kDefine) && s.fIsSetup
  let r := if !re_init then s.DefineVarsFromList mode else (0, s)
  let retval := r.1
  let s1 := { r.2 with fIsSetup := (mode == EMode.kDefine) }
  match mode with
  | EMode.kDelete => (retval, setupDelete s1)
  | EMode.kDefine =>
    let s2 := if !re_init then BookHist { s1 with fCrateLoc := [], fWordLoc := [] } else s1
    match decdatafile with
    | none => if !re_init then DefaultMap s2 else (retval, s2)
    | some lines => (retval, lines.foldl (setupLine re_init) s2)

/-- The statements of `Init` between the zombie test and the call of
`SetupDecData`, with the initial `fStatus = kNotinit`; `MakePrefix` keeps the
prefix the state carries. -/
def initPrep (s : THaDecData) : THaDecData :=
  { s with fStatus := 1, cnt1 := 0,
           fgVdcEffFirst := if s.fgVdcEffFirst == 0 then 1 else s.fgVdcEffFirst }

/-- Method `Init( run_time )`. -/
def Init (decdatafile : Option (List String)) (s : THaDecData) : Int × THaDecData :=
  if s.isZombie then (1, { s with fStatus := 1 })
  else
    let r := SetupDecData decdatafile EMode.kDefine (initPrep s)
    (r.1, { r.2 with fStatus := r.1 })

end THaDecData


/-! ## The decoder -/

namespace THaDecData

/-- Method `TrigBits`; the bound `kBitsPerByte*sizeof(UInt_t)` is 32, the
cuts are `cutlo = 0` and `cuthi = 1500`. -/
def TrigBits (s : THaDecData) (ibit : Nat) (dataloc : BdataLoc) : THaDecData :=
  if ibit ≥ 32 then s
  else
    let s1 := { s with bits := s.bits.ResetBitNumber ibit }
    (List.range dataloc.NumHits.toNat).foldl
      (fun st (ihit : Nat) =>
        if dataloc.Get (ihit : Int) > 0 ∧ dataloc.Get (ihit : Int) < 1500 then
          { st with bits := st.bits.SetBitNumber ibit true,
                    evtypebits := st.evtypebits ||| (1 <<< ibit) }
        else st)
      s1

/-- First loop of `Decode`, for one entry of `fCrateLoc`: the hits of the
(crate, slot, channel) are loaded in the order of their index. -/
def decodeCrateLoc (evdata : THaEvData) (dataloc : BdataLoc) : BdataLoc :=
  if dataloc.IsSlot then
    (List.range (evdata.GetNumHits dataloc.crate dataloc.slot dataloc.chan).toNat).foldl
      (fun d (i : Nat) => d.Load (toUInt_t (evdata.GetData d.crate d.slot d.chan (i : Int))))
      dataloc
  else dataloc

/-- Second loop of `Decode`, for one entry of `fWordLoc`: the positions `i`
with `i + ntoskip <= GetRocLength(crate)` are scanned for the header. -/
def decodeWordLoc (evdata : THaEvData) (dataloc : BdataLoc) : BdataLoc :=
  (List.range (evdata.GetRocLength dataloc.crate - dataloc.ntoskip + 1).toNat).foldl
    (fun d (i : Nat) =>
      if toUInt_t (evdata.GetRawData d.crate (i : Int)) = d.header then
        d.Load (toUInt_t (evdata.GetRawData d.crate ((i : Int) + d.ntoskip)))
      else d)
    dataloc

/-- Third loop of `Decode`, for one entry of `fCrateLoc`: the trigger bits,
then the chain of name comparisons. -/
def projectCrateLoc (s : THaDecData) (dataloc : BdataLoc) : THaDecData :=
  match (List.range' 1 s.bits.GetNbits).find? (fun i => dataloc.nameIs (Form_bit i)) with
  | some i => s.TrigBits i dataloc
  | none =>
    if dataloc.nameIs "synchadc1" then { s with synchadc1 := dataloc.Get 0 }
    else if dataloc.nameIs "synchadc2" then { s with synchadc2 := dataloc.Get 0 }
    else if dataloc.nameIs "synchadc3" then { s with synchadc3 := dataloc.Get 0 }
    else if dataloc.nameIs "synchadc4" then { s with synchadc4 := dataloc.Get 0 }
    else if dataloc.nameIs "synchadc14" then { s with synchadc14 := dataloc.Get 0 }
    else if dataloc.nameIs "ctimel" then { s with ctimel := dataloc.Get 0 }
    else if dataloc.nameIs "ctimer" then { s with ctimer := dataloc.Get 0 }
    else if dataloc.nameIs "rftime1" then { s with rftime1 := dataloc.Get 0 }
    else if dataloc.nameIs "rftime2" then { s with rftime2 := dataloc.Get 0 }
    else if dataloc.nameIs "edtpl" then { s with edtpl := dataloc.Get 0 }
    else if dataloc.nameIs "edtpr" then { s with edtpr := dataloc.Get 0 }
    else s

/-- Fourth loop of `Decode`, for one entry of `fWordLoc`: the time stamps. -/
def projectWordLoc (s : THaDecData) (dataloc : BdataLoc) : THaDecData :=
  if dataloc.nameIs "timestamp" then { s with timestamp := dataloc.Get 0 }
  else if dataloc.nameIs "timeroc1" then { s with timeroc1 := dataloc.Get 0 }
  else if dataloc.nameIs "timeroc2" then { s with timeroc2 := dataloc.Get 0 }
  else if dataloc.nameIs "timeroc3" then { s with timeroc3 := dataloc.Get 0 }
  else if dataloc.nameIs "timeroc4" then { s with timeroc4 := dataloc.Get 0 }
  else if dataloc.nameIs "timeroc14" then { s with timeroc14 := dataloc.Get 0 }
  else s

/-- The names `VdcVars` of `VdcEff`. -/
def VdcVars : List String :=
  ["L.vdc.u1.wire", "L.vdc.u2.wire", "L.vdc.v1.wire", "L.vdc.v2.wire",
   "R.vdc.u1.wire", "R.vdc.u2.wire", "R.vdc.v1.wire", "R.vdc.v2.wire"]

/-- Constant `nwire` of `VdcEff`. -/
def nwire : Nat := 400

/-- The value of the member a predefined global variable is tied to. -/
def memberValue (s : THaDecData) (field : String) : Int :=
  if field == "evtypebits" then s.evtypebits
  else if field == "evtype" then s.evtype
  else if field == "ctimel" then s.ctimel
  else if field == "ctimer" then s.ctimer
  else if field == "pulser1" then s.pulser1
  else if field == "synchadc1" then s.synchadc1
  else if field == "synchadc2" then s.synchadc2
  else if field == "synchadc3" then s.synchadc3
  else if field == "synchadc4" then s.synchadc4
  else if field == "synchadc14" then s.synchadc14
  else if field == "timestamp" then s.timestamp
  else if field == "timeroc1" then s.timeroc1
  else if field == "timeroc2" then s.timeroc2
  else if field == "timeroc3" then s.timeroc3
  else if field == "timeroc4" then s.timeroc4
  else if field == "timeroc14" then s.timeroc14
  else if field == "rftime1" then s.rftime1
  else if field == "rftime2" then s.rftime2
  else if field == "edtpl" then s.edtpl
  else if field == "edtpr" then s.edtpr
  else if field == "lenroc12" then s.lenroc12
  else if field == "lenroc16" then s.lenroc16
  else 0

/-- The samples a `BdataLoc` exposes through its global variable. -/
def locValues (b : BdataLoc) : List Int :=
  (List.range b.ndata.toNat).map (fun (i : Nat) => (b.rdata.get i : Int))

/-- Modelled from the spec: the values a global variable holds (`GetLen`,
`GetValue` of class `THaVar`, not among the sources). -/
def varValues (s : THaDecData) (v : THaVar) : List Int :=
  match v.target with
  | VarTarget.foreign vals => vals
  | VarTarget.member field => [memberValue s field]
  | VarTarget.crateLoc i => ((s.fCrateLoc.get? i).map locValues).getD []
  | VarTarget.wordLoc i => ((s.fWordLoc.get? i).map locValues).getD []

/-- The lookup table `hitwire` of `VdcEff` for the wire numbers `wire`. -/
def hitwireOf (wire : List Int) : List Nat :=
  wire.foldl
    (fun hw w => if w ≥ 0 ∧ w < (nwire : Int) then hw.set w.toNat 1 else hw)
    (List.replicate nwire 0)

/-- The neighbour loop of `VdcEff` for plane `ipl`, on the counters
`(xcnt, eff)`. -/
def vdcCount (ipl : Nat) (wire : List Int) (hitwire : List Nat)
    (c : List Nat × List Nat) : List Nat × List Nat :=
  wire.foldl
    (fun st w =>
      let ngh2 := w + 2
      if w < 0 ∨ ngh2 ≥ (nwire : Int) then st
      else if hitwire.getD ngh2.toNat 0 ≠ 0 then
        let awire := w + 1
        if awire ≥ 0 ∧ awire < (nwire : Int) then
          let k := ipl * nwire + awire.toNat
          (modifyAt (fun x => x + 1) k st.1,
           if hitwire.getD awire.toNat 0 ≠ 0 then modifyAt (fun x => x + 1) k st.2
           else st.2)
        else st
      else st)
    c

/-- The efficiency curve `VdcEff` fills into `hist[ipl+8]`. -/
def vdcCurve (ipl : Nat) (xcnt eff : List Nat) : TH1F :=
  (List.range nwire).foldl
    (fun h (i : Nat) =>
      let xeff : Rat :=
        if xcnt.getD (ipl * nwire + i) 0 ≠ 0 then
          (eff.getD (ipl * nwire + i) 0 : Rat) / (xcnt.getD (ipl * nwire + i) 0 : Rat)
        else -1
      if xeff > 0 then h ++ [((i : Int), xeff)] else h)
    []

/-- The body of the loop over the planes of `VdcEff`. A cached variable that
is no longer in the variable list is skipped. -/
def vdcPlane (s : THaDecData) (ipl : Nat) : THaDecData :=
  match (s.varp.getD ipl none).bind (varFind s.gHaVars) with
  | none => s
  | some pvar =>
    let vals := varValues s pvar
    let nhit : Int := (vals.length : Int)
    let s1 := { s with hist := modifyAt (fun h => h ++ [(nhit, (1 : Rat))]) ipl s.hist }
    let n := min vals.length nwire
    let wire := vals.take n
    let hitwire := hitwireOf wire
    let c := vdcCount ipl wire hitwire (s1.xcnt, s1.eff)
    let s2 := { s1 with xcnt := c.1, eff := c.2 }
    if s2.cnt % 500 = 0 then
      { s2 with hist := modifyAt (fun _ => vdcCurve ipl s2.xcnt s2.eff) (ipl + 8) s2.hist }
    else s2

/-- The branch `if( fgVdcEffFirst>1 )` of `VdcEff`: the counters restart. -/
def vdcZero (s : THaDecData) : THaDecData :=
  { s with cnt := 0, eff := List.replicate (8 * nwire) 0,
           xcnt := List.replicate (8 * nwire) 0 }

/-- The loop of `VdcEff` that looks the eight variables up again. -/
def vdcRebind (s : THaDecData) : THaDecData :=
  { s with varp := VdcVars.map (fun nm => (varFind s.gHaVars nm).map (fun v => v.name)),
           fgVdcEffFirst := 0 }

/-- The block `if (fgVdcEffFirst>0)` of `VdcEff`. -/
def vdcInit (s : THaDecData) : THaDecData :=
  if s.fgVdcEffFirst > 0 then
    vdcRebind (if s.fgVdcEffFirst > 1 then vdcZero s else s)
  else s

/-- The end of `VdcEff`: `++cnt` and the periodic `WriteHist`. -/
def vdcFlush (s : THaDecData) : THaDecData :=
  let s3 := { s with cnt := s.cnt + 1 }
  if (s3.cnt < 2000 ∧ s3.cnt % 500 = 0) ∨ s3.cnt % 5000 = 0 then s3.WriteHist else s3

/-- Method `VdcEff`. -/
def VdcEff (s : THaDecData) : THaDecData :=
  vdcFlush ((List.range 8).foldl vdcPlane (vdcInit s))

/-- The first two loops of `Decode`: every location is filled from the raw
event. -/
def decodeLocs (evdata : THaEvData) (s : THaDecData) : THaDecData :=
  { s with fCrateLoc := s.fCrateLoc.map (decodeCrateLoc evdata),
           fWordLoc := s.fWordLoc.map (decodeWordLoc evdata) }

/-- The statements of `Decode` from `lenroc12 = ...` to the two `Fill` calls. -/
def decodeLengths (evdata : THaEvData) (s : THaDecData) : THaDecData :=
  let s2 := { s with lenroc12 := evdata.GetRocLength 12,
                     lenroc16 := evdata.GetRocLength 16 }
  let hist16 := modifyAt (fun h => h ++ [(s2.lenroc12, (1 : Rat))]) 16 s2.hist
  { s2 with hist := modifyAt (fun h => h ++ [(s2.lenroc16, (1 : Rat))]) 17 hist16 }

/-- The statement `evtype = evdata.GetEvType()` of `Decode`. -/
def decodeEvType (evdata : THaEvData) (s : THaDecData) : THaDecData :=
  { s with evtype := toUInt_t evdata.GetEvType }

/-- The two loops of `Decode` that copy the decoded locations into the
scalar outputs and the trigger pattern. -/
def decodeProject (s : THaDecData) : THaDecData :=
  let s6 := s.fCrateLoc.foldl projectCrateLoc s
  s6.fWordLoc.foldl projectWordLoc s6

/-- What `Decode` does once the status is found to be OK. -/
def decodeBody (evdata : THaEvData) (s : THaDecData) : THaDecData :=
  VdcEff (decodeProject (decodeEvType evdata (decodeLocs evdata
    (decodeLengths evdata s.Clear))))

/-- Method `Decode`: the return value and the state it leaves. -/
def Decode (evdata : THaEvData) (s : THaDecData) : Int × THaDecData :=
  if !s.IsOK then (-1, s) else (0, decodeBody evdata s)

end THaDecData


namespace THaDecData

/-- The state the constructor `THaDecData( name, descript )` leaves for the
first instance: status `kNotinit`, nothing set up, `Reset()` done. The prefix
and the bit count of `bits` are fixed by code that is not among the sources
and are arguments here. -/
def new (pfx : String) (nbits : Nat) : THaDecData :=
  { isZombie := false, fStatus := 1, fIsSetup := false, fPrefix := pfx,
    bits := { fNbits := nbits, fAllBits := 0 },
    evtypebits := 0, evtype := 0, ctimel := 0, ctimer := 0, pulser1 := 0,
    synchadc1 := 0, synchadc2 := 0, synchadc3 := 0, synchadc4 := 0,
    synchadc14 := 0, timestamp := 0, timeroc1 := 0, timeroc2 := 0, timeroc3 := 0,
    timeroc4 := 0, timeroc14 := 0, rftime1 := 0, rftime2 := 0, edtpl := 0,
    edtpr := 0, lenroc12 := 0, lenroc16 := 0, fCrateLoc := [], fWordLoc := [],
    hist := [], cnt1 := 0, gHaVars := [], sink := [], fgVdcEffFirst := 2,
    cnt := 0, xcnt := List.replicate (8 * nwire) 0, eff := List.replicate (8 * nwire) 0,
    varp := List.replicate 8 none }

end THaDecData


/-! ## Notions used in the statements -/

/-- The fields of a location that `Load` never writes. -/
def BdataLoc.sameDef (b d : BdataLoc) : Prop :=
  d.fName = b.fName ∧ d.crate = b.crate ∧ d.slot = b.slot ∧ d.chan = b.chan ∧
  d.header = b.header ∧ d.ntoskip = b.ntoskip ∧ d.search_choice = b.search_choice

/-- The hit values the raw event holds for the address of `b`, as `Load`
receives them. -/
def slotHits (evdata : THaEvData) (b : BdataLoc) : List Nat :=
  (List.range (evdata.GetNumHits b.crate b.slot b.chan).toNat).map
    (fun (i : Nat) => toUInt_t (evdata.GetData b.crate b.slot b.chan (i : Int)))

/-- The scanned positions of the raw stream of the crate of `b` that hold
its header. -/
def markerPositions (evdata : THaEvData) (b : BdataLoc) : List Nat :=
  (List.range (evdata.GetRocLength b.crate - b.ntoskip + 1).toNat).filter
    (fun (i : Nat) => decide (toUInt_t (evdata.GetRawData b.crate (i : Int)) = b.header))

/-- The words `ntoskip` positions after the scanned occurrences of the header. -/
def markerHits (evdata : THaEvData) (b : BdataLoc) : List Nat :=
  (markerPositions evdata b).map
    (fun (i : Nat) => toUInt_t (evdata.GetRawData b.crate ((i : Int) + b.ntoskip)))

/-- The two collections, the variable list and the prefix of `t` are those
of `s`. -/
def sameLocs (s t : THaDecData) : Prop :=
  t.fCrateLoc = s.fCrateLoc ∧ t.fWordLoc = s.fWordLoc ∧ t.gHaVars = s.gHaVars ∧
  t.fPrefix = s.fPrefix

/-- What a mapping line contributes: `none` for a line that `SetupDecData`
skips (fewer than five fields, or first field `#`), else whether the line is
slot-addressed (second field `crate`) together with the location it
describes. -/
def parseLine (sinput : String) : Option (Bool × BdataLoc) :=
  match vsplit sinput with
  | f0 :: f1 :: f2 :: f3 :: f4 :: _ =>
    if f0 == "#" then none else some (f1 == "crate", THaDecData.lineLoc f0 f1 f2 f3 f4)
  | _ => none

/-- The locations of the valid lines of a mapping file whose second field is
`crate`, in file order. -/
def slotLocsOf (lines : List String) : List BdataLoc :=
  ((lines.filterMap parseLine).filter (fun e => e.1)).map (fun e => e.2)

/-- The locations of the remaining valid lines of a mapping file, in file
order. -/
def markerLocsOf (lines : List String) : List BdataLoc :=
  ((lines.filterMap parseLine).filter (fun e => !e.1)).map (fun e => e.2)


/-! ## Concrete inputs used in the statements -/

/-- A raw event with one hit of value 42 at (crate 1, slot 2, channel 3) and
no raw words. -/
def evOneHit : THaEvData :=
  { GetNumHits := fun c sl ch => if c = 1 ∧ sl = 2 ∧ ch = 3 then 1 else 0,
    GetData := fun c sl ch _ => if c = 1 ∧ sl = 2 ∧ ch = 3 then 42 else 0,
    GetRawData := fun _ _ => 0,
    GetRocLength := fun _ => 0,
    GetEvType := 1 }

/-- The engine after `Init` with a mapping file of the single line
`foo crate 1 2 3`. -/
def stFoo : THaDecData :=
  (THaDecData.Init (some ["foo crate 1 2 3"]) (THaDecData.new "D." 8)).2

/-- A raw event whose crate 1 reports a buffer length of 3 and holds the
words `0xaa, 5, 0xaa` at the positions 0, 1, 2 and `0xaa` again at
position 3. -/
def evMarker : THaEvData :=
  { GetNumHits := fun _ _ _ => 0,
    GetData := fun _ _ _ _ => 0,
    GetRawData := fun c i =>
      if c = 1 then (if i = 0 then 170 else if i = 1 then 5 else if i = 2 then 170
                     else if i = 3 then 170 else 0)
      else 0,
    GetRocLength := fun c => if c = 1 then 3 else 0,
    GetEvType := 1 }

/-- The engine after `Init` with a mapping file of the single line
`tdc header 1 aa 0`: one marker-relative location, marker `0xaa`, skip 0. -/
def stMarker0 : THaDecData :=
  (THaDecData.Init (some ["tdc header 1 aa 0"]) (THaDecData.new "D." 8)).2

/-- The engine after `Init` with a mapping file of the single line
`tdc header 1 aa 1`: one marker-relative location, marker `0xaa`, skip 1. -/
def stMarker1 : THaDecData :=
  (THaDecData.Init (some ["tdc header 1 aa 1"]) (THaDecData.new "D." 8)).2


/-- The engine after `Init` with a mapping file in which the name `foo` is
carried by three lines; the first and the last give the address (9,9,9), the
second gives (1,2,3). -/
def stFooDup : THaDecData :=
  (THaDecData.Init (some ["foo crate 9 9 9", "foo crate 1 2 3", "foo crate 9 9 9"])
    (THaDecData.new "D." 8)).2


/-- Decimal text of a natural number, as `printf("%d")` writes it. -/
def decStr (n : Nat) : String := Nat.repr n

/-- Hexadecimal text of a word, lower case, without prefix. -/
def hexStr (m : Nat) : String := String.mk (Nat.toDigits 16 m)

/-- A field of a mapping line: not empty and free of whitespace. -/
def isField (t : String) : Prop := t.data ≠ [] ∧ ∀ c ∈ t.data, isspace c = false

/-- The mapping line with the given five fields, separated by single blanks. -/
def mapLine (f0 f1 f2 f3 f4 : String) : String :=
  f0 ++ " " ++ f1 ++ " " ++ f2 ++ " " ++ f3 ++ " " ++ f4


/-- The engine after a first `Init` in which no mapping file opens: the
built-in default mapping, with a trigger pattern of 8 bits. -/
def stDefault : THaDecData := (THaDecData.Init none (THaDecData.new "D." 8)).2

/-- A raw event for the default mapping: one hit of value 123 at (3,3,7), the
address of `pulser1`, one hit of value 77 at (1,25,16), the address of
`synchadc1`; crate 14 holds the marker `0xfca56000` at position 0 and the word
7 at position 2; crate 1 holds the marker `0xfabc0004` at position 1 and the
word 99 at position 5; both crates report a buffer length of 10. -/
def evDefault : THaEvData :=
  { GetNumHits := fun c sl ch =>
      if (c = 3 ∧ sl = 3 ∧ ch = 7) ∨ (c = 1 ∧ sl = 25 ∧ ch = 16) then 1 else 0,
    GetData := fun c sl ch _ =>
      if c = 3 ∧ sl = 3 ∧ ch = 7 then 123
      else if c = 1 ∧ sl = 25 ∧ ch = 16 then 77 else 0,
    GetRawData := fun c i =>
      if c = 14 then (if i = 0 then 0xfca56000 else if i = 2 then 7 else 0)
      else if c = 1 then (if i = 1 then 0xfabc0004 else if i = 5 then 99 else 0)
      else 0,
    GetRocLength := fun c => if c = 14 ∨ c = 1 then 10 else 0,
    GetEvType := 1 }

/-- The engine after a first `Init` with the line `foo crate 1 2 3` and a
second `Init` (re-initialization) with the line `foo header 1 aa 0`. -/
def stReinitMode : THaDecData :=
  (THaDecData.Init (some ["foo header 1 aa 0"]) stFoo).2


/-- Bit `i` of the trigger pattern and of `evtypebits` is in `t` what it is in
`s`, and the pattern of `t` has at least the bit count of the pattern of `s`. -/
def sameBit (i : Nat) (s t : THaDecData) : Prop :=
  t.bits.fAllBits.testBit i = s.bits.fAllBits.testBit i ∧
  t.evtypebits.testBit i = s.evtypebits.testBit i ∧
  s.bits.fNbits ≤ t.bits.fNbits

/-- The trigger pattern and `evtypebits` of `t` are those of `s`. -/
def sameBits (s t : THaDecData) : Prop :=
  t.bits = s.bits ∧ t.evtypebits = s.evtypebits

/-- The cut of `TrigBits` on sample number `ihit` of a location. -/
def qualifies (d : BdataLoc) (ihit : Nat) : Bool :=
  decide (d.Get (ihit : Int) > 0 ∧ d.Get (ihit : Int) < 1500)

/-- The engine after `Init` with the line `bit9 crate 3 5 72`, with a trigger
pattern of 8 bits. -/
def stBit9 : THaDecData :=
  (THaDecData.Init (some ["bit9 crate 3 5 72"]) (THaDecData.new "D." 8)).2

/-- A raw event with one hit of value 100 at (3,5,72) and the two hits 100 and
2000 at (3,5,64). -/
def evBits : THaEvData :=
  { GetNumHits := fun c sl ch =>
      if c = 3 ∧ sl = 5 ∧ ch = 72 then 1 else if c = 3 ∧ sl = 5 ∧ ch = 64 then 2 else 0,
    GetData := fun c sl ch i =>
      if c = 3 ∧ sl = 5 ∧ ch = 72 then 100
      else if c = 3 ∧ sl = 5 ∧ ch = 64 then (if i = 0 then 100 else 2000) else 0,
    GetRawData := fun _ _ => 0,
    GetRocLength := fun _ => 0,
    GetEvType := 1 }


/-- The class invariant of `BdataLoc` on its private member `search_choice`:
the constructors, `SetSlot` and `SetHeader` are the only code that writes it,
and they write 0 or 1. -/
def BdataLoc.modeOK (b : BdataLoc) : Prop := b.search_choice = 0 ∨ b.search_choice = 1

/-- A location under another name (`TNamed::SetName`). -/
def BdataLoc.rename (b : BdataLoc) (nm : String) : BdataLoc := { b with fName := nm }


/-- The value of one hexadecimal digit, in either case; `none` for every other
character. Follows the spec's words, not the table search of the code. -/
def specHexDigit (c : Char) : Option Nat :=
  if 48 ≤ c.toNat ∧ c.toNat ≤ 57 then some (c.toNat - 48)
  else if 97 ≤ c.toNat ∧ c.toNat ≤ 102 then some (c.toNat - 87)
  else if 65 ≤ c.toNat ∧ c.toNat ≤ 70 then some (c.toNat - 55)
  else none

/-- The base-16 value of a list of hexadecimal digits, most significant digit
first. Follows the spec's words. -/
def specHexValue (cs : List Char) : Nat :=
  cs.foldl (fun acc c => 16 * acc + (specHexDigit c).getD 0) 0

/-- The hexadecimal digits of a string, in order. -/
def hexDigitsOf (s : String) : List Char := s.data.filter (fun c => (specHexDigit c).isSome)

/-- The upper-case spelling of a string. -/
def upperCase (s : String) : String := String.mk (s.data.map Char.toUpper)

/-- The lower-case spelling of a string. -/
def lowerCase (s : String) : String := String.mk (s.data.map Char.toLower)


/-- The scalar outputs of the engine other than `evtypebits`, in the order of
the table `vars`. -/
def scalarsOf (s : THaDecData) : List Int :=
  [s.evtype, s.ctimel, s.ctimer, s.pulser1, s.synchadc1, s.synchadc2, s.synchadc3,
   s.synchadc4, s.synchadc14, s.timestamp, s.timeroc1, s.timeroc2, s.timeroc3,
   s.timeroc4, s.timeroc14, s.rftime1, s.rftime2, s.edtpl, s.edtpr, s.lenroc12,
   s.lenroc16]

/-- What a reader sees of a location: its name, `NumHits()` and `Get(i)` for
every `i`. -/
def BdataLoc.sameView (a b : BdataLoc) : Prop :=
  b.fName = a.fName ∧ b.NumHits = a.NumHits ∧ ∀ i : Int, b.Get i = a.Get i

/-- The scalar outputs, `evtypebits` and the bit count of the trigger pattern
of `t` are those of `s`. -/
def sameOut (s t : THaDecData) : Prop :=
  scalarsOf t = scalarsOf s ∧ t.evtypebits = s.evtypebits ∧
  t.bits.GetNbits = s.bits.GetNbits

/-- The status flags and the scalar outputs of `t` are those of `s`. -/
def vdcKeeps (s t : THaDecData) : Prop :=
  t.fStatus = s.fStatus ∧ t.fIsSetup = s.fIsSetup ∧ t.isZombie = s.isZombie ∧
  scalarsOf t = scalarsOf s

/-- The status flags, the histograms, the output file and the statics of
`VdcEff` of `t` are those of `s`. -/
def projKeeps (s t : THaDecData) : Prop :=
  t.fStatus = s.fStatus ∧ t.fIsSetup = s.fIsSetup ∧ t.isZombie = s.isZombie ∧
  t.cnt = s.cnt ∧ t.fgVdcEffFirst = s.fgVdcEffFirst ∧ t.xcnt = s.xcnt ∧ t.eff = s.eff ∧
  t.varp = s.varp ∧ t.hist = s.hist ∧ t.sink = s.sink


/-- The engine after `Init` with the lines `bit9 crate 3 5 72` and
`bit8 crate 3 5 71`, in this order, with a trigger pattern of 8 bits. -/
def stBit98 : THaDecData :=
  (THaDecData.Init (some ["bit9 crate 3 5 72", "bit8 crate 3 5 71"]) (THaDecData.new "D." 8)).2

/-- The engine set up from `foo crate 1 2 3` after it has decoded the event
`evOneHit`. -/
def stFooUsed : THaDecData := (THaDecData.Decode evOneHit stFoo).2


/-- Modelled from the spec: before `Decode` runs, the tracking detectors have
stored the wire numbers of the current event in their variables. `wires`
holds one wire list per plane, in the order of `VdcVars`; a variable of the
list whose name is one of `VdcVars` receives the list of its plane. -/
def setWires (wires : List (List Int)) (s : THaDecData) : THaDecData :=
  { s with gHaVars := s.gHaVars.map (fun v =>
      if THaDecData.VdcVars.indexOf v.name < 8 then
        { v with target := VarTarget.foreign (wires.getD (THaDecData.VdcVars.indexOf v.name) []) }
      else v) }

/-- One turn of the event loop: the wire lists of the event are stored, then
`Decode` runs on the raw event. -/
def processEvent (s : THaDecData) (e : THaEvData × List (List Int)) : THaDecData :=
  (THaDecData.Decode e.1 (setWires e.2 s)).2

/-- The event loop over a list of events. -/
def runEvents (s : THaDecData) (evs : List (THaEvData × List (List Int))) : THaDecData :=
  evs.foldl processEvent s

/-- The number of events `VdcEff` has counted since the last full reset, as
the next call of `VdcEff` sees it: the static `cnt`, or 0 when the flag
`fgVdcEffFirst` asks for a restart of the counters. -/
def eventCount (s : THaDecData) : Nat := if s.fgVdcEffFirst > 1 then 0 else s.cnt

/-- A raw event without any data. -/
def evNone : THaEvData :=
  { GetNumHits := fun _ _ _ => 0, GetData := fun _ _ _ _ => 0, GetRawData := fun _ _ => 0,
    GetRocLength := fun _ => 0, GetEvType := 1 }

/-- An engine right after its first `Init` with an empty mapping file, in an
analyzer whose variable list holds the wire variable of the first plane. -/
def stVdc : THaDecData :=
  (THaDecData.Init (some [])
    { THaDecData.new "D." 8 with
      gHaVars := [{ name := "L.vdc.u1.wire", target := VarTarget.foreign [] }] }).2

/-- 500 events: 499 events without wire hits, then one event with the wires
1, 2 and 3 of the first plane. -/
def evs500 : List (THaEvData × List (List Int)) :=
  List.replicate 499 (evNone, []) ++ [(evNone, [[1, 2, 3]])]


/-- The variable the next call of `VdcEff` reads for plane `ipl`: the cached
variable, after the lookup that the call does first when `fgVdcEffFirst` is
set. -/
def planeVar (s : THaDecData) (ipl : Nat) : Option THaVar :=
  ((THaDecData.vdcInit s).varp.getD ipl none).bind (varFind s.gHaVars)


/-- The object `own` with the class statics (`fgVdcEffFirst` and the statics
of `VdcEff`), the global variable list and the output file as they are in
`shared`. -/
def THaDecData.withShared (own shared : THaDecData) : THaDecData :=
  { own with fgVdcEffFirst := shared.fgVdcEffFirst, cnt := shared.cnt, xcnt := shared.xcnt,
             eff := shared.eff, varp := shared.varp, gHaVars := shared.gHaVars,
             sink := shared.sink }

/-- A process with up to two `THaDecData` objects. The static pointer
`fgThis` names the first object (0), the second (1) or none (`NULL`). The
class statics and the globals are kept in `first`; `second` holds the members
of the second object once it is constructed. -/
structure World where
  fgThis : Option Nat
  first : THaDecData
  second : Option THaDecData

namespace World

/-- A process in which the first object is live. -/
def oneLive (first : THaDecData) : World :=
  { fgThis := some 0, first := first, second := none }

/-- The constructor `THaDecData( name, descript )` run for the second object:
with `fgThis` set it calls `MakeZombie()` and returns, else it calls `Reset()`
and sets `fgThis`. Members the constructor does not write are taken as in
`THaDecData.new`. -/
def constructSecond (pfx : String) (nbits : Nat) (w : World) : World :=
  if w.fgThis.isSome then
    { w with second := some { THaDecData.new pfx nbits with isZombie := true } }
  else
    let r := ((THaDecData.new pfx nbits).withShared w.first).Reset
    { fgThis := some 1, first := w.first.withShared r, second := some r }

/-- A method of the second object: it runs on the members of the second
object and on the statics and globals, which it may write. -/
def onSecond (op : THaDecData → Int × THaDecData) (w : World) : Int × World :=
  match w.second with
  | none => (0, w)
  | some m =>
    let r := op (m.withShared w.first)
    (r.1, { w with first := w.first.withShared r.2, second := some r.2 })

/-- `Init` called on the second object. -/
def InitSecond (decdatafile : Option (List String)) (w : World) : Int × World :=
  w.onSecond (THaDecData.Init decdatafile)

/-- `Decode` called on the second object. -/
def DecodeSecond (evdata : THaEvData) (w : World) : Int × World :=
  w.onSecond (THaDecData.Decode evdata)

/-- `Reset` called on the second object. -/
def ResetSecond (w : World) : World :=
  (w.onSecond (fun s => (0, s.Reset))).2

/-- `Clear` called on the second object. -/
def ClearSecond (w : World) : World :=
  (w.onSecond (fun s => (0, s.Clear))).2

/-- The destructor run for the second object: it acts only
`if( fgThis == this )`. -/
def destroySecond (w : World) : World :=
  if w.fgThis = some 1 then
    let w2 := (w.onSecond (THaDecData.SetupDecData none EMode.kDelete)).2
    { w2 with fgThis := none, second := none }
  else { w with second := none }

/-- `Decode` called on the first object. -/
def DecodeFirst (evdata : THaEvData) (w : World) : Int × World :=
  let r := THaDecData.Decode evdata w.first
  (r.1, { w with first := r.2 })

end World

/-- The engine `stVdc` after one event with the wires 1, 2, 3 of the first
plane. -/
def stVdcOne : THaDecData := processEvent stVdc (evNone, [[1, 2, 3]])


/-- The test of `VdcEff` that decides, on the event counter after `++cnt`,
whether `WriteHist` is called. -/
def flushDue (k : Nat) : Prop := (k < 2000 ∧ k % 500 = 0) ∨ k % 5000 = 0

instance (k : Nat) : Decidable (flushDue k) := by
  unfold flushDue
  infer_instance


/-- The engine `stVdcOne` with its event counter at 500 and the wires 1 and 3
of the first plane stored for the next event. -/
def stVdc500 : THaDecData := setWires [[1, 3]] { stVdcOne with cnt := 500 }


/-- The body of the neighbour loop of `VdcEff` for plane `ipl`, as a function
of the counters and the wire number `wire[i]`. -/
def THaDecData.vdcStep (ipl : Nat) (hitwire : List Nat) (st : List Nat × List Nat) (w : Int) :
    List Nat × List Nat :=
  let ngh2 := w + 2
  if w < 0 ∨ ngh2 ≥ (THaDecData.nwire : Int) then st
  else if hitwire.getD ngh2.toNat 0 ≠ 0 then
    let awire := w + 1
    if awire ≥ 0 ∧ awire < (THaDecData.nwire : Int) then
      let k := ipl * THaDecData.nwire + awire.toNat
      (modifyAt (fun x => x + 1) k st.1,
       if hitwire.getD awire.toNat 0 ≠ 0 then modifyAt (fun x => x + 1) k st.2
       else st.2)
    else st
  else st

/-- What the body of the plane loop of `VdcEff` does to the counters
`(xcnt, eff)` when the variable of plane `ipl` holds the values `vals`: the
first `nwire` values are the wire numbers, and the neighbour loop runs on them
with their lookup table. -/
def THaDecData.vdcUpdate (ipl : Nat) (vals : List Int) (c : List Nat × List Nat) :
    List Nat × List Nat :=
  THaDecData.vdcCount ipl (vals.take (min vals.length THaDecData.nwire))
    (THaDecData.hitwireOf (vals.take (min vals.length THaDecData.nwire))) c

/-- A wire number `w` of the list gives an opportunity at the counter `k` of
plane `ipl`: `w + 2` is below `nwire` and marked in the lookup table, and `k`
is the counter of wire `w + 1`. -/
def oppAt (ipl : Nat) (hitwire : List Nat) (k : Nat) (w : Int) : Bool :=
  decide (0 ≤ w ∧ w + 2 < (THaDecData.nwire : Int) ∧ hitwire.getD (w + 2).toNat 0 ≠ 0 ∧
    ipl * THaDecData.nwire + (w + 1).toNat = k)

/-- A wire number `w` of the list gives a hit at the counter `k` of plane
`ipl`: an opportunity whose wire `w + 1` is marked in the lookup table. -/
def hitAt (ipl : Nat) (hitwire : List Nat) (k : Nat) (w : Int) : Bool :=
  oppAt ipl hitwire k w && decide (hitwire.getD (w + 1).toNat 0 ≠ 0)


/-- The engine `stVdc` with its statics as the plane loop of the first call of
`VdcEff` finds them, and the wires 5, 7, 5, 6 of the first plane stored. -/
def stVdcLoop : THaDecData := THaDecData.vdcInit (setWires [[5, 7, 5, 6]] stVdc)


/-- Add one to the counter at position `o` of a list of counters, if any. -/
def bump (o : Option Nat) (l : List Nat) : List Nat :=
  match o with
  | none => l
  | some k => modifyAt (fun x => x + 1) k l

/-- The opportunity counter the wire number `w` increases in plane `ipl`. -/
def oppIdx (ipl : Nat) (hitwire : List Nat) (w : Int) : Option Nat :=
  if w < 0 ∨ w + 2 ≥ (THaDecData.nwire : Int) then none
  else if hitwire.getD (w + 2).toNat 0 ≠ 0 then
    if w + 1 ≥ 0 ∧ w + 1 < (THaDecData.nwire : Int) then
      some (ipl * THaDecData.nwire + (w + 1).toNat)
    else none
  else none

/-- The hit counter the wire number `w` increases in plane `ipl`. -/
def hitIdx (ipl : Nat) (hitwire : List Nat) (w : Int) : Option Nat :=
  if hitwire.getD (w + 1).toNat 0 ≠ 0 then oppIdx ipl hitwire w else none

/-- The wire numbers inside the range of the counters. -/
def inRange (w : Int) : Bool := decide (0 ≤ w ∧ w < (THaDecData.nwire : Int))


/-- As `stVdcLoop`, with the wire values -1, 5, 400, 7, 6, 1000 of the first
plane. -/
def stVdcLoopOut : THaDecData :=
  THaDecData.vdcInit (setWires [[-1, 5, 400, 7, 6, 1000]] stVdc)

/-- As `stVdcLoop`, with the wires 6, 5, 7, 5 of the first plane. -/
def stVdcLoopPerm : THaDecData := THaDecData.vdcInit (setWires [[6, 5, 7, 5]] stVdc)


/-- The statements of `Decode` before the call of `VdcEff`, once the status is
found to be OK. -/
def THaDecData.decodePre (evdata : THaEvData) (s : THaDecData) : THaDecData :=
  THaDecData.decodeProject (THaDecData.decodeEvType evdata (THaDecData.decodeLocs evdata
    (THaDecData.decodeLengths evdata s.Clear)))

/-- The values the code gives to the flag `fgVdcEffFirst`. -/
def flagOK (s : THaDecData) : Prop :=
  s.fgVdcEffFirst = 0 ∨ s.fgVdcEffFirst = 1 ∨ s.fgVdcEffFirst = 2

/-- The statics of `VdcEff` and the flag `fgVdcEffFirst` of `t` are those of
`s`. -/
def sameStatics (s t : THaDecData) : Prop :=
  t.cnt = s.cnt ∧ t.xcnt = s.xcnt ∧ t.eff = s.eff ∧ t.fgVdcEffFirst = s.fgVdcEffFirst ∧
  t.varp = s.varp



/-- The names of the chain of comparisons in the third loop of `Decode`, in
the order of the chain. -/
def crateNames : List String :=
  ["synchadc1", "synchadc2", "synchadc3", "synchadc4", "synchadc14", "ctimel", "ctimer",
   "rftime1", "rftime2", "edtpl", "edtpr"]

/-- A raw event with one hit of value 42 at (crate 1, slot 2, channel 3) and
one hit of value 77 at (crate 4, slot 5, channel 6). -/
def evTwoHits : THaEvData :=
  { GetNumHits := fun c sl ch =>
      if (c = 1 ∧ sl = 2 ∧ ch = 3) ∨ (c = 4 ∧ sl = 5 ∧ ch = 6) then 1 else 0,
    GetData := fun c sl ch _ =>
      if c = 1 ∧ sl = 2 ∧ ch = 3 then 42 else if c = 4 ∧ sl = 5 ∧ ch = 6 then 77 else 0,
    GetRawData := fun _ _ => 0,
    GetRocLength := fun _ => 0,
    GetEvType := 1 }

/-- The engine after `Init` with a mapping file in which the name `ctimel` is
carried by two lines, the first with the address (1,2,3), the second with
(4,5,6). -/
def stCtimelDup : THaDecData :=
  (THaDecData.Init (some ["ctimel crate 1 2 3", "ctimel crate 4 5 6"])
    (THaDecData.new "D." 8)).2



/-- Every bit below 32 that is set in the trigger pattern has a bit number
`i` with `1 <= i <= GetNbits()` and a location named `bit<i>` in `fCrateLoc`:
the third loop of `Decode` hands that location to `TrigBits`. -/
def bitsTracked (s : THaDecData) : Prop :=
  ∀ i : Nat, i < 32 → s.bits.fAllBits.testBit i = true →
    1 ≤ i ∧ i ≤ s.bits.GetNbits ∧ ∃ d ∈ s.fCrateLoc, d.fName = Form_bit i

/-- The engine after `Init` with a mapping file in which the name `bit1` is
carried by two lines, the first with the address (3,5,64), the second with
(3,5,65). -/
def stBit1Dup : THaDecData :=
  (THaDecData.Init (some ["bit1 crate 3 5 64", "bit1 crate 3 5 65"])
    (THaDecData.new "D." 8)).2



/-- The variable list `V` is the list `V0` followed by variables whose names
are distinct, differ from every name of `V0` and are among `allowed`. -/
def addedOver (V0 V : List THaVar) (allowed : List String) : Prop :=
  ∃ A : List THaVar, V = V0 ++ A ∧ (A.map (fun v => v.name)).Nodup ∧
    (∀ a ∈ A, ∀ v ∈ V0, v.name ≠ a.name) ∧ ∀ a ∈ A, a.name ∈ allowed

/-- The names `SetupDecData` in delete mode removes from the variable list,
without the prefix: the names of the table `vars`, then the names of the
locations of `fCrateLoc`, then those of `fWordLoc`. -/
def nameSet (s : THaDecData) : List String :=
  varsNames ++ s.fCrateLoc.map (fun d => d.fName) ++ s.fWordLoc.map (fun d => d.fName)

/-- The engine `s` is set up with the prefix `pfx`, and its variable list is
`V0` plus variables that delete mode would remove by name. -/
def loadInv (V0 : List THaVar) (pfx : String) (s : THaDecData) : Prop :=
  s.fIsSetup = true ∧ s.fPrefix = pfx ∧
  addedOver V0 s.gHaVars ((nameSet s).map (fun nm => pfx ++ nm))

/-- A sequence of loads in define mode: the first one, then the others in
order. -/
def loadAll (s0 : THaDecData) (first : Option (List String))
    (later : List (Option (List String))) : THaDecData :=
  later.foldl (fun s f => (THaDecData.SetupDecData f EMode.kDefine s).2)
    (THaDecData.SetupDecData first EMode.kDefine s0).2



/-- What happens to an engine between a full reset and the state looked at:
an event is processed, or `Init` is called. -/
inductive EngineOp where
  | event (e : THaEvData × List (List Int))
  | init (decdatafile : Option (List String))

/-- One operation on the engine. -/
def applyOp (s : THaDecData) : EngineOp → THaDecData
  | EngineOp.event e => processEvent s e
  | EngineOp.init decdatafile => (THaDecData.Init decdatafile s).2

/-- A sequence of operations on the engine. -/
def runOps (s : THaDecData) (ops : List EngineOp) : THaDecData := ops.foldl applyOp s

/-- The counters `(xcnt, eff)` of `VdcEff` as the next call of `VdcEff` sees
them: the statics, or all zero when the flag `fgVdcEffFirst` asks for a
restart of the counters. -/
def vdcCounters (s : THaDecData) : List Nat × List Nat :=
  if s.fgVdcEffFirst > 1 then
    (List.replicate (8 * THaDecData.nwire) 0, List.replicate (8 * THaDecData.nwire) 0)
  else (s.xcnt, s.eff)

/-- No hit counter exceeds its opportunity counter. -/
def ctrOK (c : List Nat × List Nat) : Prop :=
  c.1.length = c.2.length ∧ ∀ k : Nat, c.2.getD k 0 ≤ c.1.getD k 0

/-- The counters of the first and of the last wire of every plane are 0. -/
def edgeZero (c : List Nat × List Nat) : Prop :=
  ∀ k : Nat, (k % THaDecData.nwire = 0 ∨ k % THaDecData.nwire = THaDecData.nwire - 1) →
    c.1.getD k 0 = 0 ∧ c.2.getD k 0 = 0

/-- From the counters `c` to the counters `d` no counter decreases, and `d`
inherits `ctrOK` and `edgeZero` from `c`. -/
def ctrGrows (c d : List Nat × List Nat) : Prop :=
  d.1.length = c.1.length ∧ d.2.length = c.2.length ∧
  (∀ k : Nat, c.1.getD k 0 ≤ d.1.getD k 0 ∧ c.2.getD k 0 ≤ d.2.getD k 0) ∧
  (ctrOK c → ctrOK d) ∧ (edgeZero c → edgeZero d)

/-- Two events with an `Init` between them: the wires 1, 2, 3 of the first
plane, then the wires 1 and 3. -/
def opsTwoEvents : List EngineOp :=
  [EngineOp.event (evNone, [[1, 2, 3]]), EngineOp.init (some []),
   EngineOp.event (evNone, [[1, 3]])]

/-- An event with the wires 0, 1, 2, 397, 398, 399 of the first plane. -/
def evEdges : THaEvData × List (List Int) := (evNone, [[0, 1, 2, 397, 398, 399]])



/-- One turn of the second loop of `Decode` for one entry of `fWordLoc`, with
the positions at which `GetRawData` is called appended, in call order, to the
list kept next to the location. -/
def THaDecData.decodeWordStep (evdata : THaEvData) (st : BdataLoc × List Int) (i : Nat) :
    BdataLoc × List Int :=
  if toUInt_t (evdata.GetRawData st.1.crate (i : Int)) = st.1.header then
    (st.1.Load (toUInt_t (evdata.GetRawData st.1.crate ((i : Int) + st.1.ntoskip))),
     st.2 ++ [(i : Int), (i : Int) + st.1.ntoskip])
  else (st.1, st.2 ++ [(i : Int)])

/-- Second loop of `Decode` for one entry of `fWordLoc`, together with the
positions at which it calls `GetRawData` for the crate of the entry. -/
def THaDecData.decodeWordLocReads (evdata : THaEvData) (dataloc : BdataLoc) :
    BdataLoc × List Int :=
  (List.range (evdata.GetRocLength dataloc.crate - dataloc.ntoskip + 1).toNat).foldl
    (THaDecData.decodeWordStep evdata) (dataloc, [])



/-- The position of the first location of a collection that carries the name
`nm`: the search loops of the loader in re-initialization mode. -/
def findLocIdx (l : List BdataLoc) (nm : String) : Option Nat :=
  l.findIdx? (fun p => nm == p.fName)

/-- The first location of a collection that carries the name `nm`. -/
def findLocIn (l : List BdataLoc) (nm : String) : Option BdataLoc :=
  (findLocIdx l nm).bind (fun i => l[i]?)

/-- The location the loader finds under the name `nm` in re-initialization
mode: it searches `fWordLoc` first, then `fCrateLoc`. -/
def findLoc (s : THaDecData) (nm : String) : Option BdataLoc :=
  if (findLocIdx s.fWordLoc nm).isSome then findLocIn s.fWordLoc nm
  else findLocIn s.fCrateLoc nm

/-- The valid line with the content `e` finds its name registered, and the
location found compares equal to the one the line describes. -/
def settled (s : THaDecData) (e : Bool × BdataLoc) : Prop :=
  ∃ p : BdataLoc, findLoc s e.2.fName = some p ∧ p.hwEq e.2 = true

/-- The valid lines of a mapping file carry pairwise distinct names. -/
def distinctNames (lines : List String) : Prop :=
  ((lines.filterMap parseLine).map (fun e => e.2.fName)).Nodup


/-! # Theorems -/

/-! ## The multihit buffer -/

theorem HitArray.get_set (a : HitArray) (i j : Nat) (v : Nat) (hi : i < 16) :
    (a.set i v).get j = if j = i then v else a.get j := by
  have hlen : i < a.cells.length := by rw [a.size_ok]; exact hi
  unfold HitArray.get HitArray.set
  simp only [List.getD_eq_getElem?_getD]
  by_cases hji : j = i
  · subst hji
    simp [hlen]
  · have hij : i ≠ j := fun h => hji h.symm
    simp [hji, List.getElem?_set_ne hij]

theorem BdataLoc.Load_lt (b : BdataLoc) (v : Nat) (n : Nat) (hn : b.ndata = (n : Int))
    (h : n < 16) :
    b.Load v = { b with rdata := b.rdata.set n v, ndata := ((n + 1 : Nat) : Int),
                        loaded_once := true } := by
  have hlt : b.ndata < MxHits := by
    rw [hn]; show (n : Int) < (16 : Int); omega
  unfold BdataLoc.Load
  rw [if_pos hlt, hn]
  simp

theorem BdataLoc.Load_ge (b : BdataLoc) (v : Nat) (n : Nat) (hn : b.ndata = (n : Int))
    (h : 16 ≤ n) :
    b.Load v = { b with loaded_once := true } := by
  have hlt : ¬ b.ndata < MxHits := by
    rw [hn]; show ¬ (n : Int) < (16 : Int); omega
  unfold BdataLoc.Load
  rw [if_neg hlt]

theorem BdataLoc.loadAll_nil (b : BdataLoc) : b.loadAll [] = b := rfl

theorem BdataLoc.loadAll_cons (b : BdataLoc) (v : Nat) (vs : List Nat) :
    b.loadAll (v :: vs) = (b.Load v).loadAll vs := rfl

theorem BdataLoc.loadAll_append (b : BdataLoc) (vs ws : List Nat) :
    b.loadAll (vs ++ ws) = (b.loadAll vs).loadAll ws := by
  simp [BdataLoc.loadAll, List.foldl_append]

/-- Loading a list of values into a buffer that holds `n <= 16` values:
the count saturates at sixteen. -/
theorem BdataLoc.loadAll_ndata (vs : List Nat) :
    ∀ (b : BdataLoc) (n : Nat), b.ndata = (n : Int) → n ≤ 16 →
      (b.loadAll vs).ndata = ((min (n + vs.length) 16 : Nat) : Int) := by
  induction vs with
  | nil =>
    intro b n hn h16
    rw [BdataLoc.loadAll_nil, hn, List.length_nil, Nat.add_zero, Nat.min_eq_left h16]
  | cons v vs ih =>
    intro b n hn h16
    rw [BdataLoc.loadAll_cons]
    by_cases hlt : n < 16
    · have hL : (b.Load v).ndata = ((n + 1 : Nat) : Int) := by
        rw [BdataLoc.Load_lt b v n hn hlt]
      rw [ih (b.Load v) (n + 1) hL (by omega), List.length_cons]
      congr 2; omega
    · have hL : (b.Load v).ndata = ((n : Nat) : Int) := by
        rw [BdataLoc.Load_ge b v n hn (by omega)]; exact hn
      rw [ih (b.Load v) n hL h16, List.length_cons]
      congr 1; omega

/-- Loading a list of values into a buffer that holds `n <= 16` values:
cell `i` receives value number `i - n` when that value fits, and keeps its
content otherwise. -/
theorem BdataLoc.loadAll_get (vs : List Nat) :
    ∀ (b : BdataLoc) (n : Nat), b.ndata = (n : Int) → n ≤ 16 → ∀ i : Nat,
      (b.loadAll vs).rdata.get i =
        if n ≤ i ∧ i < min (n + vs.length) 16 then vs.getD (i - n) 0
        else b.rdata.get i := by
  induction vs with
  | nil =>
    intro b n hn h16 i
    have h1 : ¬ (n ≤ i ∧ i < min (n + ([] : List Nat).length) 16) := by
      rw [List.length_nil]; omega
    rw [BdataLoc.loadAll_nil, if_neg h1]
  | cons v vs ih =>
    intro b n hn h16 i
    rw [BdataLoc.loadAll_cons]
    by_cases hlt : n < 16
    · have hL : (b.Load v).ndata = ((n + 1 : Nat) : Int) := by
        rw [BdataLoc.Load_lt b v n hn hlt]
      have hR : (b.Load v).rdata = b.rdata.set n v := by
        rw [BdataLoc.Load_lt b v n hn hlt]
      rw [ih (b.Load v) (n + 1) hL (by omega) i, hR, HitArray.get_set _ _ _ _ hlt]
      by_cases hi : i = n
      · subst hi
        have h1 : ¬ (i + 1 ≤ i ∧ i < min (i + 1 + vs.length) 16) := by omega
        have h2 : i ≤ i ∧ i < min (i + (v :: vs).length) 16 := by
          rw [List.length_cons]; omega
        rw [if_neg h1, if_pos h2, if_pos rfl, Nat.sub_self]
        rfl
      · by_cases hc : n + 1 ≤ i ∧ i < min (n + 1 + vs.length) 16
        · have h2 : n ≤ i ∧ i < min (n + (v :: vs).length) 16 := by
            rw [List.length_cons]; omega
          obtain ⟨k, hk⟩ : ∃ k, i - n = k + 1 := ⟨i - n - 1, by omega⟩
          have hk2 : i - (n + 1) = k := by omega
          rw [if_pos hc, if_pos h2, hk, hk2]
          rfl
        · have h2 : ¬ (n ≤ i ∧ i < min (n + (v :: vs).length) 16) := by
            rw [List.length_cons]; omega
          rw [if_neg hc, if_neg h2, if_neg hi]
    · have hL : (b.Load v).ndata = ((n : Nat) : Int) := by
        rw [BdataLoc.Load_ge b v n hn (by omega)]; exact hn
      have hR : (b.Load v).rdata = b.rdata := by
        rw [BdataLoc.Load_ge b v n hn (by omega)]
      rw [ih (b.Load v) n hL h16 i, hR]
      have h1 : ¬ (n ≤ i ∧ i < min (n + vs.length) 16) := by omega
      have h2 : ¬ (n ≤ i ∧ i < min (n + (v :: vs).length) 16) := by
        rw [List.length_cons]; omega
      rw [if_neg h1, if_neg h2]

theorem BdataLoc.loadAll_full (ws : List Nat) :
    ∀ (b : BdataLoc), b.ndata = ((16 : Nat) : Int) → b.loaded_once = true →
      b.loadAll ws = b := by
  induction ws with
  | nil => intro b _ _; rfl
  | cons w ws ih =>
    intro b hn hl
    have hL : b.Load w = b := by
      rw [BdataLoc.Load_ge b w 16 hn (le_refl _)]
      cases b
      simp only [BdataLoc.mk.injEq, true_and, and_true] at hl ⊢
      exact hl.symm
    rw [BdataLoc.loadAll_cons, hL]
    exact ih b hn hl

theorem BdataLoc.loadAll_loaded_once (vs : List Nat) :
    ∀ (b : BdataLoc), vs ≠ [] ∨ b.loaded_once = true →
      (b.loadAll vs).loaded_once = true := by
  induction vs with
  | nil => intro b h; rcases h with h | h; exact absurd rfl h; exact h
  | cons v vs ih =>
    intro b _
    rw [BdataLoc.loadAll_cons]
    apply ih
    right
    unfold BdataLoc.Load
    split <;> rfl

/-- Values after the sixteenth leave the buffer as the first sixteen made it. -/
theorem BdataLoc.loadAll_take (b : BdataLoc) (vs : List Nat) (hn : b.ndata = 0) :
    b.loadAll vs = b.loadAll (vs.take 16) := by
  by_cases hlen : vs.length ≤ 16
  · rw [List.take_of_length_le hlen]
  · have hsplit : vs = vs.take 16 ++ vs.drop 16 := (List.take_append_drop 16 vs).symm
    have hlt : (vs.take 16).length = 16 := by
      rw [List.length_take]; omega
    have hnd : (b.loadAll (vs.take 16)).ndata = ((16 : Nat) : Int) := by
      rw [BdataLoc.loadAll_ndata (vs.take 16) b 0 (by rw [hn]; rfl) (by omega), hlt]
      rfl
    have hlo : (b.loadAll (vs.take 16)).loaded_once = true := by
      apply BdataLoc.loadAll_loaded_once
      left
      intro h
      rw [h] at hlt
      simp at hlt
    conv_lhs => rw [hsplit, BdataLoc.loadAll_append]
    exact BdataLoc.loadAll_full _ _ hnd hlo

/-- The count and the samples of a buffer that was loaded from empty. -/
theorem BdataLoc.loadAll_spec (b : BdataLoc) (vs : List Nat) (hn : b.ndata = 0) :
    (b.loadAll vs).NumHits = ((min vs.length 16 : Nat) : Int) ∧
    (∀ i : Nat, i < min vs.length 16 → vs[i]? = some ((b.loadAll vs).Get (i : Int))) ∧
    (∀ i : Int, i < 0 ∨ ((min vs.length 16 : Nat) : Int) ≤ i → (b.loadAll vs).Get i = 0) := by
  have hn0 : b.ndata = ((0 : Nat) : Int) := by rw [hn]; rfl
  have hnd := BdataLoc.loadAll_ndata vs b 0 hn0 (by omega)
  rw [Nat.zero_add] at hnd
  refine ⟨hnd, ?_, ?_⟩
  · intro i hi
    have hc : (i : Int) ≥ 0 ∧ (b.loadAll vs).ndata > (i : Int) := by
      rw [hnd]; exact ⟨Int.ofNat_nonneg _, Int.ofNat_lt.mpr hi⟩
    unfold BdataLoc.Get
    rw [if_pos hc, Int.toNat_ofNat, BdataLoc.loadAll_get vs b 0 hn0 (by omega) i]
    have hc2 : 0 ≤ i ∧ i < min (0 + vs.length) 16 := by omega
    rw [if_pos hc2, Nat.sub_zero, List.getD_eq_getElem?_getD]
    have hil : i < vs.length := by omega
    rw [List.getElem?_eq_getElem hil]
    rfl
  · intro i hi
    have hc : ¬ (i ≥ 0 ∧ (b.loadAll vs).ndata > i) := by
      rw [hnd]
      generalize min vs.length 16 = m at hi
      omega
    unfold BdataLoc.Get
    rw [if_neg hc]

/-- C3. Bounded multihit buffer: after `Clear` and the calls `Load(v_1)`, ...,
`Load(v_k)`, `NumHits()` is `min(k,16)`, `Get(i)` is `v_{i+1}` for
`0 <= i < min(k,16)` and `0` for every other `i`, and the values after the
sixteenth are dropped: the buffer is the one the first sixteen values alone
produce. -/
theorem C3_bounded_multihit_buffer (b : BdataLoc) (vs : List Nat) :
    (b.Clear.loadAll vs).NumHits = ((min vs.length 16 : Nat) : Int) ∧
    (∀ i : Nat, i < min vs.length 16 →
        vs[i]? = some ((b.Clear.loadAll vs).Get (i : Int))) ∧
    (∀ i : Int, i < 0 ∨ ((min vs.length 16 : Nat) : Int) ≤ i →
        (b.Clear.loadAll vs).Get i = 0) ∧
    b.Clear.loadAll vs = b.Clear.loadAll (vs.take 16) := by
  have h := BdataLoc.loadAll_spec b.Clear vs rfl
  exact ⟨h.1, h.2.1, h.2.2, BdataLoc.loadAll_take b.Clear vs rfl⟩

/-! ## Frame properties of the steps of `Decode` -/

@[simp] theorem BdataLoc.Load_fName (b : BdataLoc) (v : Nat) : (b.Load v).fName = b.fName := by
  unfold BdataLoc.Load; split <;> rfl

@[simp] theorem BdataLoc.Load_crate (b : BdataLoc) (v : Nat) : (b.Load v).crate = b.crate := by
  unfold BdataLoc.Load; split <;> rfl

@[simp] theorem BdataLoc.Load_slot (b : BdataLoc) (v : Nat) : (b.Load v).slot = b.slot := by
  unfold BdataLoc.Load; split <;> rfl

@[simp] theorem BdataLoc.Load_chan (b : BdataLoc) (v : Nat) : (b.Load v).chan = b.chan := by
  unfold BdataLoc.Load; split <;> rfl

@[simp] theorem BdataLoc.Load_header (b : BdataLoc) (v : Nat) :
    (b.Load v).header = b.header := by
  unfold BdataLoc.Load; split <;> rfl

@[simp] theorem BdataLoc.Load_ntoskip (b : BdataLoc) (v : Nat) :
    (b.Load v).ntoskip = b.ntoskip := by
  unfold BdataLoc.Load; split <;> rfl

@[simp] theorem BdataLoc.Load_search_choice (b : BdataLoc) (v : Nat) :
    (b.Load v).search_choice = b.search_choice := by
  unfold BdataLoc.Load; split <;> rfl

theorem BdataLoc.loadAll_sameDef (vs : List Nat) :
    ∀ b : BdataLoc, b.sameDef (b.loadAll vs) := by
  induction vs with
  | nil => intro b; exact ⟨rfl, rfl, rfl, rfl, rfl, rfl, rfl⟩
  | cons v vs ih =>
    intro b
    rw [BdataLoc.loadAll_cons]
    obtain ⟨h1, h2, h3, h4, h5, h6, h7⟩ := ih (b.Load v)
    exact ⟨by rw [h1, BdataLoc.Load_fName], by rw [h2, BdataLoc.Load_crate],
      by rw [h3, BdataLoc.Load_slot], by rw [h4, BdataLoc.Load_chan],
      by rw [h5, BdataLoc.Load_header], by rw [h6, BdataLoc.Load_ntoskip],
      by rw [h7, BdataLoc.Load_search_choice]⟩

/-- A loop that loads, for the entries of a list that pass a test, a value
computed from the entry, is one `loadAll`, when neither the test nor the
value depends on what `Load` writes. -/
theorem BdataLoc.foldl_Load_filter {α : Type} (c : BdataLoc → α → Prop)
    [∀ d a, Decidable (c d a)] (g : BdataLoc → α → Nat)
    (hc : ∀ d v a, c (d.Load v) a ↔ c d a) (hg : ∀ d v a, g (d.Load v) a = g d a)
    (l : List α) :
    ∀ d : BdataLoc,
      l.foldl (fun d a => if c d a then d.Load (g d a) else d) d =
        d.loadAll ((l.filter (fun a => decide (c d a))).map (g d)) := by
  induction l with
  | nil => intro d; rfl
  | cons a l ih =>
    intro d
    rw [List.foldl_cons]
    by_cases h : c d a
    · rw [if_pos h, ih (d.Load (g d a))]
      have e1 : (fun x => decide (c (d.Load (g d a)) x)) = (fun x => decide (c d x)) := by
        funext x; simp only [hc]
      have e2 : g (d.Load (g d a)) = g d := by
        funext x; exact hg d (g d a) x
      rw [e1, e2, List.filter_cons_of_pos (by simpa using h), List.map_cons,
        BdataLoc.loadAll_cons]
    · rw [if_neg h, ih d, List.filter_cons_of_neg (by simpa using h)]

theorem THaDecData.decodeCrateLoc_eq (evdata : THaEvData) (b : BdataLoc)
    (hslot : b.IsSlot = true) :
    THaDecData.decodeCrateLoc evdata b = b.loadAll (slotHits evdata b) := by
  unfold THaDecData.decodeCrateLoc slotHits
  rw [if_pos hslot]
  have h := BdataLoc.foldl_Load_filter (fun _ (_ : Nat) => True)
    (fun d (i : Nat) => toUInt_t (evdata.GetData d.crate d.slot d.chan (i : Int)))
    (fun _ _ _ => Iff.rfl) (fun d v a => by simp)
    (List.range (evdata.GetNumHits b.crate b.slot b.chan).toNat) b
  simp only [if_true, decide_True, List.filter_true] at h
  exact h

theorem THaDecData.decodeCrateLoc_not_slot (evdata : THaEvData) (b : BdataLoc)
    (hslot : b.IsSlot = false) :
    THaDecData.decodeCrateLoc evdata b = b := by
  unfold THaDecData.decodeCrateLoc
  rw [hslot]
  rfl

theorem THaDecData.decodeWordLoc_eq (evdata : THaEvData) (b : BdataLoc) :
    THaDecData.decodeWordLoc evdata b = b.loadAll (markerHits evdata b) := by
  unfold THaDecData.decodeWordLoc markerHits markerPositions
  exact BdataLoc.foldl_Load_filter
    (fun d (i : Nat) => toUInt_t (evdata.GetRawData d.crate (i : Int)) = d.header)
    (fun d (i : Nat) => toUInt_t (evdata.GetRawData d.crate ((i : Int) + d.ntoskip)))
    (fun d v a => by simp) (fun d v a => by simp)
    (List.range (evdata.GetRocLength b.crate - b.ntoskip + 1).toNat) b

theorem foldl_invariant {σ α : Type} (P : σ → Prop) (f : σ → α → σ)
    (h : ∀ s a, P s → P (f s a)) (l : List α) : ∀ s, P s → P (l.foldl f s) := by
  induction l with
  | nil => intro s hs; exact hs
  | cons a l ih => intro s hs; exact ih (f s a) (h s a hs)

/-- A property of both branches of a conditional holds of the conditional. -/
theorem ite_prop {α : Type} (P : α → Prop) (c : Prop) [Decidable c] (a b : α)
    (ha : P a) (hb : P b) : P (if c then a else b) := by
  split
  · exact ha
  · exact hb

theorem sameLocs_refl (s : THaDecData) : sameLocs s s := ⟨rfl, rfl, rfl, rfl⟩

theorem sameLocs_trans {s t u : THaDecData} (h1 : sameLocs s t) (h2 : sameLocs t u) :
    sameLocs s u :=
  ⟨h2.1.trans h1.1, h2.2.1.trans h1.2.1, h2.2.2.1.trans h1.2.2.1, h2.2.2.2.trans h1.2.2.2⟩

theorem THaDecData.TrigBits_sameLocs (s : THaDecData) (ibit : Nat) (d : BdataLoc) :
    sameLocs s (s.TrigBits ibit d) := by
  unfold THaDecData.TrigBits
  split
  · exact sameLocs_refl s
  · apply foldl_invariant (fun t => sameLocs s t)
    · intro t a ht
      dsimp only
      split
      · exact ⟨ht.1, ht.2.1, ht.2.2.1, ht.2.2.2⟩
      · exact ht
    · exact ⟨rfl, rfl, rfl, rfl⟩

theorem THaDecData.projectCrateLoc_sameLocs (s : THaDecData) (d : BdataLoc) :
    sameLocs s (s.projectCrateLoc d) := by
  unfold THaDecData.projectCrateLoc
  split
  · exact THaDecData.TrigBits_sameLocs s _ d
  · repeat' first
      | apply ite_prop (sameLocs s)
      | exact ⟨rfl, rfl, rfl, rfl⟩

theorem THaDecData.projectWordLoc_sameLocs (s : THaDecData) (d : BdataLoc) :
    sameLocs s (s.projectWordLoc d) := by
  unfold THaDecData.projectWordLoc
  repeat' first
    | apply ite_prop (sameLocs s)
    | exact ⟨rfl, rfl, rfl, rfl⟩

theorem THaDecData.vdcPlane_sameLocs (s : THaDecData) (ipl : Nat) :
    sameLocs s (s.vdcPlane ipl) := by
  unfold THaDecData.vdcPlane
  split
  · exact sameLocs_refl s
  · dsimp only
    split <;> exact ⟨rfl, rfl, rfl, rfl⟩

theorem THaDecData.vdcInit_sameLocs (s : THaDecData) : sameLocs s s.vdcInit := by
  unfold THaDecData.vdcInit
  apply ite_prop (sameLocs s)
  · show sameLocs s (THaDecData.vdcRebind _)
    apply ite_prop (fun t => sameLocs s (THaDecData.vdcRebind t))
    · exact ⟨rfl, rfl, rfl, rfl⟩
    · exact ⟨rfl, rfl, rfl, rfl⟩
  · exact sameLocs_refl s

theorem THaDecData.vdcFlush_sameLocs (s : THaDecData) : sameLocs s s.vdcFlush := by
  unfold THaDecData.vdcFlush
  apply ite_prop (sameLocs s)
  · exact ⟨rfl, rfl, rfl, rfl⟩
  · exact ⟨rfl, rfl, rfl, rfl⟩

theorem THaDecData.VdcEff_sameLocs (s : THaDecData) : sameLocs s s.VdcEff := by
  unfold THaDecData.VdcEff
  apply sameLocs_trans _ (THaDecData.vdcFlush_sameLocs _)
  exact foldl_invariant (fun u => sameLocs s u) _
    (fun u a hu => sameLocs_trans hu (THaDecData.vdcPlane_sameLocs u a)) _ _
    (THaDecData.vdcInit_sameLocs s)

theorem THaDecData.decodeProject_sameLocs (s : THaDecData) : sameLocs s s.decodeProject := by
  unfold THaDecData.decodeProject
  have h6 : sameLocs s (s.fCrateLoc.foldl THaDecData.projectCrateLoc s) :=
    foldl_invariant (fun u => sameLocs s u) _
      (fun u a hu => sameLocs_trans hu (THaDecData.projectCrateLoc_sameLocs u a)) _ s
      (sameLocs_refl s)
  exact foldl_invariant (fun u => sameLocs s u) _
    (fun u a hu => sameLocs_trans hu (THaDecData.projectWordLoc_sameLocs u a)) _ _ h6

/-- A successful `Decode` returns 0 and leaves the state of `decodeBody`. -/
theorem THaDecData.Decode_ok (evdata : THaEvData) (s : THaDecData) (hok : s.IsOK = true) :
    THaDecData.Decode evdata s = (0, THaDecData.decodeBody evdata s) := by
  unfold THaDecData.Decode
  rw [hok]
  rfl

/-- The locations a successful `Decode` leaves: each one cleared and filled
by its own loop. -/
theorem THaDecData.decodeBody_locs (evdata : THaEvData) (s : THaDecData) :
    (THaDecData.decodeBody evdata s).fCrateLoc =
        s.fCrateLoc.map (fun b => THaDecData.decodeCrateLoc evdata b.Clear) ∧
    (THaDecData.decodeBody evdata s).fWordLoc =
        s.fWordLoc.map (fun b => THaDecData.decodeWordLoc evdata b.Clear) := by
  unfold THaDecData.decodeBody
  have h := sameLocs_trans (THaDecData.decodeProject_sameLocs _) (THaDecData.VdcEff_sameLocs
    (THaDecData.decodeProject (THaDecData.decodeEvType evdata (THaDecData.decodeLocs evdata
      (THaDecData.decodeLengths evdata s.Clear)))))
  rw [h.1, h.2.1]
  constructor
  · show List.map (THaDecData.decodeCrateLoc evdata) (List.map BdataLoc.Clear s.fCrateLoc) = _
    rw [List.map_map]; rfl
  · show List.map (THaDecData.decodeWordLoc evdata) (List.map BdataLoc.Clear s.fWordLoc) = _
    rw [List.map_map]; rfl

/-! ## Decoding of the locations -/

/-- The entry of `fCrateLoc` at position `idx` after a successful `Decode`. -/
theorem THaDecData.Decode_crateLoc_at (evdata : THaEvData) (s : THaDecData) (idx : Nat)
    (b : BdataLoc) (hok : s.IsOK = true) (hb : s.fCrateLoc[idx]? = some b) :
    (THaDecData.Decode evdata s).2.fCrateLoc[idx]? =
      some (THaDecData.decodeCrateLoc evdata b.Clear) := by
  rw [THaDecData.Decode_ok evdata s hok]
  show (THaDecData.decodeBody evdata s).fCrateLoc[idx]? = _
  rw [(THaDecData.decodeBody_locs evdata s).1, List.getElem?_map, hb]
  rfl

/-- The entry of `fWordLoc` at position `idx` after a successful `Decode`. -/
theorem THaDecData.Decode_wordLoc_at (evdata : THaEvData) (s : THaDecData) (idx : Nat)
    (b : BdataLoc) (hok : s.IsOK = true) (hb : s.fWordLoc[idx]? = some b) :
    (THaDecData.Decode evdata s).2.fWordLoc[idx]? =
      some (THaDecData.decodeWordLoc evdata b.Clear) := by
  rw [THaDecData.Decode_ok evdata s hok]
  show (THaDecData.decodeBody evdata s).fWordLoc[idx]? = _
  rw [(THaDecData.decodeBody_locs evdata s).2, List.getElem?_map, hb]
  rfl

/-- The content of a slot-addressed location of `fCrateLoc` after a
successful `Decode`. -/
theorem C1_core (evdata : THaEvData) (s : THaDecData) (idx : Nat)
    (b : BdataLoc) (k : Nat) (hok : s.IsOK = true) (hb : s.fCrateLoc[idx]? = some b)
    (hslot : b.IsSlot = true)
    (hk : evdata.GetNumHits b.crate b.slot b.chan = (k : Int)) :
    (THaDecData.Decode evdata s).1 = 0 ∧
    ∃ d : BdataLoc, (THaDecData.Decode evdata s).2.fCrateLoc[idx]? = some d ∧
      d.fName = b.fName ∧ d.crate = b.crate ∧ d.slot = b.slot ∧ d.chan = b.chan ∧
      d.NumHits = ((min k 16 : Nat) : Int) ∧
      ∀ i : Nat, i < min k 16 →
        d.Get (i : Int) = toUInt_t (evdata.GetData b.crate b.slot b.chan (i : Int)) := by
  refine ⟨by rw [THaDecData.Decode_ok evdata s hok], ?_⟩
  refine ⟨_, THaDecData.Decode_crateLoc_at evdata s idx b hok hb, ?_⟩
  have hslot2 : b.Clear.IsSlot = true := hslot
  rw [THaDecData.decodeCrateLoc_eq evdata b.Clear hslot2]
  obtain ⟨h1, h2, h3, h4, _, _, _⟩ := BdataLoc.loadAll_sameDef (slotHits evdata b.Clear) b.Clear
  obtain ⟨hn, hget, _⟩ := BdataLoc.loadAll_spec b.Clear (slotHits evdata b.Clear) rfl
  have hlen : (slotHits evdata b.Clear).length = k := by
    unfold slotHits
    rw [List.length_map, List.length_range]
    show (evdata.GetNumHits b.crate b.slot b.chan).toNat = k
    rw [hk, Int.toNat_ofNat]
  rw [hlen] at hn hget
  refine ⟨h1, h2, h3, h4, hn, ?_⟩
  intro i hi
  have hik : i < k := lt_of_lt_of_le hi (Nat.min_le_left k 16)
  have h := hget i hi
  have hv : (slotHits evdata b.Clear)[i]? =
      some (toUInt_t (evdata.GetData b.crate b.slot b.chan (i : Int))) := by
    unfold slotHits
    rw [List.getElem?_map, List.getElem?_range (by
      show i < (evdata.GetNumHits b.crate b.slot b.chan).toNat
      rw [hk, Int.toNat_ofNat]; exact hik)]
    rfl
  rw [hv] at h
  exact (Option.some.inj h).symm

/-- C1. Slot-addressed decode: when the raw event reports `k` hits at the
(crate, slot, channel) of a slot-addressed location of `fCrateLoc`, a
successful `Decode` (return value 0) leaves that location, under the same name
and address, with `min(k,16)` samples, sample `i` being hit number `i` of the
raw interface (as the `UInt_t` that `Load` receives), in arrival order. -/
theorem C1_slot_addressed_decode (evdata : THaEvData) (s : THaDecData) (idx : Nat)
    (b : BdataLoc) (k : Nat) (hok : s.IsOK = true) (hb : s.fCrateLoc[idx]? = some b)
    (hslot : b.IsSlot = true)
    (hk : evdata.GetNumHits b.crate b.slot b.chan = (k : Int)) :
    (THaDecData.Decode evdata s).1 = 0 ∧
    ∃ d : BdataLoc, (THaDecData.Decode evdata s).2.fCrateLoc[idx]? = some d ∧
      d.fName = b.fName ∧ d.crate = b.crate ∧ d.slot = b.slot ∧ d.chan = b.chan ∧
      d.NumHits = ((min k 16 : Nat) : Int) ∧
      ∀ i : Nat, i < min k 16 →
        d.Get (i : Int) = toUInt_t (evdata.GetData b.crate b.slot b.chan (i : Int)) :=
  C1_core evdata s idx b k hok hb hslot hk

/-- Witness of C1 on the engine set up from the line `foo crate 1 2 3` and the
event with one hit of value 42 at (1,2,3). -/
theorem C1_slot_addressed_decode_witness :
    (THaDecData.Decode evOneHit stFoo).1 = 0 ∧
    ∃ d : BdataLoc, (THaDecData.Decode evOneHit stFoo).2.fCrateLoc[0]? = some d ∧
      d.fName = "foo" ∧ d.crate = 1 ∧ d.slot = 2 ∧ d.chan = 3 ∧
      d.NumHits = ((min 1 16 : Nat) : Int) ∧
      ∀ i : Nat, i < min 1 16 →
        d.Get (i : Int) = toUInt_t (evOneHit.GetData 1 2 3 (i : Int)) :=
  C1_slot_addressed_decode evOneHit stFoo 0 (BdataLoc.mkSlot "foo" 1 2 3) 1
    (by decide) (by decide) (by decide) (by decide)

theorem mem_markerPositions (evdata : THaEvData) (b : BdataLoc) (p : Nat) :
    p ∈ markerPositions evdata b ↔
      ((p : Int) + b.ntoskip ≤ evdata.GetRocLength b.crate ∧
       toUInt_t (evdata.GetRawData b.crate (p : Int)) = b.header) := by
  unfold markerPositions
  rw [List.mem_filter, List.mem_range, decide_eq_true_eq]
  constructor
  · rintro ⟨h1, h2⟩
    exact ⟨by omega, h2⟩
  · rintro ⟨h1, h2⟩
    exact ⟨by omega, h2⟩

theorem markerPositions_sorted (evdata : THaEvData) (b : BdataLoc) :
    (markerPositions evdata b).Pairwise (fun p q => p < q) := by
  unfold markerPositions
  exact List.Pairwise.filter _ (List.pairwise_lt_range _)

/-- A strictly ascending list whose members are exactly `p1 < p2` is `[p1, p2]`. -/
theorem sorted_pair_eq (l : List Nat) (p1 p2 : Nat) (h12 : p1 < p2)
    (hs : l.Pairwise (fun p q => p < q)) (hm : ∀ p, p ∈ l ↔ (p = p1 ∨ p = p2)) :
    l = [p1, p2] := by
  have hs2 : [p1, p2].Pairwise (fun p q => p < q) := by simp [h12]
  have hn1 : l.Nodup := hs.imp (fun h => Nat.ne_of_lt h)
  have hn2 : [p1, p2].Nodup := hs2.imp (fun h => Nat.ne_of_lt h)
  have hperm : l.Perm [p1, p2] :=
    (List.perm_ext_iff_of_nodup hn1 hn2).mpr (fun a => by rw [hm a]; simp)
  exact List.eq_of_perm_of_sorted hperm hs hs2

/-- C2. Marker-relative decode. The raw word stream of a crate is the words
`GetRawData(crate, p)` at the positions `0 <= p <= GetRocLength(crate)`, the
positions the scan of `Decode` addresses; the source gives the stream no
other bound. For a location `b` of `fWordLoc`, after a successful `Decode`:
the location holds the words `stream[p + skip]` of the positions `p` that
hold the marker and have `p + skip` inside the stream, in ascending order of
`p`, truncated to 16; and when the marker occurs at exactly the positions
`p1 < p2`, with `p1 + skip` and `p2 + skip` inside the stream, the location
holds exactly the two samples `stream[p1+skip]` followed by `stream[p2+skip]`.
The marker hypothesis is asked only of the positions `p` with `p + skip`
inside the stream, so it follows from the one over the whole stream. When
`skip >= 1` the two-sample statement also holds with the marker hypothesis
asked only of the positions below `GetRocLength(crate)`. -/
theorem C2_marker_relative_decode (evdata : THaEvData) (s : THaDecData) (idx : Nat)
    (b : BdataLoc) (hok : s.IsOK = true) (hb : s.fWordLoc[idx]? = some b) :
    (THaDecData.Decode evdata s).1 = 0 ∧
    (∀ p : Nat, p ∈ markerPositions evdata b ↔
      ((p : Int) + b.ntoskip ≤ evdata.GetRocLength b.crate ∧
       toUInt_t (evdata.GetRawData b.crate (p : Int)) = b.header)) ∧
    (markerPositions evdata b).Pairwise (fun p q => p < q) ∧
    ∃ d : BdataLoc, (THaDecData.Decode evdata s).2.fWordLoc[idx]? = some d ∧
      d.NumHits = ((min (markerPositions evdata b).length 16 : Nat) : Int) ∧
      (∀ j : Nat, j < min (markerPositions evdata b).length 16 →
        ∃ p : Nat, (markerPositions evdata b)[j]? = some p ∧
          d.Get (j : Int) = toUInt_t (evdata.GetRawData b.crate ((p : Int) + b.ntoskip))) ∧
      (∀ p1 p2 : Nat, p1 < p2 →
        (∀ p : Nat, (p : Int) + b.ntoskip ≤ evdata.GetRocLength b.crate →
          (toUInt_t (evdata.GetRawData b.crate (p : Int)) = b.header ↔ (p = p1 ∨ p = p2))) →
        (p1 : Int) + b.ntoskip ≤ evdata.GetRocLength b.crate →
        (p2 : Int) + b.ntoskip ≤ evdata.GetRocLength b.crate →
        d.NumHits = 2 ∧
        d.Get 0 = toUInt_t (evdata.GetRawData b.crate ((p1 : Int) + b.ntoskip)) ∧
        d.Get 1 = toUInt_t (evdata.GetRawData b.crate ((p2 : Int) + b.ntoskip))) ∧
      (∀ p1 p2 : Nat, p1 < p2 → 1 ≤ b.ntoskip →
        (∀ p : Nat, (p : Int) < evdata.GetRocLength b.crate →
          (toUInt_t (evdata.GetRawData b.crate (p : Int)) = b.header ↔ (p = p1 ∨ p = p2))) →
        (p1 : Int) + b.ntoskip ≤ evdata.GetRocLength b.crate →
        (p2 : Int) + b.ntoskip ≤ evdata.GetRocLength b.crate →
        d.NumHits = 2 ∧
        d.Get 0 = toUInt_t (evdata.GetRawData b.crate ((p1 : Int) + b.ntoskip)) ∧
        d.Get 1 = toUInt_t (evdata.GetRawData b.crate ((p2 : Int) + b.ntoskip))) := by
  refine ⟨by rw [THaDecData.Decode_ok evdata s hok], mem_markerPositions evdata b,
    markerPositions_sorted evdata b, ?_⟩
  refine ⟨_, THaDecData.Decode_wordLoc_at evdata s idx b hok hb, ?_⟩
  rw [THaDecData.decodeWordLoc_eq evdata b.Clear]
  obtain ⟨hn, hget, _⟩ := BdataLoc.loadAll_spec b.Clear (markerHits evdata b.Clear) rfl
  have hmp : markerPositions evdata b.Clear = markerPositions evdata b := rfl
  have hlen : (markerHits evdata b.Clear).length = (markerPositions evdata b).length := by
    unfold markerHits
    rw [List.length_map, hmp]
  rw [hlen] at hn hget
  have hsample : ∀ j : Nat, j < min (markerPositions evdata b).length 16 →
      ∃ p : Nat, (markerPositions evdata b)[j]? = some p ∧
        (b.Clear.loadAll (markerHits evdata b.Clear)).Get (j : Int) =
          toUInt_t (evdata.GetRawData b.crate ((p : Int) + b.ntoskip)) := by
    intro j hj
    have hjl : j < (markerPositions evdata b).length :=
      lt_of_lt_of_le hj (Nat.min_le_left _ 16)
    refine ⟨(markerPositions evdata b)[j], List.getElem?_eq_getElem hjl, ?_⟩
    have h := hget j hj
    have hv : (markerHits evdata b.Clear)[j]? =
        some (toUInt_t (evdata.GetRawData b.crate
          (((markerPositions evdata b)[j] : Nat) + b.ntoskip))) := by
      unfold markerHits
      rw [List.getElem?_map, hmp, List.getElem?_eq_getElem hjl]
      rfl
    rw [hv] at h
    exact (Option.some.inj h).symm
  refine ⟨hn, hsample, (and_iff_left_of_imp ?_).mpr ?_⟩
  · intro htwo p1 p2 h12 hskip hocc hp1 hp2
    exact htwo p1 p2 h12 (fun p hp => hocc p (by omega)) hp1 hp2
  intro p1 p2 h12 hocc hp1 hp2
  have hpos : markerPositions evdata b = [p1, p2] := by
    apply sorted_pair_eq _ p1 p2 h12 (markerPositions_sorted evdata b)
    intro p
    rw [mem_markerPositions]
    constructor
    · rintro ⟨h1, h2⟩
      exact (hocc p h1).mp h2
    · rintro (h | h)
      · subst h; exact ⟨hp1, (hocc p hp1).mpr (Or.inl rfl)⟩
      · subst h; exact ⟨hp2, (hocc p hp2).mpr (Or.inr rfl)⟩
  rw [hpos] at hn hsample
  refine ⟨hn, ?_, ?_⟩
  · obtain ⟨p, hp, hg⟩ := hsample 0 (by simp)
    have : p = p1 := by simpa using hp.symm
    rw [← this]; exact hg
  · obtain ⟨p, hp, hg⟩ := hsample 1 (by simp)
    have : p = p2 := by simpa using hp.symm
    rw [← this]; exact hg

/-- Witness of C2: marker `0xaa`, skip 1, a crate with buffer length 3 holding
the marker at the positions 0 and 2; the samples are the words at the
positions 1 and 3. -/
theorem C2_marker_relative_decode_witness :
    stMarker1.IsOK = true ∧
    stMarker1.fWordLoc[0]? = some (BdataLoc.mkHeader "tdc" 1 170 1) ∧
    ∃ d : BdataLoc, (THaDecData.Decode evMarker stMarker1).2.fWordLoc[0]? = some d ∧
      d.NumHits = 2 ∧ d.Get 0 = 5 ∧ d.Get 1 = 170 := by
  have h := C2_marker_relative_decode evMarker stMarker1 0 (BdataLoc.mkHeader "tdc" 1 170 1)
    (by decide) (by decide)
  obtain ⟨_, _, _, d, hd, _, _, h2, _⟩ := h
  refine ⟨by decide, by decide, d, hd, ?_⟩
  have h3 := h2 0 2 (by decide) (by
    intro p hp
    have hp3 : p < 3 := by
      have : (p : Int) + 1 ≤ 3 := hp
      omega
    interval_cases p <;> decide) (by decide) (by decide)
  exact h3

/-! ## The loader in Fresh mode -/

theorem THaDecData.lineLoc_fName (f0 f1 f2 f3 f4 : String) :
    (THaDecData.lineLoc f0 f1 f2 f3 f4).fName = f0 := by
  unfold THaDecData.lineLoc
  dsimp only
  split <;> rfl

theorem THaDecData.lineLoc_IsSlot (f0 f1 f2 f3 f4 : String) :
    (THaDecData.lineLoc f0 f1 f2 f3 f4).IsSlot = (f1 == "crate") := by
  unfold THaDecData.lineLoc
  dsimp only
  split
  · next h => rw [h]; rfl
  · next h =>
    have : (f1 == "crate") = false := by simpa using h
    rw [this]; rfl

/-- In Fresh mode a turn of the loader loop inserts the location of a valid
line and skips any other line. -/
theorem THaDecData.setupLine_fresh (s : THaDecData) (sinput : String) :
    THaDecData.setupLine false s sinput =
      match parseLine sinput with
      | none => s
      | some e => THaDecData.insertLoc s (varsNames.contains e.2.fName) e.1 e.2 := by
  unfold THaDecData.setupLine parseLine
  split
  · next f0 f1 f2 f3 f4 rest heq =>
    by_cases h0 : (f0 == "#") = true
    · simp only [h0, if_true]
    · simp only [h0, Bool.false_eq_true, if_false, THaDecData.lineLoc_fName]
  · rfl

theorem THaDecData.insertLoc_fCrateLoc (s : THaDecData) (found is_slot : Bool) (b : BdataLoc) :
    (THaDecData.insertLoc s found is_slot b).fCrateLoc =
      if is_slot then s.fCrateLoc ++ [b] else s.fCrateLoc := by
  unfold THaDecData.insertLoc THaDecData.DefineChannel
  cases found <;> cases is_slot <;> rfl

theorem THaDecData.insertLoc_fWordLoc (s : THaDecData) (found is_slot : Bool) (b : BdataLoc) :
    (THaDecData.insertLoc s found is_slot b).fWordLoc =
      if is_slot then s.fWordLoc else s.fWordLoc ++ [b] := by
  unfold THaDecData.insertLoc THaDecData.DefineChannel
  cases found <;> cases is_slot <;> rfl

theorem THaDecData.insertLoc_fPrefix (s : THaDecData) (found is_slot : Bool) (b : BdataLoc) :
    (THaDecData.insertLoc s found is_slot b).fPrefix = s.fPrefix := by
  unfold THaDecData.insertLoc THaDecData.DefineChannel
  cases found <;> cases is_slot <;> rfl

theorem THaDecData.insertLoc_gHaVars (s : THaDecData) (found is_slot : Bool) (b : BdataLoc) :
    (THaDecData.insertLoc s found is_slot b).gHaVars =
      if found then s.gHaVars
      else varDefine s.gHaVars (s.fPrefix ++ b.fName)
        (if is_slot then VarTarget.crateLoc s.fCrateLoc.length
         else VarTarget.wordLoc s.fWordLoc.length) := by
  unfold THaDecData.insertLoc THaDecData.DefineChannel
  cases found <;> cases is_slot <;> rfl

theorem slotLocsOf_cons (l : String) (ls : List String) :
    slotLocsOf (l :: ls) =
      (match parseLine l with
        | some (true, b) => [b]
        | _ => []) ++ slotLocsOf ls := by
  unfold slotLocsOf
  rw [List.filterMap_cons]
  split
  · next h => rw [h]; rfl
  · next e h =>
    rw [h]
    obtain ⟨sl, b⟩ := e
    cases sl <;> simp

theorem markerLocsOf_cons (l : String) (ls : List String) :
    markerLocsOf (l :: ls) =
      (match parseLine l with
        | some (false, b) => [b]
        | _ => []) ++ markerLocsOf ls := by
  unfold markerLocsOf
  rw [List.filterMap_cons]
  split
  · next h => rw [h]; rfl
  · next e h =>
    rw [h]
    obtain ⟨sl, b⟩ := e
    cases sl <;> simp

/-- The loader loop in Fresh mode appends the locations of the valid lines to
the two collections, in file order. -/
theorem THaDecData.freshFold_locs (lines : List String) :
    ∀ s : THaDecData,
      (lines.foldl (THaDecData.setupLine false) s).fCrateLoc =
          s.fCrateLoc ++ slotLocsOf lines ∧
      (lines.foldl (THaDecData.setupLine false) s).fWordLoc =
          s.fWordLoc ++ markerLocsOf lines := by
  induction lines with
  | nil => intro s; simp [slotLocsOf, markerLocsOf]
  | cons l ls ih =>
    intro s
    rw [List.foldl_cons, (ih _).1, (ih _).2, slotLocsOf_cons, markerLocsOf_cons,
      THaDecData.setupLine_fresh]
    cases hp : parseLine l with
    | none => simp
    | some e =>
      obtain ⟨sl, b⟩ := e
      cases sl
      · simp [THaDecData.insertLoc_fCrateLoc, THaDecData.insertLoc_fWordLoc]
      · simp [THaDecData.insertLoc_fCrateLoc, THaDecData.insertLoc_fWordLoc]

/-- `SetupDecData` in define mode on an engine that is not set up, with a
mapping file that opens. -/
theorem THaDecData.SetupDecData_fresh (lines : List String) (s : THaDecData)
    (hfresh : s.fIsSetup = false) :
    THaDecData.SetupDecData (some lines) EMode.kDefine s =
      ((s.DefineVarsFromList EMode.kDefine).1,
       lines.foldl (THaDecData.setupLine false)
         (THaDecData.BookHist
           { (s.DefineVarsFromList EMode.kDefine).2 with
               fIsSetup := true, fCrateLoc := [], fWordLoc := [] })) := by
  simp [THaDecData.SetupDecData, hfresh]

/-- The two collections after `SetupDecData` in define mode on an engine
that is not set up, with a mapping file that opens. -/
theorem THaDecData.SetupDecData_fresh_locs (lines : List String) (s : THaDecData)
    (hfresh : s.fIsSetup = false) :
    (THaDecData.SetupDecData (some lines) EMode.kDefine s).2.fCrateLoc = slotLocsOf lines ∧
    (THaDecData.SetupDecData (some lines) EMode.kDefine s).2.fWordLoc = markerLocsOf lines := by
  rw [THaDecData.SetupDecData_fresh lines s hfresh]
  have h := THaDecData.freshFold_locs lines
    (THaDecData.BookHist
      { (s.DefineVarsFromList EMode.kDefine).2 with
          fIsSetup := true, fCrateLoc := [], fWordLoc := [] })
  generalize s.DefineVarsFromList EMode.kDefine = r at h
  have hc : (THaDecData.BookHist
      { r.2 with fIsSetup := true, fCrateLoc := [], fWordLoc := [] }).fCrateLoc = [] := rfl
  have hw : (THaDecData.BookHist
      { r.2 with fIsSetup := true, fCrateLoc := [], fWordLoc := [] }).fWordLoc = [] := rfl
  rw [hc, hw, List.nil_append, List.nil_append] at h
  exact h

/-- C10. Fresh load builds the registry in file order: after `SetupDecData` in
define mode on an engine that is not yet set up, `fCrateLoc` is the list of
the locations of the valid lines whose second field is `crate`, in file order,
and `fWordLoc` is the list of the locations of the other valid lines, in file
order; every valid line contributes one location, also when its name is
repeated, and a skipped line contributes none. -/
theorem C10_fresh_load_file_order (lines : List String) (s : THaDecData)
    (hfresh : s.fIsSetup = false) :
    (THaDecData.SetupDecData (some lines) EMode.kDefine s).2.fCrateLoc = slotLocsOf lines ∧
    (THaDecData.SetupDecData (some lines) EMode.kDefine s).2.fWordLoc = markerLocsOf lines ∧
    (THaDecData.SetupDecData (some lines) EMode.kDefine s).2.fCrateLoc.length +
      (THaDecData.SetupDecData (some lines) EMode.kDefine s).2.fWordLoc.length =
        (lines.filterMap parseLine).length := by
  obtain ⟨h1, h2⟩ := THaDecData.SetupDecData_fresh_locs lines s hfresh
  refine ⟨h1, h2, ?_⟩
  rw [h1, h2]
  unfold slotLocsOf markerLocsOf
  rw [List.length_map, List.length_map]
  generalize lines.filterMap parseLine = es
  induction es with
  | nil => rfl
  | cons e es ih =>
    obtain ⟨sl, b⟩ := e
    cases sl
    · simp only [List.filter_cons, Bool.false_eq_true, if_false, Bool.not_false, if_true,
        List.length_cons]
      omega
    · simp only [List.filter_cons, if_true, Bool.not_true, Bool.false_eq_true, if_false,
        List.length_cons]
      omega

/-- Witness of C10: a file with a repeated name, a comment line, a short line
and a marker line. -/
theorem C10_fresh_load_file_order_witness :
    (THaDecData.new "D." 8).fIsSetup = false ∧
    (THaDecData.SetupDecData
        (some ["foo crate 1 2 3", "# a comment of five fields", "t1 header 1 aa 1",
               "foo crate 4 5 6", "short line"])
        EMode.kDefine (THaDecData.new "D." 8)).2.fCrateLoc =
      slotLocsOf ["foo crate 1 2 3", "# a comment of five fields", "t1 header 1 aa 1",
                  "foo crate 4 5 6", "short line"] ∧
    slotLocsOf ["foo crate 1 2 3", "# a comment of five fields", "t1 header 1 aa 1",
                "foo crate 4 5 6", "short line"] =
      [BdataLoc.mkSlot "foo" 1 2 3, BdataLoc.mkSlot "foo" 4 5 6] ∧
    markerLocsOf ["foo crate 1 2 3", "# a comment of five fields", "t1 header 1 aa 1",
                  "foo crate 4 5 6", "short line"] =
      [BdataLoc.mkHeader "t1" 1 170 1] :=
  ⟨by decide,
   (C10_fresh_load_file_order
      ["foo crate 1 2 3", "# a comment of five fields", "t1 header 1 aa 1",
       "foo crate 4 5 6", "short line"] (THaDecData.new "D." 8) (by decide)).1,
   by decide, by decide⟩

/-! ## The variable list -/

theorem string_append_left_cancel (p a b : String) (h : p ++ a = p ++ b) : a = b := by
  have h2 := congrArg String.data h
  rw [String.data_append, String.data_append] at h2
  exact String.ext (List.append_cancel_left h2)

theorem varFind_append_of_some (vars ws : List THaVar) (n : String) (v : THaVar)
    (h : varFind vars n = some v) : varFind (vars ++ ws) n = some v := by
  unfold varFind at h ⊢
  rw [List.find?_append, h]
  rfl

theorem varFind_varDefine_self (vars : List THaVar) (n : String) (t : VarTarget)
    (h : varFind vars n = none) :
    varFind (varDefine vars n t) n = some { name := n, target := t } := by
  unfold varDefine
  rw [h]
  unfold varFind at h ⊢
  rw [List.find?_append, h]
  simp

theorem varFind_varDefine_other (vars : List THaVar) (m n : String) (t : VarTarget)
    (hmn : m ≠ n) : varFind (varDefine vars m t) n = varFind vars n := by
  unfold varDefine
  split
  · rfl
  · unfold varFind
    rw [List.find?_append]
    cases h : List.find? (fun v => v.name == n) vars with
    | some v => rfl
    | none => simp [hmn]

theorem varFind_varDefine_of_some (vars : List THaVar) (m n : String) (t : VarTarget)
    (v : THaVar) (h : varFind vars n = some v) :
    varFind (varDefine vars m t) n = some v := by
  unfold varDefine
  split
  · exact h
  · exact varFind_append_of_some vars _ n v h

/-- `DefineVarsFromList` in define mode reports success, keeps the prefix and
defines no variable under a name that is not in the table `vars`. -/
theorem THaDecData.DefineVarsFromList_define (s : THaDecData) :
    (s.DefineVarsFromList EMode.kDefine).1 = 0 ∧
    (s.DefineVarsFromList EMode.kDefine).2.fPrefix = s.fPrefix ∧
    (s.DefineVarsFromList EMode.kDefine).2.fIsSetup = s.fIsSetup ∧
    ∀ name : String, name ∉ varsNames → varFind s.gHaVars (s.fPrefix ++ name) = none →
      varFind (s.DefineVarsFromList EMode.kDefine).2.gHaVars (s.fPrefix ++ name) = none := by
  simp only [THaDecData.DefineVarsFromList, true_and]
  intro name hname hnone
  unfold defineVarsList
  have hz : ∀ nm ∈ varsNames.zip varsMembers, nm.1 ≠ name := by
    intro nm hnm h
    obtain ⟨a, b⟩ := nm
    exact hname (h ▸ (List.of_mem_zip hnm).1)
  generalize varsNames.zip varsMembers = l at hz
  generalize s.gHaVars = vars at hnone
  induction l generalizing vars with
  | nil => exact hnone
  | cons nm l ih =>
    rw [List.foldl_cons]
    apply ih (fun x hx => hz x (List.mem_cons_of_mem _ hx))
    rw [varFind_varDefine_other _ _ _ _ (fun h =>
      hz nm (List.mem_cons_self _ _) (string_append_left_cancel _ _ _ h))]
    exact hnone

theorem THaDecData.freshFold_fPrefix (lines : List String) :
    ∀ s : THaDecData, (lines.foldl (THaDecData.setupLine false) s).fPrefix = s.fPrefix := by
  induction lines with
  | nil => intro s; rfl
  | cons l ls ih =>
    intro s
    rw [List.foldl_cons, ih, THaDecData.setupLine_fresh]
    cases parseLine l with
    | none => rfl
    | some e => exact THaDecData.insertLoc_fPrefix s _ _ _

/-- Lines that do not carry the name define no variable of that name. -/
theorem THaDecData.freshFold_varFind_none (name : String) (pre : List String) :
    ∀ s : THaDecData,
      (∀ l ∈ pre, ∀ e, parseLine l = some e → e.2.fName ≠ name) →
      varFind s.gHaVars (s.fPrefix ++ name) = none →
      varFind (pre.foldl (THaDecData.setupLine false) s).gHaVars (s.fPrefix ++ name) = none := by
  induction pre with
  | nil => intro s _ h; exact h
  | cons l ls ih =>
    intro s hpre hnone
    rw [List.foldl_cons]
    have hstep : (THaDecData.setupLine false s l).fPrefix = s.fPrefix ∧
        varFind (THaDecData.setupLine false s l).gHaVars (s.fPrefix ++ name) = none := by
      rw [THaDecData.setupLine_fresh]
      cases hp : parseLine l with
      | none => exact ⟨rfl, hnone⟩
      | some e =>
        refine ⟨THaDecData.insertLoc_fPrefix s _ _ _, ?_⟩
        show varFind (THaDecData.insertLoc s _ _ _).gHaVars _ = none
        rw [THaDecData.insertLoc_gHaVars]
        split
        · exact hnone
        · rw [varFind_varDefine_other _ _ _ _ (fun h =>
            hpre l (List.mem_cons_self _ _) e hp (string_append_left_cancel _ _ _ h))]
          exact hnone
    have h := ih (THaDecData.setupLine false s l)
      (fun x hx => hpre x (List.mem_cons_of_mem _ hx))
    rw [hstep.1] at h
    exact h hstep.2

/-- A variable that is defined stays defined, with the same target, while the
loader reads further lines. -/
theorem THaDecData.freshFold_varFind_some (n : String) (v : THaVar) (post : List String) :
    ∀ s : THaDecData, varFind s.gHaVars n = some v →
      varFind (post.foldl (THaDecData.setupLine false) s).gHaVars n = some v := by
  induction post with
  | nil => intro s h; exact h
  | cons l ls ih =>
    intro s h
    rw [List.foldl_cons]
    apply ih
    rw [THaDecData.setupLine_fresh]
    cases parseLine l with
    | none => exact h
    | some e =>
      show varFind (THaDecData.insertLoc s _ _ _).gHaVars _ = some v
      rw [THaDecData.insertLoc_gHaVars]
      split
      · exact h
      · exact varFind_varDefine_of_some _ _ _ _ _ h

/-- `Init` of an engine that is not set up, with a mapping file that opens:
the status becomes OK and the registry is the one the loader loop builds
from empty collections. -/
theorem THaDecData.Init_fresh (lines : List String) (s : THaDecData)
    (hz : s.isZombie = false) (hfresh : s.fIsSetup = false) :
    ∃ base : THaDecData,
      base.fPrefix = s.fPrefix ∧ base.fCrateLoc = [] ∧ base.fWordLoc = [] ∧
      (∀ name : String, name ∉ varsNames → varFind s.gHaVars (s.fPrefix ++ name) = none →
        varFind base.gHaVars (s.fPrefix ++ name) = none) ∧
      (THaDecData.Init (some lines) s).1 = 0 ∧
      (THaDecData.Init (some lines) s).2.IsOK = true ∧
      sameLocs (lines.foldl (THaDecData.setupLine false) base) (THaDecData.Init (some lines) s).2 := by
  have hs1 : (THaDecData.initPrep s).fIsSetup = false := hfresh
  generalize hs1def : THaDecData.initPrep s = s1 at hs1
  have hp1 : s1.fPrefix = s.fPrefix := by rw [← hs1def]; rfl
  have hv1 : s1.gHaVars = s.gHaVars := by rw [← hs1def]; rfl
  have hInit : THaDecData.Init (some lines) s =
      ((THaDecData.SetupDecData (some lines) EMode.kDefine s1).1,
       { (THaDecData.SetupDecData (some lines) EMode.kDefine s1).2 with
           fStatus := (THaDecData.SetupDecData (some lines) EMode.kDefine s1).1 }) := by
    rw [← hs1def]
    simp only [THaDecData.Init, hz, Bool.false_eq_true, if_false]
  obtain ⟨d1, d2, d3, d4⟩ := THaDecData.DefineVarsFromList_define s1
  rw [hInit, THaDecData.SetupDecData_fresh lines s1 hs1]
  generalize s1.DefineVarsFromList EMode.kDefine = r at d1 d2 d3 d4
  refine ⟨THaDecData.BookHist { r.2 with fIsSetup := true, fCrateLoc := [], fWordLoc := [] },
    ?_, rfl, rfl, ?_, ?_, ?_, ?_⟩
  · exact d2.trans hp1
  · intro name hname hnone
    have := d4 name hname (by rw [hp1, hv1]; exact hnone)
    rw [hp1] at this
    exact this
  · exact d1
  · show decide (r.1 = (0 : Int)) = true
    simp only [d1, decide_True]
  · exact ⟨rfl, rfl, rfl, rfl⟩

theorem THaDecData.decodeBody_gHaVars (evdata : THaEvData) (s : THaDecData) :
    (THaDecData.decodeBody evdata s).gHaVars = s.gHaVars ∧
    (THaDecData.decodeBody evdata s).fPrefix = s.fPrefix := by
  unfold THaDecData.decodeBody
  have h := sameLocs_trans (THaDecData.decodeProject_sameLocs _) (THaDecData.VdcEff_sameLocs
    (THaDecData.decodeProject (THaDecData.decodeEvType evdata (THaDecData.decodeLocs evdata
      (THaDecData.decodeLengths evdata s.Clear)))))
  exact ⟨h.2.2.1, h.2.2.2⟩

/-! ## End to end: a generic channel -/

/-- C4 (amended). End-to-end generic channel: let the mapping file hold a valid
line `<name> crate c s ch` (fields `name`, `crate`, `f2`, `f3`, `f4`) whose
name is not a predefined output name, let no earlier valid line of the file
carry the same name, and let the variable list hold no variable of the
prefixed name before the load. After a Fresh `Init` with this file, if the raw
interface reports `k >= 1` hits at `(c, s, ch)`, then `Decode` succeeds, the
generic output variable `<prefix><name>` is bound to a location of `fCrateLoc`
that carries the name and the address `(c, s, ch)`, and that location has
sample count `min(k,16)` and first sample the first hit value. -/
theorem C4_generic_channel_end_to_end (evdata : THaEvData) (s : THaDecData)
    (pre post : List String) (line name f2 f3 f4 : String) (rest : List String) (k : Nat)
    (hz : s.isZombie = false) (hfresh : s.fIsSetup = false)
    (hline : vsplit line = name :: "crate" :: f2 :: f3 :: f4 :: rest)
    (hcomment : name ≠ "#") (hname : name ∉ varsNames)
    (hfirst : ∀ l ∈ pre, ∀ e, parseLine l = some e → e.2.fName ≠ name)
    (hnovar : varFind s.gHaVars (s.fPrefix ++ name) = none)
    (hk : evdata.GetNumHits (atoi f2) (atoi f3) (atoi f4) = (k : Int)) (hk1 : 1 ≤ k) :
    (THaDecData.Decode evdata (THaDecData.Init (some (pre ++ line :: post)) s).2).1 = 0 ∧
    ∃ (i : Nat) (d : BdataLoc),
      varFind (THaDecData.Decode evdata
          (THaDecData.Init (some (pre ++ line :: post)) s).2).2.gHaVars (s.fPrefix ++ name) =
        some { name := s.fPrefix ++ name, target := VarTarget.crateLoc i } ∧
      (THaDecData.Decode evdata
          (THaDecData.Init (some (pre ++ line :: post)) s).2).2.fCrateLoc[i]? = some d ∧
      d.fName = name ∧ d.crate = atoi f2 ∧ d.slot = atoi f3 ∧ d.chan = atoi f4 ∧
      d.NumHits = ((min k 16 : Nat) : Int) ∧
      d.Get 0 = toUInt_t (evdata.GetData (atoi f2) (atoi f3) (atoi f4) 0) := by
  obtain ⟨base, hbp, hbc, hbw, hbv, hret, hok, hsame⟩ :=
    THaDecData.Init_fresh (pre ++ line :: post) s hz hfresh
  generalize THaDecData.Init (some (pre ++ line :: post)) s = r at hret hok hsame
  -- the line as the loader reads it
  have hparse : parseLine line = some (true, THaDecData.lineLoc name "crate" f2 f3 f4) := by
    unfold parseLine
    rw [hline]
    have h1 : (name == "#") = false := by simpa using hcomment
    simp only [h1, Bool.false_eq_true, if_false]
    rfl
  have hloc : THaDecData.lineLoc name "crate" f2 f3 f4 =
      BdataLoc.mkSlot name (atoi f2) (atoi f3) (atoi f4) := by
    unfold THaDecData.lineLoc
    simp
  -- the state after the lines before the line
  have hfoldsplit : (pre ++ line :: post).foldl (THaDecData.setupLine false) base =
      post.foldl (THaDecData.setupLine false)
        (THaDecData.setupLine false (pre.foldl (THaDecData.setupLine false) base) line) := by
    rw [List.foldl_append, List.foldl_cons]
  generalize hs1 : pre.foldl (THaDecData.setupLine false) base = s1 at hfoldsplit
  have hs1p : s1.fPrefix = s.fPrefix := by
    rw [← hs1, THaDecData.freshFold_fPrefix, hbp]
  have hs1v : varFind s1.gHaVars (s.fPrefix ++ name) = none := by
    have := THaDecData.freshFold_varFind_none name pre base hfirst
      (by rw [hbp]; exact hbv name hname hnovar)
    rw [hbp, hs1] at this
    exact this
  -- the line itself
  have hfound : varsNames.contains name = false := by
    simpa using hname
  have hstep : THaDecData.setupLine false s1 line =
      THaDecData.insertLoc s1 false true (BdataLoc.mkSlot name (atoi f2) (atoi f3) (atoi f4)) := by
    rw [THaDecData.setupLine_fresh, hparse]
    show THaDecData.insertLoc s1 (varsNames.contains
      (THaDecData.lineLoc name "crate" f2 f3 f4).fName) true _ = _
    rw [THaDecData.lineLoc_fName, hfound, hloc]
  generalize hs2 : THaDecData.setupLine false s1 line = s2 at hfoldsplit hstep
  have hs2c : s2.fCrateLoc =
      s1.fCrateLoc ++ [BdataLoc.mkSlot name (atoi f2) (atoi f3) (atoi f4)] := by
    rw [hstep, THaDecData.insertLoc_fCrateLoc]; rfl
  have hs2v : varFind s2.gHaVars (s.fPrefix ++ name) =
      some { name := s.fPrefix ++ name, target := VarTarget.crateLoc s1.fCrateLoc.length } := by
    rw [hstep, THaDecData.insertLoc_gHaVars]
    simp only [Bool.false_eq_true, if_false, if_true]
    show varFind (varDefine s1.gHaVars (s1.fPrefix ++ name) _) _ = _
    rw [hs1p]
    exact varFind_varDefine_self _ _ _ hs1v
  -- the lines after the line
  have hs3v := THaDecData.freshFold_varFind_some _ _ post s2 hs2v
  have hs3c := (THaDecData.freshFold_locs post s2).1
  rw [← hfoldsplit] at hs3v hs3c
  have hrv : varFind r.2.gHaVars (s.fPrefix ++ name) =
      some { name := s.fPrefix ++ name, target := VarTarget.crateLoc s1.fCrateLoc.length } := by
    rw [hsame.2.2.1]; exact hs3v
  have hrc : r.2.fCrateLoc[s1.fCrateLoc.length]? =
      some (BdataLoc.mkSlot name (atoi f2) (atoi f3) (atoi f4)) := by
    rw [hsame.1, hs3c, hs2c, List.append_assoc,
      List.getElem?_append_right (le_refl _), Nat.sub_self]
    simp
  -- decoding
  obtain ⟨hd0, d, hd, hdn, hdc, hds, hdch, hdnum, hdget⟩ :=
    C1_core evdata r.2 s1.fCrateLoc.length
      (BdataLoc.mkSlot name (atoi f2) (atoi f3) (atoi f4)) k hok hrc rfl hk
  refine ⟨hd0, s1.fCrateLoc.length, d, ?_, hd, hdn, hdc, hds, hdch, hdnum, ?_⟩
  · rw [THaDecData.Decode_ok evdata r.2 hok]
    show varFind (THaDecData.decodeBody evdata r.2).gHaVars _ = _
    rw [(THaDecData.decodeBody_gHaVars evdata r.2).1]
    exact hrv
  · have h0 : 0 < min k 16 := by omega
    exact hdget 0 h0

/-- Witness of C4 (amended): the file holds the line `foo crate 1 2 3`, the raw
interface reports one hit of value 42 at (1,2,3); the generic channel
`D.foo` has sample count 1 and first sample 42. -/
theorem C4_generic_channel_end_to_end_witness :
    (THaDecData.Decode evOneHit stFoo).1 = 0 ∧
    ∃ (i : Nat) (d : BdataLoc),
      varFind (THaDecData.Decode evOneHit stFoo).2.gHaVars ("D." ++ "foo") =
        some { name := "D." ++ "foo", target := VarTarget.crateLoc i } ∧
      (THaDecData.Decode evOneHit stFoo).2.fCrateLoc[i]? = some d ∧
      d.fName = "foo" ∧ d.crate = 1 ∧ d.slot = 2 ∧ d.chan = 3 ∧
      d.NumHits = 1 ∧ d.Get 0 = 42 :=
  C4_generic_channel_end_to_end evOneHit (THaDecData.new "D." 8) [] [] "foo crate 1 2 3"
    "foo" "1" "2" "3" [] 1 (by decide) (by decide) (by decide) (by decide) (by decide)
    (by intro l hl; cases hl) (by decide) (by decide) (by decide)

/-- C4 (as stated) fails for a mapping file that carries the name on several
lines: the file holds the valid line `foo crate 1 2 3` and the raw interface
reports one hit of value 42 at (1,2,3), yet the location bound to the generic
output variable `D.foo` (the first one of that name, at (9,9,9)) has sample
count 0. The location of the last line of that name is at (9,9,9) too. -/
theorem C4_counterexample :
    "foo" ∉ varsNames ∧
    parseLine "foo crate 1 2 3" = some (true, BdataLoc.mkSlot "foo" 1 2 3) ∧
    evOneHit.GetNumHits 1 2 3 = 1 ∧ evOneHit.GetData 1 2 3 0 = 42 ∧
    (THaDecData.Decode evOneHit stFooDup).1 = 0 ∧
    varFind (THaDecData.Decode evOneHit stFooDup).2.gHaVars "D.foo" =
      some { name := "D.foo", target := VarTarget.crateLoc 0 } ∧
    (THaDecData.Decode evOneHit stFooDup).2.fCrateLoc.map
        (fun b => (b.fName, b.crate, b.slot, b.chan, b.NumHits)) =
      [("foo", 9, 9, 9, 0), ("foo", 1, 2, 3, 1), ("foo", 9, 9, 9, 0)] ∧
    (THaDecData.Decode evOneHit stFooDup).2.fCrateLoc[0]?.map BdataLoc.NumHits ≠
      some ((min 1 16 : Nat) : Int) := by
  refine ⟨by decide, by decide, by decide, by decide, by decide, by decide, by decide,
    by decide⟩

/-! ## Numbers in text -/

theorem digitChar_dec (d : Nat) (hd : d < 10) :
    (Nat.digitChar d).isDigit = true ∧ digitVal (Nat.digitChar d) = d ∧
    isspace (Nat.digitChar d) = false ∧ Nat.digitChar d ≠ '-' ∧ Nat.digitChar d ≠ '+' := by
  interval_cases d <;> decide

theorem digitChar_hex (d : Nat) (hd : d < 16) :
    chexIndex (Nat.digitChar d) = some d ∧ isspace (Nat.digitChar d) = false := by
  interval_cases d <;> decide

theorem atoiDigits_cons (acc : Nat) (c : Char) (cs : List Char) :
    atoiDigits acc (c :: cs) =
      if c.isDigit then atoiDigits (acc * 10 + digitVal c) cs else acc := rfl

/-- Reading back the decimal digits that `Nat.toDigitsCore` writes. -/
theorem atoiDigits_toDigitsCore (fuel : Nat) :
    ∀ (n : Nat) (ds : List Char), n < fuel →
      ∃ k : Nat, ∀ acc : Nat,
        atoiDigits acc (Nat.toDigitsCore 10 fuel n ds) = atoiDigits (acc * 10 ^ k + n) ds := by
  induction fuel with
  | zero => intro n ds h; exact absurd h (Nat.not_lt_zero n)
  | succ f ih =>
    intro n ds hn
    obtain ⟨hdig, hval, _, _, _⟩ := digitChar_dec (n % 10) (Nat.mod_lt n (by decide))
    unfold Nat.toDigitsCore
    dsimp only
    by_cases h0 : n / 10 = 0
    · rw [if_pos h0]
      refine ⟨1, fun acc => ?_⟩
      have hn10 : n % 10 = n := by omega
      rw [atoiDigits_cons, if_pos hdig, hval, hn10, pow_one]
    · rw [if_neg h0]
      obtain ⟨k, hk⟩ := ih (n / 10) (Nat.digitChar (n % 10) :: ds) (by omega)
      refine ⟨k + 1, fun acc => ?_⟩
      rw [hk acc, atoiDigits_cons, if_pos hdig, hval]
      congr 1
      have := Nat.div_add_mod n 10
      rw [pow_succ]
      nlinarith [this]

/-- The characters `Nat.toDigitsCore` writes in base 10 are decimal digits. -/
theorem toDigitsCore_dec_chars (fuel : Nat) :
    ∀ (n : Nat) (ds : List Char), ∀ c ∈ Nat.toDigitsCore 10 fuel n ds,
      c ∈ ds ∨ (c.isDigit = true ∧ isspace c = false ∧ c ≠ '-' ∧ c ≠ '+') := by
  induction fuel with
  | zero => intro n ds c hc; exact Or.inl hc
  | succ f ih =>
    intro n ds
    obtain ⟨hdig, _, hsp, hm, hp⟩ := digitChar_dec (n % 10) (Nat.mod_lt n (by decide))
    unfold Nat.toDigitsCore
    dsimp only
    by_cases h0 : n / 10 = 0
    · rw [if_pos h0]
      intro c hc
      rcases List.mem_cons.mp hc with h | h
      · right; rw [h]; exact ⟨hdig, hsp, hm, hp⟩
      · left; exact h
    · rw [if_neg h0]
      intro c hc
      rcases ih (n / 10) (Nat.digitChar (n % 10) :: ds) c hc with h | h
      · rcases List.mem_cons.mp h with h' | h'
        · right; rw [h']; exact ⟨hdig, hsp, hm, hp⟩
        · left; exact h'
      · right; exact h

/-- `Nat.toDigitsCore` writes at least one character when it has fuel. -/
theorem toDigitsCore_ne_nil (b fuel : Nat) :
    ∀ (n : Nat) (ds : List Char), ds ≠ [] ∨ 0 < fuel → Nat.toDigitsCore b fuel n ds ≠ [] := by
  induction fuel with
  | zero =>
    intro n ds h
    rcases h with h | h
    · unfold Nat.toDigitsCore; exact h
    · exact absurd h (Nat.lt_irrefl 0)
  | succ f ih =>
    intro n ds _
    unfold Nat.toDigitsCore
    dsimp only
    split
    · exact List.cons_ne_nil _ _
    · exact ih _ _ (Or.inl (List.cons_ne_nil _ _))

theorem decStr_data (n : Nat) : (decStr n).data = Nat.toDigits 10 n := rfl

theorem decStr_chars (n : Nat) :
    ∀ c ∈ (decStr n).data, c.isDigit = true ∧ isspace c = false ∧ c ≠ '-' ∧ c ≠ '+' := by
  intro c hc
  rw [decStr_data] at hc
  rcases toDigitsCore_dec_chars (n + 1) n [] c hc with h | h
  · cases h
  · exact h

theorem decStr_isField (n : Nat) : isField (decStr n) :=
  ⟨toDigitsCore_ne_nil 10 (n + 1) n [] (Or.inr (Nat.succ_pos n)),
   fun c hc => (decStr_chars n c hc).2.1⟩

theorem wrapInt_t_of_small (n : Nat) (h : n < 2147483648) : wrapInt_t (n : Int) = (n : Int) := by
  unfold wrapInt_t
  omega

/-- `atoi` reads back the decimal text of a number that fits an `Int_t`. -/
theorem atoi_decStr (n : Nat) (h : n < 2147483648) : atoi (decStr n) = (n : Int) := by
  have hne := (decStr_isField n).1
  have hch := decStr_chars n
  have hval : atoiDigits 0 (decStr n).data = n := by
    rw [decStr_data]
    obtain ⟨k, hk⟩ := atoiDigits_toDigitsCore (n + 1) n [] (Nat.lt_succ_self n)
    have := hk 0
    rw [Nat.zero_mul, Nat.zero_add] at this
    exact this
  unfold atoi
  have htl : (decStr n).toList = (decStr n).data := rfl
  rw [htl]
  generalize (decStr n).data = cs at hne hch hval
  cases cs with
  | nil => exact absurd rfl hne
  | cons c cs =>
    obtain ⟨_, hsp, hm, hp⟩ := hch c (List.mem_cons_self _ _)
    have hdw : List.dropWhile isspace (c :: cs) = c :: cs := by
      rw [List.dropWhile_cons, hsp]
      rfl
    rw [hdw]
    split
    · next heq => exact absurd (List.cons.inj heq).1 hm
    · next heq => exact absurd (List.cons.inj heq).1 hp
    · rw [hval]
      exact wrapInt_t_of_small n h

theorem decStr_injective (i j : Nat) (h : decStr i = decStr j) : i = j := by
  have hi : atoiDigits 0 (decStr i).data = i := by
    rw [decStr_data]
    obtain ⟨k, hk⟩ := atoiDigits_toDigitsCore (i + 1) i [] (Nat.lt_succ_self i)
    have := hk 0
    rw [Nat.zero_mul, Nat.zero_add] at this
    exact this
  have hj : atoiDigits 0 (decStr j).data = j := by
    rw [decStr_data]
    obtain ⟨k, hk⟩ := atoiDigits_toDigitsCore (j + 1) j [] (Nat.lt_succ_self j)
    have := hk 0
    rw [Nat.zero_mul, Nat.zero_add] at this
    exact this
  rw [← hi, ← hj, h]

theorem Form_bit_injective (i j : Nat) (h : Form_bit i = Form_bit j) : i = j :=
  decStr_injective i j (string_append_left_cancel "bit" _ _ h)

theorem hexFold_cons (st : Nat × Nat) (c : Char) (cs : List Char) :
    (c :: cs).reverse.foldl hexStep st = hexStep (cs.reverse.foldl hexStep st) c := by
  rw [List.reverse_cons, List.foldl_append]
  rfl

theorem hexStep_digit (st : Nat × Nat) (d : Nat) (hd : d < 16) :
    hexStep st (Nat.digitChar d) =
      ((st.1 + d * st.2) % 4294967296, (st.2 * 16) % 4294967296) := by
  unfold hexStep
  rw [(digitChar_hex d hd).1]

/-- Reading back, from the last character to the first, the hexadecimal
digits that `Nat.toDigitsCore` writes. -/
theorem hexFold_toDigitsCore (st : Nat × Nat) (fuel : Nat) :
    ∀ (n : Nat) (ds : List Char), n < fuel →
      ((Nat.toDigitsCore 16 fuel n ds).reverse.foldl hexStep st).1 =
        ((ds.reverse.foldl hexStep st).1 + n * (ds.reverse.foldl hexStep st).2) % 4294967296 := by
  induction fuel with
  | zero => intro n ds h; exact absurd h (Nat.not_lt_zero n)
  | succ f ih =>
    intro n ds hn
    have hd : n % 16 < 16 := Nat.mod_lt n (by decide)
    unfold Nat.toDigitsCore
    dsimp only
    by_cases h0 : n / 16 = 0
    · rw [if_pos h0, hexFold_cons, hexStep_digit _ _ hd]
      have hn16 : n % 16 = n := by omega
      rw [hn16]
    · rw [if_neg h0, ih (n / 16) (Nat.digitChar (n % 16) :: ds) (by omega), hexFold_cons,
        hexStep_digit _ _ hd]
      generalize (ds.reverse.foldl hexStep st).1 = r
      generalize (ds.reverse.foldl hexStep st).2 = q
      show ((r + n % 16 * q) % 4294967296 + n / 16 * (q * 16 % 4294967296)) % 4294967296 =
        (r + n * q) % 4294967296
      have e1 : (r + n % 16 * q) % 4294967296 + n / 16 * (q * 16 % 4294967296) ≡
          (r + n % 16 * q) + n / 16 * (q * 16) [MOD 4294967296] :=
        Nat.ModEq.add (Nat.mod_modEq _ _) (Nat.ModEq.mul_left _ (Nat.mod_modEq _ _))
      have e2 : (r + n % 16 * q) + n / 16 * (q * 16) = r + n * q := by
        have := Nat.div_add_mod n 16
        nlinarith [this]
      rw [e2] at e1
      exact e1

theorem hexStr_data (m : Nat) : (hexStr m).data = Nat.toDigits 16 m := rfl

/-- `header_str_to_base16` reads back the hexadecimal text of a 32-bit word. -/
theorem header_str_to_base16_hexStr (m : Nat) (h : m < 4294967296) :
    header_str_to_base16 (hexStr m) = m := by
  unfold header_str_to_base16
  have htl : (hexStr m).toList = Nat.toDigits 16 m := rfl
  rw [htl]
  unfold Nat.toDigits
  rw [hexFold_toDigitsCore (0, 1) (m + 1) m [] (Nat.lt_succ_self m)]
  show (0 + m * 1) % 4294967296 = m
  rw [Nat.zero_add, Nat.mul_one, Nat.mod_eq_of_lt h]

/-- The characters `Nat.toDigitsCore` writes in base 16 are no whitespace. -/
theorem toDigitsCore_hex_chars (fuel : Nat) :
    ∀ (n : Nat) (ds : List Char), ∀ c ∈ Nat.toDigitsCore 16 fuel n ds,
      c ∈ ds ∨ isspace c = false := by
  induction fuel with
  | zero => intro n ds c hc; exact Or.inl hc
  | succ f ih =>
    intro n ds
    have hsp := (digitChar_hex (n % 16) (Nat.mod_lt n (by decide))).2
    unfold Nat.toDigitsCore
    dsimp only
    by_cases h0 : n / 16 = 0
    · rw [if_pos h0]
      intro c hc
      rcases List.mem_cons.mp hc with h | h
      · right; rw [h]; exact hsp
      · left; exact h
    · rw [if_neg h0]
      intro c hc
      rcases ih (n / 16) (Nat.digitChar (n % 16) :: ds) c hc with h | h
      · rcases List.mem_cons.mp h with h' | h'
        · right; rw [h']; exact hsp
        · left; exact h'
      · right; exact h

theorem hexStr_isField (m : Nat) : isField (hexStr m) := by
  refine ⟨toDigitsCore_ne_nil 16 (m + 1) m [] (Or.inr (Nat.succ_pos m)), fun c hc => ?_⟩
  rw [hexStr_data] at hc
  rcases toDigitsCore_hex_chars (m + 1) m [] c hc with h | h
  · cases h
  · exact h

/-! ## Splitting a line into fields -/

theorem vsplitAux_field (t : List Char) :
    ∀ (cur rest : List Char), (∀ c ∈ t, isspace c = false) →
      vsplitAux cur (t ++ rest) = vsplitAux (t.reverse ++ cur) rest := by
  induction t with
  | nil => intro cur rest _; rfl
  | cons a t ih =>
    intro cur rest ht
    have ha : isspace a = false := ht a (List.mem_cons_self _ _)
    rw [List.cons_append]
    conv_lhs => unfold vsplitAux
    rw [ha]
    simp only [Bool.false_eq_true, if_false]
    rw [ih (a :: cur) rest (fun c hc => ht c (List.mem_cons_of_mem _ hc)),
      List.reverse_cons, List.append_assoc]
    rfl

theorem vsplitAux_blank (cur rest : List Char) (hcur : cur ≠ []) :
    vsplitAux cur (' ' :: rest) = String.mk cur.reverse :: vsplitAux [] rest := by
  conv_lhs => unfold vsplitAux
  have h1 : isspace ' ' = true := by decide
  have h2 : cur.isEmpty = false := by
    cases cur with
    | nil => exact absurd rfl hcur
    | cons _ _ => rfl
  rw [h1, h2]
  simp only [if_true, Bool.false_eq_true, if_false]

theorem vsplitAux_end (cur : List Char) (hcur : cur ≠ []) :
    vsplitAux cur [] = [String.mk cur.reverse] := by
  unfold vsplitAux
  have h2 : cur.isEmpty = false := by
    cases cur with
    | nil => exact absurd rfl hcur
    | cons _ _ => rfl
  rw [h2]
  simp only [Bool.false_eq_true, if_false]

/-- A field followed by a blank is split off as the first field. -/
theorem vsplitAux_field_blank (t : String) (rest : List Char) (ht : isField t) :
    vsplitAux [] (t.data ++ ' ' :: rest) = t :: vsplitAux [] rest := by
  rw [vsplitAux_field t.data [] _ ht.2, List.append_nil,
    vsplitAux_blank _ _ (by simpa using ht.1), List.reverse_reverse]

theorem vsplitAux_field_end (t : String) (ht : isField t) :
    vsplitAux [] t.data = [t] := by
  have := vsplitAux_field t.data [] [] ht.2
  rw [List.append_nil, List.append_nil] at this
  rw [this, vsplitAux_end _ (by simpa using ht.1), List.reverse_reverse]

/-- Five fields joined by single blanks are split into these five fields. -/
theorem vsplit_mapLine (f0 f1 f2 f3 f4 : String) (h0 : isField f0) (h1 : isField f1)
    (h2 : isField f2) (h3 : isField f3) (h4 : isField f4) :
    vsplit (mapLine f0 f1 f2 f3 f4) = [f0, f1, f2, f3, f4] := by
  unfold vsplit mapLine
  have hd : (f0 ++ " " ++ f1 ++ " " ++ f2 ++ " " ++ f3 ++ " " ++ f4).toList =
      f0.data ++ ' ' :: (f1.data ++ ' ' :: (f2.data ++ ' ' :: (f3.data ++ ' ' :: f4.data))) := by
    show (f0 ++ " " ++ f1 ++ " " ++ f2 ++ " " ++ f3 ++ " " ++ f4).data = _
    simp only [String.data_append, List.append_assoc, List.singleton_append, List.cons_append,
      List.nil_append]
  rw [hd, vsplitAux_field_blank f0 _ h0, vsplitAux_field_blank f1 _ h1,
    vsplitAux_field_blank f2 _ h2, vsplitAux_field_blank f3 _ h3, vsplitAux_field_end f4 h4]

/-! ## Round trip of a mapping line -/

/-- The line `<name> crate <c> <s> <ch>` is read as the slot-addressed
location `(c, s, ch)`. -/
theorem parseLine_slot (name : String) (c sl ch : Nat) (hname : isField name)
    (hname2 : name ≠ "#") (hc : c < 2147483648) (hs : sl < 2147483648)
    (hch : ch < 2147483648) :
    parseLine (mapLine name "crate" (decStr c) (decStr sl) (decStr ch)) =
      some (true, BdataLoc.mkSlot name (c : Int) (sl : Int) (ch : Int)) := by
  unfold parseLine
  rw [vsplit_mapLine name "crate" _ _ _ hname ⟨by decide, by decide⟩ (decStr_isField c)
    (decStr_isField sl) (decStr_isField ch)]
  have h1 : (name == "#") = false := by simpa using hname2
  simp only [h1, Bool.false_eq_true, if_false]
  unfold THaDecData.lineLoc
  rw [atoi_decStr c hc, atoi_decStr sl hs, atoi_decStr ch hch]
  rfl

/-- The line `<name> <keyword> <c> <hex(m)> <k>` with a keyword other than
`crate` is read as the marker-relative location `(c, m, k)`. -/
theorem parseLine_marker (name keyword : String) (c k m : Nat) (hname : isField name)
    (hname2 : name ≠ "#") (hkw : isField keyword) (hkw2 : keyword ≠ "crate")
    (hc : c < 2147483648) (hk : k < 2147483648) (hm : m < 4294967296) :
    parseLine (mapLine name keyword (decStr c) (hexStr m) (decStr k)) =
      some (false, BdataLoc.mkHeader name (c : Int) m (k : Int)) := by
  unfold parseLine
  rw [vsplit_mapLine name keyword _ _ _ hname hkw (decStr_isField c)
    (hexStr_isField m) (decStr_isField k)]
  have h1 : (name == "#") = false := by simpa using hname2
  have h2 : (keyword == "crate") = false := by simpa using hkw2
  simp only [h1, Bool.false_eq_true, if_false]
  unfold THaDecData.lineLoc
  rw [atoi_decStr c hc, atoi_decStr k hk, header_str_to_base16_hexStr m hm, h2]
  rfl

theorem slotLocsOf_single (line : String) (b : BdataLoc)
    (h : parseLine line = some (true, b)) :
    slotLocsOf [line] = [b] ∧ markerLocsOf [line] = [] := by
  unfold slotLocsOf markerLocsOf
  simp [List.filterMap_cons, h]

theorem markerLocsOf_single (line : String) (b : BdataLoc)
    (h : parseLine line = some (false, b)) :
    slotLocsOf [line] = [] ∧ markerLocsOf [line] = [b] := by
  unfold slotLocsOf markerLocsOf
  simp [List.filterMap_cons, h]

/-- C9. Mapping-line round trip: for fields `name` and `keyword` (not empty,
free of whitespace, the name not the comment mark `#`, the keyword not
`crate`), integers `0 <= c, s, ch, k < 2^31` and a word `m < 2^32`, a Fresh
`SetupDecData` on the line `<name> crate <c> <s> <ch>` yields the one
slot-addressed location with crate `c`, slot `s`, channel `ch`, and on the
line `<name> <keyword> <c> <hex(m)> <k>` the one marker-relative location with
crate `c`, marker `m`, skip `k`; writing the address fields of the location
that was read gives back the line. -/
theorem C9_mapping_line_round_trip (st : THaDecData) (name keyword : String)
    (c sl ch k m : Nat) (hfresh : st.fIsSetup = false)
    (hname : isField name) (hname2 : name ≠ "#") (hkw : isField keyword)
    (hkw2 : keyword ≠ "crate") (hc : c < 2147483648) (hs : sl < 2147483648)
    (hch : ch < 2147483648) (hk : k < 2147483648) (hm : m < 4294967296) :
    (∃ b : BdataLoc,
      (THaDecData.SetupDecData
        (some [mapLine name "crate" (decStr c) (decStr sl) (decStr ch)])
        EMode.kDefine st).2.fCrateLoc = [b] ∧
      (THaDecData.SetupDecData
        (some [mapLine name "crate" (decStr c) (decStr sl) (decStr ch)])
        EMode.kDefine st).2.fWordLoc = [] ∧
      b.fName = name ∧ b.IsSlot = true ∧
      b.crate = (c : Int) ∧ b.slot = (sl : Int) ∧ b.chan = (ch : Int) ∧
      mapLine b.fName "crate" (decStr b.crate.toNat) (decStr b.slot.toNat)
          (decStr b.chan.toNat) =
        mapLine name "crate" (decStr c) (decStr sl) (decStr ch)) ∧
    (∃ b : BdataLoc,
      (THaDecData.SetupDecData
        (some [mapLine name keyword (decStr c) (hexStr m) (decStr k)])
        EMode.kDefine st).2.fWordLoc = [b] ∧
      (THaDecData.SetupDecData
        (some [mapLine name keyword (decStr c) (hexStr m) (decStr k)])
        EMode.kDefine st).2.fCrateLoc = [] ∧
      b.fName = name ∧ b.IsSlot = false ∧
      b.crate = (c : Int) ∧ b.header = m ∧ b.ntoskip = (k : Int) ∧
      mapLine b.fName keyword (decStr b.crate.toNat) (hexStr b.header)
          (decStr b.ntoskip.toNat) =
        mapLine name keyword (decStr c) (hexStr m) (decStr k)) := by
  constructor
  · have hp := parseLine_slot name c sl ch hname hname2 hc hs hch
    obtain ⟨h1, h2⟩ := THaDecData.SetupDecData_fresh_locs
      [mapLine name "crate" (decStr c) (decStr sl) (decStr ch)] st hfresh
    obtain ⟨e1, e2⟩ := slotLocsOf_single _ _ hp
    exact ⟨_, h1.trans e1, h2.trans e2, rfl, rfl, rfl, rfl, rfl, rfl⟩
  · have hp := parseLine_marker name keyword c k m hname hname2 hkw hkw2 hc hk hm
    obtain ⟨h1, h2⟩ := THaDecData.SetupDecData_fresh_locs
      [mapLine name keyword (decStr c) (hexStr m) (decStr k)] st hfresh
    obtain ⟨e1, e2⟩ := markerLocsOf_single _ _ hp
    exact ⟨_, h2.trans e2, h1.trans e1, rfl, rfl, rfl, rfl, rfl, rfl⟩

/-- Witness of C9: the lines `ts crate 14 2 3` and `ts header 14 fca56000 2`. -/
theorem C9_mapping_line_round_trip_witness :
    mapLine "ts" "crate" (decStr 14) (decStr 2) (decStr 3) = "ts crate 14 2 3" ∧
    mapLine "ts" "header" (decStr 14) (hexStr 0xfca56000) (decStr 2) =
      "ts header 14 fca56000 2" ∧
    (∃ b : BdataLoc,
      (THaDecData.SetupDecData
        (some [mapLine "ts" "crate" (decStr 14) (decStr 2) (decStr 3)])
        EMode.kDefine (THaDecData.new "D." 8)).2.fCrateLoc = [b] ∧
      (THaDecData.SetupDecData
        (some [mapLine "ts" "crate" (decStr 14) (decStr 2) (decStr 3)])
        EMode.kDefine (THaDecData.new "D." 8)).2.fWordLoc = [] ∧
      b.fName = "ts" ∧ b.IsSlot = true ∧
      b.crate = 14 ∧ b.slot = 2 ∧ b.chan = 3 ∧
      mapLine b.fName "crate" (decStr b.crate.toNat) (decStr b.slot.toNat)
          (decStr b.chan.toNat) =
        mapLine "ts" "crate" (decStr 14) (decStr 2) (decStr 3)) ∧
    (∃ b : BdataLoc,
      (THaDecData.SetupDecData
        (some [mapLine "ts" "header" (decStr 14) (hexStr 0xfca56000) (decStr 2)])
        EMode.kDefine (THaDecData.new "D." 8)).2.fWordLoc = [b] ∧
      (THaDecData.SetupDecData
        (some [mapLine "ts" "header" (decStr 14) (hexStr 0xfca56000) (decStr 2)])
        EMode.kDefine (THaDecData.new "D." 8)).2.fCrateLoc = [] ∧
      b.fName = "ts" ∧ b.IsSlot = false ∧
      b.crate = 14 ∧ b.header = 0xfca56000 ∧ b.ntoskip = 2 ∧
      mapLine b.fName "header" (decStr b.crate.toNat) (hexStr b.header)
          (decStr b.ntoskip.toNat) =
        mapLine "ts" "header" (decStr 14) (hexStr 0xfca56000) (decStr 2)) :=
  ⟨by decide, by decide,
   C9_mapping_line_round_trip (THaDecData.new "D." 8) "ts" "header" 14 2 3 2 0xfca56000
     (by decide) ⟨by decide, by decide⟩ (by decide) ⟨by decide, by decide⟩ (by decide)
     (by decide) (by decide) (by decide) (by decide) (by decide)⟩

/-! ## The scalar outputs under the default mapping -/

/-- C5 at a failing input. Under the default mapping the names of `fCrateLoc`
are distinct and entry 7 is the slot-addressed location `pulser1` at (3,3,7);
the event reports one hit of value 123 there. After the successful `Decode`
the location holds the sample 123, the scalar `pulser1` is 0; the scalar
`synchadc1` does receive the first sample, 77, of its location. -/
theorem C5_pulser1_not_projected :
    (stDefault.fCrateLoc.map (fun b => b.fName)).Nodup ∧
    stDefault.fCrateLoc[7]? = some (BdataLoc.mkSlot "pulser1" 3 3 7) ∧
    (THaDecData.Decode evDefault stDefault).1 = 0 ∧
    (THaDecData.Decode evDefault stDefault).2.fCrateLoc[7]?.map
        (fun b => (b.fName, b.IsSlot, b.NumHits, b.Get 0)) =
      some ("pulser1", true, 1, 123) ∧
    (THaDecData.Decode evDefault stDefault).2.pulser1 = 0 ∧
    (THaDecData.Decode evDefault stDefault).2.fCrateLoc[0]?.map
        (fun b => (b.fName, b.IsSlot, b.NumHits, b.Get 0)) =
      some ("synchadc1", true, 1, 77) ∧
    (THaDecData.Decode evDefault stDefault).2.synchadc1 = 77 := by
  refine ⟨by decide, by decide, by decide, by decide, by decide, by decide, by decide⟩

/-- C6 at a failing input. After a Fresh `Init` in which no mapping file is
found, the location `timestamp` (crate 14, marker `0xfca56000`, skip 2) is
entry 8 of `fCrateLoc`, not an entry of `fWordLoc`. Crate 14 of the event
holds the marker at position 0 and the word 7 two positions later; after the
successful `Decode` the scalar `timestamp` is 0 and the location holds no
sample. The scalar `timeroc1` does receive the word 99 found 4 positions
after its marker in crate 1. -/
theorem C6_timestamp_not_decoded :
    stDefault.fCrateLoc[8]? = some (BdataLoc.mkHeader "timestamp" 14 0xfca56000 2) ∧
    stDefault.fWordLoc.map (fun b => b.fName) =
      ["timeroc1", "timeroc2", "timeroc3", "timeroc4", "timeroc14"] ∧
    toUInt_t (evDefault.GetRawData 14 0) = 0xfca56000 ∧
    toUInt_t (evDefault.GetRawData 14 (0 + 2)) = 7 ∧
    (THaDecData.Decode evDefault stDefault).1 = 0 ∧
    (THaDecData.Decode evDefault stDefault).2.timestamp = 0 ∧
    (THaDecData.Decode evDefault stDefault).2.fCrateLoc[8]?.map
        (fun b => (b.fName, b.NumHits)) = some ("timestamp", 0) ∧
    (THaDecData.Decode evDefault stDefault).2.timeroc1 = 99 := by
  refine ⟨by decide, by decide, by decide, by decide, by decide, by decide, by decide,
    by decide⟩

/-- C7 at two failing inputs. After the default mapping, entry 8 of
`fCrateLoc` is the location `timestamp`, which is in marker-relative mode.
After a Fresh load of the line `foo crate 1 2 3` and a Reinitialize load of
the line `foo header 1 aa 0`, the location `foo` is still in `fCrateLoc` and
is in marker-relative mode, and `fWordLoc` is empty. -/
theorem C7_partition_broken :
    stDefault.fCrateLoc[8]?.map (fun b => (b.fName, b.IsSlot)) = some ("timestamp", false) ∧
    stFoo.fIsSetup = true ∧
    stFoo.fCrateLoc.map (fun b => (b.fName, b.IsSlot)) = [("foo", true)] ∧
    stReinitMode.fCrateLoc.map (fun b => (b.fName, b.IsSlot, b.crate, b.header, b.ntoskip)) =
      [("foo", false, 1, 170, 0)] ∧
    stReinitMode.fWordLoc = [] := by
  refine ⟨by decide, by decide, by decide, by decide, by decide⟩

/-! ## The trigger bits -/

theorem sameBit_refl (i : Nat) (s : THaDecData) : sameBit i s s := ⟨rfl, rfl, le_refl _⟩

theorem sameBit_trans {i : Nat} {s t u : THaDecData} (h1 : sameBit i s t)
    (h2 : sameBit i t u) : sameBit i s u :=
  ⟨h2.1.trans h1.1, h2.2.1.trans h1.2.1, le_trans h1.2.2 h2.2.2⟩

theorem sameBits_refl (s : THaDecData) : sameBits s s := ⟨rfl, rfl⟩

theorem sameBits_trans {s t u : THaDecData} (h1 : sameBits s t) (h2 : sameBits t u) :
    sameBits s u := ⟨h2.1.trans h1.1, h2.2.trans h1.2⟩

theorem sameBits_sameBit (i : Nat) {s t : THaDecData} (h : sameBits s t) : sameBit i s t := by
  refine ⟨by rw [h.1], by rw [h.2], by rw [h.1]⟩

theorem testBit_or_one_shiftLeft (m j i : Nat) :
    (m ||| (1 <<< j)).testBit i = (m.testBit i || decide (j = i)) := by
  rw [Nat.testBit_or, Nat.one_shiftLeft, Nat.testBit_two_pow]

theorem testBit_xor_one_shiftLeft (m j i : Nat) :
    (m ^^^ (1 <<< j)).testBit i = (m.testBit i ^^ decide (j = i)) := by
  rw [Nat.testBit_xor, Nat.one_shiftLeft, Nat.testBit_two_pow]

/-- The bits of the pattern after `SetBitNumber`. -/
theorem TBits.SetBitNumber_testBit (t : TBits) (j : Nat) (v : Bool) (i : Nat) :
    (t.SetBitNumber j v).fAllBits.testBit i =
      if j = i then v else t.fAllBits.testBit i := by
  unfold TBits.SetBitNumber
  dsimp only
  cases v
  · simp only [Bool.false_eq_true, if_false]
    by_cases hb : t.fAllBits.testBit j = true
    · rw [if_pos hb, testBit_xor_one_shiftLeft]
      by_cases hji : j = i
      · subst hji; simp [hb]
      · simp [hji]
    · rw [if_neg hb]
      by_cases hji : j = i
      · subst hji; simp at hb; simp [hb]
      · simp [hji]
  · simp only [if_true]
    rw [testBit_or_one_shiftLeft]
    by_cases hji : j = i
    · simp [hji]
    · simp [hji]

theorem TBits.SetBitNumber_fNbits (t : TBits) (j : Nat) (v : Bool) :
    t.fNbits ≤ (t.SetBitNumber j v).fNbits ∧ j < (t.SetBitNumber j v).fNbits := by
  unfold TBits.SetBitNumber
  dsimp only
  split <;> omega

/-- The loop over the hits in `TrigBits` for bit `j`. -/
theorem trigLoop_spec (j : Nat) (d : BdataLoc) (l : List Nat) :
    ∀ st : THaDecData, ∀ i : Nat,
      let r := l.foldl
        (fun st (ihit : Nat) =>
          if d.Get (ihit : Int) > 0 ∧ d.Get (ihit : Int) < 1500 then
            { st with bits := st.bits.SetBitNumber j true,
                      evtypebits := st.evtypebits ||| (1 <<< j) }
          else st) st
      r.bits.fAllBits.testBit i =
        (st.bits.fAllBits.testBit i || (decide (j = i) && l.any (qualifies d))) ∧
      r.evtypebits.testBit i =
        (st.evtypebits.testBit i || (decide (j = i) && l.any (qualifies d))) ∧
      st.bits.fNbits ≤ r.bits.fNbits := by
  induction l with
  | nil => intro st i; simp
  | cons a l ih =>
    intro st i
    dsimp only
    rw [List.foldl_cons]
    by_cases hq : d.Get (a : Int) > 0 ∧ d.Get (a : Int) < 1500
    · have hqb : qualifies d a = true := by unfold qualifies; exact decide_eq_true hq
      rw [if_pos hq]
      obtain ⟨h1, h2, h3⟩ := ih
        { st with bits := st.bits.SetBitNumber j true,
                  evtypebits := st.evtypebits ||| (1 <<< j) } i
      dsimp only at h1 h2 h3
      refine ⟨?_, ?_, le_trans (TBits.SetBitNumber_fNbits st.bits j true).1 h3⟩
      · rw [h1, TBits.SetBitNumber_testBit, List.any_cons, hqb]
        by_cases hji : j = i <;> simp [hji]
      · rw [h2, testBit_or_one_shiftLeft, List.any_cons, hqb]
        by_cases hji : j = i <;> simp [hji]
    · have hqb : qualifies d a = false := by unfold qualifies; exact decide_eq_false hq
      rw [if_neg hq]
      obtain ⟨h1, h2, h3⟩ := ih st i
      refine ⟨?_, ?_, h3⟩
      · rw [h1, List.any_cons, hqb, Bool.false_or]
      · rw [h2, List.any_cons, hqb, Bool.false_or]

/-- `TrigBits` for a bit number below 32: the bit is cleared in the pattern and
then set, in the pattern and in `evtypebits`, when a sample passes the cut;
the other bits are left alone. -/
theorem THaDecData.TrigBits_spec (s : THaDecData) (j : Nat) (d : BdataLoc) (hj : j < 32)
    (i : Nat) :
    (s.TrigBits j d).bits.fAllBits.testBit i =
      (if j = i then (List.range d.NumHits.toNat).any (qualifies d)
       else s.bits.fAllBits.testBit i) ∧
    (s.TrigBits j d).evtypebits.testBit i =
      (s.evtypebits.testBit i || (decide (j = i) && (List.range d.NumHits.toNat).any (qualifies d))) ∧
    s.bits.fNbits ≤ (s.TrigBits j d).bits.fNbits ∧
    j < (s.TrigBits j d).bits.fNbits := by
  unfold THaDecData.TrigBits
  rw [if_neg (by omega)]
  dsimp only
  obtain ⟨h1, h2, h3⟩ := trigLoop_spec j d (List.range d.NumHits.toNat)
    { s with bits := s.bits.ResetBitNumber j } i
  dsimp only at h1 h2 h3
  have hr := TBits.SetBitNumber_fNbits s.bits j false
  refine ⟨?_, h2, le_trans hr.1 h3, lt_of_lt_of_le hr.2 h3⟩
  rw [h1]
  show ((s.bits.SetBitNumber j false).fAllBits.testBit i || _) = _
  rw [TBits.SetBitNumber_testBit]
  by_cases hji : j = i <;> simp [hji]

theorem THaDecData.TrigBits_sameBit (s : THaDecData) (j : Nat) (d : BdataLoc) (i : Nat)
    (hji : j ≠ i) : sameBit i s (s.TrigBits j d) := by
  by_cases hj : j < 32
  · obtain ⟨h1, h2, h3, _⟩ := THaDecData.TrigBits_spec s j d hj i
    refine ⟨?_, ?_, h3⟩
    · rw [h1, if_neg hji]
    · rw [h2]; simp [hji]
  · unfold THaDecData.TrigBits
    rw [if_pos (by omega)]
    exact sameBit_refl i s

theorem foldl_invariant_mem {σ α : Type} (P : σ → Prop) (f : σ → α → σ) (l : List α)
    (h : ∀ s a, a ∈ l → P s → P (f s a)) : ∀ s, P s → P (l.foldl f s) := by
  induction l with
  | nil => intro s hs; exact hs
  | cons a l ih =>
    intro s hs
    exact ih (fun s x hx => h s x (List.mem_cons_of_mem _ hx)) (f s a)
      (h s a (List.mem_cons_self _ _) hs)

theorem BdataLoc.nameIs_iff (b : BdataLoc) (n : String) : b.nameIs n = true ↔ b.fName = n := by
  unfold BdataLoc.nameIs
  exact beq_iff_eq

/-- A location that is not named `bit<i>` leaves bit `i` alone in the third
loop of `Decode`. -/
theorem THaDecData.projectCrateLoc_sameBit (t : THaDecData) (e : BdataLoc) (i : Nat)
    (hne : e.fName ≠ Form_bit i) : sameBit i t (t.projectCrateLoc e) := by
  unfold THaDecData.projectCrateLoc
  split
  · next j hj =>
    have hp := List.find?_some hj
    have hname : e.fName = Form_bit j := (BdataLoc.nameIs_iff e _).mp hp
    have hji : j ≠ i := fun h => hne (h ▸ hname)
    exact THaDecData.TrigBits_sameBit t j e i hji
  · apply sameBits_sameBit
    repeat' first
      | apply ite_prop (sameBits t)
      | exact ⟨rfl, rfl⟩

/-- The location named `bit<i>` is handed to `TrigBits` with bit number `i`
when the pattern has at least `i` bits. -/
theorem THaDecData.projectCrateLoc_bit (t : THaDecData) (d : BdataLoc) (i : Nat)
    (hname : d.fName = Form_bit i) (hi1 : 1 ≤ i) (hin : i ≤ t.bits.GetNbits) :
    t.projectCrateLoc d = t.TrigBits i d := by
  unfold THaDecData.projectCrateLoc
  split
  · next j hj =>
    have hp := List.find?_some hj
    have hn : d.fName = Form_bit j := (BdataLoc.nameIs_iff d _).mp hp
    have : j = i := Form_bit_injective j i (hn.symm.trans hname)
    rw [this]
  · next hnone =>
    exfalso
    have hall := List.find?_eq_none.mp hnone i
      (List.mem_range'_1.mpr ⟨hi1, by omega⟩)
    exact hall ((BdataLoc.nameIs_iff d _).mpr hname)

theorem THaDecData.projectWordLoc_sameBits (s : THaDecData) (d : BdataLoc) :
    sameBits s (s.projectWordLoc d) := by
  unfold THaDecData.projectWordLoc
  repeat' first
    | apply ite_prop (sameBits s)
    | exact ⟨rfl, rfl⟩

theorem THaDecData.vdcPlane_sameBits (s : THaDecData) (ipl : Nat) :
    sameBits s (s.vdcPlane ipl) := by
  unfold THaDecData.vdcPlane
  split
  · exact sameBits_refl s
  · dsimp only
    split <;> exact ⟨rfl, rfl⟩

theorem THaDecData.vdcInit_sameBits (s : THaDecData) : sameBits s s.vdcInit := by
  unfold THaDecData.vdcInit
  apply ite_prop (sameBits s)
  · show sameBits s (THaDecData.vdcRebind _)
    apply ite_prop (fun t => sameBits s (THaDecData.vdcRebind t))
    · exact ⟨rfl, rfl⟩
    · exact ⟨rfl, rfl⟩
  · exact sameBits_refl s

theorem THaDecData.vdcFlush_sameBits (s : THaDecData) : sameBits s s.vdcFlush := by
  unfold THaDecData.vdcFlush
  apply ite_prop (sameBits s)
  · exact ⟨rfl, rfl⟩
  · exact ⟨rfl, rfl⟩

theorem THaDecData.VdcEff_sameBits (s : THaDecData) : sameBits s s.VdcEff := by
  unfold THaDecData.VdcEff
  apply sameBits_trans _ (THaDecData.vdcFlush_sameBits _)
  exact foldl_invariant (fun u => sameBits s u) _
    (fun u a hu => sameBits_trans hu (THaDecData.vdcPlane_sameBits u a)) _ _
    (THaDecData.vdcInit_sameBits s)

/-- In a list whose images under `f` are distinct, the entries before and
after position `idx` have an image other than that of the entry at `idx`. -/
theorem nodup_split_at {α β : Type} (f : α → β) (l : List α) (idx : Nat) (d : α)
    (hnd : (l.map f).Nodup) (hd : l[idx]? = some d) :
    l = l.take idx ++ d :: l.drop (idx + 1) ∧
    (∀ e ∈ l.take idx, f e ≠ f d) ∧ (∀ e ∈ l.drop (idx + 1), f e ≠ f d) := by
  obtain ⟨hlt, hget⟩ := List.getElem?_eq_some.mp hd
  have hsplit : l = l.take idx ++ d :: l.drop (idx + 1) := by
    conv_lhs => rw [← List.take_append_drop idx l]
    rw [← hget, List.drop_eq_getElem_cons hlt]
  refine ⟨hsplit, ?_, ?_⟩
  · intro e he hfe
    rw [hsplit, List.map_append, List.map_cons] at hnd
    have := (List.nodup_cons.mp (List.nodup_middle.mp hnd)).1
    apply this
    rw [List.mem_append]
    left
    rw [← hfe]
    exact List.mem_map_of_mem f he
  · intro e he hfe
    rw [hsplit, List.map_append, List.map_cons] at hnd
    have := (List.nodup_cons.mp (List.nodup_middle.mp hnd)).1
    apply this
    rw [List.mem_append]
    right
    rw [← hfe]
    exact List.mem_map_of_mem f he

theorem THaDecData.decodeCrateLoc_fName (evdata : THaEvData) (b : BdataLoc) :
    (THaDecData.decodeCrateLoc evdata b.Clear).fName = b.fName := by
  cases hs : b.Clear.IsSlot
  · rw [THaDecData.decodeCrateLoc_not_slot evdata b.Clear hs]; rfl
  · rw [THaDecData.decodeCrateLoc_eq evdata b.Clear hs]
    exact (BdataLoc.loadAll_sameDef _ b.Clear).1

theorem any_range_qualifies (d : BdataLoc) :
    (List.range d.NumHits.toNat).any (qualifies d) = true ↔
      ∃ j : Nat, (j : Int) < d.NumHits ∧ 0 < d.Get (j : Int) ∧ d.Get (j : Int) < 1500 := by
  rw [List.any_eq_true]
  constructor
  · rintro ⟨j, hj, hq⟩
    have hq2 := of_decide_eq_true hq
    exact ⟨j, by have := List.mem_range.mp hj; omega, hq2.1, hq2.2⟩
  · rintro ⟨j, hj, h1, h2⟩
    exact ⟨j, List.mem_range.mpr (by omega), decide_eq_true ⟨h1, h2⟩⟩

/-- The third and fourth loop of `Decode` leave bit `i` of the pattern and of
`evtypebits` as `TrigBits` sets it for the one location named `bit<i>`. -/
theorem THaDecData.decodeProject_bit (s5 : THaDecData) (idx : Nat) (d : BdataLoc) (i : Nat)
    (hd : s5.fCrateLoc[idx]? = some d) (hname : d.fName = Form_bit i) (hi1 : 1 ≤ i)
    (hi32 : i < 32) (hin : i ≤ s5.bits.GetNbits)
    (hnd : (s5.fCrateLoc.map (fun b => b.fName)).Nodup)
    (he : s5.evtypebits.testBit i = false) :
    s5.decodeProject.bits.fAllBits.testBit i =
        (List.range d.NumHits.toNat).any (qualifies d) ∧
    s5.decodeProject.evtypebits.testBit i =
        (List.range d.NumHits.toNat).any (qualifies d) ∧
    i < s5.decodeProject.bits.fNbits := by
  obtain ⟨hsplit, hpre, hpost⟩ := nodup_split_at (fun b => b.fName) s5.fCrateLoc idx d hnd hd
  generalize s5.fCrateLoc.take idx = l1 at hsplit hpre
  generalize s5.fCrateLoc.drop (idx + 1) = l2 at hsplit hpost
  -- the locations before
  have h1 : sameBit i s5 (l1.foldl THaDecData.projectCrateLoc s5) :=
    foldl_invariant_mem (fun u => sameBit i s5 u) _ l1
      (fun u a ha hu => sameBit_trans hu
        (THaDecData.projectCrateLoc_sameBit u a i (fun h => hpre a ha (h.trans hname.symm))))
      s5 (sameBit_refl i s5)
  generalize ht1 : l1.foldl THaDecData.projectCrateLoc s5 = t1 at h1
  -- the location itself
  have hstep : t1.projectCrateLoc d = t1.TrigBits i d :=
    THaDecData.projectCrateLoc_bit t1 d i hname hi1 (le_trans hin h1.2.2)
  obtain ⟨b1, b2, _, b4⟩ := THaDecData.TrigBits_spec t1 i d hi32 i
  rw [if_pos rfl] at b1
  have he1 : t1.evtypebits.testBit i = false := h1.2.1.trans he
  rw [he1, Bool.false_or, decide_eq_true rfl, Bool.true_and] at b2
  -- the locations after
  have h2 : sameBit i (t1.TrigBits i d) (l2.foldl THaDecData.projectCrateLoc (t1.TrigBits i d)) :=
    foldl_invariant_mem (fun u => sameBit i (t1.TrigBits i d) u) _ l2
      (fun u a ha hu => sameBit_trans hu
        (THaDecData.projectCrateLoc_sameBit u a i (fun h => hpost a ha (h.trans hname.symm))))
      _ (sameBit_refl i _)
  have h6 : s5.fCrateLoc.foldl THaDecData.projectCrateLoc s5 =
      l2.foldl THaDecData.projectCrateLoc (t1.TrigBits i d) := by
    conv_lhs => rw [hsplit]
    rw [List.foldl_append, List.foldl_cons, ht1, hstep]
  -- the marker-relative locations
  unfold THaDecData.decodeProject
  dsimp only
  rw [h6]
  generalize l2.foldl THaDecData.projectCrateLoc (t1.TrigBits i d) = t3 at h2
  have h3 : sameBits t3 (t3.fWordLoc.foldl THaDecData.projectWordLoc t3) :=
    foldl_invariant (fun u => sameBits t3 u) _
      (fun u a hu => sameBits_trans hu (THaDecData.projectWordLoc_sameBits u a)) _ t3
      (sameBits_refl t3)
  have h4 := sameBit_trans h2 (sameBits_sameBit i h3)
  exact ⟨h4.1.trans b1, h4.2.1.trans b2, lt_of_lt_of_le b4 h4.2.2⟩

/-- C8 (amended). Trigger-bit decision rule: for every bit index `i` with
`1 <= i < 32` that does not exceed the bit count `GetNbits()` of the trigger
pattern, and every location named `bit<i>` in `fCrateLoc` (names distinct),
after a successful `Decode` bit `i` of the trigger pattern and bit `i` of
`evtypebits` are set if and only if at least one captured sample `v` of the
location satisfies `0 < v < 1500`. -/
theorem C8_trigger_bit_rule (evdata : THaEvData) (s : THaDecData) (idx : Nat)
    (b : BdataLoc) (i : Nat) (hok : s.IsOK = true) (hb : s.fCrateLoc[idx]? = some b)
    (hname : b.fName = Form_bit i) (hi1 : 1 ≤ i) (hi32 : i < 32)
    (hin : i ≤ s.bits.GetNbits)
    (hnd : (s.fCrateLoc.map (fun b => b.fName)).Nodup) :
    (THaDecData.Decode evdata s).1 = 0 ∧
    ∃ d : BdataLoc, (THaDecData.Decode evdata s).2.fCrateLoc[idx]? = some d ∧
      d.fName = b.fName ∧
      ((THaDecData.Decode evdata s).2.bits.TestBitNumber i = true ↔
        ∃ j : Nat, (j : Int) < d.NumHits ∧ 0 < d.Get (j : Int) ∧ d.Get (j : Int) < 1500) ∧
      ((THaDecData.Decode evdata s).2.evtypebits.testBit i = true ↔
        ∃ j : Nat, (j : Int) < d.NumHits ∧ 0 < d.Get (j : Int) ∧ d.Get (j : Int) < 1500) := by
  refine ⟨by rw [THaDecData.Decode_ok evdata s hok], ?_⟩
  refine ⟨_, THaDecData.Decode_crateLoc_at evdata s idx b hok hb,
    THaDecData.decodeCrateLoc_fName evdata b, ?_⟩
  rw [THaDecData.Decode_ok evdata s hok]
  show ((THaDecData.decodeBody evdata s).bits.TestBitNumber i = true ↔ _) ∧
    ((THaDecData.decodeBody evdata s).evtypebits.testBit i = true ↔ _)
  unfold THaDecData.decodeBody
  generalize hs5 : THaDecData.decodeEvType evdata (THaDecData.decodeLocs evdata
      (THaDecData.decodeLengths evdata s.Clear)) = s5
  have h5c : s5.fCrateLoc =
      s.fCrateLoc.map (fun x : BdataLoc => THaDecData.decodeCrateLoc evdata x.Clear) := by
    rw [← hs5]
    show List.map (THaDecData.decodeCrateLoc evdata) (List.map BdataLoc.Clear s.fCrateLoc) = _
    rw [List.map_map]; rfl
  have h5b : s5.bits = s.bits := by rw [← hs5]; rfl
  have h5e : s5.evtypebits = 0 := by rw [← hs5]; rfl
  have h5d : s5.fCrateLoc[idx]? = some (THaDecData.decodeCrateLoc evdata b.Clear) := by
    rw [h5c, List.getElem?_map, hb]; rfl
  have h5n : (s5.fCrateLoc.map (fun b => b.fName)).Nodup := by
    rw [h5c, List.map_map]
    have : ((fun x : BdataLoc => x.fName) ∘
        (fun x : BdataLoc => THaDecData.decodeCrateLoc evdata x.Clear)) =
          (fun x : BdataLoc => x.fName) := by
      funext x
      exact THaDecData.decodeCrateLoc_fName evdata x
    rw [this]
    exact hnd
  obtain ⟨p1, p2, p3⟩ := THaDecData.decodeProject_bit s5 idx
    (THaDecData.decodeCrateLoc evdata b.Clear) i h5d
    ((THaDecData.decodeCrateLoc_fName evdata b).trans hname) hi1 hi32
    (by rw [h5b]; exact hin) h5n (by rw [h5e]; exact Nat.zero_testBit i)
  have hv := THaDecData.VdcEff_sameBits s5.decodeProject
  rw [hv.2, p2]
  unfold TBits.TestBitNumber
  rw [hv.1, p1, decide_eq_true p3, Bool.true_and]
  exact ⟨any_range_qualifies _, any_range_qualifies _⟩

/-- Witness of C8 (amended): under the default mapping with a pattern of 8 bits
the location `bit1` at (3,5,64) receives the samples 100 and 2000; bit 1 of the
pattern and of `evtypebits` is set. -/
theorem C8_trigger_bit_rule_witness :
    (THaDecData.Decode evBits stDefault).1 = 0 ∧
    (THaDecData.Decode evBits stDefault).2.fCrateLoc[13]?.map
        (fun d => (d.fName, d.NumHits, d.Get 0, d.Get 1)) = some ("bit1", 2, 100, 2000) ∧
    (THaDecData.Decode evBits stDefault).2.bits.TestBitNumber 1 = true ∧
    (THaDecData.Decode evBits stDefault).2.evtypebits.testBit 1 = true := by
  obtain ⟨h0, d, hd, _, h1, h2⟩ := C8_trigger_bit_rule evBits stDefault 13
    (BdataLoc.mkSlot "bit1" 3 5 64) 1 (by decide) (by decide) (by decide) (by decide)
    (by decide) (by decide) (by decide)
  have hd2 : (THaDecData.Decode evBits stDefault).2.fCrateLoc[13]?.map
      (fun d => (d.fName, d.NumHits, d.Get 0, d.Get 1)) = some ("bit1", 2, 100, 2000) := by
    decide
  rw [hd] at hd2
  have hq : ∃ j : Nat, (j : Int) < d.NumHits ∧ 0 < d.Get (j : Int) ∧ d.Get (j : Int) < 1500 := by
    simp only [Option.map_some', Option.some.injEq, Prod.mk.injEq] at hd2
    obtain ⟨_, hn, hg0, _⟩ := hd2
    exact ⟨0, by rw [hn]; decide, by show 0 < d.Get 0; rw [hg0]; decide,
      by show d.Get 0 < 1500; rw [hg0]; decide⟩
  exact ⟨h0, by decide, h1.mpr hq, h2.mpr hq⟩

/-- C8 (as stated) fails for a bit index above the bit count of the pattern:
the pattern has 8 bits, the only location is `bit9` at (3,5,72), slot-addressed,
and it captures the sample 100, which lies inside the cut (0,1500); after the
successful `Decode` bit 9 is set neither in the pattern nor in `evtypebits`. -/
theorem C8_counterexample :
    stBit9.bits.GetNbits = 8 ∧
    stBit9.fCrateLoc = [BdataLoc.mkSlot (Form_bit 9) 3 5 72] ∧
    (THaDecData.Decode evBits stBit9).1 = 0 ∧
    (THaDecData.Decode evBits stBit9).2.fCrateLoc.map
        (fun d => (d.fName, d.IsSlot, d.NumHits, d.Get 0)) = [("bit9", true, 1, 100)] ∧
    (0 < (100 : Nat) ∧ (100 : Nat) < 1500) ∧
    (THaDecData.Decode evBits stBit9).2.bits.TestBitNumber 9 = false ∧
    (THaDecData.Decode evBits stBit9).2.evtypebits.testBit 9 = false := by
  refine ⟨by decide, by decide, by decide, by decide, by decide, by decide, by decide⟩

/-! ## The partition of the registry after a Fresh load of a file -/

theorem parseLine_IsSlot (sinput : String) (sl : Bool) (b : BdataLoc)
    (h : parseLine sinput = some (sl, b)) : b.IsSlot = sl := by
  unfold parseLine at h
  split at h
  · next f0 f1 f2 f3 f4 rest heq =>
    split at h
    · cases h
    · have h2 := Option.some.inj h
      rw [← (Prod.mk.inj h2).1, ← (Prod.mk.inj h2).2]
      exact THaDecData.lineLoc_IsSlot f0 f1 f2 f3 f4
  · cases h

/-- After a Fresh load of a mapping file every location of `fCrateLoc` is
slot-addressed and every location of `fWordLoc` is marker-relative. -/
theorem THaDecData.fresh_file_partition (lines : List String) (s : THaDecData)
    (hfresh : s.fIsSetup = false) :
    (∀ b ∈ (THaDecData.SetupDecData (some lines) EMode.kDefine s).2.fCrateLoc,
      b.IsSlot = true) ∧
    (∀ b ∈ (THaDecData.SetupDecData (some lines) EMode.kDefine s).2.fWordLoc,
      b.IsSlot = false) := by
  have h := THaDecData.SetupDecData_fresh_locs lines s hfresh
  generalize (THaDecData.SetupDecData (some lines) EMode.kDefine s).2 = r at h
  constructor
  · intro b hb
    have hb2 : b ∈ slotLocsOf lines := by rw [← h.1]; exact hb
    unfold slotLocsOf at hb2
    obtain ⟨e, he, heb⟩ := List.mem_map.mp hb2
    obtain ⟨he1, he2⟩ := List.mem_filter.mp he
    obtain ⟨l, _, hl⟩ := List.mem_filterMap.mp he1
    obtain ⟨sl, b'⟩ := e
    have := parseLine_IsSlot l sl b' hl
    rw [← heb]
    exact this.trans he2
  · intro b hb
    have hb2 : b ∈ markerLocsOf lines := by rw [← h.2]; exact hb
    unfold markerLocsOf at hb2
    obtain ⟨e, he, heb⟩ := List.mem_map.mp hb2
    obtain ⟨he1, he2⟩ := List.mem_filter.mp he
    obtain ⟨l, _, hl⟩ := List.mem_filterMap.mp he1
    obtain ⟨sl, b'⟩ := e
    have := parseLine_IsSlot l sl b' hl
    rw [← heb]
    have hsl : sl = false := by simpa using he2
    exact this.trans hsl

/-! ## Skipped lines -/

/-- A line that `SetupDecData` skips leaves the whole engine state as it is,
in both load modes. -/
theorem THaDecData.setupLine_skip (re_init : Bool) (s : THaDecData) (sinput : String)
    (h : (vsplit sinput).length < 5 ∨ (vsplit sinput).head? = some "#") :
    THaDecData.setupLine re_init s sinput = s := by
  unfold THaDecData.setupLine
  generalize vsplit sinput = fs at h
  rcases fs with _ | ⟨f0, _ | ⟨f1, _ | ⟨f2, _ | ⟨f3, _ | ⟨f4, r⟩⟩⟩⟩⟩
  · rfl
  · rcases h with h | h
    · rfl
    · rfl
  · rfl
  · rfl
  · rfl
  · rcases h with h | h
    · simp at h
      omega
    · have h0 : f0 = "#" := by simpa using h
      subst h0
      simp

/-- A line that starts with `#` followed by a whitespace character has `#` as
its first field. -/
theorem vsplit_hash_space (sinput : String) (c : Char) (rest : List Char)
    (hd : sinput.data = '#' :: c :: rest) (hc : isspace c = true) :
    (vsplit sinput).head? = some "#" := by
  unfold vsplit
  rw [String.toList, hd]
  have e1 : vsplitAux [] ('#' :: c :: rest) = vsplitAux ['#'] (c :: rest) := by
    conv_lhs => unfold vsplitAux
    have : isspace '#' = false := by decide
    simp [this]
  have e2 : vsplitAux ['#'] (c :: rest) = String.mk ['#'] :: vsplitAux [] rest := by
    conv_lhs => unfold vsplitAux
    simp [hc]
  rw [e1, e2]
  rfl

/-- C11 (as the code has it): in both load modes and for every engine state, a
mapping line with fewer than five whitespace-separated fields, a line whose
first field is exactly `#`, and so a line that starts with `#` followed by a
whitespace character, leaves the whole engine state unchanged: both location
collections and the variable list. -/
theorem C11_skipped_lines_change_nothing (re_init : Bool) (s : THaDecData) (sinput : String) :
    ((vsplit sinput).length < 5 → THaDecData.setupLine re_init s sinput = s) ∧
    ((vsplit sinput).head? = some "#" → THaDecData.setupLine re_init s sinput = s) ∧
    (∀ (c : Char) (rest : List Char), sinput.data = '#' :: c :: rest → isspace c = true →
      THaDecData.setupLine re_init s sinput = s) :=
  ⟨fun h => THaDecData.setupLine_skip re_init s sinput (Or.inl h),
   fun h => THaDecData.setupLine_skip re_init s sinput (Or.inr h),
   fun c rest hd hc =>
     THaDecData.setupLine_skip re_init s sinput (Or.inr (vsplit_hash_space sinput c rest hd hc))⟩

/-- C11 at concrete lines: the short line `foo crate 1 2`, the line
`# foo crate 1 2 3` and the line `#` followed by a tabulator leave the engine
set up from `foo crate 1 2 3` unchanged in re-initialization mode. -/
theorem C11_skipped_lines_change_nothing_witness :
    (vsplit "foo crate 1 2").length < 5 ∧
    THaDecData.setupLine true stFoo "foo crate 1 2" = stFoo ∧
    (vsplit "# foo crate 1 2 3").head? = some "#" ∧
    THaDecData.setupLine true stFoo "# foo crate 1 2 3" = stFoo ∧
    THaDecData.setupLine true stFoo "#\tfoo crate 9 9 9" = stFoo :=
  ⟨by decide,
   (C11_skipped_lines_change_nothing true stFoo "foo crate 1 2").1 (by decide),
   by decide,
   (C11_skipped_lines_change_nothing true stFoo "# foo crate 1 2 3").2.1 (by decide),
   (C11_skipped_lines_change_nothing true stFoo "#\tfoo crate 9 9 9").2.2 '\t'
     "foo crate 9 9 9".data rfl (by decide)⟩

/-- C11 fails as written: the line `#foo crate 1 2 3` starts with `#` and has
five fields, its first field is `#foo`, and `SetupDecData` processes it: on a
fresh load it adds the location `#foo` at (1,2,3) and the variable `D.#foo`,
and on a re-initialization of the engine set up from `foo crate 1 2 3` it
appends that location behind `foo`. -/
theorem C11_counterexample :
    "#foo crate 1 2 3".data.head? = some '#' ∧
    (THaDecData.setupLine false (THaDecData.new "D." 8) "#foo crate 1 2 3").fCrateLoc =
      [BdataLoc.mkSlot "#foo" 1 2 3] ∧
    (varFind (THaDecData.setupLine false (THaDecData.new "D." 8) "#foo crate 1 2 3").gHaVars
      "D.#foo").isSome = true ∧
    (varFind (THaDecData.new "D." 8).gHaVars "D.#foo").isSome = false ∧
    (THaDecData.setupLine true stFoo "#foo crate 1 2 3").fCrateLoc =
      [BdataLoc.mkSlot "foo" 1 2 3, BdataLoc.mkSlot "#foo" 1 2 3] := by
  decide

/-! ## Missing mapping file on re-initialization -/

/-- C15: when the engine is already set up and no mapping file opens,
`SetupDecData` in define mode returns 0 and leaves the engine state as it is:
both location collections and the variable list are unchanged. -/
theorem C15_reinit_without_file (s : THaDecData) (h : s.fIsSetup = true) :
    THaDecData.SetupDecData none EMode.kDefine s = (0, s) ∧
    (THaDecData.SetupDecData none EMode.kDefine s).2.fCrateLoc = s.fCrateLoc ∧
    (THaDecData.SetupDecData none EMode.kDefine s).2.fWordLoc = s.fWordLoc ∧
    (THaDecData.SetupDecData none EMode.kDefine s).2.gHaVars = s.gHaVars := by
  have e : THaDecData.SetupDecData none EMode.kDefine s = (0, s) := by
    cases s
    simp only at h
    subst h
    rfl
  rw [e]
  exact ⟨rfl, rfl, rfl, rfl⟩

/-- C15 at the engine set up from `foo crate 1 2 3`. -/
theorem C15_reinit_without_file_witness :
    stFoo.fIsSetup = true ∧
    THaDecData.SetupDecData none EMode.kDefine stFoo = (0, stFoo) :=
  ⟨by decide, (C15_reinit_without_file stFoo (by decide)).1⟩

/-! ## Decode in a state that is not ready -/

/-- C17: when the status is not `kOK`, `Decode` returns -1 and leaves the
whole engine state unchanged (scalars, trigger pattern, locations, histograms
and the counters of `VdcEff`); when the status is `kOK`, it returns 0. -/
theorem C17_decode_not_ready (evdata : THaEvData) (s : THaDecData) :
    (s.fStatus ≠ 0 → THaDecData.Decode evdata s = (-1, s)) ∧
    (s.fStatus = 0 → (THaDecData.Decode evdata s).1 = 0) := by
  constructor
  · intro h
    unfold THaDecData.Decode THaDecData.IsOK
    simp [h]
  · intro h
    unfold THaDecData.Decode THaDecData.IsOK
    simp [h]

/-- C17 at the constructor state (status `kNotinit`) and at the engine set up
from `foo crate 1 2 3` (status `kOK`). -/
theorem C17_decode_not_ready_witness :
    (THaDecData.new "D." 8).fStatus ≠ 0 ∧
    THaDecData.Decode evOneHit (THaDecData.new "D." 8) = (-1, THaDecData.new "D." 8) ∧
    stFoo.fStatus = 0 ∧ (THaDecData.Decode evOneHit stFoo).1 = 0 :=
  ⟨by decide, (C17_decode_not_ready evOneHit (THaDecData.new "D." 8)).1 (by decide),
   by decide, (C17_decode_not_ready evOneHit stFoo).2 (by decide)⟩

/-! ## Equality of locations -/

/-- `operator==` in terms of the compared members. -/
theorem BdataLoc.hwEq_iff (a b : BdataLoc) :
    a.hwEq b = true ↔
      a.search_choice = b.search_choice ∧ a.crate = b.crate ∧
        ((a.search_choice = 0 ∧ a.slot = b.slot ∧ a.chan = b.chan) ∨
         (a.search_choice = 1 ∧ a.header = b.header ∧ a.ntoskip = b.ntoskip)) := by
  unfold BdataLoc.hwEq
  simp only [Bool.and_eq_true, Bool.or_eq_true, beq_iff_eq, and_assoc]

/-- C16: `a == b` holds exactly when the two locations have the same
addressing mode and crate and, in slot mode, the same slot and channel, or, in
marker mode, the same marker and skip; the relation is reflexive (on every
location that satisfies the class invariant, which each constructor and setter
establishes and `Clear`, `Load` and renaming keep), symmetric and transitive;
`a != b` is its negation; and renaming, clearing or loading either side does
not change the result. -/
theorem C16_location_equality (a b c : BdataLoc) :
    (a.hwEq b = true ↔
      a.search_choice = b.search_choice ∧ a.crate = b.crate ∧
        ((a.search_choice = 0 ∧ a.slot = b.slot ∧ a.chan = b.chan) ∨
         (a.search_choice = 1 ∧ a.header = b.header ∧ a.ntoskip = b.ntoskip))) ∧
    (a.modeOK → a.hwEq a = true) ∧
    (a.hwEq b = b.hwEq a) ∧
    (a.hwEq b = true → b.hwEq c = true → a.hwEq c = true) ∧
    (a.hwNe b = !(a.hwEq b)) ∧
    (∀ n m : String, (a.rename n).hwEq (b.rename m) = a.hwEq b) ∧
    (a.Clear.hwEq b = a.hwEq b ∧ a.hwEq b.Clear = a.hwEq b) ∧
    (∀ d e : Nat, (a.Load d).hwEq b = a.hwEq b ∧ a.hwEq (b.Load e) = a.hwEq b) ∧
    (∀ (nm : String) (cr sl ch : Int) (hd : Nat) (sk : Int),
      (BdataLoc.mkSlot nm cr sl ch).modeOK ∧ (BdataLoc.mkHeader nm cr hd sk).modeOK ∧
      (a.SetSlot cr sl ch).modeOK ∧ (a.SetHeader cr hd sk).modeOK ∧
      (a.modeOK → a.Clear.modeOK ∧ (a.Load hd).modeOK ∧ (a.rename nm).modeOK)) := by
  refine ⟨BdataLoc.hwEq_iff a b, ?_, ?_, ?_, rfl, fun _ _ => rfl, ⟨rfl, rfl⟩, ?_, ?_⟩
  · intro h
    rw [BdataLoc.hwEq_iff]
    rcases h with h | h
    · exact ⟨rfl, rfl, Or.inl ⟨h, rfl, rfl⟩⟩
    · exact ⟨rfl, rfl, Or.inr ⟨h, rfl, rfl⟩⟩
  · rw [Bool.eq_iff_iff, BdataLoc.hwEq_iff, BdataLoc.hwEq_iff]
    constructor
    · rintro ⟨h1, h2, h3 | h3⟩
      · exact ⟨h1.symm, h2.symm, Or.inl ⟨h1 ▸ h3.1, h3.2.1.symm, h3.2.2.symm⟩⟩
      · exact ⟨h1.symm, h2.symm, Or.inr ⟨h1 ▸ h3.1, h3.2.1.symm, h3.2.2.symm⟩⟩
    · rintro ⟨h1, h2, h3 | h3⟩
      · exact ⟨h1.symm, h2.symm, Or.inl ⟨h1 ▸ h3.1, h3.2.1.symm, h3.2.2.symm⟩⟩
      · exact ⟨h1.symm, h2.symm, Or.inr ⟨h1 ▸ h3.1, h3.2.1.symm, h3.2.2.symm⟩⟩
  · rw [BdataLoc.hwEq_iff, BdataLoc.hwEq_iff, BdataLoc.hwEq_iff]
    rintro ⟨h1, h2, h3⟩ ⟨k1, k2, k3⟩
    refine ⟨h1.trans k1, h2.trans k2, ?_⟩
    rcases h3 with h3 | h3
    · rcases k3 with k3 | k3
      · exact Or.inl ⟨h3.1, h3.2.1.trans k3.2.1, h3.2.2.trans k3.2.2⟩
      · exact absurd (h1 ▸ h3.1 : b.search_choice = 0) (by rw [k3.1]; decide)
    · rcases k3 with k3 | k3
      · exact absurd (h1 ▸ h3.1 : b.search_choice = 1) (by rw [k3.1]; decide)
      · exact Or.inr ⟨h3.1, h3.2.1.trans k3.2.1, h3.2.2.trans k3.2.2⟩
  · intro d e
    constructor
    · unfold BdataLoc.hwEq
      simp only [BdataLoc.Load_search_choice, BdataLoc.Load_crate, BdataLoc.Load_slot,
        BdataLoc.Load_chan, BdataLoc.Load_header, BdataLoc.Load_ntoskip]
    · unfold BdataLoc.hwEq
      simp only [BdataLoc.Load_search_choice, BdataLoc.Load_crate, BdataLoc.Load_slot,
        BdataLoc.Load_chan, BdataLoc.Load_header, BdataLoc.Load_ntoskip]
  · intro nm cr sl ch hd sk
    refine ⟨Or.inl rfl, Or.inr rfl, Or.inl rfl, Or.inr rfl, fun h => ⟨h, ?_, h⟩⟩
    unfold BdataLoc.modeOK
    rw [BdataLoc.Load_search_choice]
    exact h

/-- C16 at the locations `foo` at (1,2,3), `bar` at (1,2,3) with two samples
loaded, and `baz` at (1,2,3) cleared. -/
theorem C16_location_equality_witness :
    (BdataLoc.mkSlot "foo" 1 2 3).modeOK ∧
    (BdataLoc.mkSlot "foo" 1 2 3).hwEq (BdataLoc.mkSlot "foo" 1 2 3) = true ∧
    ((BdataLoc.mkSlot "foo" 1 2 3).hwEq (((BdataLoc.mkSlot "bar" 1 2 3).Load 7).Load 8) = true →
      (((BdataLoc.mkSlot "bar" 1 2 3).Load 7).Load 8).hwEq (BdataLoc.mkSlot "baz" 1 2 3).Clear
        = true →
      (BdataLoc.mkSlot "foo" 1 2 3).hwEq (BdataLoc.mkSlot "baz" 1 2 3).Clear = true) ∧
    (BdataLoc.mkSlot "foo" 1 2 3).hwEq (BdataLoc.mkHeader "foo" 1 2 3) = false :=
  ⟨Or.inl rfl,
   (C16_location_equality (BdataLoc.mkSlot "foo" 1 2 3)
     (((BdataLoc.mkSlot "bar" 1 2 3).Load 7).Load 8)
     (BdataLoc.mkSlot "baz" 1 2 3).Clear).2.1 (Or.inl rfl),
   (C16_location_equality (BdataLoc.mkSlot "foo" 1 2 3)
     (((BdataLoc.mkSlot "bar" 1 2 3).Load 7).Load 8)
     (BdataLoc.mkSlot "baz" 1 2 3).Clear).2.2.2.1,
   by decide⟩

/-! ## Hexadecimal marker parsing -/

theorem char_cases (P : Char → Prop) (hsmall : ∀ n, n < 128 → P (Char.ofNat n))
    (hbig : ∀ c : Char, 128 ≤ c.toNat → P c) : ∀ c, P c := by
  intro c
  by_cases h : c.toNat < 128
  · have := hsmall c.toNat h
    rwa [Char.ofNat_toNat] at this
  · exact hbig c (by omega)

theorem chex_small : ∀ x ∈ chex, x.toNat < 128 := by decide

theorem toLower_big (c : Char) (h : 128 ≤ c.toNat) : c.toLower = c := by
  unfold Char.toLower
  simp only
  rw [if_neg (by omega)]

theorem toUpper_big (c : Char) (h : 128 ≤ c.toNat) : c.toUpper = c := by
  unfold Char.toUpper
  simp only
  rw [if_neg (by omega)]

/-- The table search of the code finds the value of a hexadecimal digit. -/
theorem chexIndex_eq_specHexDigit : ∀ c : Char, chexIndex c = specHexDigit c := by
  apply char_cases
  · decide
  · intro c h
    have h1 : chexIndex c = none := by
      unfold chexIndex
      rw [toLower_big c h]
      have hn : c ∉ chex := fun hm => absurd (chex_small c hm) (by omega)
      have : chex.indexOf c = chex.length := List.indexOf_eq_length.mpr hn
      simp only [this]
      rfl
    have h2 : specHexDigit c = none := by
      unfold specHexDigit
      rw [if_neg (by omega), if_neg (by omega), if_neg (by omega)]
    rw [h1, h2]

theorem chexIndex_toUpper : ∀ c : Char, chexIndex c.toUpper = chexIndex c := by
  apply char_cases
  · decide
  · intro c h
    rw [toUpper_big c h]

theorem chexIndex_toLower : ∀ c : Char, chexIndex c.toLower = chexIndex c := by
  apply char_cases
  · decide
  · intro c h
    rw [toLower_big c h]
theorem specHexDigit_lt (c : Char) : (specHexDigit c).getD 0 < 16 := by
  unfold specHexDigit
  split_ifs <;> simp only [Option.getD_some, Option.getD_none] <;> omega

theorem specHexFold_acc (cs : List Char) :
    ∀ a : Nat, cs.foldl (fun acc c => 16 * acc + (specHexDigit c).getD 0) a =
      a * 16 ^ cs.length + specHexValue cs := by
  induction cs with
  | nil => intro a; simp [specHexValue]
  | cons c cs ih =>
    intro a
    unfold specHexValue
    rw [List.foldl_cons, List.foldl_cons, ih, ih (16 * 0 + _), List.length_cons, pow_succ]
    ring

/-- The leading digit of a digit list weighs 16 to the number of digits that
follow it. -/
theorem specHexValue_cons (c : Char) (cs : List Char) :
    specHexValue (c :: cs) = (specHexDigit c).getD 0 * 16 ^ cs.length + specHexValue cs := by
  conv_lhs => unfold specHexValue
  rw [List.foldl_cons, specHexFold_acc]
  ring

theorem specHexValue_lt (cs : List Char) : specHexValue cs < 16 ^ cs.length := by
  induction cs with
  | nil => simp [specHexValue]
  | cons c cs ih =>
    rw [specHexValue_cons, List.length_cons, pow_succ]
    have := specHexDigit_lt c
    nlinarith

/-- The loop of `header_str_to_base16` over a whole string: the result is the
value of the hexadecimal digits of the string modulo 2^32, and the power is 16
to the number of these digits modulo 2^32. -/
theorem hexFold_spec (cs : List Char) :
    cs.reverse.foldl hexStep (0, 1) =
      (specHexValue (cs.filter (fun c => (specHexDigit c).isSome)) % 4294967296,
       16 ^ (cs.filter (fun c => (specHexDigit c).isSome)).length % 4294967296) := by
  induction cs with
  | nil => rfl
  | cons c cs ih =>
    rw [hexFold_cons, ih]
    unfold hexStep
    rw [chexIndex_eq_specHexDigit]
    cases hq : specHexDigit c with
    | none =>
      rw [List.filter_cons_of_neg (by simp [hq])]
    | some q =>
      rw [List.filter_cons_of_pos (by simp [hq]), specHexValue_cons, hq, List.length_cons,
        pow_succ]
      simp only [Option.getD_some]
      generalize specHexValue (cs.filter (fun c => (specHexDigit c).isSome)) = V
      generalize 16 ^ (cs.filter (fun c => (specHexDigit c).isSome)).length = P
      refine Prod.ext ?_ ?_
      · show (V % 4294967296 + q * (P % 4294967296)) % 4294967296 = (q * P + V) % 4294967296
        have h1 : Nat.ModEq 4294967296 (V % 4294967296) V := Nat.mod_modEq V _
        have h2 : Nat.ModEq 4294967296 (q * (P % 4294967296)) (q * P) :=
          Nat.ModEq.mul_left q (Nat.mod_modEq P _)
        have h3 := Nat.ModEq.add h1 h2
        rw [Nat.add_comm (q * P) V]
        exact h3
      · show (P % 4294967296 * 16) % 4294967296 = (P * 16) % 4294967296
        exact Nat.ModEq.mul_right 16 (Nat.mod_modEq P _)

theorem header_str_to_base16_spec (s : String) :
    header_str_to_base16 s = specHexValue (hexDigitsOf s) % 4294967296 := by
  unfold header_str_to_base16 hexDigitsOf
  rw [String.toList, hexFold_spec]

theorem hexFold_map (f : Char → Char) (hf : ∀ c, chexIndex (f c) = chexIndex c)
    (cs : List Char) (st : Nat × Nat) :
    (cs.map f).reverse.foldl hexStep st = cs.reverse.foldl hexStep st := by
  induction cs with
  | nil => rfl
  | cons c cs ih =>
    rw [List.map_cons, hexFold_cons, hexFold_cons, ih]
    unfold hexStep
    rw [hf]

theorem filter_filter_self (cs : List Char) (p : Char → Bool) :
    (cs.filter p).filter p = cs.filter p := by
  simp [List.filter_filter]

/-- C12: on a string of hexadecimal digits `header_str_to_base16` returns the
base-16 value of the string modulo 2^32, and the value itself for at most 8
digits; the upper-case and the lower-case spelling of a string give the result
of the string; and the result of any string is that of its hexadecimal digits
alone, so that other characters contribute no digit position. -/
theorem C12_hexadecimal_marker_parsing (s : String) :
    ((∀ c ∈ s.data, specHexDigit c ≠ none) →
      header_str_to_base16 s = specHexValue s.data % 4294967296) ∧
    ((∀ c ∈ s.data, specHexDigit c ≠ none) → s.data.length ≤ 8 →
      header_str_to_base16 s = specHexValue s.data) ∧
    (header_str_to_base16 (upperCase s) = header_str_to_base16 s ∧
     header_str_to_base16 (lowerCase s) = header_str_to_base16 s) ∧
    header_str_to_base16 s = header_str_to_base16 (String.mk (hexDigitsOf s)) ∧
    header_str_to_base16 s = specHexValue (hexDigitsOf s) % 4294967296 := by
  have hall : (∀ c ∈ s.data, specHexDigit c ≠ none) → hexDigitsOf s = s.data := by
    intro h
    unfold hexDigitsOf
    rw [List.filter_eq_self]
    intro c hc
    cases hq : specHexDigit c with
    | none => exact absurd hq (h c hc)
    | some q => rfl
  refine ⟨?_, ?_, ⟨?_, ?_⟩, ?_, header_str_to_base16_spec s⟩
  · intro h
    rw [header_str_to_base16_spec, hall h]
  · intro h hlen
    rw [header_str_to_base16_spec, hall h]
    apply Nat.mod_eq_of_lt
    calc specHexValue s.data < 16 ^ s.data.length := specHexValue_lt _
      _ ≤ 16 ^ 8 := Nat.pow_le_pow_right (by decide) hlen
      _ = 4294967296 := by norm_num
  · unfold header_str_to_base16 upperCase
    exact congrArg Prod.fst (hexFold_map Char.toUpper chexIndex_toUpper s.data (0, 1))
  · unfold header_str_to_base16 lowerCase
    exact congrArg Prod.fst (hexFold_map Char.toLower chexIndex_toLower s.data (0, 1))
  · rw [header_str_to_base16_spec, header_str_to_base16_spec]
    unfold hexDigitsOf
    rw [filter_filter_self]

/-- C12 at the 8-digit string `fabc0008`, whose value is 4206624776. -/
theorem C12_hexadecimal_marker_parsing_witness :
    (∀ c ∈ "fabc0008".data, specHexDigit c ≠ none) ∧ "fabc0008".data.length ≤ 8 ∧
    header_str_to_base16 "fabc0008" = specHexValue "fabc0008".data ∧
    specHexValue "fabc0008".data = 4206624776 ∧
    header_str_to_base16 "FABC0008" = 4206624776 ∧
    header_str_to_base16 "0xfabc0008" = 4206624776 ∧
    header_str_to_base16 "1fabc0008" = 4206624776 :=
  ⟨by decide, by decide,
   (C12_hexadecimal_marker_parsing "fabc0008").2.1 (by decide) (by decide),
   by decide, by decide, by decide, by decide⟩

/-! ## Re-initialization -/

theorem modifyAt_getElem? {α : Type} (f : α → α) :
    ∀ (l : List α) (i j : Nat),
      (modifyAt f i l)[j]? = if j = i then l[j]?.map f else l[j]? := by
  intro l
  induction l with
  | nil => intro i j; cases i <;> simp [modifyAt]
  | cons x xs ih =>
    intro i j
    cases i with
    | zero =>
      cases j with
      | zero => simp [modifyAt]
      | succ j => simp [modifyAt]
    | succ i =>
      cases j with
      | zero => simp [modifyAt]
      | succ j => simp [modifyAt, ih]

theorem modifyAt_length {α : Type} (f : α → α) :
    ∀ (l : List α) (i : Nat), (modifyAt f i l).length = l.length := by
  intro l
  induction l with
  | nil => intro i; cases i <;> rfl
  | cons x xs ih =>
    intro i
    cases i with
    | zero => rfl
    | succ i => simp [modifyAt, ih]

theorem modifyAt_eq_set {α : Type} (f : α → α) :
    ∀ (l : List α) (i : Nat) (p : α), l[i]? = some p → modifyAt f i l = l.set i (f p) := by
  intro l
  induction l with
  | nil => intro i p h; simp at h
  | cons x xs ih =>
    intro i p h
    cases i with
    | zero =>
      have : x = p := by simpa using h
      subst this
      rfl
    | succ i =>
      have h2 : xs[i]? = some p := by simpa using h
      simp [modifyAt, ih i p h2]

theorem THaDecData.updateLoc_fName (is_slot : Bool) (b p : BdataLoc) :
    (THaDecData.updateLoc is_slot b p).fName = p.fName := by
  unfold THaDecData.updateLoc
  split
  · split <;> rfl
  · rfl

theorem THaDecData.updateLoc_same (is_slot : Bool) (b p : BdataLoc) (h : p.hwEq b = true) :
    THaDecData.updateLoc is_slot b p = p := by
  unfold THaDecData.updateLoc BdataLoc.hwNe
  rw [h]
  rfl

/-- After the update branch the location found compares equal to the one the
line describes. -/
theorem THaDecData.updateLoc_hwEq (is_slot : Bool) (b p : BdataLoc)
    (hmode : b.search_choice = if is_slot then 0 else 1) :
    (THaDecData.updateLoc is_slot b p).hwEq b = true := by
  by_cases h : p.hwEq b = true
  · rw [THaDecData.updateLoc_same is_slot b p h]
    exact h
  · unfold THaDecData.updateLoc BdataLoc.hwNe
    have h2 : p.hwEq b = false := by simpa using h
    rw [h2]
    cases is_slot
    · simp only [Bool.false_eq_true, if_false] at hmode
      simp only [Bool.not_false, if_true, Bool.false_eq_true, if_false]
      rw [BdataLoc.hwEq_iff]
      exact ⟨hmode.symm, rfl, Or.inr ⟨rfl, rfl, rfl⟩⟩
    · simp only [if_true] at hmode
      simp only [Bool.not_false, if_true]
      rw [BdataLoc.hwEq_iff]
      exact ⟨hmode.symm, rfl, Or.inl ⟨rfl, rfl, rfl⟩⟩

/-- The update branch leaves the sample buffer of the location alone. -/
theorem THaDecData.updateLoc_buffer (is_slot : Bool) (b p : BdataLoc) :
    (THaDecData.updateLoc is_slot b p).rdata = p.rdata ∧
    (THaDecData.updateLoc is_slot b p).ndata = p.ndata := by
  unfold THaDecData.updateLoc
  split
  · split <;> exact ⟨rfl, rfl⟩
  · exact ⟨rfl, rfl⟩

theorem parseLine_mode (sinput : String) (sl : Bool) (b : BdataLoc)
    (h : parseLine sinput = some (sl, b)) : b.search_choice = if sl then 0 else 1 := by
  unfold parseLine at h
  split at h
  · next f0 f1 f2 f3 f4 rest heq =>
    split at h
    · cases h
    · have h2 := Option.some.inj h
      rw [← (Prod.mk.inj h2).1, ← (Prod.mk.inj h2).2]
      unfold THaDecData.lineLoc
      dsimp only
      split <;> rfl
  · cases h

/-- In re-initialization mode a turn of the loader loop skips a line that is
not valid; for a valid line it updates the first location of that name, looked
up in `fWordLoc` and then in `fCrateLoc`, and inserts the location of the line
when there is none. -/
theorem THaDecData.setupLine_reinit (s : THaDecData) (sinput : String) :
    THaDecData.setupLine true s sinput =
      match parseLine sinput with
      | none => s
      | some e =>
        match s.fWordLoc.findIdx? (fun p => e.2.fName == p.fName) with
        | some i => { s with fWordLoc := modifyAt (THaDecData.updateLoc e.1 e.2) i s.fWordLoc }
        | none =>
          match s.fCrateLoc.findIdx? (fun p => e.2.fName == p.fName) with
          | some i =>
            { s with fCrateLoc := modifyAt (THaDecData.updateLoc e.1 e.2) i s.fCrateLoc }
          | none => THaDecData.insertLoc s (varsNames.contains e.2.fName) e.1 e.2 := by
  unfold THaDecData.setupLine parseLine
  split
  · next f0 f1 f2 f3 f4 rest heq =>
    by_cases h0 : (f0 == "#") = true
    · simp only [h0, if_true]
    · simp only [h0, Bool.false_eq_true, if_false, if_true, THaDecData.lineLoc_fName]
  · rfl
theorem findIdx?_first {α : Type} (P : α → Bool) (l : List α) (i : Nat) (p : α)
    (h : l[i]? = some p) (hp : P p = true)
    (hfirst : ∀ (j : Nat) (q : α), j < i → l[j]? = some q → P q = false) :
    l.findIdx? P = some i := by
  have hlt : i < l.length := by
    by_contra hc
    rw [List.getElem?_eq_none (by omega)] at h
    cases h
  have hi : l[i] = p := by
    rw [List.getElem?_eq_getElem hlt] at h
    exact Option.some.inj h
  rw [List.findIdx?_eq_some_iff_getElem]
  refine ⟨hlt, by rw [hi]; exact hp, fun j hj => ?_⟩
  have := hfirst j (l[j]) hj (List.getElem?_eq_getElem _)
  simp [this]

theorem findIdx?_name_none (l : List BdataLoc) (nm : String)
    (h : ∀ q ∈ l, q.fName ≠ nm) : l.findIdx? (fun p => nm == p.fName) = none := by
  rw [List.findIdx?_eq_none_iff]
  intro q hq
  have := h q hq
  simp only [beq_eq_false_iff_ne, ne_eq]
  exact fun e => this e.symm

/-- C13: in re-initialization mode, for every engine state and every valid
mapping line, (1) when the first location that carries the name of the line is
at position `i` of `fWordLoc`, the load replaces it, at that position, by a
location of the same name and sample buffer that compares equal to the
location of the line and is the old one when that already compared equal, and
leaves `fCrateLoc` and the variable list unchanged; (2) the same holds in
`fCrateLoc` when no location of `fWordLoc` carries the name; (3) when no
location carries the name, the line is processed as on a fresh load: its
location is appended to `fCrateLoc` for a `crate` line and to `fWordLoc`
otherwise. -/
theorem C13_reinitialize_update_rule (s : THaDecData) (sinput : String) (is_slot : Bool)
    (b : BdataLoc) (hline : parseLine sinput = some (is_slot, b)) :
    (∀ (i : Nat) (p : BdataLoc), s.fWordLoc[i]? = some p → p.fName = b.fName →
      (∀ (j : Nat) (q : BdataLoc), j < i → s.fWordLoc[j]? = some q → q.fName ≠ b.fName) →
      ∃ p2 : BdataLoc,
        (THaDecData.setupLine true s sinput).fWordLoc = s.fWordLoc.set i p2 ∧
        p2.hwEq b = true ∧ (p.hwEq b = true → p2 = p) ∧ p2.fName = p.fName ∧
        p2.rdata = p.rdata ∧ p2.ndata = p.ndata ∧
        (THaDecData.setupLine true s sinput).fCrateLoc = s.fCrateLoc ∧
        (THaDecData.setupLine true s sinput).gHaVars = s.gHaVars) ∧
    (∀ (i : Nat) (p : BdataLoc), (∀ q ∈ s.fWordLoc, q.fName ≠ b.fName) →
      s.fCrateLoc[i]? = some p → p.fName = b.fName →
      (∀ (j : Nat) (q : BdataLoc), j < i → s.fCrateLoc[j]? = some q → q.fName ≠ b.fName) →
      ∃ p2 : BdataLoc,
        (THaDecData.setupLine true s sinput).fCrateLoc = s.fCrateLoc.set i p2 ∧
        p2.hwEq b = true ∧ (p.hwEq b = true → p2 = p) ∧ p2.fName = p.fName ∧
        p2.rdata = p.rdata ∧ p2.ndata = p.ndata ∧
        (THaDecData.setupLine true s sinput).fWordLoc = s.fWordLoc ∧
        (THaDecData.setupLine true s sinput).gHaVars = s.gHaVars) ∧
    ((∀ q ∈ s.fWordLoc, q.fName ≠ b.fName) → (∀ q ∈ s.fCrateLoc, q.fName ≠ b.fName) →
      THaDecData.setupLine true s sinput = THaDecData.setupLine false s sinput ∧
      (THaDecData.setupLine true s sinput).fCrateLoc =
        (if is_slot then s.fCrateLoc ++ [b] else s.fCrateLoc) ∧
      (THaDecData.setupLine true s sinput).fWordLoc =
        (if is_slot then s.fWordLoc else s.fWordLoc ++ [b])) := by
  have hmode := parseLine_mode sinput is_slot b hline
  have hre := THaDecData.setupLine_reinit s sinput
  rw [hline] at hre
  simp only at hre
  refine ⟨?_, ?_, ?_⟩
  · intro i p hp hname hfirst
    have hf : s.fWordLoc.findIdx? (fun p => b.fName == p.fName) = some i := by
      apply findIdx?_first _ _ i p hp
      · simp [hname]
      · intro j q hj hq
        have := hfirst j q hj hq
        simp only [beq_eq_false_iff_ne, ne_eq]
        exact fun e => this e.symm
    rw [hf] at hre
    simp only at hre
    rw [hre]
    refine ⟨THaDecData.updateLoc is_slot b p, ?_, THaDecData.updateLoc_hwEq is_slot b p hmode,
      THaDecData.updateLoc_same is_slot b p, THaDecData.updateLoc_fName is_slot b p,
      (THaDecData.updateLoc_buffer is_slot b p).1, (THaDecData.updateLoc_buffer is_slot b p).2,
      rfl, rfl⟩
    exact modifyAt_eq_set _ _ i p hp
  · intro i p hnone hp hname hfirst
    have hw : s.fWordLoc.findIdx? (fun p => b.fName == p.fName) = none :=
      findIdx?_name_none _ _ hnone
    have hf : s.fCrateLoc.findIdx? (fun p => b.fName == p.fName) = some i := by
      apply findIdx?_first _ _ i p hp
      · simp [hname]
      · intro j q hj hq
        have := hfirst j q hj hq
        simp only [beq_eq_false_iff_ne, ne_eq]
        exact fun e => this e.symm
    rw [hw, hf] at hre
    simp only at hre
    rw [hre]
    refine ⟨THaDecData.updateLoc is_slot b p, ?_, THaDecData.updateLoc_hwEq is_slot b p hmode,
      THaDecData.updateLoc_same is_slot b p, THaDecData.updateLoc_fName is_slot b p,
      (THaDecData.updateLoc_buffer is_slot b p).1, (THaDecData.updateLoc_buffer is_slot b p).2,
      rfl, rfl⟩
    exact modifyAt_eq_set _ _ i p hp
  · intro hnw hnc
    have hw : s.fWordLoc.findIdx? (fun p => b.fName == p.fName) = none :=
      findIdx?_name_none _ _ hnw
    have hc : s.fCrateLoc.findIdx? (fun p => b.fName == p.fName) = none :=
      findIdx?_name_none _ _ hnc
    rw [hw, hc] at hre
    simp only at hre
    have hfr := THaDecData.setupLine_fresh s sinput
    rw [hline] at hfr
    simp only at hfr
    rw [hre, hfr]
    exact ⟨rfl, THaDecData.insertLoc_fCrateLoc _ _ _ _, THaDecData.insertLoc_fWordLoc _ _ _ _⟩

/-- C13 at the engine set up from `foo crate 1 2 3`: the line
`foo header 1 aa 0` finds `foo` at position 0 of `fCrateLoc` and gives it the
marker address, in place; the line `bar header 1 aa 0` finds no location and
appends `bar` to `fWordLoc`. -/
theorem C13_reinitialize_update_rule_witness :
    parseLine "foo header 1 aa 0" = some (false, BdataLoc.mkHeader "foo" 1 170 0) ∧
    stFoo.fCrateLoc[0]? = some (BdataLoc.mkSlot "foo" 1 2 3) ∧
    (∃ p2 : BdataLoc,
      (THaDecData.setupLine true stFoo "foo header 1 aa 0").fCrateLoc = stFoo.fCrateLoc.set 0 p2 ∧
      p2.hwEq (BdataLoc.mkHeader "foo" 1 170 0) = true ∧
      ((BdataLoc.mkSlot "foo" 1 2 3).hwEq (BdataLoc.mkHeader "foo" 1 170 0) = true →
        p2 = BdataLoc.mkSlot "foo" 1 2 3) ∧
      p2.fName = (BdataLoc.mkSlot "foo" 1 2 3).fName ∧
      p2.rdata = (BdataLoc.mkSlot "foo" 1 2 3).rdata ∧
      p2.ndata = (BdataLoc.mkSlot "foo" 1 2 3).ndata ∧
      (THaDecData.setupLine true stFoo "foo header 1 aa 0").fWordLoc = stFoo.fWordLoc ∧
      (THaDecData.setupLine true stFoo "foo header 1 aa 0").gHaVars = stFoo.gHaVars) ∧
    (THaDecData.setupLine true stFoo "bar header 1 aa 0").fWordLoc =
      [BdataLoc.mkHeader "bar" 1 170 0] :=
  ⟨by decide, by decide,
   (C13_reinitialize_update_rule stFoo "foo header 1 aa 0" false
      (BdataLoc.mkHeader "foo" 1 170 0) (by decide)).2.1 0 (BdataLoc.mkSlot "foo" 1 2 3)
      (by decide) (by decide) (by decide) (by intro j q hj; omega),
   by decide⟩

/-- One turn of the loader loop in re-initialization mode keeps every location
of both collections at its position and under its name, and keeps the whole
location unless the line is valid and carries its name. -/
theorem THaDecData.setupLine_reinit_keeps (s : THaDecData) (sinput : String) :
    (∀ (i : Nat) (p : BdataLoc), s.fCrateLoc[i]? = some p →
      ∃ p2 : BdataLoc, (THaDecData.setupLine true s sinput).fCrateLoc[i]? = some p2 ∧
        p2.fName = p.fName ∧
        ((∀ e, parseLine sinput = some e → e.2.fName ≠ p.fName) → p2 = p)) ∧
    (∀ (i : Nat) (p : BdataLoc), s.fWordLoc[i]? = some p →
      ∃ p2 : BdataLoc, (THaDecData.setupLine true s sinput).fWordLoc[i]? = some p2 ∧
        p2.fName = p.fName ∧
        ((∀ e, parseLine sinput = some e → e.2.fName ≠ p.fName) → p2 = p)) := by
  have hre := THaDecData.setupLine_reinit s sinput
  cases hl : parseLine sinput with
  | none =>
    rw [hl] at hre
    simp only at hre
    rw [hre]
    exact ⟨fun i p hp => ⟨p, hp, rfl, fun _ => rfl⟩, fun i p hp => ⟨p, hp, rfl, fun _ => rfl⟩⟩
  | some e =>
    rw [hl] at hre
    simp only at hre
    have hupd : ∀ (l : List BdataLoc) (k : Nat),
        l.findIdx? (fun p => e.2.fName == p.fName) = some k →
        ∀ (i : Nat) (p : BdataLoc), l[i]? = some p →
          ∃ p2 : BdataLoc, (modifyAt (THaDecData.updateLoc e.1 e.2) k l)[i]? = some p2 ∧
            p2.fName = p.fName ∧ ((∀ e2, some e = some e2 → e2.2.fName ≠ p.fName) → p2 = p) := by
      intro l k hk i p hp
      rw [modifyAt_getElem?, hp]
      by_cases hik : i = k
      · rw [if_pos hik]
        refine ⟨THaDecData.updateLoc e.1 e.2 p, rfl, THaDecData.updateLoc_fName _ _ _, ?_⟩
        intro hne
        exfalso
        have h1 := List.findIdx?_of_eq_some hk
        rw [← hik, hp] at h1
        simp only [beq_iff_eq] at h1
        exact hne e rfl h1
      · rw [if_neg hik]
        exact ⟨p, rfl, rfl, fun _ => rfl⟩
    cases hw : s.fWordLoc.findIdx? (fun p => e.2.fName == p.fName) with
    | some k =>
      rw [hw] at hre
      simp only at hre
      rw [hre]
      exact ⟨fun i p hp => ⟨p, hp, rfl, fun _ => rfl⟩, hupd s.fWordLoc k hw⟩
    | none =>
      rw [hw] at hre
      simp only at hre
      cases hc : s.fCrateLoc.findIdx? (fun p => e.2.fName == p.fName) with
      | some k =>
        rw [hc] at hre
        simp only at hre
        rw [hre]
        exact ⟨hupd s.fCrateLoc k hc, fun i p hp => ⟨p, hp, rfl, fun _ => rfl⟩⟩
      | none =>
        rw [hc] at hre
        simp only at hre
        rw [hre, THaDecData.insertLoc_fCrateLoc, THaDecData.insertLoc_fWordLoc]
        constructor
        · intro i p hp
          refine ⟨p, ?_, rfl, fun _ => rfl⟩
          split
          · rw [List.getElem?_append_left (by
              by_contra hcon
              rw [List.getElem?_eq_none (by omega)] at hp
              cases hp)]
            exact hp
          · exact hp
        · intro i p hp
          refine ⟨p, ?_, rfl, fun _ => rfl⟩
          split
          · exact hp
          · rw [List.getElem?_append_left (by
              by_contra hcon
              rw [List.getElem?_eq_none (by omega)] at hp
              cases hp)]
            exact hp

/-- The loader loop in re-initialization mode over a whole file. -/
theorem THaDecData.reinitFold_keeps (lines : List String) :
    ∀ s : THaDecData,
    (∀ (i : Nat) (p : BdataLoc), s.fCrateLoc[i]? = some p →
      ∃ p2 : BdataLoc, (lines.foldl (THaDecData.setupLine true) s).fCrateLoc[i]? = some p2 ∧
        p2.fName = p.fName ∧
        ((∀ l ∈ lines, ∀ e, parseLine l = some e → e.2.fName ≠ p.fName) → p2 = p)) ∧
    (∀ (i : Nat) (p : BdataLoc), s.fWordLoc[i]? = some p →
      ∃ p2 : BdataLoc, (lines.foldl (THaDecData.setupLine true) s).fWordLoc[i]? = some p2 ∧
        p2.fName = p.fName ∧
        ((∀ l ∈ lines, ∀ e, parseLine l = some e → e.2.fName ≠ p.fName) → p2 = p)) := by
  induction lines with
  | nil =>
    intro s
    exact ⟨fun i p hp => ⟨p, hp, rfl, fun _ => rfl⟩, fun i p hp => ⟨p, hp, rfl, fun _ => rfl⟩⟩
  | cons l ls ih =>
    intro s
    have hstep := THaDecData.setupLine_reinit_keeps s l
    have hrest := ih (THaDecData.setupLine true s l)
    rw [List.foldl_cons]
    constructor
    · intro i p hp
      obtain ⟨p1, hp1, hn1, hk1⟩ := hstep.1 i p hp
      obtain ⟨p2, hp2, hn2, hk2⟩ := hrest.1 i p1 hp1
      refine ⟨p2, hp2, hn2.trans hn1, fun hall => ?_⟩
      have e1 : p1 = p := hk1 (fun e he => hall l (List.mem_cons_self _ _) e he)
      rw [← e1]
      exact hk2 (fun l2 hl2 e he => by
        rw [e1]
        exact hall l2 (List.mem_cons_of_mem _ hl2) e he)
    · intro i p hp
      obtain ⟨p1, hp1, hn1, hk1⟩ := hstep.2 i p hp
      obtain ⟨p2, hp2, hn2, hk2⟩ := hrest.2 i p1 hp1
      refine ⟨p2, hp2, hn2.trans hn1, fun hall => ?_⟩
      have e1 : p1 = p := hk1 (fun e he => hall l (List.mem_cons_self _ _) e he)
      rw [← e1]
      exact hk2 (fun l2 hl2 e he => by
        rw [e1]
        exact hall l2 (List.mem_cons_of_mem _ hl2) e he)

/-- `SetupDecData` in define mode on an engine that is set up runs the loader
loop in re-initialization mode on the state as it is. -/
theorem THaDecData.SetupDecData_reinit (lines : List String) (s : THaDecData)
    (hset : s.fIsSetup = true) :
    THaDecData.SetupDecData (some lines) EMode.kDefine s =
      (0, lines.foldl (THaDecData.setupLine true) s) := by
  cases s
  simp only at hset
  subst hset
  rfl

/-- C14: a load in re-initialization mode (`SetupDecData` in define mode on an
engine that is set up) returns 0 and removes nothing: every location of
`fCrateLoc` and of `fWordLoc` is afterwards at the same position of the same
collection under the same name, and a location whose name is not the first
field of any valid line of the file is unchanged as a whole, so that its
addressing mode and its address are unchanged. -/
theorem C14_reinitialize_never_removes (lines : List String) (s : THaDecData)
    (hset : s.fIsSetup = true) :
    (THaDecData.SetupDecData (some lines) EMode.kDefine s).1 = 0 ∧
    (∀ (i : Nat) (p : BdataLoc), s.fCrateLoc[i]? = some p →
      ∃ p2 : BdataLoc,
        (THaDecData.SetupDecData (some lines) EMode.kDefine s).2.fCrateLoc[i]? = some p2 ∧
        p2.fName = p.fName ∧
        ((∀ l ∈ lines, ∀ e, parseLine l = some e → e.2.fName ≠ p.fName) → p2 = p)) ∧
    (∀ (i : Nat) (p : BdataLoc), s.fWordLoc[i]? = some p →
      ∃ p2 : BdataLoc,
        (THaDecData.SetupDecData (some lines) EMode.kDefine s).2.fWordLoc[i]? = some p2 ∧
        p2.fName = p.fName ∧
        ((∀ l ∈ lines, ∀ e, parseLine l = some e → e.2.fName ≠ p.fName) → p2 = p)) := by
  rw [THaDecData.SetupDecData_reinit lines s hset]
  exact ⟨rfl, (THaDecData.reinitFold_keeps lines s).1, (THaDecData.reinitFold_keeps lines s).2⟩

/-- C14 at the default mapping, re-initialized with a file that names
`ctimel` and a new channel `bar`: `pulser1` at position 7 of `fCrateLoc` is
unchanged, and `ctimel` is still at position 5 of `fCrateLoc`, now with
a marker address. -/
theorem C14_reinitialize_never_removes_witness :
    stDefault.fIsSetup = true ∧
    stDefault.fCrateLoc[7]? = some (BdataLoc.mkSlot "pulser1" 3 3 7) ∧
    (∃ p2 : BdataLoc,
      (THaDecData.SetupDecData (some ["ctimel header 1 aa 0", "bar crate 1 2 3"])
        EMode.kDefine stDefault).2.fCrateLoc[7]? = some p2 ∧
      p2.fName = (BdataLoc.mkSlot "pulser1" 3 3 7).fName ∧
      ((∀ l ∈ ["ctimel header 1 aa 0", "bar crate 1 2 3"], ∀ e, parseLine l = some e →
          e.2.fName ≠ (BdataLoc.mkSlot "pulser1" 3 3 7).fName) →
        p2 = BdataLoc.mkSlot "pulser1" 3 3 7)) ∧
    ((THaDecData.SetupDecData (some ["ctimel header 1 aa 0", "bar crate 1 2 3"])
        EMode.kDefine stDefault).2.fCrateLoc[5]?).map (fun p => (p.fName, p.IsSlot)) =
      some ("ctimel", false) :=
  ⟨by decide, by decide,
   (C14_reinitialize_never_removes ["ctimel header 1 aa 0", "bar crate 1 2 3"] stDefault
      (by decide)).2.1 7 (BdataLoc.mkSlot "pulser1" 3 3 7) (by decide),
   by decide⟩

/-! ## Frames of the decoder steps -/

theorem vdcKeeps_refl (s : THaDecData) : vdcKeeps s s := ⟨rfl, rfl, rfl, rfl⟩

theorem vdcKeeps_trans {s t u : THaDecData} (h1 : vdcKeeps s t) (h2 : vdcKeeps t u) :
    vdcKeeps s u :=
  ⟨h2.1.trans h1.1, h2.2.1.trans h1.2.1, h2.2.2.1.trans h1.2.2.1, h2.2.2.2.trans h1.2.2.2⟩

theorem THaDecData.vdcPlane_vdcKeeps (s : THaDecData) (ipl : Nat) :
    vdcKeeps s (s.vdcPlane ipl) := by
  unfold THaDecData.vdcPlane
  split
  · exact vdcKeeps_refl s
  · dsimp only
    split <;> exact ⟨rfl, rfl, rfl, rfl⟩

theorem THaDecData.vdcInit_vdcKeeps (s : THaDecData) : vdcKeeps s s.vdcInit := by
  unfold THaDecData.vdcInit
  apply ite_prop (vdcKeeps s)
  · show vdcKeeps s (THaDecData.vdcRebind _)
    apply ite_prop (fun t => vdcKeeps s (THaDecData.vdcRebind t))
    · exact ⟨rfl, rfl, rfl, rfl⟩
    · exact ⟨rfl, rfl, rfl, rfl⟩
  · exact vdcKeeps_refl s

theorem THaDecData.vdcFlush_vdcKeeps (s : THaDecData) : vdcKeeps s s.vdcFlush := by
  unfold THaDecData.vdcFlush
  apply ite_prop (vdcKeeps s)
  · exact ⟨rfl, rfl, rfl, rfl⟩
  · exact ⟨rfl, rfl, rfl, rfl⟩

theorem THaDecData.VdcEff_vdcKeeps (s : THaDecData) : vdcKeeps s s.VdcEff := by
  unfold THaDecData.VdcEff
  apply vdcKeeps_trans _ (THaDecData.vdcFlush_vdcKeeps _)
  exact foldl_invariant (fun u => vdcKeeps s u) _
    (fun u a hu => vdcKeeps_trans hu (THaDecData.vdcPlane_vdcKeeps u a)) _ _
    (THaDecData.vdcInit_vdcKeeps s)

theorem projKeeps_refl (s : THaDecData) : projKeeps s s :=
  ⟨rfl, rfl, rfl, rfl, rfl, rfl, rfl, rfl, rfl, rfl⟩

theorem projKeeps_trans {s t u : THaDecData} (h1 : projKeeps s t) (h2 : projKeeps t u) :
    projKeeps s u := by
  obtain ⟨a1, a2, a3, a4, a5, a6, a7, a8, a9, a10⟩ := h1
  obtain ⟨b1, b2, b3, b4, b5, b6, b7, b8, b9, b10⟩ := h2
  exact ⟨b1.trans a1, b2.trans a2, b3.trans a3, b4.trans a4, b5.trans a5, b6.trans a6,
    b7.trans a7, b8.trans a8, b9.trans a9, b10.trans a10⟩

theorem THaDecData.TrigBits_projKeeps (s : THaDecData) (ibit : Nat) (d : BdataLoc) :
    projKeeps s (s.TrigBits ibit d) := by
  unfold THaDecData.TrigBits
  split
  · exact projKeeps_refl s
  · apply foldl_invariant (fun t => projKeeps s t)
    · intro t a ht
      dsimp only
      split
      · exact ht
      · exact ht
    · exact projKeeps_refl s

theorem THaDecData.projectCrateLoc_projKeeps (s : THaDecData) (d : BdataLoc) :
    projKeeps s (s.projectCrateLoc d) := by
  unfold THaDecData.projectCrateLoc
  split
  · exact THaDecData.TrigBits_projKeeps s _ d
  · repeat' first
      | apply ite_prop (projKeeps s)
      | exact projKeeps_refl s

theorem THaDecData.projectWordLoc_projKeeps (s : THaDecData) (d : BdataLoc) :
    projKeeps s (s.projectWordLoc d) := by
  unfold THaDecData.projectWordLoc
  repeat' first
    | apply ite_prop (projKeeps s)
    | exact projKeeps_refl s

theorem THaDecData.decodeProject_projKeeps (s : THaDecData) :
    projKeeps s s.decodeProject := by
  unfold THaDecData.decodeProject
  dsimp only
  have h1 : projKeeps s (s.fCrateLoc.foldl THaDecData.projectCrateLoc s) :=
    foldl_invariant (fun u => projKeeps s u) _
      (fun u a hu => projKeeps_trans hu (THaDecData.projectCrateLoc_projKeeps u a)) _ _
      (projKeeps_refl s)
  exact foldl_invariant (fun u => projKeeps s u) _
    (fun u a hu => projKeeps_trans hu (THaDecData.projectWordLoc_projKeeps u a)) _ _ h1

/-- `Decode` leaves the status flags as they are. -/
theorem THaDecData.decodeBody_status (evdata : THaEvData) (s : THaDecData) :
    (THaDecData.decodeBody evdata s).fStatus = s.fStatus ∧
    (THaDecData.decodeBody evdata s).fIsSetup = s.fIsSetup ∧
    (THaDecData.decodeBody evdata s).isZombie = s.isZombie := by
  unfold THaDecData.decodeBody
  have h1 := THaDecData.VdcEff_vdcKeeps (THaDecData.decodeProject (THaDecData.decodeEvType
    evdata (THaDecData.decodeLocs evdata (THaDecData.decodeLengths evdata s.Clear))))
  have h2 := THaDecData.decodeProject_projKeeps (THaDecData.decodeEvType
    evdata (THaDecData.decodeLocs evdata (THaDecData.decodeLengths evdata s.Clear)))
  exact ⟨h1.1.trans h2.1, h1.2.1.trans h2.2.1, h1.2.2.1.trans h2.2.2.1⟩

/-! ## Two engines that share the registry -/

theorem foldl_rel {σ α : Type} (R : σ → σ → Prop) (f g : σ → α → σ)
    (h : ∀ s t a, R s t → R (f s a) (g t a)) (l : List α) :
    ∀ s t, R s t → R (l.foldl f s) (l.foldl g t) := by
  induction l with
  | nil => intro s t hst; exact hst
  | cons a l ih => intro s t hst; exact ih (f s a) (g t a) (h s t a hst)

theorem foldl_rel_forall₂ {σ α : Type} (R : σ → σ → Prop) (Q : α → α → Prop) (f : σ → α → σ)
    (h : ∀ s t a b, R s t → Q a b → R (f s a) (f t b)) :
    ∀ (l1 l2 : List α), List.Forall₂ Q l1 l2 →
      ∀ s t, R s t → R (l1.foldl f s) (l2.foldl f t) := by
  intro l1 l2 hl
  induction hl with
  | nil => intro s t hst; exact hst
  | cons hab _ ih => intro s t hst; exact ih _ _ (h s t _ _ hst hab)

theorem ite_rel {α : Type} (R : α → α → Prop) (c : Prop) [Decidable c] (a b a2 b2 : α)
    (h1 : R a a2) (h2 : R b b2) : R (if c then a else b) (if c then a2 else b2) := by
  split
  · exact h1
  · exact h2

theorem BdataLoc.sameView_refl (a : BdataLoc) : a.sameView a := ⟨rfl, rfl, fun _ => rfl⟩

theorem BdataLoc.sameView_nameIs {a b : BdataLoc} (h : a.sameView b) (n : String) :
    b.nameIs n = a.nameIs n := by
  unfold BdataLoc.nameIs
  rw [h.1]

/-- Two cleared locations of the same definition, loaded with the same
values, show the same name, count and samples. -/
theorem BdataLoc.loadAll_sameView (a b : BdataLoc) (vs : List Nat) (hn : b.fName = a.fName) :
    (a.Clear.loadAll vs).sameView (b.Clear.loadAll vs) := by
  have ha := BdataLoc.loadAll_spec a.Clear vs rfl
  have hb := BdataLoc.loadAll_spec b.Clear vs rfl
  refine ⟨?_, ?_, ?_⟩
  · rw [(BdataLoc.loadAll_sameDef vs b.Clear).1, (BdataLoc.loadAll_sameDef vs a.Clear).1]
    exact hn
  · rw [ha.1, hb.1]
  · intro i
    by_cases hi : i < 0 ∨ ((min vs.length 16 : Nat) : Int) ≤ i
    · rw [ha.2.2 i hi, hb.2.2 i hi]
    · have h0 : 0 ≤ i := by omega
      obtain ⟨k, rfl⟩ := Int.eq_ofNat_of_zero_le h0
      have hk : k < min vs.length 16 := by omega
      have e1 := ha.2.1 k hk
      have e2 := hb.2.1 k hk
      rw [e1] at e2
      exact (Option.some.inj e2).symm

theorem THaDecData.decodeCrateLoc_sameView (evdata : THaEvData) (a b : BdataLoc)
    (h : a.sameDef b) :
    (THaDecData.decodeCrateLoc evdata a.Clear).sameView
      (THaDecData.decodeCrateLoc evdata b.Clear) := by
  obtain ⟨h1, h2, h3, h4, h5, h6, h7⟩ := h
  by_cases hs : a.IsSlot = true
  · have hsa : a.Clear.IsSlot = true := hs
    have hsb : b.Clear.IsSlot = true := by
      show (b.search_choice == 0) = true
      rw [h7]
      exact hs
    rw [THaDecData.decodeCrateLoc_eq evdata _ hsa, THaDecData.decodeCrateLoc_eq evdata _ hsb]
    have hv : slotHits evdata b.Clear = slotHits evdata a.Clear := by
      unfold slotHits
      show (List.range (evdata.GetNumHits b.crate b.slot b.chan).toNat).map
        (fun (i : Nat) => toUInt_t (evdata.GetData b.crate b.slot b.chan (i : Int))) = _
      rw [h2, h3, h4]
      rfl
    rw [hv]
    exact BdataLoc.loadAll_sameView a b _ h1
  · have hs2 : a.IsSlot = false := by simpa using hs
    have hsa : a.Clear.IsSlot = false := hs2
    have hsb : b.Clear.IsSlot = false := by
      show (b.search_choice == 0) = false
      rw [h7]
      exact hs2
    rw [THaDecData.decodeCrateLoc_not_slot evdata _ hsa,
      THaDecData.decodeCrateLoc_not_slot evdata _ hsb]
    have := BdataLoc.loadAll_sameView a b [] h1
    rw [BdataLoc.loadAll_nil, BdataLoc.loadAll_nil] at this
    exact this

theorem THaDecData.decodeWordLoc_sameView (evdata : THaEvData) (a b : BdataLoc)
    (h : a.sameDef b) :
    (THaDecData.decodeWordLoc evdata a.Clear).sameView
      (THaDecData.decodeWordLoc evdata b.Clear) := by
  obtain ⟨h1, h2, h3, h4, h5, h6, h7⟩ := h
  rw [THaDecData.decodeWordLoc_eq, THaDecData.decodeWordLoc_eq]
  have hv : markerHits evdata b.Clear = markerHits evdata a.Clear := by
    unfold markerHits markerPositions
    show ((List.range (evdata.GetRocLength b.crate - b.ntoskip + 1).toNat).filter
      (fun (i : Nat) => decide (toUInt_t (evdata.GetRawData b.crate (i : Int)) = b.header))).map
      (fun (i : Nat) => toUInt_t (evdata.GetRawData b.crate ((i : Int) + b.ntoskip))) = _
    rw [h2, h5, h6]
    rfl
  rw [hv]
  exact BdataLoc.loadAll_sameView a b _ h1

theorem TBits.SetBitNumber_GetNbits_congr (a b : TBits) (h : b.GetNbits = a.GetNbits)
    (j : Nat) (v w : Bool) :
    (b.SetBitNumber j w).GetNbits = (a.SetBitNumber j v).GetNbits := by
  unfold TBits.GetNbits at h ⊢
  unfold TBits.SetBitNumber
  dsimp only
  rw [h]

theorem sameOut_refl (s : THaDecData) : sameOut s s := ⟨rfl, rfl, rfl⟩

theorem sameOut_trans {s t u : THaDecData} (h1 : sameOut s t) (h2 : sameOut t u) :
    sameOut s u :=
  ⟨h2.1.trans h1.1, h2.2.1.trans h1.2.1, h2.2.2.trans h1.2.2⟩

theorem sameOut_symm {s t : THaDecData} (h : sameOut s t) : sameOut t s :=
  ⟨h.1.symm, h.2.1.symm, h.2.2.symm⟩

theorem THaDecData.TrigBits_sameOut (s t : THaDecData) (ibit : Nat) (d1 d2 : BdataLoc)
    (h : sameOut s t) (hv : d1.sameView d2) :
    sameOut (s.TrigBits ibit d1) (t.TrigBits ibit d2) := by
  unfold THaDecData.TrigBits
  apply ite_rel sameOut
  · exact h
  · dsimp only
    rw [hv.2.1]
    apply foldl_rel sameOut
    · intro st tt ihit hst
      rw [hv.2.2 (ihit : Int)]
      apply ite_rel sameOut
      · refine ⟨hst.1, ?_, ?_⟩
        · show tt.evtypebits ||| _ = st.evtypebits ||| _
          rw [hst.2.1]
        · exact TBits.SetBitNumber_GetNbits_congr _ _ hst.2.2 _ _ _
      · exact hst
    · exact ⟨h.1, h.2.1, TBits.SetBitNumber_GetNbits_congr _ _ h.2.2 _ _ _⟩

theorem THaDecData.projectWordLoc_sameOut (s t : THaDecData) (d1 d2 : BdataLoc)
    (h : sameOut s t) (hv : d1.sameView d2) :
    sameOut (s.projectWordLoc d1) (t.projectWordLoc d2) := by
  unfold THaDecData.projectWordLoc
  have hname : BdataLoc.nameIs d2 = BdataLoc.nameIs d1 :=
    funext (fun n => BdataLoc.sameView_nameIs hv n)
  have hg := hv.2.2 0
  rw [hname]
  obtain ⟨h1, h2, h3⟩ := h
  simp only [scalarsOf, List.cons.injEq, and_true, Nat.cast_inj] at h1
  obtain ⟨e0, e1, e2, e3, e4, e5, e6, e7, e8, e9, e10, e11, e12, e13, e14, e15, e16, e17,
    e18, e19, e20⟩ := h1
  repeat' first
    | apply ite_rel sameOut
    | (refine ⟨?_, h2, h3⟩
       simp only [scalarsOf, List.cons.injEq, and_true, Nat.cast_inj]
       and_intros <;> assumption)

theorem THaDecData.projectCrateLoc_sameOut (s t : THaDecData) (d1 d2 : BdataLoc)
    (h : sameOut s t) (hv : d1.sameView d2) :
    sameOut (s.projectCrateLoc d1) (t.projectCrateLoc d2) := by
  unfold THaDecData.projectCrateLoc
  have hname : BdataLoc.nameIs d2 = BdataLoc.nameIs d1 :=
    funext (fun n => BdataLoc.sameView_nameIs hv n)
  have hg := hv.2.2 0
  rw [hname, h.2.2]
  generalize (List.range' 1 s.bits.GetNbits).find? (fun i => d1.nameIs (Form_bit i)) = r
  cases r with
  | some i => exact THaDecData.TrigBits_sameOut s t i d1 d2 h hv
  | none =>
    dsimp only
    obtain ⟨h1, h2, h3⟩ := h
    simp only [scalarsOf, List.cons.injEq, and_true, Nat.cast_inj] at h1
    obtain ⟨e0, e1, e2, e3, e4, e5, e6, e7, e8, e9, e10, e11, e12, e13, e14, e15, e16, e17,
      e18, e19, e20⟩ := h1
    repeat' first
      | apply ite_rel sameOut
      | (refine ⟨?_, h2, h3⟩
         simp only [scalarsOf, List.cons.injEq, and_true, Nat.cast_inj]
         and_intros <;> assumption)

theorem THaDecData.projectCrateFold_locs (l : List BdataLoc) (s : THaDecData) :
    sameLocs s (l.foldl THaDecData.projectCrateLoc s) :=
  foldl_invariant (fun u => sameLocs s u) _
    (fun u a hu => sameLocs_trans hu (THaDecData.projectCrateLoc_sameLocs u a)) _ _
    (sameLocs_refl s)

/-- The two projection loops of `Decode` on two engines whose locations show
the same names, counts and samples. -/
theorem THaDecData.decodeProject_sameOut (s t : THaDecData) (h : sameOut s t)
    (hc : List.Forall₂ BdataLoc.sameView s.fCrateLoc t.fCrateLoc)
    (hw : List.Forall₂ BdataLoc.sameView s.fWordLoc t.fWordLoc) :
    sameOut s.decodeProject t.decodeProject := by
  unfold THaDecData.decodeProject
  dsimp only
  rw [(THaDecData.projectCrateFold_locs s.fCrateLoc s).2.1,
    (THaDecData.projectCrateFold_locs t.fCrateLoc t).2.1]
  apply foldl_rel_forall₂ sameOut BdataLoc.sameView _
    (fun a b x y hab hxy => THaDecData.projectWordLoc_sameOut a b x y hab hxy) _ _ hw
  exact foldl_rel_forall₂ sameOut BdataLoc.sameView _
    (fun a b x y hab hxy => THaDecData.projectCrateLoc_sameOut a b x y hab hxy) _ _ hc s t h

theorem forall₂_map_of {α β : Type} (P : α → α → Prop) (Q : β → β → Prop) (f : α → β)
    (h : ∀ a b, P a b → Q (f a) (f b)) :
    ∀ l1 l2 : List α, List.Forall₂ P l1 l2 → List.Forall₂ Q (l1.map f) (l2.map f) := by
  intro l1 l2 hl
  induction hl with
  | nil => exact List.Forall₂.nil
  | cons hab _ ih => exact List.Forall₂.cons (h _ _ hab) ih

/-- A successful `Decode` on two engines that share the registry and the bit
count of the trigger pattern. -/
theorem THaDecData.decodeBody_sameOut (evdata : THaEvData) (s t : THaDecData)
    (hc : List.Forall₂ BdataLoc.sameDef s.fCrateLoc t.fCrateLoc)
    (hw : List.Forall₂ BdataLoc.sameDef s.fWordLoc t.fWordLoc)
    (hn : t.bits.GetNbits = s.bits.GetNbits) :
    sameOut (THaDecData.decodeBody evdata s) (THaDecData.decodeBody evdata t) ∧
    List.Forall₂ BdataLoc.sameView (THaDecData.decodeBody evdata s).fCrateLoc
      (THaDecData.decodeBody evdata t).fCrateLoc ∧
    List.Forall₂ BdataLoc.sameView (THaDecData.decodeBody evdata s).fWordLoc
      (THaDecData.decodeBody evdata t).fWordLoc := by
  have hc2 := forall₂_map_of BdataLoc.sameDef BdataLoc.sameView
    (fun b => THaDecData.decodeCrateLoc evdata b.Clear)
    (fun a b hab => THaDecData.decodeCrateLoc_sameView evdata a b hab) _ _ hc
  have hw2 := forall₂_map_of BdataLoc.sameDef BdataLoc.sameView
    (fun b => THaDecData.decodeWordLoc evdata b.Clear)
    (fun a b hab => THaDecData.decodeWordLoc_sameView evdata a b hab) _ _ hw
  refine ⟨?_, ?_, ?_⟩
  · unfold THaDecData.decodeBody
    have hs := THaDecData.VdcEff_vdcKeeps (THaDecData.decodeProject (THaDecData.decodeEvType
      evdata (THaDecData.decodeLocs evdata (THaDecData.decodeLengths evdata s.Clear))))
    have ht := THaDecData.VdcEff_vdcKeeps (THaDecData.decodeProject (THaDecData.decodeEvType
      evdata (THaDecData.decodeLocs evdata (THaDecData.decodeLengths evdata t.Clear))))
    have hsb := THaDecData.VdcEff_sameBits (THaDecData.decodeProject (THaDecData.decodeEvType
      evdata (THaDecData.decodeLocs evdata (THaDecData.decodeLengths evdata s.Clear))))
    have htb := THaDecData.VdcEff_sameBits (THaDecData.decodeProject (THaDecData.decodeEvType
      evdata (THaDecData.decodeLocs evdata (THaDecData.decodeLengths evdata t.Clear))))
    have hp := THaDecData.decodeProject_sameOut
      (THaDecData.decodeEvType evdata (THaDecData.decodeLocs evdata
        (THaDecData.decodeLengths evdata s.Clear)))
      (THaDecData.decodeEvType evdata (THaDecData.decodeLocs evdata
        (THaDecData.decodeLengths evdata t.Clear)))
      ⟨rfl, rfl, hn⟩
      (by
        show List.Forall₂ BdataLoc.sameView
          (List.map (THaDecData.decodeCrateLoc evdata) (List.map BdataLoc.Clear s.fCrateLoc))
          (List.map (THaDecData.decodeCrateLoc evdata) (List.map BdataLoc.Clear t.fCrateLoc))
        rw [List.map_map, List.map_map]
        exact hc2)
      (by
        show List.Forall₂ BdataLoc.sameView
          (List.map (THaDecData.decodeWordLoc evdata) (List.map BdataLoc.Clear s.fWordLoc))
          (List.map (THaDecData.decodeWordLoc evdata) (List.map BdataLoc.Clear t.fWordLoc))
        rw [List.map_map, List.map_map]
        exact hw2)
    refine ⟨?_, ?_, ?_⟩
    · rw [ht.2.2.2, hs.2.2.2]
      exact hp.1
    · rw [htb.2, hsb.2]
      exact hp.2.1
    · rw [htb.1, hsb.1]
      exact hp.2.2
  · rw [(THaDecData.decodeBody_locs evdata s).1, (THaDecData.decodeBody_locs evdata t).1]
    exact hc2
  · rw [(THaDecData.decodeBody_locs evdata s).2, (THaDecData.decodeBody_locs evdata t).2]
    exact hw2

theorem forall₂_map_self {α : Type} (P : α → α → Prop) (f : α → α) (h : ∀ a, P a (f a)) :
    ∀ l : List α, List.Forall₂ P l (l.map f) := by
  intro l
  induction l with
  | nil => exact List.Forall₂.nil
  | cons a l ih => exact List.Forall₂.cons (h a) ih

theorem THaDecData.decodeCrateLoc_sameDef (evdata : THaEvData) (b : BdataLoc) :
    b.sameDef (THaDecData.decodeCrateLoc evdata b.Clear) := by
  by_cases hs : b.IsSlot = true
  · have hsa : b.Clear.IsSlot = true := hs
    rw [THaDecData.decodeCrateLoc_eq evdata _ hsa]
    exact BdataLoc.loadAll_sameDef _ b.Clear
  · have hs2 : b.IsSlot = false := by simpa using hs
    have hsa : b.Clear.IsSlot = false := hs2
    rw [THaDecData.decodeCrateLoc_not_slot evdata _ hsa]
    exact ⟨rfl, rfl, rfl, rfl, rfl, rfl, rfl⟩

theorem THaDecData.decodeWordLoc_sameDef (evdata : THaEvData) (b : BdataLoc) :
    b.sameDef (THaDecData.decodeWordLoc evdata b.Clear) := by
  rw [THaDecData.decodeWordLoc_eq]
  exact BdataLoc.loadAll_sameDef _ b.Clear

/-- A successful `Decode` leaves the definitions of the registry as they are. -/
theorem THaDecData.decodeBody_sameDef (evdata : THaEvData) (s : THaDecData) :
    List.Forall₂ BdataLoc.sameDef s.fCrateLoc (THaDecData.decodeBody evdata s).fCrateLoc ∧
    List.Forall₂ BdataLoc.sameDef s.fWordLoc (THaDecData.decodeBody evdata s).fWordLoc := by
  rw [(THaDecData.decodeBody_locs evdata s).1, (THaDecData.decodeBody_locs evdata s).2]
  exact ⟨forall₂_map_self _ _ (THaDecData.decodeCrateLoc_sameDef evdata) _,
    forall₂_map_self _ _ (THaDecData.decodeWordLoc_sameDef evdata) _⟩

/-- C18 (as the code has it): for every raw event and any two engine states
with status OK that share the registry (the same names, addressing modes and
addresses at the same positions of both collections) and the bit count of the
trigger pattern, and that may differ in everything else, `Decode` returns 0 on
both and leaves the same scalar outputs, the same `evtypebits`, and for every
location the same `NumHits()` and the same `Get(i)` for every `i`; and when a
`Decode` leaves the bit count of the trigger pattern as it found it, decoding
the same event once more gives these outputs again. -/
theorem C18_decode_has_no_retained_state (evdata : THaEvData) (s1 s2 : THaDecData)
    (hok1 : s1.IsOK = true) (hok2 : s2.IsOK = true)
    (hc : List.Forall₂ BdataLoc.sameDef s1.fCrateLoc s2.fCrateLoc)
    (hw : List.Forall₂ BdataLoc.sameDef s1.fWordLoc s2.fWordLoc)
    (hn : s2.bits.GetNbits = s1.bits.GetNbits) :
    (THaDecData.Decode evdata s1).1 = 0 ∧ (THaDecData.Decode evdata s2).1 = 0 ∧
    scalarsOf (THaDecData.Decode evdata s2).2 = scalarsOf (THaDecData.Decode evdata s1).2 ∧
    (THaDecData.Decode evdata s2).2.evtypebits = (THaDecData.Decode evdata s1).2.evtypebits ∧
    List.Forall₂ BdataLoc.sameView (THaDecData.Decode evdata s1).2.fCrateLoc
      (THaDecData.Decode evdata s2).2.fCrateLoc ∧
    List.Forall₂ BdataLoc.sameView (THaDecData.Decode evdata s1).2.fWordLoc
      (THaDecData.Decode evdata s2).2.fWordLoc ∧
    ((THaDecData.Decode evdata s1).2.bits.GetNbits = s1.bits.GetNbits →
      (THaDecData.Decode evdata (THaDecData.Decode evdata s1).2).1 = 0 ∧
      scalarsOf (THaDecData.Decode evdata (THaDecData.Decode evdata s1).2).2 =
        scalarsOf (THaDecData.Decode evdata s1).2 ∧
      (THaDecData.Decode evdata (THaDecData.Decode evdata s1).2).2.evtypebits =
        (THaDecData.Decode evdata s1).2.evtypebits ∧
      List.Forall₂ BdataLoc.sameView (THaDecData.Decode evdata s1).2.fCrateLoc
        (THaDecData.Decode evdata (THaDecData.Decode evdata s1).2).2.fCrateLoc ∧
      List.Forall₂ BdataLoc.sameView (THaDecData.Decode evdata s1).2.fWordLoc
        (THaDecData.Decode evdata (THaDecData.Decode evdata s1).2).2.fWordLoc) := by
  have hok3 : (THaDecData.decodeBody evdata s1).IsOK = true := by
    unfold THaDecData.IsOK at hok1 ⊢
    rw [(THaDecData.decodeBody_status evdata s1).1]
    exact hok1
  have e1 := THaDecData.Decode_ok evdata s1 hok1
  have e2 := THaDecData.Decode_ok evdata s2 hok2
  have e3 := THaDecData.Decode_ok evdata _ hok3
  obtain ⟨h1, h2, h3⟩ := THaDecData.decodeBody_sameOut evdata s1 s2 hc hw hn
  have hk := THaDecData.decodeBody_sameOut evdata s1
    (THaDecData.decodeBody evdata s1) (THaDecData.decodeBody_sameDef evdata s1).1
    (THaDecData.decodeBody_sameDef evdata s1).2
  generalize THaDecData.decodeBody evdata s2 = r2 at *
  generalize THaDecData.decodeBody evdata (THaDecData.decodeBody evdata s1) = r3 at *
  generalize THaDecData.decodeBody evdata s1 = r1 at *
  rw [e1, e2]
  dsimp only
  rw [e3]
  refine ⟨rfl, rfl, h1.1, h1.2.1, h2, h3, ?_⟩
  intro hkeep
  obtain ⟨k1, k2, k3⟩ := hk hkeep
  exact ⟨rfl, k1.1, k1.2.1, k2, k3⟩

/-- C18 at the engine set up from `foo crate 1 2 3`, fresh and after it has
decoded `evOneHit` (which leaves the sample 42 in the buffer of `foo`): the
event `evMarker` gives the same outputs on both. -/
theorem C18_decode_has_no_retained_state_witness :
    stFoo.IsOK = true ∧ stFooUsed.IsOK = true ∧
    stFooUsed.bits.GetNbits = stFoo.bits.GetNbits ∧
    stFooUsed.fCrateLoc ≠ stFoo.fCrateLoc ∧
    scalarsOf (THaDecData.Decode evMarker stFooUsed).2 =
      scalarsOf (THaDecData.Decode evMarker stFoo).2 ∧
    (THaDecData.Decode evMarker stFooUsed).2.evtypebits =
      (THaDecData.Decode evMarker stFoo).2.evtypebits ∧
    List.Forall₂ BdataLoc.sameView (THaDecData.Decode evMarker stFoo).2.fCrateLoc
      (THaDecData.Decode evMarker stFooUsed).2.fCrateLoc :=
  ⟨by decide, by decide, by decide, by decide,
   (C18_decode_has_no_retained_state evMarker stFoo stFooUsed (by decide) (by decide)
      (THaDecData.decodeBody_sameDef evOneHit stFoo).1
      (THaDecData.decodeBody_sameDef evOneHit stFoo).2 (by decide)).2.2.1,
   (C18_decode_has_no_retained_state evMarker stFoo stFooUsed (by decide) (by decide)
      (THaDecData.decodeBody_sameDef evOneHit stFoo).1
      (THaDecData.decodeBody_sameDef evOneHit stFoo).2 (by decide)).2.2.2.1,
   (C18_decode_has_no_retained_state evMarker stFoo stFooUsed (by decide) (by decide)
      (THaDecData.decodeBody_sameDef evOneHit stFoo).1
      (THaDecData.decodeBody_sameDef evOneHit stFoo).2 (by decide)).2.2.2.2.1⟩

/-- C18 fails as written: on the engine set up from the lines
`bit9 crate 3 5 72` and `bit8 crate 3 5 71` with a trigger pattern of 8 bits,
the first `Decode` of the event `evBits` (one hit of value 100 at (3,5,72))
does not recognise `bit9`, leaves `evtypebits` at 0 and, by handling `bit8`,
enlarges the pattern to 9 bits; the second `Decode` of the same event
recognises `bit9` and leaves `evtypebits` at 512. The registry is the same
before both. -/
theorem C18_counterexample :
    stBit98.IsOK = true ∧
    (THaDecData.Decode evBits stBit98).1 = 0 ∧
    (THaDecData.Decode evBits stBit98).2.evtypebits = 0 ∧
    (THaDecData.Decode evBits stBit98).2.bits.GetNbits = 9 ∧ stBit98.bits.GetNbits = 8 ∧
    (THaDecData.Decode evBits (THaDecData.Decode evBits stBit98).2).1 = 0 ∧
    (THaDecData.Decode evBits (THaDecData.Decode evBits stBit98).2).2.evtypebits = 512 ∧
    (THaDecData.Decode evBits stBit98).2.fCrateLoc.map
        (fun b => (b.fName, b.IsSlot, b.crate, b.slot, b.chan)) =
      stBit98.fCrateLoc.map (fun b => (b.fName, b.IsSlot, b.crate, b.slot, b.chan)) ∧
    (THaDecData.Decode evBits stBit98).2.fWordLoc = [] ∧ stBit98.fWordLoc = [] := by
  decide

/-! ## The counters and the curves of `VdcEff` -/

theorem foldl_congr_mem {σ α : Type} (f g : σ → α → σ) (l : List α)
    (h : ∀ a ∈ l, ∀ s, f s a = g s a) : ∀ s, l.foldl f s = l.foldl g s := by
  induction l with
  | nil => intro s; rfl
  | cons a l ih =>
    intro s
    rw [List.foldl_cons, List.foldl_cons, h a (List.mem_cons_self _ _) s]
    exact ih (fun b hb => h b (List.mem_cons_of_mem _ hb)) _

theorem modifyAt_getElem?_ne {α : Type} (f : α → α) (l : List α) (i j : Nat) (h : j ≠ i) :
    (modifyAt f i l)[j]? = l[j]? := by
  rw [modifyAt_getElem?, if_neg h]

theorem modifyAt_getElem?_eq {α : Type} (f : α → α) (l : List α) (i : Nat) (h : i < l.length) :
    (modifyAt f i l)[i]? = some (f l[i]) := by
  rw [modifyAt_getElem?, if_pos rfl, List.getElem?_eq_getElem h]
  rfl

/-- The neighbour loop of plane `ipl` writes only counters of that plane. -/
theorem THaDecData.vdcCount_frame (ipl : Nat) (wire : List Int) (hitwire : List Nat)
    (c : List Nat × List Nat) (k : Nat)
    (hk : k < ipl * THaDecData.nwire ∨ ipl * THaDecData.nwire + THaDecData.nwire ≤ k) :
    (THaDecData.vdcCount ipl wire hitwire c).1[k]? = c.1[k]? ∧
    (THaDecData.vdcCount ipl wire hitwire c).2[k]? = c.2[k]? := by
  unfold THaDecData.vdcCount
  refine foldl_invariant
    (fun st : List Nat × List Nat => st.1[k]? = c.1[k]? ∧ st.2[k]? = c.2[k]?) _ ?_ wire c
    ⟨rfl, rfl⟩
  · intro st w hst
    dsimp only
    apply ite_prop (fun st2 : List Nat × List Nat => st2.1[k]? = c.1[k]? ∧ st2.2[k]? = c.2[k]?)
    · exact hst
    · apply ite_prop (fun st2 : List Nat × List Nat =>
        st2.1[k]? = c.1[k]? ∧ st2.2[k]? = c.2[k]?)
      · by_cases ha : w + 1 ≥ 0 ∧ w + 1 < (THaDecData.nwire : Int)
        · rw [if_pos ha]
          have hne : k ≠ ipl * THaDecData.nwire + (w + 1).toNat := by
            have h1 : ((w + 1).toNat : Int) = w + 1 := Int.toNat_of_nonneg ha.1
            have h2 : (w + 1).toNat < THaDecData.nwire := by omega
            omega
          constructor
          · show (modifyAt _ _ st.1)[k]? = _
            rw [modifyAt_getElem?_ne _ _ _ _ hne]
            exact hst.1
          · apply ite_prop (fun l : List Nat => l[k]? = c.2[k]?)
            · rw [modifyAt_getElem?_ne _ _ _ _ hne]
              exact hst.2
            · exact hst.2
        · rw [if_neg ha]
          exact hst
      · exact hst

/-- The curve of plane `ipl` depends on the counters of that plane only. -/
theorem THaDecData.vdcCurve_congr (ipl : Nat) (x e x2 e2 : List Nat)
    (h : ∀ i, i < THaDecData.nwire →
      x2[ipl * THaDecData.nwire + i]? = x[ipl * THaDecData.nwire + i]? ∧
      e2[ipl * THaDecData.nwire + i]? = e[ipl * THaDecData.nwire + i]?) :
    THaDecData.vdcCurve ipl x2 e2 = THaDecData.vdcCurve ipl x e := by
  unfold THaDecData.vdcCurve
  apply foldl_congr_mem
  intro i hi acc
  have hi2 : i < THaDecData.nwire := List.mem_range.mp hi
  have hx : x2.getD (ipl * THaDecData.nwire + i) 0 = x.getD (ipl * THaDecData.nwire + i) 0 := by
    rw [List.getD_eq_getElem?_getD, List.getD_eq_getElem?_getD, (h i hi2).1]
  have he : e2.getD (ipl * THaDecData.nwire + i) 0 = e.getD (ipl * THaDecData.nwire + i) 0 := by
    rw [List.getD_eq_getElem?_getD, List.getD_eq_getElem?_getD, (h i hi2).2]
  simp only [hx, he]
/-- What the body of the plane loop of `VdcEff` does for plane `j`: it leaves
the event counter, the flag, the cached variables, the output file and the
number of histograms alone; it writes at most the histograms `j` and `j + 8`,
and only histogram `j` when the event counter is no multiple of 500; it
writes only counters of plane `j`; and when the event counter is a multiple
of 500 and the plane has its variable, histogram `j + 8` becomes the curve of
the counters as they are after the update. -/
theorem THaDecData.vdcPlane_effect (u : THaDecData) (j : Nat) :
    (u.vdcPlane j).cnt = u.cnt ∧ (u.vdcPlane j).fgVdcEffFirst = u.fgVdcEffFirst ∧
    (u.vdcPlane j).varp = u.varp ∧ (u.vdcPlane j).hist.length = u.hist.length ∧
    (u.vdcPlane j).sink = u.sink ∧
    (∀ m, m ≠ j → m ≠ j + 8 → (u.vdcPlane j).hist[m]? = u.hist[m]?) ∧
    (u.cnt % 500 ≠ 0 → ∀ m, m ≠ j → (u.vdcPlane j).hist[m]? = u.hist[m]?) ∧
    (∀ k, (k < j * THaDecData.nwire ∨ j * THaDecData.nwire + THaDecData.nwire ≤ k) →
      (u.vdcPlane j).xcnt[k]? = u.xcnt[k]? ∧ (u.vdcPlane j).eff[k]? = u.eff[k]?) ∧
    (u.cnt % 500 = 0 → ((u.varp.getD j none).bind (varFind u.gHaVars)).isSome = true →
      j + 8 < u.hist.length →
      (u.vdcPlane j).hist[j + 8]? =
        some (THaDecData.vdcCurve j (u.vdcPlane j).xcnt (u.vdcPlane j).eff)) := by
  unfold THaDecData.vdcPlane
  split
  · next heq =>
    refine ⟨rfl, rfl, rfl, rfl, rfl, fun _ _ _ => rfl, fun _ _ _ => rfl,
      fun _ _ => ⟨rfl, rfl⟩, ?_⟩
    intro _ hsome _
    rw [heq] at hsome
    cases hsome
  · next pvar heq =>
    dsimp only
    have hfr := THaDecData.vdcCount_frame j
      ((varValues u pvar).take (min (varValues u pvar).length THaDecData.nwire))
      (THaDecData.hitwireOf
        ((varValues u pvar).take (min (varValues u pvar).length THaDecData.nwire)))
      (u.xcnt, u.eff)
    generalize THaDecData.vdcCount j
      ((varValues u pvar).take (min (varValues u pvar).length THaDecData.nwire))
      (THaDecData.hitwireOf
        ((varValues u pvar).take (min (varValues u pvar).length THaDecData.nwire)))
      (u.xcnt, u.eff) = c at hfr
    by_cases hc : u.cnt % 500 = 0
    · rw [if_pos hc]
      refine ⟨rfl, rfl, rfl, ?_, rfl, ?_, fun h => absurd hc h, fun k hk => hfr k hk, ?_⟩
      · show (modifyAt _ _ (modifyAt _ _ u.hist)).length = _
        rw [modifyAt_length, modifyAt_length]
      · intro m h1 h2
        show (modifyAt _ _ (modifyAt _ _ u.hist))[m]? = _
        rw [modifyAt_getElem?_ne _ _ _ _ h2, modifyAt_getElem?_ne _ _ _ _ h1]
      · intro _ _ hlen
        show (modifyAt _ _ (modifyAt _ _ u.hist))[j + 8]? = _
        rw [modifyAt_getElem?_eq _ _ _ (by rw [modifyAt_length]; exact hlen)]
    · rw [if_neg hc]
      refine ⟨rfl, rfl, rfl, ?_, rfl, ?_, ?_, fun k hk => hfr k hk, fun h => absurd h hc⟩
      · show (modifyAt _ _ u.hist).length = _
        rw [modifyAt_length]
      · intro m h1 _
        show (modifyAt _ _ u.hist)[m]? = _
        rw [modifyAt_getElem?_ne _ _ _ _ h1]
      · intro _ m h1
        show (modifyAt _ _ u.hist)[m]? = _
        rw [modifyAt_getElem?_ne _ _ _ _ h1]

/-- The loop over the first `n` planes of `VdcEff`. -/
theorem THaDecData.vdcPlanes_effect (u : THaDecData) :
    ∀ n, n ≤ 8 →
    ((List.range n).foldl THaDecData.vdcPlane u).cnt = u.cnt ∧
    ((List.range n).foldl THaDecData.vdcPlane u).fgVdcEffFirst = u.fgVdcEffFirst ∧
    ((List.range n).foldl THaDecData.vdcPlane u).varp = u.varp ∧
    ((List.range n).foldl THaDecData.vdcPlane u).gHaVars = u.gHaVars ∧
    ((List.range n).foldl THaDecData.vdcPlane u).hist.length = u.hist.length ∧
    ((List.range n).foldl THaDecData.vdcPlane u).sink = u.sink ∧
    (∀ m, (n ≤ m ∧ m < 8) ∨ n + 8 ≤ m →
      ((List.range n).foldl THaDecData.vdcPlane u).hist[m]? = u.hist[m]?) ∧
    (u.cnt % 500 ≠ 0 → ∀ m, n ≤ m →
      ((List.range n).foldl THaDecData.vdcPlane u).hist[m]? = u.hist[m]?) ∧
    (∀ k, n * THaDecData.nwire ≤ k →
      ((List.range n).foldl THaDecData.vdcPlane u).xcnt[k]? = u.xcnt[k]? ∧
      ((List.range n).foldl THaDecData.vdcPlane u).eff[k]? = u.eff[k]?) ∧
    (u.cnt % 500 = 0 → ∀ ipl, ipl < n →
      ((u.varp.getD ipl none).bind (varFind u.gHaVars)).isSome = true →
      ipl + 8 < u.hist.length →
      ((List.range n).foldl THaDecData.vdcPlane u).hist[ipl + 8]? =
        some (THaDecData.vdcCurve ipl ((List.range n).foldl THaDecData.vdcPlane u).xcnt
          ((List.range n).foldl THaDecData.vdcPlane u).eff)) := by
  intro n
  induction n with
  | zero =>
    intro _
    refine ⟨rfl, rfl, rfl, rfl, rfl, rfl, fun _ _ => rfl, fun _ _ _ => rfl,
      fun _ _ => ⟨rfl, rfl⟩, ?_⟩
    intro _ ipl h
    omega
  | succ n ih =>
    intro hn
    obtain ⟨i1, i2, i3, i4, i5, i6, i7, i8, i9, i10⟩ := ih (by omega)
    rw [List.range_succ, List.foldl_append]
    generalize (List.range n).foldl THaDecData.vdcPlane u = r at i1 i2 i3 i4 i5 i6 i7 i8 i9 i10 ⊢
    show _ ∧ _ ∧ _ ∧ _ ∧ _ ∧ _ ∧ _ ∧ _ ∧ _ ∧ _
    have hfold : List.foldl THaDecData.vdcPlane r [n] = r.vdcPlane n := rfl
    rw [hfold]
    obtain ⟨p1, p2, p3, p4, p5, p6, p7, p8, p9⟩ := THaDecData.vdcPlane_effect r n
    have pg := (THaDecData.vdcPlane_sameLocs r n).2.2.1
    generalize r.vdcPlane n = r2 at p1 p2 p3 p4 p5 p6 p7 p8 p9 pg ⊢
    refine ⟨p1.trans i1, p2.trans i2, p3.trans i3, pg.trans i4, p4.trans i5, p5.trans i6,
      ?_, ?_, ?_, ?_⟩
    · intro m hm
      rw [p6 m (by omega) (by omega)]
      exact i7 m (by omega)
    · intro hc m hm
      rw [p7 (by rw [i1]; exact hc) m (by omega)]
      exact i8 hc m (by omega)
    · intro k hk
      have hk1 : n * THaDecData.nwire + THaDecData.nwire ≤ k := by
        have : (n + 1) * THaDecData.nwire = n * THaDecData.nwire + THaDecData.nwire := by ring
        omega
      have h1 := p8 k (Or.inr hk1)
      have h2 := i9 k (by omega)
      exact ⟨h1.1.trans h2.1, h1.2.trans h2.2⟩
    · intro hc ipl hipl hvar hlen
      by_cases hlt : ipl < n
      · rw [p6 (ipl + 8) (by omega) (by omega), i10 hc ipl hlt hvar hlen]
        congr 1
        symm
        apply THaDecData.vdcCurve_congr
        intro i hi
        have hk : ipl * THaDecData.nwire + i < n * THaDecData.nwire := by
          unfold THaDecData.nwire at hi ⊢
          omega
        exact p8 _ (Or.inl hk)
      · have he : ipl = n := by omega
        subst he
        exact p9 (by rw [i1]; exact hc) (by rw [i3, i4]; exact hvar) (by rw [i5]; exact hlen)

theorem THaDecData.vdcInit_effect (s : THaDecData) :
    s.vdcInit.cnt = eventCount s ∧ s.vdcInit.fgVdcEffFirst ≤ 0 ∧ s.vdcInit.hist = s.hist ∧
    s.vdcInit.gHaVars = s.gHaVars ∧
    (s.fgVdcEffFirst ≤ 0 → s.vdcInit = s) := by
  unfold THaDecData.vdcInit eventCount
  by_cases h0 : s.fgVdcEffFirst > 0
  · rw [if_pos h0]
    by_cases h1 : s.fgVdcEffFirst > 1
    · rw [if_pos h1, if_pos h1]
      exact ⟨rfl, le_refl _, rfl, rfl, fun h => absurd h0 (by omega)⟩
    · rw [if_neg h1, if_neg h1]
      exact ⟨rfl, le_refl _, rfl, rfl, fun h => absurd h0 (by omega)⟩
  · rw [if_neg h0, if_neg (by omega)]
    exact ⟨rfl, by omega, rfl, rfl, fun _ => rfl⟩

theorem THaDecData.vdcFlush_effect (s : THaDecData) :
    s.vdcFlush.cnt = s.cnt + 1 ∧ s.vdcFlush.fgVdcEffFirst = s.fgVdcEffFirst ∧
    s.vdcFlush.hist = s.hist ∧ s.vdcFlush.xcnt = s.xcnt ∧ s.vdcFlush.eff = s.eff ∧
    s.vdcFlush.varp = s.varp ∧ s.vdcFlush.gHaVars = s.gHaVars := by
  unfold THaDecData.vdcFlush
  apply ite_prop (fun t : THaDecData => t.cnt = s.cnt + 1 ∧
    t.fgVdcEffFirst = s.fgVdcEffFirst ∧ t.hist = s.hist ∧ t.xcnt = s.xcnt ∧ t.eff = s.eff ∧
    t.varp = s.varp ∧ t.gHaVars = s.gHaVars)
  · exact ⟨rfl, rfl, rfl, rfl, rfl, rfl, rfl⟩
  · exact ⟨rfl, rfl, rfl, rfl, rfl, rfl, rfl⟩

/-- One call of `VdcEff`: the event counter goes from `eventCount s` to
`eventCount s + 1`; when `eventCount s` is no multiple of 500 the histograms
from number 8 on are left alone; when it is one, the curve of each plane that
has its variable is computed from the counters as the call leaves them. -/
theorem THaDecData.VdcEff_effect (s : THaDecData) :
    s.VdcEff.cnt = eventCount s + 1 ∧ s.VdcEff.fgVdcEffFirst ≤ 0 ∧
    s.VdcEff.hist.length = s.hist.length ∧ s.VdcEff.gHaVars = s.gHaVars ∧
    s.VdcEff.varp = s.vdcInit.varp ∧
    (∀ m, 16 ≤ m → s.VdcEff.hist[m]? = s.hist[m]?) ∧
    (eventCount s % 500 ≠ 0 → ∀ m, 8 ≤ m → s.VdcEff.hist[m]? = s.hist[m]?) ∧
    (eventCount s % 500 = 0 → ∀ ipl, ipl < 8 → (planeVar s ipl).isSome = true →
      ipl + 8 < s.hist.length →
      s.VdcEff.hist[ipl + 8]? = some (THaDecData.vdcCurve ipl s.VdcEff.xcnt s.VdcEff.eff)) := by
  unfold THaDecData.VdcEff planeVar
  obtain ⟨a1, a2, a3, a4, _⟩ := THaDecData.vdcInit_effect s
  generalize s.vdcInit = u at a1 a2 a3 a4 ⊢
  obtain ⟨i1, i2, i3, i4, i5, i6, i7, i8, i9, i10⟩ := THaDecData.vdcPlanes_effect u 8 (le_refl _)
  generalize (List.range 8).foldl THaDecData.vdcPlane u = r at i1 i2 i3 i4 i5 i6 i7 i8 i9 i10 ⊢
  obtain ⟨f1, f2, f3, f4, f5, f6, f7⟩ := THaDecData.vdcFlush_effect r
  generalize r.vdcFlush = r2 at f1 f2 f3 f4 f5 f6 f7 ⊢
  refine ⟨by rw [f1, i1, a1], by rw [f2, i2]; exact a2, by rw [f3, i5, a3],
    by rw [f7, i4, a4], by rw [f6, i3], ?_, ?_, ?_⟩
  · intro m hm
    rw [f3, i7 m (Or.inr (by omega)), a3]
  · intro hc m hm
    rw [f3, i8 (by rw [a1]; exact hc) m (by omega), a3]
  · intro hc ipl hipl hvar hlen
    rw [f3, f4, f5]
    exact i10 (by rw [a1]; exact hc) ipl hipl (by rw [a4]; exact hvar) (by rw [a3]; exact hlen)

theorem THaDecData.vdcInit_varp_congr (s t : THaDecData)
    (h1 : t.fgVdcEffFirst = s.fgVdcEffFirst) (h2 : t.varp = s.varp)
    (h3 : t.gHaVars = s.gHaVars) : t.vdcInit.varp = s.vdcInit.varp := by
  unfold THaDecData.vdcInit
  rw [h1]
  by_cases h0 : s.fgVdcEffFirst > 0
  · rw [if_pos h0, if_pos h0]
    by_cases hb : s.fgVdcEffFirst > 1
    · rw [if_pos hb, if_pos hb]
      show List.map _ _ = List.map _ _
      rw [show (THaDecData.vdcZero t).gHaVars = t.gHaVars from rfl,
        show (THaDecData.vdcZero s).gHaVars = s.gHaVars from rfl, h3]
    · rw [if_neg hb, if_neg hb]
      show List.map _ _ = List.map _ _
      rw [h3]
  · rw [if_neg h0, if_neg h0]
    exact h2

/-- The statements of `Decode` before `VdcEff` leave the statics of `VdcEff`,
the variable list and the histograms below number 16 alone. -/
theorem THaDecData.decodePrep_effect (evdata : THaEvData) (s : THaDecData) :
    projKeeps (THaDecData.decodeLengths evdata s.Clear)
      (THaDecData.decodeProject (THaDecData.decodeEvType evdata (THaDecData.decodeLocs evdata
        (THaDecData.decodeLengths evdata s.Clear)))) ∧
    (THaDecData.decodeLengths evdata s.Clear).cnt = s.cnt ∧
    (THaDecData.decodeLengths evdata s.Clear).fgVdcEffFirst = s.fgVdcEffFirst ∧
    (THaDecData.decodeLengths evdata s.Clear).varp = s.varp ∧
    (THaDecData.decodeLengths evdata s.Clear).hist.length = s.hist.length ∧
    (∀ m, m < 16 → (THaDecData.decodeLengths evdata s.Clear).hist[m]? = s.hist[m]?) := by
  refine ⟨?_, rfl, rfl, rfl, ?_, ?_⟩
  · have h := THaDecData.decodeProject_projKeeps (THaDecData.decodeEvType evdata
      (THaDecData.decodeLocs evdata (THaDecData.decodeLengths evdata s.Clear)))
    exact h
  · show (modifyAt _ 17 (modifyAt _ 16 s.hist)).length = _
    rw [modifyAt_length, modifyAt_length]
  · intro m hm
    show (modifyAt _ 17 (modifyAt _ 16 s.hist))[m]? = _
    rw [modifyAt_getElem?_ne _ _ _ _ (by omega), modifyAt_getElem?_ne _ _ _ _ (by omega)]

/-- The part of a successful `Decode` that concerns `VdcEff`: the event
counter goes from `eventCount s` to `eventCount s + 1`; the planes keep their
variables; when `eventCount s` is no multiple of 500 the curves (histograms 8
to 15) are left alone; when it is one, the curve of each plane that has its
variable is computed from the counters as the event leaves them. -/
theorem THaDecData.decodeBody_vdc (evdata : THaEvData) (s : THaDecData) :
    (THaDecData.decodeBody evdata s).cnt = eventCount s + 1 ∧
    (THaDecData.decodeBody evdata s).fgVdcEffFirst ≤ 0 ∧
    (THaDecData.decodeBody evdata s).hist.length = s.hist.length ∧
    (∀ ipl, planeVar (THaDecData.decodeBody evdata s) ipl = planeVar s ipl) ∧
    (eventCount s % 500 ≠ 0 → ∀ m, 8 ≤ m → m < 16 →
      (THaDecData.decodeBody evdata s).hist[m]? = s.hist[m]?) ∧
    (eventCount s % 500 = 0 → ∀ ipl, ipl < 8 → (planeVar s ipl).isSome = true →
      ipl + 8 < s.hist.length →
      (THaDecData.decodeBody evdata s).hist[ipl + 8]? =
        some (THaDecData.vdcCurve ipl (THaDecData.decodeBody evdata s).xcnt
          (THaDecData.decodeBody evdata s).eff)) := by
  unfold THaDecData.decodeBody
  obtain ⟨k, c1, c2, c3, c4, c5⟩ := THaDecData.decodePrep_effect evdata s
  have hg : (THaDecData.decodeProject (THaDecData.decodeEvType evdata
      (THaDecData.decodeLocs evdata (THaDecData.decodeLengths evdata s.Clear)))).gHaVars =
      s.gHaVars :=
    (THaDecData.decodeProject_sameLocs (THaDecData.decodeEvType evdata
      (THaDecData.decodeLocs evdata (THaDecData.decodeLengths evdata s.Clear)))).2.2.1
  obtain ⟨_, _, _, k4, k5, _, _, k8, k9, _⟩ := k
  generalize THaDecData.decodeLengths evdata s.Clear = q at c1 c2 c3 c4 c5 k4 k5 k8 k9 hg
  generalize THaDecData.decodeProject (THaDecData.decodeEvType evdata
      (THaDecData.decodeLocs evdata q)) = p at k4 k5 k8 k9 hg ⊢
  have hcnt : p.cnt = s.cnt := k4.trans c1
  have hfg : p.fgVdcEffFirst = s.fgVdcEffFirst := k5.trans c2
  have hvarp : p.varp = s.varp := k8.trans c3
  have hec : eventCount p = eventCount s := by
    unfold eventCount
    rw [hcnt, hfg]
  have hiv : p.vdcInit.varp = s.vdcInit.varp :=
    THaDecData.vdcInit_varp_congr s p hfg hvarp hg
  have hpv : ∀ ipl, planeVar p ipl = planeVar s ipl := by
    intro ipl
    unfold planeVar
    rw [hiv, hg]
  obtain ⟨e1, e2, e3, e4, e5, e6, e7, e8⟩ := THaDecData.VdcEff_effect p
  have hinit := (THaDecData.vdcInit_effect p.VdcEff).2.2.2.2 e2
  refine ⟨by rw [e1, hec], e2, by rw [e3, k9, c4], ?_, ?_, ?_⟩
  · intro ipl
    rw [← hpv ipl]
    unfold planeVar
    rw [hinit, e5, e4]
  · intro hc m h8 h16
    rw [e7 (by rw [hec]; exact hc) m h8, k9, c5 m h16]
  · intro hc ipl hipl hvar hlen
    exact e8 (by rw [hec]; exact hc) ipl hipl (by rw [hpv]; exact hvar)
      (by rw [k9, c4]; exact hlen)

/-! ## The event loop -/

theorem varFind_map (f : THaVar → THaVar) (hf : ∀ v, (f v).name = v.name)
    (vars : List THaVar) (nm : String) :
    varFind (vars.map f) nm = (varFind vars nm).map f := by
  unfold varFind
  rw [List.find?_map]
  congr 2
  funext v
  simp [hf]

theorem varFind_name (vars : List THaVar) (nm : String) (v : THaVar)
    (h : varFind vars nm = some v) : v.name = nm := by
  unfold varFind at h
  have := List.find?_some h
  simpa using this

theorem THaDecData.vdcInit_varp_names (s t : THaDecData)
    (h1 : t.fgVdcEffFirst = s.fgVdcEffFirst) (h2 : t.varp = s.varp)
    (h3 : ∀ nm, (varFind t.gHaVars nm).map (fun v => v.name) =
      (varFind s.gHaVars nm).map (fun v => v.name)) :
    t.vdcInit.varp = s.vdcInit.varp := by
  unfold THaDecData.vdcInit
  rw [h1]
  by_cases h0 : s.fgVdcEffFirst > 0
  · rw [if_pos h0, if_pos h0]
    by_cases hb : s.fgVdcEffFirst > 1
    · rw [if_pos hb, if_pos hb]
      show List.map (fun nm => (varFind t.gHaVars nm).map (fun v => v.name)) _ =
        List.map (fun nm => (varFind s.gHaVars nm).map (fun v => v.name)) _
      rw [funext h3]
    · rw [if_neg hb, if_neg hb]
      show List.map (fun nm => (varFind t.gHaVars nm).map (fun v => v.name)) _ =
        List.map (fun nm => (varFind s.gHaVars nm).map (fun v => v.name)) _
      rw [funext h3]
  · rw [if_neg h0, if_neg h0]
    exact h2

theorem setWires_varFind (wires : List (List Int)) (s : THaDecData) (nm : String) :
    ∃ f : THaVar → THaVar, (∀ v, (f v).name = v.name) ∧
      varFind (setWires wires s).gHaVars nm = (varFind s.gHaVars nm).map f := by
  refine ⟨fun v => if THaDecData.VdcVars.indexOf v.name < 8 then
      { v with target := VarTarget.foreign (wires.getD (THaDecData.VdcVars.indexOf v.name) []) }
    else v, ?_, ?_⟩
  · intro v
    dsimp only
    split <;> rfl
  · apply varFind_map
    intro v
    dsimp only
    split <;> rfl

/-- Storing the wire lists of an event keeps, for every plane, whether the
plane has its variable. -/
theorem setWires_planeVar (wires : List (List Int)) (s : THaDecData) (ipl : Nat) :
    (planeVar (setWires wires s) ipl).isSome = (planeVar s ipl).isSome := by
  have hiv : (setWires wires s).vdcInit.varp = s.vdcInit.varp := by
    apply THaDecData.vdcInit_varp_names s (setWires wires s) rfl rfl
    intro nm
    obtain ⟨f, hf, he⟩ := setWires_varFind wires s nm
    rw [he]
    cases varFind s.gHaVars nm with
    | none => rfl
    | some v => simp [hf]
  unfold planeVar
  rw [hiv]
  cases s.vdcInit.varp.getD ipl none with
  | none => rfl
  | some nm =>
    obtain ⟨f, _, he⟩ := setWires_varFind wires s nm
    show (varFind (setWires wires s).gHaVars nm).isSome = (varFind s.gHaVars nm).isSome
    rw [he]
    cases varFind s.gHaVars nm <;> rfl

theorem eventCount_of_le (s : THaDecData) (h : s.fgVdcEffFirst ≤ 1) : eventCount s = s.cnt := by
  unfold eventCount
  rw [if_neg (by omega)]

/-- One turn of the event loop on an engine with status OK. -/
theorem processEvent_effect (s : THaDecData) (e : THaEvData × List (List Int))
    (hok : s.IsOK = true) :
    (processEvent s e).IsOK = true ∧
    (processEvent s e).cnt = eventCount s + 1 ∧
    (processEvent s e).fgVdcEffFirst ≤ 0 ∧
    (processEvent s e).hist.length = s.hist.length ∧
    (∀ ipl, (planeVar (processEvent s e) ipl).isSome = (planeVar s ipl).isSome) ∧
    (eventCount s % 500 ≠ 0 → ∀ m, 8 ≤ m → m < 16 →
      (processEvent s e).hist[m]? = s.hist[m]?) ∧
    (eventCount s % 500 = 0 → ∀ ipl, ipl < 8 → (planeVar s ipl).isSome = true →
      ipl + 8 < s.hist.length →
      (processEvent s e).hist[ipl + 8]? =
        some (THaDecData.vdcCurve ipl (processEvent s e).xcnt (processEvent s e).eff)) := by
  unfold processEvent
  have hok2 : (setWires e.2 s).IsOK = true := hok
  rw [THaDecData.Decode_ok e.1 _ hok2]
  dsimp only
  obtain ⟨d1, d2, d3, d4, d5, d6⟩ := THaDecData.decodeBody_vdc e.1 (setWires e.2 s)
  have hst := (THaDecData.decodeBody_status e.1 (setWires e.2 s)).1
  have hpv := setWires_planeVar e.2 s
  generalize THaDecData.decodeBody e.1 (setWires e.2 s) = r at d1 d2 d3 d4 d5 d6 hst ⊢
  refine ⟨?_, d1, d2, d3, ?_, d5, ?_⟩
  · unfold THaDecData.IsOK at hok ⊢
    rw [hst]
    exact hok
  · intro ipl
    rw [d4 ipl, hpv ipl]
  · intro hc ipl hipl hvar hlen
    exact d6 hc ipl hipl (by rw [hpv]; exact hvar) hlen

/-- The event loop over any list of events on an engine with status OK. -/
theorem runEvents_effect (evs : List (THaEvData × List (List Int))) :
    ∀ s : THaDecData, s.IsOK = true →
      (runEvents s evs).IsOK = true ∧
      eventCount (runEvents s evs) = eventCount s + evs.length ∧
      (runEvents s evs).hist.length = s.hist.length ∧
      (∀ ipl, (planeVar (runEvents s evs) ipl).isSome = (planeVar s ipl).isSome) ∧
      (s.fgVdcEffFirst ≤ 1 → (runEvents s evs).fgVdcEffFirst ≤ 1) := by
  induction evs with
  | nil => intro s hok; exact ⟨hok, rfl, rfl, fun _ => rfl, fun h => h⟩
  | cons e evs ih =>
    intro s hok
    obtain ⟨p1, p2, p3, p4, p5, _, _⟩ := processEvent_effect s e hok
    obtain ⟨i1, i2, i3, i4, i5⟩ := ih (processEvent s e) p1
    have hec : eventCount (processEvent s e) = eventCount s + 1 := by
      rw [eventCount_of_le _ (by omega), p2]
    have hrun : runEvents s (e :: evs) = runEvents (processEvent s e) evs := rfl
    rw [hrun]
    refine ⟨i1, ?_, i3.trans p4, fun ipl => (i4 ipl).trans (p5 ipl), fun _ => i5 (by omega)⟩
    rw [i2, hec, List.length_cons]
    omega

/-- Events that find the event counter at no multiple of 500 leave the curves
(histograms 8 to 15) alone. -/
theorem runEvents_quiet (post : List (THaEvData × List (List Int))) :
    ∀ s : THaDecData, s.IsOK = true →
      (∀ i, i < post.length → (eventCount s + i) % 500 ≠ 0) →
      ∀ m, 8 ≤ m → m < 16 → (runEvents s post).hist[m]? = s.hist[m]? := by
  induction post with
  | nil => intro s _ _ m _ _; rfl
  | cons e post ih =>
    intro s hok hq m h8 h16
    obtain ⟨p1, p2, p3, _, _, p6, _⟩ := processEvent_effect s e hok
    have hec : eventCount (processEvent s e) = eventCount s + 1 := by
      rw [eventCount_of_le _ (by omega), p2]
    have h0 := hq 0 (by rw [List.length_cons]; omega)
    rw [Nat.add_zero] at h0
    have hrun : runEvents s (e :: post) = runEvents (processEvent s e) post := rfl
    rw [hrun]
    rw [ih (processEvent s e) p1 (fun i hi => by
      rw [hec]
      have := hq (i + 1) (by rw [List.length_cons]; omega)
      rw [show eventCount s + 1 + i = eventCount s + (i + 1) by omega]
      exact this) m h8 h16]
    exact p6 h0 m h8 h16

theorem runEvents_append (s : THaDecData) (a b : List (THaEvData × List (List Int))) :
    runEvents s (a ++ b) = runEvents (runEvents s a) b := by
  unfold runEvents
  rw [List.foldl_append]

theorem foldl_cond_append {α β : Type} (P : α → Prop) [DecidablePred P] (g : α → β)
    (l : List α) :
    ∀ acc : List β, l.foldl (fun h i => if P i then h ++ [g i] else h) acc =
      acc ++ (l.filter (fun i => decide (P i))).map g := by
  induction l with
  | nil => intro acc; simp
  | cons a l ih =>
    intro acc
    rw [List.foldl_cons, ih]
    by_cases h : P a
    · simp [h]
    · simp [h]

/-- The content of the curve `VdcEff` publishes for plane `ipl`: one entry per
wire whose opportunity counter is not 0 and whose hit counter is positive,
with the quotient of the two counters as its value. -/
theorem THaDecData.mem_vdcCurve (ipl : Nat) (xcnt eff : List Nat) (w : Int) (v : Rat) :
    (w, v) ∈ THaDecData.vdcCurve ipl xcnt eff ↔
      ∃ i : Nat, i < THaDecData.nwire ∧ w = (i : Int) ∧
        xcnt.getD (ipl * THaDecData.nwire + i) 0 ≠ 0 ∧
        0 < eff.getD (ipl * THaDecData.nwire + i) 0 ∧
        v = (eff.getD (ipl * THaDecData.nwire + i) 0 : Rat) /
            (xcnt.getD (ipl * THaDecData.nwire + i) 0 : Rat) := by
  unfold THaDecData.vdcCurve
  have h := foldl_cond_append
    (fun i : Nat => (if xcnt.getD (ipl * THaDecData.nwire + i) 0 ≠ 0 then
        (eff.getD (ipl * THaDecData.nwire + i) 0 : Rat) /
          (xcnt.getD (ipl * THaDecData.nwire + i) 0 : Rat)
      else -1) > 0)
    (fun i : Nat => (((i : Int)), (if xcnt.getD (ipl * THaDecData.nwire + i) 0 ≠ 0 then
        (eff.getD (ipl * THaDecData.nwire + i) 0 : Rat) /
          (xcnt.getD (ipl * THaDecData.nwire + i) 0 : Rat)
      else (-1 : Rat))))
    (List.range THaDecData.nwire) []
  dsimp only at h ⊢
  rw [h, List.nil_append, List.mem_map]
  constructor
  · rintro ⟨i, hi, heq⟩
    rw [List.mem_filter, List.mem_range] at hi
    obtain ⟨hlt, hpos⟩ := hi
    have hpos2 := of_decide_eq_true hpos
    have hw : (i : Int) = w := (Prod.mk.inj heq).1
    have hv := (Prod.mk.inj heq).2
    by_cases hx : xcnt.getD (ipl * THaDecData.nwire + i) 0 ≠ 0
    · rw [if_pos hx] at hpos2 hv
      refine ⟨i, hlt, hw.symm, hx, ?_, hv.symm⟩
      have hxpos : (0 : Rat) < (xcnt.getD (ipl * THaDecData.nwire + i) 0 : Rat) := by
        exact_mod_cast Nat.pos_of_ne_zero hx
      have := (div_pos_iff_of_pos_right hxpos).mp hpos2
      exact_mod_cast this
    · rw [if_neg hx] at hpos2
      exact absurd hpos2 (by norm_num)
  · rintro ⟨i, hlt, hw, hx, he, hv⟩
    refine ⟨i, ?_, ?_⟩
    · rw [List.mem_filter, List.mem_range]
      refine ⟨hlt, decide_eq_true ?_⟩
      rw [if_pos hx]
      have hxpos : (0 : Rat) < (xcnt.getD (ipl * THaDecData.nwire + i) 0 : Rat) := by
        exact_mod_cast Nat.pos_of_ne_zero hx
      have hepos : (0 : Rat) < (eff.getD (ipl * THaDecData.nwire + i) 0 : Rat) := by
        exact_mod_cast he
      exact div_pos hepos hxpos
    · rw [if_pos hx, hw, hv]

/-- When `fgVdcEffFirst` is set, a plane has its variable exactly when the
variable list holds the name of the plane. -/
theorem planeVar_of_first (s : THaDecData) (ipl : Nat) (hfirst : s.fgVdcEffFirst > 0)
    (hipl : ipl < 8)
    (hvar : (varFind s.gHaVars (THaDecData.VdcVars.getD ipl "")).isSome = true) :
    (planeVar s ipl).isSome = true := by
  have key : ∀ nm, (varFind s.gHaVars nm).isSome = true →
      (((varFind s.gHaVars nm).map (fun v => v.name)).bind (varFind s.gHaVars)).isSome
        = true := by
    intro nm h
    cases hv : varFind s.gHaVars nm with
    | none => rw [hv] at h; cases h
    | some v =>
      show (varFind s.gHaVars v.name).isSome = true
      rw [varFind_name _ _ _ hv, hv]
      rfl
  unfold planeVar THaDecData.vdcInit
  rw [if_pos hfirst]
  by_cases hb : s.fgVdcEffFirst > 1
  · rw [if_pos hb]
    interval_cases ipl <;> exact key _ hvar
  · rw [if_neg hb]
    interval_cases ipl <;> exact key _ hvar

/-- C19 (as the code has it): on an engine with status OK that starts from a
full reset (`fgVdcEffFirst = 2`), let an event `e` be preceded by a number of
events that is a multiple of 500 (so `e` is event number 1, 501, 1001, ...)
and followed by fewer than 500 events. Then after all these events the event
counter is the number of events, and the published curve of each plane whose
wire variable is in the variable list is the curve computed in event `e`, from
the counters as `e` left them: it holds, for every wire with a positive hit
counter and an opportunity counter other than 0, the quotient of the two
counters as they were after `e`, and nothing else. The quotient is exact
here; the code computes it in double precision. -/
theorem C19_published_efficiency_cadence (s0 : THaDecData)
    (pre post : List (THaEvData × List (List Int))) (e : THaEvData × List (List Int))
    (ipl : Nat) (hok : s0.IsOK = true) (hreset : s0.fgVdcEffFirst = 2) (hipl : ipl < 8)
    (hvar : (varFind s0.gHaVars (THaDecData.VdcVars.getD ipl "")).isSome = true)
    (hhist : ipl + 8 < s0.hist.length)
    (hpre : pre.length % 500 = 0) (hpost : post.length < 500) :
    (runEvents s0 (pre ++ e :: post)).cnt = pre.length + 1 + post.length ∧
    (runEvents s0 (pre ++ e :: post)).hist[ipl + 8]? =
      some (THaDecData.vdcCurve ipl (runEvents s0 (pre ++ [e])).xcnt
        (runEvents s0 (pre ++ [e])).eff) ∧
    (∀ (w : Int) (v : Rat),
      (w, v) ∈ THaDecData.vdcCurve ipl (runEvents s0 (pre ++ [e])).xcnt
          (runEvents s0 (pre ++ [e])).eff ↔
        ∃ i : Nat, i < THaDecData.nwire ∧ w = (i : Int) ∧
          (runEvents s0 (pre ++ [e])).xcnt.getD (ipl * THaDecData.nwire + i) 0 ≠ 0 ∧
          0 < (runEvents s0 (pre ++ [e])).eff.getD (ipl * THaDecData.nwire + i) 0 ∧
          v = ((runEvents s0 (pre ++ [e])).eff.getD (ipl * THaDecData.nwire + i) 0 : Rat) /
              ((runEvents s0 (pre ++ [e])).xcnt.getD (ipl * THaDecData.nwire + i) 0 : Rat)) := by
  have hpv0 : (planeVar s0 ipl).isSome = true :=
    planeVar_of_first s0 ipl (by omega) hipl hvar
  have hec0 : eventCount s0 = 0 := by
    unfold eventCount
    rw [if_pos (by omega)]
  obtain ⟨a1, a2, a3, a4, _⟩ := runEvents_effect pre s0 hok
  rw [hec0, Nat.zero_add] at a2
  have hsplit : pre ++ e :: post = pre ++ ([e] ++ post) := rfl
  rw [hsplit, runEvents_append, runEvents_append s0 pre [e]]
  generalize runEvents s0 pre = sp at a1 a2 a3 a4 ⊢
  rw [runEvents_append]
  have hone : runEvents sp [e] = processEvent sp e := rfl
  rw [hone]
  obtain ⟨p1, p2, p3, p4, p5, _, p7⟩ := processEvent_effect sp e a1
  have hcurve := p7 (by rw [a2]; exact hpre) ipl hipl (by rw [a4]; exact hpv0)
    (by rw [a3]; exact hhist)
  have hec1 : eventCount (processEvent sp e) = pre.length + 1 := by
    rw [eventCount_of_le _ (by omega), p2, a2]
  generalize processEvent sp e = s1 at p1 p2 p3 p4 p5 hcurve hec1 ⊢
  obtain ⟨b1, b2, b3, b4, b5⟩ := runEvents_effect post s1 p1
  have hq := runEvents_quiet post s1 p1 (fun i hi => by rw [hec1]; omega) (ipl + 8)
    (by omega) (by omega)
  refine ⟨?_, by rw [hq]; exact hcurve, fun w v => THaDecData.mem_vdcCurve ipl _ _ w v⟩
  rw [← eventCount_of_le _ (b5 (by omega)), b2, hec1]

/-- C19 at one event with the wires 1, 2, 3 of the first plane followed by 499
events with the wires 1, 3: after the 500th event the published curve of the
first plane is still the one computed in the first event. -/
theorem C19_published_efficiency_cadence_witness :
    stVdc.IsOK = true ∧ stVdc.fgVdcEffFirst = 2 ∧
    (runEvents stVdc ([] ++ (evNone, [[1, 2, 3]]) ::
      List.replicate 499 (evNone, [[1, 3]]))).cnt = 0 + 1 + 499 ∧
    (runEvents stVdc ([] ++ (evNone, [[1, 2, 3]]) ::
      List.replicate 499 (evNone, [[1, 3]]))).hist[0 + 8]? =
      some (THaDecData.vdcCurve 0 (runEvents stVdc ([] ++ [(evNone, [[1, 2, 3]])])).xcnt
        (runEvents stVdc ([] ++ [(evNone, [[1, 2, 3]])])).eff) ∧
    THaDecData.vdcCurve 0 (runEvents stVdc ([] ++ [(evNone, [[1, 2, 3]])])).xcnt
        (runEvents stVdc ([] ++ [(evNone, [[1, 2, 3]])])).eff = [(2, 1)] :=
  ⟨by decide, by decide,
   (C19_published_efficiency_cadence stVdc [] (List.replicate 499 (evNone, [[1, 3]]))
      (evNone, [[1, 2, 3]]) 0 (by decide) (by decide) (by decide) (by decide) (by decide)
      (by decide) (by simp)).1,
   (C19_published_efficiency_cadence stVdc [] (List.replicate 499 (evNone, [[1, 3]]))
      (evNone, [[1, 2, 3]]) 0 (by decide) (by decide) (by decide) (by decide) (by decide)
      (by decide) (by simp)).2.1,
   by decide!⟩

/-- C19 fails as written: from a full reset, 499 events without wire hits and
a 500th event with the wires 1, 2, 3 of the first plane leave the hit counter
and the opportunity counter of wire 2 at 1, so the claim asks for the value
1 at wire 2; but the 500th event finds the event counter at 499 and does not
recompute the curve, so the published curve of the first plane is the empty
one computed in the first event, and that is also what the flush after the
500th event writes to the output file. -/
theorem C19_counterexample :
    stVdc.IsOK = true ∧ stVdc.fgVdcEffFirst = 2 ∧ evs500.length = 500 ∧
    (runEvents stVdc evs500).cnt = 500 ∧
    (runEvents stVdc evs500).eff.getD 2 0 = 1 ∧
    (runEvents stVdc evs500).xcnt.getD 2 0 = 1 ∧
    (runEvents stVdc evs500).hist[8]? = some [] ∧
    (runEvents stVdc evs500).sink.map (fun h => h[8]?) = [some []] := by
  decide!

/-! ## A second instance -/

theorem THaDecData.withShared_self (s t : THaDecData)
    (h1 : t.fgVdcEffFirst = s.fgVdcEffFirst) (h2 : t.cnt = s.cnt) (h3 : t.xcnt = s.xcnt)
    (h4 : t.eff = s.eff) (h5 : t.varp = s.varp) (h6 : t.gHaVars = s.gHaVars)
    (h7 : t.sink = s.sink) : s.withShared t = s := by
  unfold THaDecData.withShared
  rw [h1, h2, h3, h4, h5, h6, h7]

/-- C20, where the code departs from it: while the first object is live, the
constructor of a second object leaves `fgThis`, and the first object with the
class statics, as they are and makes the second object a zombie; `Init` on the
second object returns `kNotinit` (1), `Decode` on it returns -1, and these
two, `Clear` and the destructor leave the first object and the statics as they
are; but `Reset` on the second object sets the class static `fgVdcEffFirst`
to 2. After an event with the wires 1, 2, 3 of the first plane the flag is 0
and the counters of wire 2 are 1; a `Reset` of the zombie sets the flag to 2,
and the next `Decode` of the first object restarts its counters: they are 1
again, where they are 2 without the `Reset`. -/
theorem C20_reset_of_second_instance (first : THaDecData) (pfx : String) (nbits : Nat)
    (decdatafile : Option (List String)) (evdata : THaEvData) :
    ((World.oneLive first).constructSecond pfx nbits).fgThis = some 0 ∧
    ((World.oneLive first).constructSecond pfx nbits).first = first ∧
    ((World.oneLive first).constructSecond pfx nbits).second.map (fun m => m.isZombie)
      = some true ∧
    (((World.oneLive first).constructSecond pfx nbits).InitSecond decdatafile).1 = 1 ∧
    (((World.oneLive first).constructSecond pfx nbits).InitSecond decdatafile).2.first
      = first ∧
    (((World.oneLive first).constructSecond pfx nbits).DecodeSecond evdata).1 = -1 ∧
    (((World.oneLive first).constructSecond pfx nbits).DecodeSecond evdata).2.first = first ∧
    ((World.oneLive first).constructSecond pfx nbits).ClearSecond.first = first ∧
    ((World.oneLive first).constructSecond pfx nbits).destroySecond.first = first ∧
    ((World.oneLive first).constructSecond pfx nbits).destroySecond.fgThis = some 0 ∧
    ((World.oneLive first).constructSecond pfx nbits).ResetSecond.first =
      { first with fgVdcEffFirst := 2 } ∧
    (stVdcOne.fgVdcEffFirst = 0 ∧ stVdcOne.cnt = 1 ∧ stVdcOne.eff.getD 2 0 = 1 ∧
     ((World.oneLive stVdcOne).constructSecond "D." 8).ResetSecond.first.fgVdcEffFirst = 2 ∧
     ((((World.oneLive stVdcOne).constructSecond "D." 8).ResetSecond.DecodeFirst
        evNone).2.first.cnt,
      (((World.oneLive stVdcOne).constructSecond "D." 8).ResetSecond.DecodeFirst
        evNone).2.first.eff.getD 2 0) = (1, 1) ∧
     ((((World.oneLive stVdcOne).constructSecond "D." 8).DecodeFirst evNone).2.first.cnt,
      (((World.oneLive stVdcOne).constructSecond "D." 8).DecodeFirst
        evNone).2.first.eff.getD 2 0) = (2, 2)) := by
  have hw : (World.oneLive first).constructSecond pfx nbits =
      { fgThis := some 0, first := first,
        second := some { THaDecData.new pfx nbits with isZombie := true } } := rfl
  rw [hw]
  refine ⟨rfl, rfl, rfl, rfl, ?_, rfl, ?_, ?_, rfl, rfl, ?_, ?_⟩
  · exact THaDecData.withShared_self first _ rfl rfl rfl rfl rfl rfl rfl
  · exact THaDecData.withShared_self first _ rfl rfl rfl rfl rfl rfl rfl
  · exact THaDecData.withShared_self first _ rfl rfl rfl rfl rfl rfl rfl
  · cases first
    rfl
  · decide

/-! ## The flush of the histograms -/

theorem THaDecData.vdcInit_sink (s : THaDecData) : s.vdcInit.sink = s.sink := by
  unfold THaDecData.vdcInit
  apply ite_prop (fun t : THaDecData => t.sink = s.sink)
  · show (THaDecData.vdcRebind _).sink = s.sink
    apply ite_prop (fun t : THaDecData => (THaDecData.vdcRebind t).sink = s.sink)
    · rfl
    · rfl
  · rfl

theorem THaDecData.vdcFlush_sink (s : THaDecData) :
    s.vdcFlush.sink = if flushDue (s.cnt + 1) then s.sink ++ [s.hist] else s.sink := by
  unfold THaDecData.vdcFlush flushDue
  dsimp only
  by_cases h : (s.cnt + 1 < 2000 ∧ (s.cnt + 1) % 500 = 0) ∨ (s.cnt + 1) % 5000 = 0
  · rw [if_pos h, if_pos h]
    rfl
  · rw [if_neg h, if_neg h]

/-- One call of `VdcEff` writes the histograms to the output file exactly when
the event counter, after the increment, passes the test. -/
theorem THaDecData.VdcEff_sink (s : THaDecData) :
    s.VdcEff.sink =
      if flushDue (eventCount s + 1) then s.sink ++ [s.VdcEff.hist] else s.sink := by
  unfold THaDecData.VdcEff
  obtain ⟨a1, _, _, _, _⟩ := THaDecData.vdcInit_effect s
  have a5 := THaDecData.vdcInit_sink s
  generalize s.vdcInit = u at a1 a5 ⊢
  obtain ⟨i1, _, _, _, _, i6, _⟩ := THaDecData.vdcPlanes_effect u 8 (le_refl _)
  generalize (List.range 8).foldl THaDecData.vdcPlane u = r at i1 i6 ⊢
  rw [THaDecData.vdcFlush_sink, (THaDecData.vdcFlush_effect r).2.2.1, i1, a1, i6, a5]

/-- A successful `Decode` writes the histograms to the output file exactly
when the event counter, after the increment, passes the test. -/
theorem THaDecData.decodeBody_sink (evdata : THaEvData) (s : THaDecData) :
    (THaDecData.decodeBody evdata s).sink =
      if flushDue (eventCount s + 1) then s.sink ++ [(THaDecData.decodeBody evdata s).hist]
      else s.sink := by
  unfold THaDecData.decodeBody
  obtain ⟨k, c1, c2, _, _, _⟩ := THaDecData.decodePrep_effect evdata s
  obtain ⟨_, _, _, k4, k5, _, _, _, _, k10⟩ := k
  have hs : (THaDecData.decodeLengths evdata s.Clear).sink = s.sink := rfl
  generalize THaDecData.decodeLengths evdata s.Clear = q at c1 c2 k4 k5 k10 hs
  generalize THaDecData.decodeProject (THaDecData.decodeEvType evdata
      (THaDecData.decodeLocs evdata q)) = p at k4 k5 k10 ⊢
  have hec : eventCount p = eventCount s := by
    unfold eventCount
    rw [k4, k5, c1, c2]
  rw [THaDecData.VdcEff_sink, hec, k10, hs]

theorem processEvent_sink (s : THaDecData) (e : THaEvData × List (List Int))
    (hok : s.IsOK = true) :
    (processEvent s e).sink =
      if flushDue (eventCount s + 1) then s.sink ++ [(processEvent s e).hist] else s.sink := by
  unfold processEvent
  have hok2 : (setWires e.2 s).IsOK = true := hok
  rw [THaDecData.Decode_ok e.1 _ hok2]
  exact THaDecData.decodeBody_sink e.1 (setWires e.2 s)

/-- C27: counting the processed events from the last full reset, the event
number `k` (the one that follows `k - 1` events) leaves the event counter at
`k` and writes the histograms, as that event leaves them, to the output file
exactly when `k < 2000` and `k` is a multiple of 500, or `k` is a multiple of
5000; otherwise the output file is left alone. So the events 500, 1000, 1500,
5000 and 10000 flush and the events 2000 to 4999 do not. -/
theorem C27_flush_cadence (s0 : THaDecData) (pre : List (THaEvData × List (List Int)))
    (e : THaEvData × List (List Int)) (hok : s0.IsOK = true)
    (hreset : s0.fgVdcEffFirst = 2) :
    (runEvents s0 (pre ++ [e])).cnt = pre.length + 1 ∧
    (((pre.length + 1 < 2000 ∧ (pre.length + 1) % 500 = 0) ∨ (pre.length + 1) % 5000 = 0) →
      (runEvents s0 (pre ++ [e])).sink =
        (runEvents s0 pre).sink ++ [(runEvents s0 (pre ++ [e])).hist]) ∧
    (¬ ((pre.length + 1 < 2000 ∧ (pre.length + 1) % 500 = 0) ∨ (pre.length + 1) % 5000 = 0) →
      (runEvents s0 (pre ++ [e])).sink = (runEvents s0 pre).sink) ∧
    (flushDue 500 ∧ flushDue 1000 ∧ flushDue 1500 ∧ flushDue 5000 ∧ flushDue 10000 ∧
      ∀ k, 2000 ≤ k → k ≤ 4999 → ¬ flushDue k) := by
  have hec0 : eventCount s0 = 0 := by
    unfold eventCount
    rw [if_pos (by omega)]
  obtain ⟨a1, a2, _, _, _⟩ := runEvents_effect pre s0 hok
  rw [hec0, Nat.zero_add] at a2
  rw [runEvents_append]
  generalize runEvents s0 pre = sp at a1 a2 ⊢
  have hone : runEvents sp [e] = processEvent sp e := rfl
  rw [hone]
  have hs := processEvent_sink sp e a1
  rw [a2] at hs
  obtain ⟨_, p2, _⟩ := processEvent_effect sp e a1
  refine ⟨by rw [p2, a2], ?_, ?_, ?_⟩
  · intro h
    have h2 : flushDue (pre.length + 1) := h
    rw [hs, if_pos h2]
  · intro h
    have h2 : ¬ flushDue (pre.length + 1) := h
    rw [hs, if_neg h2]
  · refine ⟨by decide, by decide, by decide, by decide, by decide, ?_⟩
    intro k h1 h2
    unfold flushDue
    omega

/-- C27 at 499 events without wire hits followed by one event with the wires
1, 2, 3 of the first plane: the 500th event flushes, and it is the first
flush. -/
theorem C27_flush_cadence_witness :
    stVdc.IsOK = true ∧ stVdc.fgVdcEffFirst = 2 ∧
    (runEvents stVdc (List.replicate 499 (evNone, []) ++ [(evNone, [[1, 2, 3]])])).cnt =
      (List.replicate 499 ((evNone, []) : THaEvData × List (List Int))).length + 1 ∧
    (List.replicate 499 ((evNone, []) : THaEvData × List (List Int))).length + 1 = 500 ∧
    (runEvents stVdc (List.replicate 499 (evNone, []) ++ [(evNone, [[1, 2, 3]])])).sink =
      (runEvents stVdc (List.replicate 499 (evNone, []))).sink ++
        [(runEvents stVdc (List.replicate 499 (evNone, []) ++ [(evNone, [[1, 2, 3]])])).hist] :=
  ⟨by decide, by decide,
   (C27_flush_cadence stVdc (List.replicate 499 (evNone, [])) (evNone, [[1, 2, 3]])
      (by decide) (by decide)).1,
   by simp,
   (C27_flush_cadence stVdc (List.replicate 499 (evNone, [])) (evNone, [[1, 2, 3]])
      (by decide) (by decide)).2.1 (by simp)⟩

/-! ## The content of a published curve -/

theorem foldl_cond_append_wires {β : Type} (P : Nat → Prop) [DecidablePred P] (g : Nat → β)
    (l : List Nat) :
    l.foldl (fun h i => if P i then h ++ [g i] else h) [] =
      (l.filter (fun i => decide (P i))).map g := by
  rw [foldl_cond_append P g l [], List.nil_append]

/-- A curve has at most one entry per wire, in the order of the wires. -/
theorem THaDecData.vdcCurve_wires (ipl : Nat) (xcnt eff : List Nat) :
    ((THaDecData.vdcCurve ipl xcnt eff).map (fun p => p.1)).Pairwise (fun a b => a < b) := by
  unfold THaDecData.vdcCurve
  have h := foldl_cond_append_wires
    (fun i : Nat => (if xcnt.getD (ipl * THaDecData.nwire + i) 0 ≠ 0 then
        (eff.getD (ipl * THaDecData.nwire + i) 0 : Rat) /
          (xcnt.getD (ipl * THaDecData.nwire + i) 0 : Rat)
      else -1) > 0)
    (fun i : Nat => (((i : Int)), (if xcnt.getD (ipl * THaDecData.nwire + i) 0 ≠ 0 then
        (eff.getD (ipl * THaDecData.nwire + i) 0 : Rat) /
          (xcnt.getD (ipl * THaDecData.nwire + i) 0 : Rat)
      else (-1 : Rat))))
    (List.range THaDecData.nwire)
  dsimp only at h ⊢
  rw [h, List.map_map]
  apply List.Pairwise.map (R := fun a b : Nat => a < b)
  · intro a b hab
    show (a : Int) < (b : Int)
    exact_mod_cast hab
  · exact List.Pairwise.sublist (List.filter_sublist _) (List.pairwise_lt_range _)

/-- C26: when the body of the plane loop of `VdcEff` recomputes the curve of
plane `j` (the event counter is a multiple of 500, the plane has its variable,
the histogram exists), the histogram `j + 8` becomes exactly the new curve,
whatever it held before; the curve has an entry for wire `w` if and only if
the opportunity counter of `w` is not 0 and its hit counter is positive, the
value of the entry is the quotient of the hit counter by the opportunity
counter, and no wire has two entries. The quotient is exact here; the code
computes it in double precision. -/
theorem C26_published_curve_content (u : THaDecData) (j : Nat)
    (hcnt : u.cnt % 500 = 0)
    (hvar : ((u.varp.getD j none).bind (varFind u.gHaVars)).isSome = true)
    (hhist : j + 8 < u.hist.length) :
    (u.vdcPlane j).hist[j + 8]? =
      some (THaDecData.vdcCurve j (u.vdcPlane j).xcnt (u.vdcPlane j).eff) ∧
    (∀ (w : Int) (v : Rat),
      (w, v) ∈ THaDecData.vdcCurve j (u.vdcPlane j).xcnt (u.vdcPlane j).eff ↔
        ∃ i : Nat, i < THaDecData.nwire ∧ w = (i : Int) ∧
          (u.vdcPlane j).xcnt.getD (j * THaDecData.nwire + i) 0 ≠ 0 ∧
          0 < (u.vdcPlane j).eff.getD (j * THaDecData.nwire + i) 0 ∧
          v = ((u.vdcPlane j).eff.getD (j * THaDecData.nwire + i) 0 : Rat) /
              ((u.vdcPlane j).xcnt.getD (j * THaDecData.nwire + i) 0 : Rat)) ∧
    ((THaDecData.vdcCurve j (u.vdcPlane j).xcnt (u.vdcPlane j).eff).map
      (fun p => p.1)).Pairwise (fun a b => a < b) :=
  ⟨(THaDecData.vdcPlane_effect u j).2.2.2.2.2.2.2.2 hcnt hvar hhist,
   fun w v => THaDecData.mem_vdcCurve j _ _ w v,
   THaDecData.vdcCurve_wires j _ _⟩

/-- C26 at the engine `stVdc500`: the first plane holds the curve with the
value 1 at wire 2; the wires 1 and 3 add an opportunity without a hit at wire
2, and the recomputed curve holds the value 1/2 at wire 2 and nothing else. -/
theorem C26_published_curve_content_witness :
    stVdc500.cnt % 500 = 0 ∧ stVdc500.hist[0 + 8]? = some [(2, 1)] ∧
    (stVdc500.vdcPlane 0).hist[0 + 8]? =
      some (THaDecData.vdcCurve 0 (stVdc500.vdcPlane 0).xcnt (stVdc500.vdcPlane 0).eff) ∧
    THaDecData.vdcCurve 0 (stVdc500.vdcPlane 0).xcnt (stVdc500.vdcPlane 0).eff =
      [(2, 1 / 2)] :=
  ⟨by decide, by decide!,
   (C26_published_curve_content stVdc500 0 (by decide) (by decide) (by decide)).1,
   by decide!⟩

/-! ## The neighbour loop of `VdcEff` -/

theorem THaDecData.vdcCount_eq_foldl (ipl : Nat) (wire : List Int) (hitwire : List Nat)
    (c : List Nat × List Nat) :
    THaDecData.vdcCount ipl wire hitwire c = wire.foldl (THaDecData.vdcStep ipl hitwire) c :=
  rfl

/-- The body of the plane loop of `VdcEff` updates the counters by
`vdcUpdate`. -/
theorem THaDecData.vdcPlane_counters (u : THaDecData) (j : Nat) (pvar : THaVar)
    (hvar : (u.varp.getD j none).bind (varFind u.gHaVars) = some pvar) :
    ((u.vdcPlane j).xcnt, (u.vdcPlane j).eff) =
      THaDecData.vdcUpdate j (varValues u pvar) (u.xcnt, u.eff) := by
  unfold THaDecData.vdcPlane THaDecData.vdcUpdate
  rw [hvar]
  dsimp only
  generalize THaDecData.vdcCount j
    ((varValues u pvar).take (min (varValues u pvar).length THaDecData.nwire))
    (THaDecData.hitwireOf
      ((varValues u pvar).take (min (varValues u pvar).length THaDecData.nwire)))
    (u.xcnt, u.eff) = c
  split <;> rfl

theorem modifyAt_getD (f : Nat → Nat) (l : List Nat) (i j : Nat) (hj : j < l.length) :
    (modifyAt f i l).getD j 0 = if j = i then f (l.getD j 0) else l.getD j 0 := by
  rw [List.getD_eq_getElem?_getD, List.getD_eq_getElem?_getD, modifyAt_getElem?,
    List.getElem?_eq_getElem hj]
  split <;> rfl

/-- One turn of the neighbour loop: the opportunity counter `k` grows by one
on an opportunity at `k`, the hit counter `k` grows by one on a hit at `k`. -/
theorem THaDecData.vdcStep_getD (ipl : Nat) (hw : List Nat) (st : List Nat × List Nat)
    (w : Int) (k : Nat) (hk1 : k < st.1.length) (hk2 : k < st.2.length) :
    (THaDecData.vdcStep ipl hw st w).1.getD k 0 =
      st.1.getD k 0 + (if oppAt ipl hw k w then 1 else 0) ∧
    (THaDecData.vdcStep ipl hw st w).2.getD k 0 =
      st.2.getD k 0 + (if hitAt ipl hw k w then 1 else 0) ∧
    (THaDecData.vdcStep ipl hw st w).1.length = st.1.length ∧
    (THaDecData.vdcStep ipl hw st w).2.length = st.2.length := by
  have hoppF : ¬ (0 ≤ w ∧ w + 2 < (THaDecData.nwire : Int) ∧ hw.getD (w + 2).toNat 0 ≠ 0 ∧
      ipl * THaDecData.nwire + (w + 1).toNat = k) → oppAt ipl hw k w = false ∧
      hitAt ipl hw k w = false := by
    intro hf
    have : oppAt ipl hw k w = false := decide_eq_false hf
    exact ⟨this, by unfold hitAt; rw [this]; rfl⟩
  unfold THaDecData.vdcStep
  dsimp only
  by_cases h1 : w < 0 ∨ w + 2 ≥ (THaDecData.nwire : Int)
  · rw [if_pos h1]
    obtain ⟨e1, e2⟩ := hoppF (by intro h; omega)
    rw [e1, e2]
    exact ⟨rfl, rfl, rfl, rfl⟩
  · rw [if_neg h1]
    by_cases h2 : hw.getD (w + 2).toNat 0 ≠ 0
    · rw [if_pos h2]
      have h3 : w + 1 ≥ 0 ∧ w + 1 < (THaDecData.nwire : Int) := by omega
      rw [if_pos h3]
      by_cases hk : k = ipl * THaDecData.nwire + (w + 1).toNat
      · have hopp : oppAt ipl hw k w = true :=
          decide_eq_true ⟨by omega, by omega, h2, hk.symm⟩
        refine ⟨?_, ?_, ?_, ?_⟩
        · show (modifyAt _ _ st.1).getD k 0 = _
          rw [modifyAt_getD _ _ _ _ hk1, if_pos hk, hopp]
          rfl
        · by_cases h4 : hw.getD (w + 1).toNat 0 ≠ 0
          · have hhit : hitAt ipl hw k w = true := by
              unfold hitAt
              rw [hopp, decide_eq_true h4]
              rfl
            rw [if_pos h4, modifyAt_getD _ _ _ _ hk2, if_pos hk, hhit]
            rfl
          · have hhit : hitAt ipl hw k w = false := by
              unfold hitAt
              rw [hopp, decide_eq_false h4]
              rfl
            rw [if_neg h4, hhit]
            rfl
        · show (modifyAt _ _ st.1).length = _
          rw [modifyAt_length]
        · split
          · rw [modifyAt_length]
          · rfl
      · obtain ⟨e1, e2⟩ := hoppF (by intro h; exact hk h.2.2.2.symm)
        rw [e1, e2]
        refine ⟨?_, ?_, ?_, ?_⟩
        · show (modifyAt _ _ st.1).getD k 0 = _
          rw [modifyAt_getD _ _ _ _ hk1, if_neg hk]
          rfl
        · split
          · rw [modifyAt_getD _ _ _ _ hk2, if_neg hk]
            rfl
          · rfl
        · show (modifyAt _ _ st.1).length = _
          rw [modifyAt_length]
        · split
          · rw [modifyAt_length]
          · rfl
    · rw [if_neg h2]
      obtain ⟨e1, e2⟩ := hoppF (by intro h; exact h2 h.2.2.1)
      rw [e1, e2]
      exact ⟨rfl, rfl, rfl, rfl⟩

/-- The neighbour loop over a wire list: each counter grows by the number of
list entries that give an opportunity, or a hit, at it. -/
theorem THaDecData.vdcCount_getD (ipl : Nat) (hw : List Nat) (l : List Int) :
    ∀ (c : List Nat × List Nat) (k : Nat), k < c.1.length → k < c.2.length →
      (THaDecData.vdcCount ipl l hw c).1.getD k 0 =
        c.1.getD k 0 + l.countP (oppAt ipl hw k) ∧
      (THaDecData.vdcCount ipl l hw c).2.getD k 0 =
        c.2.getD k 0 + l.countP (hitAt ipl hw k) := by
  induction l with
  | nil => intro c k _ _; exact ⟨rfl, rfl⟩
  | cons w l ih =>
    intro c k hk1 hk2
    obtain ⟨s1, s2, s3, s4⟩ := THaDecData.vdcStep_getD ipl hw c w k hk1 hk2
    have hc : THaDecData.vdcCount ipl (w :: l) hw c =
        THaDecData.vdcCount ipl l hw (THaDecData.vdcStep ipl hw c w) := rfl
    obtain ⟨i1, i2⟩ := ih (THaDecData.vdcStep ipl hw c w) k (by rw [s3]; exact hk1)
      (by rw [s4]; exact hk2)
    rw [hc, i1, i2, s1, s2, List.countP_cons, List.countP_cons]
    constructor <;> omega

theorem hitwireFold_spec (l : List Int) :
    ∀ hw0 : List Nat, hw0.length = THaDecData.nwire →
      (l.foldl (fun hw w => if w ≥ 0 ∧ w < (THaDecData.nwire : Int) then hw.set w.toNat 1
        else hw) hw0).length = THaDecData.nwire ∧
      ∀ j : Nat, (l.foldl (fun hw w => if w ≥ 0 ∧ w < (THaDecData.nwire : Int) then
          hw.set w.toNat 1 else hw) hw0).getD j 0 ≠ 0 ↔
        (hw0.getD j 0 ≠ 0 ∨ (j < THaDecData.nwire ∧ (j : Int) ∈ l)) := by
  induction l with
  | nil => intro hw0 h0; exact ⟨h0, fun j => by simp⟩
  | cons w l ih =>
    intro hw0 h0
    rw [List.foldl_cons]
    by_cases hw : w ≥ 0 ∧ w < (THaDecData.nwire : Int)
    · rw [if_pos hw]
      obtain ⟨i1, i2⟩ := ih (hw0.set w.toNat 1) (by rw [List.length_set]; exact h0)
      refine ⟨i1, fun j => ?_⟩
      rw [i2 j, List.getD_eq_getElem?_getD, List.getD_eq_getElem?_getD, List.getElem?_set]
      have hwn : (w.toNat : Int) = w := Int.toNat_of_nonneg hw.1
      by_cases hj : w.toNat = j
      · rw [if_pos hj, if_pos (by omega)]
        have hmem : (j : Int) ∈ w :: l := by
          rw [← hj, hwn]
          exact List.mem_cons_self _ _
        have hjn : j < THaDecData.nwire := by omega
        simp [hmem, hjn]
      · rw [if_neg hj]
        have hne : (j : Int) ≠ w := by omega
        simp [List.mem_cons, hne]
    · rw [if_neg hw]
      obtain ⟨i1, i2⟩ := ih hw0 h0
      refine ⟨i1, fun j => ?_⟩
      rw [i2 j]
      have hne : j < THaDecData.nwire → (j : Int) ≠ w := by
        intro hj; omega
      constructor
      · rintro (h | ⟨h1, h2⟩)
        · exact Or.inl h
        · exact Or.inr ⟨h1, List.mem_cons_of_mem _ h2⟩
      · rintro (h | ⟨h1, h2⟩)
        · exact Or.inl h
        · rcases List.mem_cons.mp h2 with h3 | h3
          · exact absurd h3 (hne h1)
          · exact Or.inr ⟨h1, h3⟩

/-- The lookup table `hitwire` marks exactly the wire numbers of the list that
lie in the range of the table. -/
theorem THaDecData.hitwireOf_ne_zero (wire : List Int) (j : Nat) :
    (THaDecData.hitwireOf wire).getD j 0 ≠ 0 ↔ j < THaDecData.nwire ∧ (j : Int) ∈ wire := by
  unfold THaDecData.hitwireOf
  rw [(hitwireFold_spec wire (List.replicate THaDecData.nwire 0)
    (List.length_replicate _ _)).2 j]
  constructor
  · rintro (h | h)
    · exfalso
      apply h
      rw [List.getD_eq_getElem?_getD]
      by_cases hj : j < THaDecData.nwire
      · rw [List.getElem?_eq_getElem (by rw [List.length_replicate]; exact hj)]
        simp
      · rw [List.getElem?_eq_none (by rw [List.length_replicate]; omega)]
        rfl
    · exact h
  · exact fun h => Or.inr h

/-- For a wire list inside the range, an entry gives an opportunity at wire
`a` exactly when it is `a - 1` and `a + 1` is in the list; it gives a hit when
moreover `a` is in the list. -/
theorem oppAt_inRange (ipl : Nat) (L : List Int) (a : Nat) (ha : a < THaDecData.nwire)
    (hL : ∀ w ∈ L, 0 ≤ w ∧ w < (THaDecData.nwire : Int)) (w : Int) (hw : w ∈ L) :
    (oppAt ipl (THaDecData.hitwireOf L) (ipl * THaDecData.nwire + a) w = true ↔
      (w = (a : Int) - 1 ∧ ((a : Int) + 1) ∈ L)) ∧
    (hitAt ipl (THaDecData.hitwireOf L) (ipl * THaDecData.nwire + a) w = true ↔
      (w = (a : Int) - 1 ∧ ((a : Int) + 1) ∈ L ∧ (a : Int) ∈ L)) := by
  have hw0 := hL w hw
  have h2n : ((w + 2).toNat : Int) = w + 2 := Int.toNat_of_nonneg (by omega)
  have h1n : ((w + 1).toNat : Int) = w + 1 := Int.toNat_of_nonneg (by omega)
  have hopp : oppAt ipl (THaDecData.hitwireOf L) (ipl * THaDecData.nwire + a) w = true ↔
      (w = (a : Int) - 1 ∧ ((a : Int) + 1) ∈ L) := by
    unfold oppAt
    rw [decide_eq_true_iff, THaDecData.hitwireOf_ne_zero, h2n]
    constructor
    · rintro ⟨_, _, ⟨_, hm⟩, hk⟩
      have hwa : w = (a : Int) - 1 := by omega
      refine ⟨hwa, ?_⟩
      rw [hwa] at hm
      have : (a : Int) - 1 + 2 = (a : Int) + 1 := by ring
      rw [this] at hm
      exact hm
    · rintro ⟨hwa, hm⟩
      have hm2 := hL _ hm
      refine ⟨hw0.1, by omega, ⟨by omega, ?_⟩, by omega⟩
      rw [hwa]
      have : (a : Int) - 1 + 2 = (a : Int) + 1 := by ring
      rw [this]
      exact hm
  refine ⟨hopp, ?_⟩
  unfold hitAt
  rw [Bool.and_eq_true, hopp, decide_eq_true_iff, THaDecData.hitwireOf_ne_zero, h1n]
  constructor
  · rintro ⟨⟨hwa, hm⟩, _, hm1⟩
    refine ⟨hwa, hm, ?_⟩
    rw [hwa] at hm1
    have : (a : Int) - 1 + 1 = (a : Int) := by ring
    rw [this] at hm1
    exact hm1
  · rintro ⟨hwa, hm, hm1⟩
    refine ⟨⟨hwa, hm⟩, by omega, ?_⟩
    rw [hwa]
    have : (a : Int) - 1 + 1 = (a : Int) := by ring
    rw [this]
    exact hm1

theorem countP_of_iff (L : List Int) (p : Int → Bool) (c : Prop) [Decidable c] (x : Int)
    (h : ∀ w ∈ L, p w = true ↔ (w = x ∧ c)) :
    L.countP p = if c then L.count x else 0 := by
  by_cases hc : c
  · rw [if_pos hc, List.count_eq_countP]
    apply List.countP_congr
    intro w hw
    rw [h w hw]
    simp [hc]
  · rw [if_neg hc]
    rw [List.countP_eq_zero]
    intro w hw hp
    exact hc ((h w hw).mp hp).2

/-- C23: let the variable of plane `j` hold a wire list `L` of at most 400
entries, all in [0,400). Then one pass of the body of the plane loop of
`VdcEff` increases, for every wire `a`, the opportunity counter of `a` by the
number of entries of `L` equal to `a - 1` when `a + 1` occurs in `L` (by 0
otherwise), and the hit counter of `a` by that same number when moreover `a`
occurs in `L` (by 0 otherwise); the counters of the other planes do not
change. -/
theorem C23_neighbour_coincidence_update (u : THaDecData) (j : Nat) (pvar : THaVar)
    (hvar : (u.varp.getD j none).bind (varFind u.gHaVars) = some pvar)
    (hlen : (THaDecData.varValues u pvar).length ≤ THaDecData.nwire)
    (hrange : ∀ w ∈ THaDecData.varValues u pvar, 0 ≤ w ∧ w < (THaDecData.nwire : Int))
    (hj : j < 8) (hx : u.xcnt.length = 8 * THaDecData.nwire)
    (he : u.eff.length = 8 * THaDecData.nwire) :
    (∀ a : Nat, a < THaDecData.nwire →
      (u.vdcPlane j).xcnt.getD (j * THaDecData.nwire + a) 0 =
        u.xcnt.getD (j * THaDecData.nwire + a) 0 +
          (if ((a : Int) + 1) ∈ THaDecData.varValues u pvar then (THaDecData.varValues u pvar).count ((a : Int) - 1)
           else 0) ∧
      (u.vdcPlane j).eff.getD (j * THaDecData.nwire + a) 0 =
        u.eff.getD (j * THaDecData.nwire + a) 0 +
          (if ((a : Int) + 1) ∈ THaDecData.varValues u pvar ∧ (a : Int) ∈ THaDecData.varValues u pvar then
             (THaDecData.varValues u pvar).count ((a : Int) - 1)
           else 0)) ∧
    (∀ k : Nat, (k < j * THaDecData.nwire ∨ j * THaDecData.nwire + THaDecData.nwire ≤ k) →
      (u.vdcPlane j).xcnt[k]? = u.xcnt[k]? ∧ (u.vdcPlane j).eff[k]? = u.eff[k]?) := by
  have hc := THaDecData.vdcPlane_counters u j pvar hvar
  have hc1 : (u.vdcPlane j).xcnt =
      (THaDecData.vdcUpdate j (THaDecData.varValues u pvar) (u.xcnt, u.eff)).1 := congrArg Prod.fst hc
  have hc2 : (u.vdcPlane j).eff =
      (THaDecData.vdcUpdate j (THaDecData.varValues u pvar) (u.xcnt, u.eff)).2 := congrArg Prod.snd hc
  refine ⟨?_, (THaDecData.vdcPlane_effect u j).2.2.2.2.2.2.2.1⟩
  intro a ha
  rw [hc1, hc2]
  generalize THaDecData.varValues u pvar = L at hlen hrange
  unfold THaDecData.vdcUpdate
  rw [Nat.min_eq_left hlen, List.take_length]
  have hk : j * THaDecData.nwire + a < 8 * THaDecData.nwire := by
    unfold THaDecData.nwire at ha ⊢
    omega
  obtain ⟨g1, g2⟩ := THaDecData.vdcCount_getD j (THaDecData.hitwireOf L) L (u.xcnt, u.eff)
    (j * THaDecData.nwire + a) (by rw [hx]; exact hk) (by rw [he]; exact hk)
  rw [g1, g2]
  have e1 := countP_of_iff L (oppAt j (THaDecData.hitwireOf L) (j * THaDecData.nwire + a))
    (((a : Int) + 1) ∈ L) ((a : Int) - 1)
    (fun w hw => (oppAt_inRange j L a ha hrange w hw).1)
  have e2 := countP_of_iff L (hitAt j (THaDecData.hitwireOf L) (j * THaDecData.nwire + a))
    (((a : Int) + 1) ∈ L ∧ (a : Int) ∈ L) ((a : Int) - 1)
    (fun w hw => (oppAt_inRange j L a ha hrange w hw).2)
  rw [e1, e2]
  exact ⟨rfl, rfl⟩

/-- C23 at the wire list 5, 7, 5, 6 of the first plane on zero counters: wire
6 has the two entries 5 before it and the entry 7 after it and is in the list,
so its opportunity and hit counters become 2; wire 7 has the entry 6 before
it but no entry 8 after it, so its counters stay 0. -/
theorem C23_neighbour_coincidence_update_witness :
    (stVdcLoop.varp.getD 0 none).bind (varFind stVdcLoop.gHaVars) =
      some { name := "L.vdc.u1.wire", target := VarTarget.foreign [5, 7, 5, 6] } ∧
    (stVdcLoop.vdcPlane 0).xcnt.getD (0 * THaDecData.nwire + 6) 0 =
      stVdcLoop.xcnt.getD (0 * THaDecData.nwire + 6) 0 +
        (if (((6 : Nat) : Int) + 1) ∈ ([5, 7, 5, 6] : List Int) then
          ([5, 7, 5, 6] : List Int).count (((6 : Nat) : Int) - 1) else 0) ∧
    (stVdcLoop.vdcPlane 0).xcnt.getD 6 0 = 2 ∧ (stVdcLoop.vdcPlane 0).eff.getD 6 0 = 2 ∧
    (stVdcLoop.vdcPlane 0).xcnt.getD 7 0 = 0 :=
  ⟨by decide!,
   ((C23_neighbour_coincidence_update stVdcLoop 0
      { name := "L.vdc.u1.wire", target := VarTarget.foreign [5, 7, 5, 6] }
      (by decide!) (by decide!) (by decide!) (by decide!) (by decide!) (by decide!)).1 6
      (by decide!)).1,
   by decide!, by decide!, by decide!⟩

/-! ## Wire lists: excess entries, entries out of range, order -/

theorem THaDecData.vdcStep_bump (ipl : Nat) (hw : List Nat) (st : List Nat × List Nat)
    (w : Int) :
    THaDecData.vdcStep ipl hw st w =
      (bump (oppIdx ipl hw w) st.1, bump (hitIdx ipl hw w) st.2) := by
  unfold THaDecData.vdcStep hitIdx oppIdx
  dsimp only
  by_cases h1 : w < 0 ∨ w + 2 ≥ (THaDecData.nwire : Int)
  · simp only [if_pos h1, ite_self]
    rfl
  · simp only [if_neg h1]
    by_cases h2 : hw.getD (w + 2).toNat 0 ≠ 0
    · simp only [if_pos h2]
      have h3 : w + 1 ≥ 0 ∧ w + 1 < (THaDecData.nwire : Int) := by omega
      simp only [if_pos h3]
      by_cases h4 : hw.getD (w + 1).toNat 0 ≠ 0
      · simp only [if_pos h4]
        rfl
      · simp only [if_neg h4]
        rfl
    · simp only [if_neg h2, ite_self]
      rfl

theorem modifyAt_comm {α : Type} (f : α → α) :
    ∀ (l : List α) (i j : Nat), modifyAt f i (modifyAt f j l) = modifyAt f j (modifyAt f i l) := by
  intro l
  induction l with
  | nil => intro i j; cases i <;> cases j <;> rfl
  | cons x xs ih =>
    intro i j
    cases i with
    | zero =>
      cases j with
      | zero => rfl
      | succ j => rfl
    | succ i =>
      cases j with
      | zero => rfl
      | succ j =>
        show x :: modifyAt f i (modifyAt f j xs) = x :: modifyAt f j (modifyAt f i xs)
        rw [ih i j]

theorem bump_comm (a b : Option Nat) (l : List Nat) : bump a (bump b l) = bump b (bump a l) := by
  cases a with
  | none => rfl
  | some i =>
    cases b with
    | none => rfl
    | some j => exact modifyAt_comm _ l i j

theorem THaDecData.vdcStep_comm (ipl : Nat) (hw : List Nat) (st : List Nat × List Nat)
    (x y : Int) :
    THaDecData.vdcStep ipl hw (THaDecData.vdcStep ipl hw st x) y =
      THaDecData.vdcStep ipl hw (THaDecData.vdcStep ipl hw st y) x := by
  rw [THaDecData.vdcStep_bump, THaDecData.vdcStep_bump, THaDecData.vdcStep_bump ipl hw _ x,
    THaDecData.vdcStep_bump ipl hw st y]
  dsimp only
  rw [bump_comm (oppIdx ipl hw y), bump_comm (hitIdx ipl hw y)]

theorem THaDecData.vdcStep_skip (ipl : Nat) (hw : List Nat) (st : List Nat × List Nat)
    (w : Int) (h : inRange w = false) : THaDecData.vdcStep ipl hw st w = st := by
  have h2 : ¬ (0 ≤ w ∧ w < (THaDecData.nwire : Int)) := of_decide_eq_false h
  unfold THaDecData.vdcStep
  dsimp only
  rw [if_pos (by omega)]

theorem foldl_filter_skip {σ α : Type} (f : σ → α → σ) (p : α → Bool)
    (h : ∀ st a, p a = false → f st a = st) (l : List α) :
    ∀ st, (l.filter p).foldl f st = l.foldl f st := by
  induction l with
  | nil => intro st; rfl
  | cons a l ih =>
    intro st
    cases hp : p a
    · rw [List.filter_cons_of_neg (by simp [hp]), List.foldl_cons, h st a hp]
      exact ih st
    · rw [List.filter_cons_of_pos hp, List.foldl_cons, List.foldl_cons]
      exact ih _

theorem THaDecData.hitwireOf_filter (wire : List Int) :
    THaDecData.hitwireOf (wire.filter inRange) = THaDecData.hitwireOf wire := by
  unfold THaDecData.hitwireOf
  apply foldl_filter_skip
  intro st w h
  have h2 : ¬ (0 ≤ w ∧ w < (THaDecData.nwire : Int)) := of_decide_eq_false h
  rw [if_neg (by omega)]

theorem THaDecData.hitwireOf_perm (l1 l2 : List Int) (h : l1.Perm l2) :
    THaDecData.hitwireOf l1 = THaDecData.hitwireOf l2 := by
  unfold THaDecData.hitwireOf
  apply List.Perm.foldl_eq' h
  intro x _ y _ z
  by_cases hx : x ≥ 0 ∧ x < (THaDecData.nwire : Int)
  · by_cases hy : y ≥ 0 ∧ y < (THaDecData.nwire : Int)
    · simp only [hx, hy, and_self, if_true]
      by_cases hxy : x.toNat = y.toNat
      · rw [hxy]
      · exact List.set_comm 1 1 z hxy
    · simp only [hx, hy, and_self, if_true, if_false]
  · by_cases hy : y ≥ 0 ∧ y < (THaDecData.nwire : Int)
    · simp only [hx, hy, and_self, if_true, if_false]
    · simp only [hx, hy, if_false]

theorem take_min_length {α : Type} (l : List α) (n : Nat) :
    l.take (min l.length n) = l.take n := by
  by_cases h : l.length ≤ n
  · rw [Nat.min_eq_left h, List.take_length, List.take_of_length_le h]
  · rw [Nat.min_eq_right (by omega)]

/-- The counter update is that of the wire numbers in range among the first
`nwire` values. -/
theorem THaDecData.vdcUpdate_filter (ipl : Nat) (L : List Int) (c : List Nat × List Nat) :
    THaDecData.vdcUpdate ipl L c =
      THaDecData.vdcUpdate ipl ((L.take THaDecData.nwire).filter inRange) c := by
  have hlen : ((L.take THaDecData.nwire).filter inRange).length ≤ THaDecData.nwire :=
    le_trans (List.length_filter_le _ _) (by rw [List.length_take]; exact Nat.min_le_left _ _)
  unfold THaDecData.vdcUpdate
  rw [take_min_length L, Nat.min_eq_left hlen, List.take_length, THaDecData.hitwireOf_filter,
    THaDecData.vdcCount_eq_foldl, THaDecData.vdcCount_eq_foldl]
  exact (foldl_filter_skip (THaDecData.vdcStep ipl _) inRange
    (fun st a h => THaDecData.vdcStep_skip ipl _ st a h) (L.take THaDecData.nwire) c).symm

/-- The counter update does not depend on the order of a wire list of at most
`nwire` entries. -/
theorem THaDecData.vdcUpdate_perm (ipl : Nat) (L L2 : List Int) (c : List Nat × List Nat)
    (hperm : L.Perm L2) (hlen : L.length ≤ THaDecData.nwire) :
    THaDecData.vdcUpdate ipl L c = THaDecData.vdcUpdate ipl L2 c := by
  have hlen2 : L2.length ≤ THaDecData.nwire := by rw [← hperm.length_eq]; exact hlen
  unfold THaDecData.vdcUpdate
  rw [Nat.min_eq_left hlen, Nat.min_eq_left hlen2, List.take_length, List.take_length,
    THaDecData.hitwireOf_perm L L2 hperm, THaDecData.vdcCount_eq_foldl,
    THaDecData.vdcCount_eq_foldl]
  exact List.Perm.foldl_eq' hperm
    (fun x _ y _ z => THaDecData.vdcStep_comm ipl _ z x y) c

/-- C28: one pass of the body of the plane loop of `VdcEff` on the values
`L` of the variable of a plane updates the counters as it does on the list
made of the first 400 entries of `L` without the entries outside [0,400); this
holds for every plane, every list and all counters. -/
theorem C28_excess_and_out_of_range_wires (u : THaDecData) (j : Nat) (pvar : THaVar)
    (hvar : (u.varp.getD j none).bind (varFind u.gHaVars) = some pvar) :
    ((u.vdcPlane j).xcnt, (u.vdcPlane j).eff) =
      THaDecData.vdcUpdate j (((THaDecData.varValues u pvar).take THaDecData.nwire).filter inRange)
        (u.xcnt, u.eff) ∧
    ((u.vdcPlane j).xcnt, (u.vdcPlane j).eff) =
      THaDecData.vdcUpdate j (THaDecData.varValues u pvar) (u.xcnt, u.eff) ∧
    (∀ (ipl : Nat) (L : List Int) (c : List Nat × List Nat),
      THaDecData.vdcUpdate ipl L c =
        THaDecData.vdcUpdate ipl ((L.take THaDecData.nwire).filter inRange) c) := by
  have h := THaDecData.vdcPlane_counters u j pvar hvar
  refine ⟨?_, h, fun ipl L c => THaDecData.vdcUpdate_filter ipl L c⟩
  rw [h]
  exact THaDecData.vdcUpdate_filter j _ _

/-- C28 at the values -1, 5, 400, 7, 6, 1000 of the first plane: the update is
that of the list 5, 7, 6, which counts one opportunity and one hit at wire
6. -/
theorem C28_excess_and_out_of_range_wires_witness :
    (stVdcLoopOut.varp.getD 0 none).bind (varFind stVdcLoopOut.gHaVars) =
      some { name := "L.vdc.u1.wire", target := VarTarget.foreign [-1, 5, 400, 7, 6, 1000] } ∧
    ((stVdcLoopOut.vdcPlane 0).xcnt, (stVdcLoopOut.vdcPlane 0).eff) =
      THaDecData.vdcUpdate 0
        (((THaDecData.varValues stVdcLoopOut
          { name := "L.vdc.u1.wire",
            target := VarTarget.foreign [-1, 5, 400, 7, 6, 1000] }).take
          THaDecData.nwire).filter inRange)
        (stVdcLoopOut.xcnt, stVdcLoopOut.eff) ∧
    ((THaDecData.varValues stVdcLoopOut
      { name := "L.vdc.u1.wire", target := VarTarget.foreign [-1, 5, 400, 7, 6, 1000] }).take
      THaDecData.nwire).filter inRange = [5, 7, 6] ∧
    (stVdcLoopOut.vdcPlane 0).xcnt.getD 6 0 = 1 ∧ (stVdcLoopOut.vdcPlane 0).eff.getD 6 0 = 1 :=
  ⟨by decide!,
   (C28_excess_and_out_of_range_wires stVdcLoopOut 0
      { name := "L.vdc.u1.wire", target := VarTarget.foreign [-1, 5, 400, 7, 6, 1000] }
      (by decide!)).1,
   by decide!, by decide!, by decide!⟩

/-- C29: let two engine states hold the same counters, and let the variable
of plane `j` hold in the one a wire list of at most 400 entries and in the
other a permutation of that list. Then one pass of the body of the plane loop
of `VdcEff` leaves the same counters in both; and the counter update of every
plane is the same on any two lists of at most 400 entries that are
permutations of each other. -/
theorem C29_wire_list_order_independence (u u2 : THaDecData) (j : Nat) (pvar pvar2 : THaVar)
    (hvar : (u.varp.getD j none).bind (varFind u.gHaVars) = some pvar)
    (hvar2 : (u2.varp.getD j none).bind (varFind u2.gHaVars) = some pvar2)
    (hperm : (THaDecData.varValues u pvar).Perm (THaDecData.varValues u2 pvar2))
    (hlen : (THaDecData.varValues u pvar).length ≤ THaDecData.nwire)
    (hx : u2.xcnt = u.xcnt) (he : u2.eff = u.eff) :
    ((u2.vdcPlane j).xcnt = (u.vdcPlane j).xcnt ∧ (u2.vdcPlane j).eff = (u.vdcPlane j).eff) ∧
    (∀ (ipl : Nat) (L L2 : List Int) (c : List Nat × List Nat), L.Perm L2 →
      L.length ≤ THaDecData.nwire →
      THaDecData.vdcUpdate ipl L c = THaDecData.vdcUpdate ipl L2 c) := by
  have h1 := THaDecData.vdcPlane_counters u j pvar hvar
  have h2 := THaDecData.vdcPlane_counters u2 j pvar2 hvar2
  rw [hx, he, ← THaDecData.vdcUpdate_perm j _ _ _ hperm hlen, ← h1] at h2
  exact ⟨⟨congrArg Prod.fst h2, congrArg Prod.snd h2⟩,
    fun ipl L L2 c hp hl => THaDecData.vdcUpdate_perm ipl L L2 c hp hl⟩

/-- C29 at the wire lists 5, 7, 5, 6 and 6, 5, 7, 5 of the first plane, on
zero counters. -/
theorem C29_wire_list_order_independence_witness :
    (stVdcLoop.varp.getD 0 none).bind (varFind stVdcLoop.gHaVars) =
      some { name := "L.vdc.u1.wire", target := VarTarget.foreign [5, 7, 5, 6] } ∧
    (stVdcLoopPerm.varp.getD 0 none).bind (varFind stVdcLoopPerm.gHaVars) =
      some { name := "L.vdc.u1.wire", target := VarTarget.foreign [6, 5, 7, 5] } ∧
    (stVdcLoopPerm.vdcPlane 0).xcnt = (stVdcLoop.vdcPlane 0).xcnt ∧
    (stVdcLoopPerm.vdcPlane 0).eff = (stVdcLoop.vdcPlane 0).eff ∧
    (stVdcLoopPerm.vdcPlane 0).xcnt.getD 6 0 = 2 :=
  ⟨by decide!, by decide!,
   (C29_wire_list_order_independence stVdcLoop stVdcLoopPerm 0
      { name := "L.vdc.u1.wire", target := VarTarget.foreign [5, 7, 5, 6] }
      { name := "L.vdc.u1.wire", target := VarTarget.foreign [6, 5, 7, 5] }
      (by decide!) (by decide!) (by decide!) (by decide!) (by decide!) (by decide!)).1.1,
   (C29_wire_list_order_independence stVdcLoop stVdcLoopPerm 0
      { name := "L.vdc.u1.wire", target := VarTarget.foreign [5, 7, 5, 6] }
      { name := "L.vdc.u1.wire", target := VarTarget.foreign [6, 5, 7, 5] }
      (by decide!) (by decide!) (by decide!) (by decide!) (by decide!) (by decide!)).1.2,
   by decide!⟩

/-! ## The flag `fgVdcEffFirst` -/

theorem sameStatics_refl (s : THaDecData) : sameStatics s s := ⟨rfl, rfl, rfl, rfl, rfl⟩

theorem sameStatics_trans {s t u : THaDecData} (h1 : sameStatics s t) (h2 : sameStatics t u) :
    sameStatics s u :=
  ⟨h2.1.trans h1.1, h2.2.1.trans h1.2.1, h2.2.2.1.trans h1.2.2.1,
    h2.2.2.2.1.trans h1.2.2.2.1, h2.2.2.2.2.trans h1.2.2.2.2⟩

theorem THaDecData.insertLoc_statics (s : THaDecData) (found is_slot : Bool) (b : BdataLoc) :
    sameStatics s (THaDecData.insertLoc s found is_slot b) := by
  unfold THaDecData.insertLoc THaDecData.DefineChannel
  cases found <;> cases is_slot <;> exact ⟨rfl, rfl, rfl, rfl, rfl⟩

theorem THaDecData.setupLine_statics (re_init : Bool) (s : THaDecData) (sinput : String) :
    sameStatics s (THaDecData.setupLine re_init s sinput) := by
  cases re_init with
  | false =>
    rw [THaDecData.setupLine_fresh]
    cases parseLine sinput with
    | none => exact sameStatics_refl s
    | some e => exact THaDecData.insertLoc_statics s _ _ _
  | true =>
    rw [THaDecData.setupLine_reinit]
    cases parseLine sinput with
    | none => exact sameStatics_refl s
    | some e =>
      dsimp only
      cases s.fWordLoc.findIdx? (fun p => e.2.fName == p.fName) with
      | some i => exact ⟨rfl, rfl, rfl, rfl, rfl⟩
      | none =>
        dsimp only
        cases s.fCrateLoc.findIdx? (fun p => e.2.fName == p.fName) with
        | some i => exact ⟨rfl, rfl, rfl, rfl, rfl⟩
        | none => exact THaDecData.insertLoc_statics s _ _ _

theorem THaDecData.DefineChannel_statics (s : THaDecData) (b : BdataLoc) (ref : VarTarget)
    (mode : EMode) : sameStatics s (s.DefineChannel b ref mode) := by
  unfold THaDecData.DefineChannel
  cases mode <;> exact ⟨rfl, rfl, rfl, rfl, rfl⟩

theorem THaDecData.DefineVarsFromList_statics (s : THaDecData) (mode : EMode) :
    sameStatics s (s.DefineVarsFromList mode).2 ∧ (s.DefineVarsFromList mode).1 = 0 := by
  unfold THaDecData.DefineVarsFromList
  cases mode <;> exact ⟨⟨rfl, rfl, rfl, rfl, rfl⟩, rfl⟩

theorem THaDecData.setupDelete_statics (s : THaDecData) :
    sameStatics s (THaDecData.setupDelete s) := by
  unfold THaDecData.setupDelete
  dsimp only
  have h1 : sameStatics s (s.fCrateLoc.enum.foldl
      (fun st p => st.DefineChannel p.2 (VarTarget.crateLoc p.1) EMode.kDelete) s) :=
    foldl_invariant (fun u => sameStatics s u) _
      (fun u a hu => sameStatics_trans hu (THaDecData.DefineChannel_statics u _ _ _)) _ _
      (sameStatics_refl s)
  have h2 : sameStatics s (s.fWordLoc.enum.foldl
      (fun st p => st.DefineChannel p.2 (VarTarget.wordLoc p.1) EMode.kDelete)
      (s.fCrateLoc.enum.foldl
        (fun st p => st.DefineChannel p.2 (VarTarget.crateLoc p.1) EMode.kDelete) s)) :=
    foldl_invariant (fun u => sameStatics s u) _
      (fun u a hu => sameStatics_trans hu (THaDecData.DefineChannel_statics u _ _ _)) _ _ h1
  exact h2

theorem THaDecData.SetupDecData_delete (decdatafile : Option (List String)) (s : THaDecData) :
    THaDecData.SetupDecData decdatafile EMode.kDelete s =
      ((s.DefineVarsFromList EMode.kDelete).1,
       THaDecData.setupDelete
         { (s.DefineVarsFromList EMode.kDelete).2 with fIsSetup := false }) := by
  have hb : (EMode.kDelete == EMode.kDefine) = false := rfl
  simp [THaDecData.SetupDecData, hb]

theorem THaDecData.SetupDecData_default (s : THaDecData) (hfresh : s.fIsSetup = false) :
    THaDecData.SetupDecData none EMode.kDefine s =
      THaDecData.DefaultMap (THaDecData.BookHist
        { (s.DefineVarsFromList EMode.kDefine).2 with
            fIsSetup := true, fCrateLoc := [], fWordLoc := [] }) := by
  simp [THaDecData.SetupDecData, hfresh]

theorem THaDecData.SetupDecData_reinit_none (s : THaDecData) (hset : s.fIsSetup = true) :
    THaDecData.SetupDecData none EMode.kDefine s = (0, s) := by
  cases s
  simp only at hset
  subst hset
  rfl

/-- `SetupDecData` leaves the statics of `VdcEff` and the flag alone, in every
mode. -/
theorem THaDecData.SetupDecData_statics (decdatafile : Option (List String)) (mode : EMode)
    (s : THaDecData) :
    sameStatics s (THaDecData.SetupDecData decdatafile mode s).2 ∧
    (THaDecData.SetupDecData decdatafile mode s).1 = 0 := by
  cases mode with
  | kDelete =>
    rw [THaDecData.SetupDecData_delete]
    obtain ⟨hd, hd1⟩ := THaDecData.DefineVarsFromList_statics s EMode.kDelete
    generalize s.DefineVarsFromList EMode.kDelete = r at hd hd1 ⊢
    refine ⟨sameStatics_trans (t := { r.2 with fIsSetup := false }) hd
      (THaDecData.setupDelete_statics _), hd1⟩
  | kDefine =>
    cases hset : s.fIsSetup with
    | true =>
      cases decdatafile with
      | none =>
        rw [THaDecData.SetupDecData_reinit_none s hset]
        exact ⟨sameStatics_refl s, rfl⟩
      | some lines =>
        rw [THaDecData.SetupDecData_reinit lines s hset]
        exact ⟨foldl_invariant (fun u => sameStatics s u) _
          (fun u a hu => sameStatics_trans hu (THaDecData.setupLine_statics true u a)) _ _
          (sameStatics_refl s), rfl⟩
    | false =>
      obtain ⟨hd, hd1⟩ := THaDecData.DefineVarsFromList_statics s EMode.kDefine
      cases decdatafile with
      | none =>
        rw [THaDecData.SetupDecData_default s hset]
        generalize s.DefineVarsFromList EMode.kDefine = r at hd hd1 ⊢
        exact ⟨hd, rfl⟩
      | some lines =>
        rw [THaDecData.SetupDecData_fresh lines s hset]
        generalize s.DefineVarsFromList EMode.kDefine = r at hd hd1 ⊢
        exact ⟨foldl_invariant (fun u => sameStatics s u) _
          (fun u a hu => sameStatics_trans hu (THaDecData.setupLine_statics false u a)) _ _
          hd, hd1⟩

theorem THaDecData.vdcInit_start (p : THaDecData) :
    p.vdcInit.cnt = (if p.fgVdcEffFirst > 1 then 0 else p.cnt) ∧
    p.vdcInit.xcnt =
      (if p.fgVdcEffFirst > 1 then List.replicate (8 * THaDecData.nwire) 0 else p.xcnt) ∧
    p.vdcInit.eff =
      (if p.fgVdcEffFirst > 1 then List.replicate (8 * THaDecData.nwire) 0 else p.eff) ∧
    p.vdcInit.fgVdcEffFirst = (if p.fgVdcEffFirst > 0 then 0 else p.fgVdcEffFirst) := by
  unfold THaDecData.vdcInit
  by_cases h0 : p.fgVdcEffFirst > 0
  · rw [if_pos h0, if_pos h0]
    by_cases h1 : p.fgVdcEffFirst > 1
    · rw [if_pos h1, if_pos h1, if_pos h1, if_pos h1]
      exact ⟨rfl, rfl, rfl, rfl⟩
    · rw [if_neg h1, if_neg h1, if_neg h1, if_neg h1]
      exact ⟨rfl, rfl, rfl, rfl⟩
  · rw [if_neg h0, if_neg h0, if_neg (by omega), if_neg (by omega), if_neg (by omega)]
    exact ⟨rfl, rfl, rfl, rfl⟩

theorem THaDecData.decodePre_statics (evdata : THaEvData) (s : THaDecData) :
    sameStatics s (THaDecData.decodePre evdata s) := by
  unfold THaDecData.decodePre
  obtain ⟨k, c1, c2, c3, _, _⟩ := THaDecData.decodePrep_effect evdata s
  obtain ⟨_, _, _, k4, k5, k6, k7, k8, _, _⟩ := k
  exact ⟨k4.trans c1, k6, k7, k5.trans c2, k8.trans c3⟩

theorem THaDecData.decodeBody_pre (evdata : THaEvData) (s : THaDecData) :
    THaDecData.decodeBody evdata s =
      THaDecData.vdcFlush ((List.range 8).foldl THaDecData.vdcPlane
        (THaDecData.vdcInit (THaDecData.decodePre evdata s))) := rfl

/-- A successful `Decode` leaves the flag at 0 when it was positive, and as it
was otherwise. -/
theorem THaDecData.decodeBody_flag (evdata : THaEvData) (s : THaDecData) :
    (THaDecData.decodeBody evdata s).fgVdcEffFirst =
      (if s.fgVdcEffFirst > 0 then 0 else s.fgVdcEffFirst) := by
  rw [THaDecData.decodeBody_pre]
  have hp := (THaDecData.decodePre_statics evdata s).2.2.2.1
  have hi := (THaDecData.vdcInit_start (THaDecData.decodePre evdata s)).2.2.2
  generalize THaDecData.decodePre evdata s = p at hp hi ⊢
  generalize p.vdcInit = u at hi ⊢
  have i2 := (THaDecData.vdcPlanes_effect u 8 (le_refl _)).2.1
  generalize (List.range 8).foldl THaDecData.vdcPlane u = r at i2 ⊢
  rw [(THaDecData.vdcFlush_effect r).2.1, i2, hi, hp]

/-- `Init` leaves the counters of `VdcEff` as they are and turns the flag from
0 to 1, unless the object is a zombie; a flag other than 0 stays. -/
theorem THaDecData.Init_statics (decdatafile : Option (List String)) (s : THaDecData) :
    (THaDecData.Init decdatafile s).2.cnt = s.cnt ∧
    (THaDecData.Init decdatafile s).2.xcnt = s.xcnt ∧
    (THaDecData.Init decdatafile s).2.eff = s.eff ∧
    (THaDecData.Init decdatafile s).2.fgVdcEffFirst =
      (if s.isZombie = true then s.fgVdcEffFirst
       else if s.fgVdcEffFirst = 0 then 1 else s.fgVdcEffFirst) ∧
    (s.isZombie = false → (THaDecData.Init decdatafile s).2.IsOK = true) := by
  unfold THaDecData.Init
  cases hz : s.isZombie with
  | true =>
    rw [if_pos rfl, if_pos rfl]
    exact ⟨rfl, rfl, rfl, rfl, fun h => by cases h⟩
  | false =>
    rw [if_neg Bool.false_ne_true, if_neg Bool.false_ne_true]
    obtain ⟨hs, h0⟩ := THaDecData.SetupDecData_statics decdatafile EMode.kDefine
      (THaDecData.initPrep s)
    generalize THaDecData.SetupDecData decdatafile EMode.kDefine (THaDecData.initPrep s) = r
      at hs h0 ⊢
    obtain ⟨a1, a2, a3, a4, _⟩ := hs
    refine ⟨a1, a2, a3, ?_, fun _ => ?_⟩
    · show r.2.fgVdcEffFirst = _
      rw [a4]
      show (if (s.fgVdcEffFirst == 0) = true then 1 else s.fgVdcEffFirst) = _
      by_cases h : s.fgVdcEffFirst = 0
      · rw [if_pos h, if_pos (by rw [h]; rfl)]
      · rw [if_neg h, if_neg (by simpa using h)]
    · show (r.1 == 0) = true
      rw [h0]
      rfl

/-- The counters the plane loop of the next `VdcEff` call starts from, in a
state whose flag is at most 1: those of the state. -/
theorem THaDecData.next_start_keep (evdata : THaEvData) (s : THaDecData)
    (h : s.fgVdcEffFirst ≤ 1) :
    (THaDecData.vdcInit (THaDecData.decodePre evdata s)).cnt = s.cnt ∧
    (THaDecData.vdcInit (THaDecData.decodePre evdata s)).xcnt = s.xcnt ∧
    (THaDecData.vdcInit (THaDecData.decodePre evdata s)).eff = s.eff := by
  obtain ⟨a1, a2, a3, a4, _⟩ := THaDecData.decodePre_statics evdata s
  obtain ⟨b1, b2, b3, _⟩ := THaDecData.vdcInit_start (THaDecData.decodePre evdata s)
  rw [a4, if_neg (by omega)] at b1 b2 b3
  exact ⟨b1.trans a1, b2.trans a2, b3.trans a3⟩

/-- The counters the plane loop of the next `VdcEff` call starts from, in a
state whose flag is 2: all zero. -/
theorem THaDecData.next_start_zero (evdata : THaEvData) (s : THaDecData)
    (h : s.fgVdcEffFirst = 2) :
    (THaDecData.vdcInit (THaDecData.decodePre evdata s)).cnt = 0 ∧
    (THaDecData.vdcInit (THaDecData.decodePre evdata s)).xcnt =
      List.replicate (8 * THaDecData.nwire) 0 ∧
    (THaDecData.vdcInit (THaDecData.decodePre evdata s)).eff =
      List.replicate (8 * THaDecData.nwire) 0 := by
  obtain ⟨_, _, _, a4, _⟩ := THaDecData.decodePre_statics evdata s
  obtain ⟨b1, b2, b3, _⟩ := THaDecData.vdcInit_start (THaDecData.decodePre evdata s)
  rw [a4, if_pos (by omega)] at b1 b2 b3
  exact ⟨b1, b2, b3⟩

/-- C25: the flag `fgVdcEffFirst` is 2 after the constructor, and `Init`,
`Reset`, `Clear`, `Decode` and `SetupDecData` keep it among 0, 1 and 2. A
successful `Decode` runs the plane loop of `VdcEff` on the state `vdcInit`
leaves. After a successful `Decode` and an `Init` without `Reset`, the next
event starts the plane loop from the event counter and the counters that
`Decode` left (and `Init` on an object that is no zombie leaves the status
OK). After `Reset`, with or without an `Init` after it, the flag is 2 and the
next event starts the plane loop from an event counter of 0 and from counters
that are all 0. -/
theorem C25_accumulator_reset_state_machine (s : THaDecData)
    (decdatafile : Option (List String)) (mode : EMode) (evdata ev2 : THaEvData)
    (pfx : String) (nbits : Nat) :
    ((THaDecData.new pfx nbits).fgVdcEffFirst = 2 ∧
     (flagOK s →
       flagOK (THaDecData.Init decdatafile s).2 ∧ flagOK s.Reset ∧ flagOK s.Clear ∧
       flagOK (THaDecData.Decode evdata s).2 ∧
       flagOK (THaDecData.SetupDecData decdatafile mode s).2)) ∧
    (∀ x : THaDecData, THaDecData.decodeBody ev2 x =
      THaDecData.vdcFlush ((List.range 8).foldl THaDecData.vdcPlane
        (THaDecData.vdcInit (THaDecData.decodePre ev2 x)))) ∧
    (s.IsOK = true → flagOK s →
      ((THaDecData.Decode evdata s).2.isZombie = false →
        (THaDecData.Init decdatafile (THaDecData.Decode evdata s).2).2.IsOK = true) ∧
      (THaDecData.vdcInit (THaDecData.decodePre ev2
        (THaDecData.Init decdatafile (THaDecData.Decode evdata s).2).2)).cnt =
          (THaDecData.Decode evdata s).2.cnt ∧
      (THaDecData.vdcInit (THaDecData.decodePre ev2
        (THaDecData.Init decdatafile (THaDecData.Decode evdata s).2).2)).xcnt =
          (THaDecData.Decode evdata s).2.xcnt ∧
      (THaDecData.vdcInit (THaDecData.decodePre ev2
        (THaDecData.Init decdatafile (THaDecData.Decode evdata s).2).2)).eff =
          (THaDecData.Decode evdata s).2.eff) ∧
    (s.Reset.fgVdcEffFirst = 2 ∧
     (THaDecData.Init decdatafile s.Reset).2.fgVdcEffFirst = 2 ∧
     (THaDecData.vdcInit (THaDecData.decodePre ev2 s.Reset)).cnt = 0 ∧
     (THaDecData.vdcInit (THaDecData.decodePre ev2 s.Reset)).xcnt =
       List.replicate (8 * THaDecData.nwire) 0 ∧
     (THaDecData.vdcInit (THaDecData.decodePre ev2 s.Reset)).eff =
       List.replicate (8 * THaDecData.nwire) 0 ∧
     (THaDecData.vdcInit (THaDecData.decodePre ev2
       (THaDecData.Init decdatafile s.Reset).2)).cnt = 0 ∧
     (THaDecData.vdcInit (THaDecData.decodePre ev2
       (THaDecData.Init decdatafile s.Reset).2)).xcnt =
         List.replicate (8 * THaDecData.nwire) 0 ∧
     (THaDecData.vdcInit (THaDecData.decodePre ev2
       (THaDecData.Init decdatafile s.Reset).2)).eff =
         List.replicate (8 * THaDecData.nwire) 0) := by
  have hreset : s.Reset.fgVdcEffFirst = 2 := rfl
  have hinitflag : ∀ x : THaDecData, flagOK x → flagOK (THaDecData.Init decdatafile x).2 ∧
      (x.fgVdcEffFirst = 2 → (THaDecData.Init decdatafile x).2.fgVdcEffFirst = 2) ∧
      (x.fgVdcEffFirst = 0 → (THaDecData.Init decdatafile x).2.fgVdcEffFirst ≤ 1) := by
    intro x hx
    have h4 := (THaDecData.Init_statics decdatafile x).2.2.2.1
    unfold flagOK at hx ⊢
    cases hz : x.isZombie with
    | true =>
      rw [hz, if_pos rfl] at h4
      rw [h4]
      exact ⟨hx, fun h => h, fun h => by omega⟩
    | false =>
      rw [hz, if_neg Bool.false_ne_true] at h4
      rw [h4]
      by_cases h0 : x.fgVdcEffFirst = 0
      · rw [if_pos h0]
        exact ⟨Or.inr (Or.inl rfl), fun h => by omega, fun _ => le_refl _⟩
      · rw [if_neg h0]
        exact ⟨hx, fun h => h, fun h => absurd h h0⟩
  have hdecflag : ∀ x : THaDecData, flagOK x →
      flagOK (THaDecData.Decode evdata x).2 ∧
      (x.IsOK = true → (THaDecData.Decode evdata x).2.fgVdcEffFirst = 0) := by
    intro x hx
    cases hok : x.IsOK with
    | false =>
      have hd : THaDecData.Decode evdata x = (-1, x) := by
        unfold THaDecData.Decode
        rw [hok]
        rfl
      rw [hd]
      exact ⟨hx, fun h => by cases h⟩
    | true =>
      rw [THaDecData.Decode_ok evdata x hok]
      have hf := THaDecData.decodeBody_flag evdata x
      generalize THaDecData.decodeBody evdata x = y at hf ⊢
      dsimp only
      unfold flagOK at hx ⊢
      rw [hf]
      by_cases h0 : x.fgVdcEffFirst > 0
      · rw [if_pos h0]
        exact ⟨Or.inl rfl, fun _ => rfl⟩
      · rw [if_neg h0]
        exact ⟨hx, fun _ => by omega⟩
  refine ⟨⟨rfl, fun hs => ⟨(hinitflag s hs).1, Or.inr (Or.inr hreset), hs, (hdecflag s hs).1, ?_⟩⟩,
    fun x => THaDecData.decodeBody_pre ev2 x, ?_, ?_⟩
  · have h4 := (THaDecData.SetupDecData_statics decdatafile mode s).1.2.2.2.1
    unfold flagOK at hs ⊢
    rw [h4]
    exact hs
  · intro hok hs
    have hd0 := (hdecflag s hs).2 hok
    have hdf := (hdecflag s hs).1
    generalize (THaDecData.Decode evdata s).2 = s1 at hd0 hdf ⊢
    obtain ⟨i1, i2, i3, _, i5⟩ := THaDecData.Init_statics decdatafile s1
    have hle := (hinitflag s1 hdf).2.2 hd0
    generalize (THaDecData.Init decdatafile s1).2 = s2 at i1 i2 i3 i5 hle ⊢
    obtain ⟨n1, n2, n3⟩ := THaDecData.next_start_keep ev2 s2 hle
    exact ⟨i5, n1.trans i1, n2.trans i2, n3.trans i3⟩
  · have hi2 := (hinitflag s.Reset (Or.inr (Or.inr hreset))).2.1 hreset
    obtain ⟨n1, n2, n3⟩ := THaDecData.next_start_zero ev2 s.Reset hreset
    obtain ⟨m1, m2, m3⟩ := THaDecData.next_start_zero ev2 _ hi2
    exact ⟨hreset, hi2, n1, n2, n3, m1, m2, m3⟩

/-- C25 at the engine `stVdcOne` (one event processed, counters of wire 2 at
1): after `Init` the flag is 1 and the next event starts from the event
counter 1 and the counters left; after `Reset` and `Init` the flag is 2. -/
theorem C25_accumulator_reset_state_machine_witness :
    stVdcOne.IsOK = true ∧ flagOK stVdcOne ∧
    (THaDecData.Decode evNone stVdcOne).2.cnt = 2 ∧
    (THaDecData.vdcInit (THaDecData.decodePre evNone
      (THaDecData.Init none (THaDecData.Decode evNone stVdcOne).2).2)).cnt =
        (THaDecData.Decode evNone stVdcOne).2.cnt ∧
    (THaDecData.Init none (THaDecData.Decode evNone stVdcOne).2).2.fgVdcEffFirst = 1 ∧
    (THaDecData.Init none stVdcOne.Reset).2.fgVdcEffFirst = 2 :=
  ⟨by decide, Or.inl (by decide), by decide,
   ((C25_accumulator_reset_state_machine stVdcOne none EMode.kDefine evNone evNone "D." 8).2.2.1
      (by decide) (Or.inl (by decide))).2.1,
   by decide,
   (C25_accumulator_reset_state_machine stVdcOne none EMode.kDefine evNone evNone
      "D." 8).2.2.2.2.1⟩

/-! ## The chain of name comparisons of `Decode` -/

/-- A property of a conditional follows from the property of each branch
under the condition that selects it. -/
theorem ite_cases {α : Type} (P : α → Prop) (c : Prop) [Decidable c] (a b : α)
    (ha : c → P a) (hb : ¬c → P b) : P (if c then a else b) := by
  split
  · next h => exact ha h
  · next h => exact hb h

theorem Form_bit_head (i : Nat) : (Form_bit i).data.head? = some 'b' := by
  unfold Form_bit
  rw [String.data_append]
  rfl

theorem crateNames_not_bit (nm : String) (hnm : nm ∈ crateNames) (i : Nat) :
    nm ≠ Form_bit i := by
  intro h
  have hb := Form_bit_head i
  rw [← h] at hb
  have hall : ∀ x ∈ crateNames, x.data.head? ≠ some 'b' := by decide
  exact hall nm hnm hb

theorem THaDecData.TrigBits_scalars (s : THaDecData) (ibit : Nat) (d : BdataLoc) :
    scalarsOf (s.TrigBits ibit d) = scalarsOf s := by
  unfold THaDecData.TrigBits
  apply ite_prop (fun x => scalarsOf x = scalarsOf s)
  · rfl
  · apply foldl_invariant (fun x => scalarsOf x = scalarsOf s)
    · intro st a hst
      apply ite_prop (fun x => scalarsOf x = scalarsOf s)
      · exact hst
      · exact hst
    · rfl

/-- The scalar tied to one of the names of the chain is read off
`scalarsOf`. -/
theorem memberValue_of_scalars (s t : THaDecData) (nm : String) (hnm : nm ∈ crateNames)
    (h : scalarsOf t = scalarsOf s) :
    THaDecData.memberValue t nm = THaDecData.memberValue s nm := by
  simp only [scalarsOf, List.cons.injEq, and_true, Nat.cast_inj] at h
  obtain ⟨e0, e1, e2, e3, e4, e5, e6, e7, e8, e9, e10, e11, e12, e13, e14, e15, e16, e17,
    e18, e19, e20⟩ := h
  simp only [crateNames, List.mem_cons, List.mem_singleton, List.not_mem_nil, or_false] at hnm
  rcases hnm with rfl | rfl | rfl | rfl | rfl | rfl | rfl | rfl | rfl | rfl | rfl
  · exact congrArg Nat.cast e4
  · exact congrArg Nat.cast e5
  · exact congrArg Nat.cast e6
  · exact congrArg Nat.cast e7
  · exact congrArg Nat.cast e8
  · exact congrArg Nat.cast e1
  · exact congrArg Nat.cast e2
  · exact congrArg Nat.cast e15
  · exact congrArg Nat.cast e16
  · exact congrArg Nat.cast e17
  · exact congrArg Nat.cast e18

/-- A location that carries one of the names of the chain overwrites the
scalar of that name with its first sample. -/
theorem THaDecData.projectCrateLoc_hit (t : THaDecData) (d : BdataLoc) (nm : String)
    (hnm : nm ∈ crateNames) (hd : d.fName = nm) :
    THaDecData.memberValue (t.projectCrateLoc d) nm = d.Get 0 := by
  have hfind : (List.range' 1 t.bits.GetNbits).find? (fun i => d.nameIs (Form_bit i)) = none := by
    apply List.find?_eq_none.mpr
    intro i _ hi
    exact crateNames_not_bit nm hnm i (hd.symm.trans ((BdataLoc.nameIs_iff d _).mp hi))
  unfold THaDecData.projectCrateLoc
  rw [hfind]
  dsimp only
  unfold BdataLoc.nameIs
  rw [hd]
  generalize d.Get 0 = v
  simp only [crateNames, List.mem_cons, List.mem_singleton, List.not_mem_nil, or_false] at hnm
  rcases hnm with rfl | rfl | rfl | rfl | rfl | rfl | rfl | rfl | rfl | rfl | rfl <;> rfl

/-- A location under another name leaves the scalar alone. -/
theorem THaDecData.projectCrateLoc_miss (t : THaDecData) (d : BdataLoc) (nm : String)
    (hnm : nm ∈ crateNames) (hd : d.fName ≠ nm) :
    THaDecData.memberValue (t.projectCrateLoc d) nm = THaDecData.memberValue t nm := by
  unfold THaDecData.projectCrateLoc
  split
  · exact memberValue_of_scalars _ _ nm hnm (THaDecData.TrigBits_scalars t _ d)
  · simp only [crateNames, List.mem_cons, List.mem_singleton, List.not_mem_nil, or_false] at hnm
    rcases hnm with rfl | rfl | rfl | rfl | rfl | rfl | rfl | rfl | rfl | rfl | rfl <;>
    repeat' first
      | rfl
      | (apply ite_cases (fun x => THaDecData.memberValue x _ = THaDecData.memberValue t _) <;>
         intro hc)
      | exact absurd ((BdataLoc.nameIs_iff _ _).mp (by assumption)) hd

/-- The fourth loop of `Decode` leaves the scalars of the chain alone. -/
theorem THaDecData.projectWordLoc_miss (t : THaDecData) (d : BdataLoc) (nm : String)
    (hnm : nm ∈ crateNames) :
    THaDecData.memberValue (t.projectWordLoc d) nm = THaDecData.memberValue t nm := by
  unfold THaDecData.projectWordLoc
  simp only [crateNames, List.mem_cons, List.mem_singleton, List.not_mem_nil, or_false] at hnm
  rcases hnm with rfl | rfl | rfl | rfl | rfl | rfl | rfl | rfl | rfl | rfl | rfl <;>
  repeat' first
    | rfl
    | apply ite_prop (fun x => THaDecData.memberValue x _ = THaDecData.memberValue t _)

/-- The third and fourth loop of `Decode`: a scalar of the chain ends as the
first sample of the last location of `fCrateLoc` that carries its name. -/
theorem THaDecData.decodeProject_last (s5 : THaDecData) (nm : String)
    (pre post : List BdataLoc) (d : BdataLoc) (hnm : nm ∈ crateNames)
    (hs : s5.fCrateLoc = pre ++ d :: post) (hd : d.fName = nm)
    (hpost : ∀ e ∈ post, e.fName ≠ nm) :
    THaDecData.memberValue s5.decodeProject nm = d.Get 0 := by
  unfold THaDecData.decodeProject
  dsimp only
  rw [hs, List.foldl_append, List.foldl_cons]
  generalize pre.foldl THaDecData.projectCrateLoc s5 = t1
  have h1 := THaDecData.projectCrateLoc_hit t1 d nm hnm hd
  have h2 : THaDecData.memberValue
      (post.foldl THaDecData.projectCrateLoc (t1.projectCrateLoc d)) nm = d.Get 0 :=
    foldl_invariant_mem (fun u => THaDecData.memberValue u nm = d.Get 0) _ post
      (fun u a ha hu => (THaDecData.projectCrateLoc_miss u a nm hnm (hpost a ha)).trans hu)
      _ h1
  generalize post.foldl THaDecData.projectCrateLoc (t1.projectCrateLoc d) = t3 at h2
  exact foldl_invariant (fun u => THaDecData.memberValue u nm = d.Get 0) _
    (fun u a hu => (THaDecData.projectWordLoc_miss u a nm hnm).trans hu) _ t3 h2

/-- C30 (amended). Duplicate names in the scalar projection: when the
location `d` is the last entry of `fCrateLoc` that carries the name `nm` of
one of the scalars of the chain of `Decode`, a successful `Decode` leaves in
that scalar the first sample `Get(0)` of `d` as decoded from the event,
whatever the entries of that name before it hold (last match wins). -/
theorem C30_duplicate_names_last_match_wins (evdata : THaEvData) (s : THaDecData)
    (nm : String) (pre post : List BdataLoc) (d : BdataLoc)
    (hok : s.IsOK = true) (hnm : nm ∈ crateNames)
    (hs : s.fCrateLoc = pre ++ d :: post) (hd : d.fName = nm)
    (hpost : ∀ e ∈ post, e.fName ≠ nm) :
    (THaDecData.Decode evdata s).1 = 0 ∧
    (THaDecData.Decode evdata s).2.fCrateLoc[pre.length]? =
      some (THaDecData.decodeCrateLoc evdata d.Clear) ∧
    THaDecData.memberValue (THaDecData.Decode evdata s).2 nm =
      (THaDecData.decodeCrateLoc evdata d.Clear).Get 0 := by
  rw [THaDecData.Decode_ok evdata s hok]
  dsimp only
  refine ⟨rfl, ?_, ?_⟩
  · rw [(THaDecData.decodeBody_locs evdata s).1, hs, List.map_append, List.map_cons]
    rw [List.getElem?_append_right (by rw [List.length_map])]
    rw [List.length_map, Nat.sub_self]
    exact List.getElem?_cons_zero
  · unfold THaDecData.decodeBody
    generalize hs5 : THaDecData.decodeEvType evdata (THaDecData.decodeLocs evdata
      (THaDecData.decodeLengths evdata s.Clear)) = s5
    have hloc : s5.fCrateLoc =
        pre.map (fun b => THaDecData.decodeCrateLoc evdata b.Clear) ++
          THaDecData.decodeCrateLoc evdata d.Clear ::
            post.map (fun b => THaDecData.decodeCrateLoc evdata b.Clear) := by
      rw [← hs5]
      show List.map (THaDecData.decodeCrateLoc evdata) (List.map BdataLoc.Clear s.fCrateLoc) = _
      rw [List.map_map, hs, List.map_append, List.map_cons]
      rfl
    rw [memberValue_of_scalars _ _ nm hnm (THaDecData.VdcEff_vdcKeeps s5.decodeProject).2.2.2]
    apply THaDecData.decodeProject_last s5 nm _ _ _ hnm hloc
    · rw [THaDecData.decodeCrateLoc_fName]
      exact hd
    · intro e he
      obtain ⟨b, hb, rfl⟩ := List.mem_map.mp he
      rw [THaDecData.decodeCrateLoc_fName]
      exact hpost b hb

/-- C30 at the engine `stCtimelDup` and the event `evTwoHits`: the second of
the two locations named `ctimel` is the last one, and `ctimel` ends as its
first sample. -/
theorem C30_duplicate_names_last_match_wins_witness :
    stCtimelDup.IsOK = true ∧ "ctimel" ∈ crateNames ∧
    stCtimelDup.fCrateLoc =
      [BdataLoc.mkSlot "ctimel" 1 2 3] ++ BdataLoc.mkSlot "ctimel" 4 5 6 :: [] ∧
    THaDecData.memberValue (THaDecData.Decode evTwoHits stCtimelDup).2 "ctimel" =
      (THaDecData.decodeCrateLoc evTwoHits (BdataLoc.mkSlot "ctimel" 4 5 6).Clear).Get 0 ∧
    (THaDecData.decodeCrateLoc evTwoHits (BdataLoc.mkSlot "ctimel" 4 5 6).Clear).Get 0 = 77 :=
  ⟨by decide, by decide, by decide,
   (C30_duplicate_names_last_match_wins evTwoHits stCtimelDup "ctimel"
      [BdataLoc.mkSlot "ctimel" 1 2 3] [] (BdataLoc.mkSlot "ctimel" 4 5 6)
      (by decide) (by decide) (by decide) rfl (fun e he => by cases he)).2.2,
   by decide⟩

/-- C30 at a failing input. The mapping file names `ctimel` twice, first at
(1,2,3), then at (4,5,6), and both lines add a location. The event holds the
sample 42 at the first address and 77 at the second. After the successful
`Decode` the first location named `ctimel` holds 42 as its first sample, and
the scalar `ctimel` is 77, the first sample of the second one. -/
theorem C30_counterexample :
    stCtimelDup.fCrateLoc.map (fun b => (b.fName, b.crate, b.slot, b.chan)) =
      [("ctimel", 1, 2, 3), ("ctimel", 4, 5, 6)] ∧
    (THaDecData.Decode evTwoHits stCtimelDup).1 = 0 ∧
    (THaDecData.Decode evTwoHits stCtimelDup).2.fCrateLoc.map
        (fun b => (b.fName, b.NumHits, b.Get 0)) =
      [("ctimel", 1, 42), ("ctimel", 1, 77)] ∧
    (THaDecData.Decode evTwoHits stCtimelDup).2.ctimel = 77 ∧
    (THaDecData.Decode evTwoHits stCtimelDup).2.ctimel ≠ 42 := by
  refine ⟨by decide, by decide, by decide, by decide, by decide⟩

/-! ## The two routes of a location -/

/-- The location named `bit<i>` in the third loop of `Decode`: it is handed to
`TrigBits` when `1 <= i <= GetNbits()`, and leaves the pattern and
`evtypebits` alone otherwise. -/
theorem THaDecData.projectCrateLoc_bit_cases (t : THaDecData) (d : BdataLoc) (i : Nat)
    (hname : d.fName = Form_bit i) :
    (1 ≤ i ∧ i ≤ t.bits.GetNbits ∧ t.projectCrateLoc d = t.TrigBits i d) ∨
    (¬(1 ≤ i ∧ i ≤ t.bits.GetNbits) ∧ sameBits t (t.projectCrateLoc d)) := by
  by_cases h : 1 ≤ i ∧ i ≤ t.bits.GetNbits
  · exact Or.inl ⟨h.1, h.2, THaDecData.projectCrateLoc_bit t d i hname h.1 h.2⟩
  · refine Or.inr ⟨h, ?_⟩
    unfold THaDecData.projectCrateLoc
    split
    · next j hj =>
      exfalso
      have hp := List.find?_some hj
      have hn : d.fName = Form_bit j := (BdataLoc.nameIs_iff d _).mp hp
      have hji : j = i := Form_bit_injective j i (hn.symm.trans hname)
      have hmem := List.mem_of_find?_eq_some hj
      rw [List.mem_range'_1] at hmem
      exact h ⟨by omega, by omega⟩
    · repeat' first
        | apply ite_prop (sameBits t)
        | exact ⟨rfl, rfl⟩

/-- The third and fourth loop of `Decode`, for one bit number `i` below 32:
when at most one location is named `bit<i>`, bit `i` of `evtypebits` was
clear and a set bit `i` of the pattern has its location, the two bits agree
afterwards, and a set bit has its location. -/
theorem THaDecData.decodeProject_agree (s5 : THaDecData) (i : Nat) (hi : i < 32)
    (he : s5.evtypebits.testBit i = false)
    (hone : s5.fCrateLoc.countP (fun d => d.nameIs (Form_bit i)) ≤ 1)
    (hH : s5.bits.fAllBits.testBit i = true →
      1 ≤ i ∧ i ≤ s5.bits.GetNbits ∧ ∃ d ∈ s5.fCrateLoc, d.fName = Form_bit i) :
    s5.decodeProject.evtypebits.testBit i = s5.decodeProject.bits.TestBitNumber i ∧
    (s5.decodeProject.bits.fAllBits.testBit i = true →
      1 ≤ i ∧ i ≤ s5.decodeProject.bits.GetNbits ∧
        ∃ d ∈ s5.fCrateLoc, d.fName = Form_bit i) := by
  have hword : ∀ t3 : THaDecData, sameBits t3 (t3.fWordLoc.foldl THaDecData.projectWordLoc t3) :=
    fun t3 => foldl_invariant (fun u => sameBits t3 u) _
      (fun u a hu => sameBits_trans hu (THaDecData.projectWordLoc_sameBits u a)) _ t3
      (sameBits_refl t3)
  have hfold : ∀ (l : List BdataLoc) (t : THaDecData), (∀ a ∈ l, a.fName ≠ Form_bit i) →
      sameBit i t (l.foldl THaDecData.projectCrateLoc t) :=
    fun l t hl => foldl_invariant_mem (fun u => sameBit i t u) _ l
      (fun u a ha hu => sameBit_trans hu (THaDecData.projectCrateLoc_sameBit u a i (hl a ha)))
      t (sameBit_refl i t)
  by_cases hex : ∃ d ∈ s5.fCrateLoc, d.fName = Form_bit i
  · obtain ⟨d, hmem, hname⟩ := hex
    obtain ⟨pre, post, hsplit⟩ := List.append_of_mem hmem
    have hd : d.nameIs (Form_bit i) = true := (BdataLoc.nameIs_iff d _).mpr hname
    have hc : (d :: post).countP (fun d => d.nameIs (Form_bit i)) =
        post.countP (fun d => d.nameIs (Form_bit i)) + 1 :=
      List.countP_cons_of_pos _ _ hd
    rw [hsplit, List.countP_append, hc] at hone
    have hpre : ∀ a ∈ pre, a.fName ≠ Form_bit i := by
      have h0 : pre.countP (fun d => d.nameIs (Form_bit i)) = 0 := by omega
      intro a ha hn
      exact List.countP_eq_zero.mp h0 a ha ((BdataLoc.nameIs_iff a _).mpr hn)
    have hpost : ∀ a ∈ post, a.fName ≠ Form_bit i := by
      have h0 : post.countP (fun d => d.nameIs (Form_bit i)) = 0 := by omega
      intro a ha hn
      exact List.countP_eq_zero.mp h0 a ha ((BdataLoc.nameIs_iff a _).mpr hn)
    have h1 := hfold pre s5 hpre
    have h6 : s5.fCrateLoc.foldl THaDecData.projectCrateLoc s5 =
        post.foldl THaDecData.projectCrateLoc
          ((pre.foldl THaDecData.projectCrateLoc s5).projectCrateLoc d) := by
      conv_lhs => rw [hsplit]
      rw [List.foldl_append, List.foldl_cons]
    unfold THaDecData.decodeProject
    dsimp only
    rw [h6]
    generalize pre.foldl THaDecData.projectCrateLoc s5 = t1 at h1
    have h2 := hfold post (t1.projectCrateLoc d) hpost
    generalize post.foldl THaDecData.projectCrateLoc (t1.projectCrateLoc d) = t3 at h2
    have h4 := sameBit_trans h2 (sameBits_sameBit i (hword t3))
    generalize t3.fWordLoc.foldl THaDecData.projectWordLoc t3 = r at h4
    have he1 : t1.evtypebits.testBit i = false := h1.2.1.trans he
    rcases THaDecData.projectCrateLoc_bit_cases t1 d i hname with ⟨c1, c2, c3⟩ | ⟨c1, c2⟩
    · rw [c3] at h4
      obtain ⟨b1, b2, _, b4⟩ := THaDecData.TrigBits_spec t1 i d hi i
      rw [if_pos rfl] at b1
      rw [he1, Bool.false_or, decide_eq_true rfl, Bool.true_and] at b2
      have hlt : i < r.bits.fNbits := lt_of_lt_of_le b4 h4.2.2
      refine ⟨?_, fun _ => ⟨c1, ?_, d, hmem, hname⟩⟩
      · unfold TBits.TestBitNumber
        rw [decide_eq_true hlt, Bool.true_and, h4.1, h4.2.1, b1, b2]
      · show i ≤ r.bits.fNbits
        omega
    · have h5 := sameBit_trans (sameBits_sameBit i c2) h4
      have hb0 : s5.bits.fAllBits.testBit i = false := by
        cases hb : s5.bits.fAllBits.testBit i with
        | false => rfl
        | true =>
          exfalso
          obtain ⟨k1, k2, _⟩ := hH hb
          have hmono : s5.bits.fNbits ≤ t1.bits.fNbits := h1.2.2
          exact c1 ⟨k1, le_trans k2 hmono⟩
      have hrb : r.bits.fAllBits.testBit i = false := (h5.1.trans h1.1).trans hb0
      have hre : r.evtypebits.testBit i = false := h5.2.1.trans he1
      refine ⟨?_, fun hset => ?_⟩
      · unfold TBits.TestBitNumber
        rw [hre, hrb, Bool.and_false]
      · rw [hrb] at hset
        cases hset
  · have hall : ∀ a ∈ s5.fCrateLoc, a.fName ≠ Form_bit i :=
      fun a ha hn => hex ⟨a, ha, hn⟩
    have h1 := hfold s5.fCrateLoc s5 hall
    unfold THaDecData.decodeProject
    dsimp only
    generalize s5.fCrateLoc.foldl THaDecData.projectCrateLoc s5 = t3 at h1
    have h4 := sameBit_trans h1 (sameBits_sameBit i (hword t3))
    generalize t3.fWordLoc.foldl THaDecData.projectWordLoc t3 = r at h4
    have hb0 : s5.bits.fAllBits.testBit i = false := by
      cases hb : s5.bits.fAllBits.testBit i with
      | false => rfl
      | true => exact absurd (hH hb).2.2 hex
    have hrb : r.bits.fAllBits.testBit i = false := h4.1.trans hb0
    have hre : r.evtypebits.testBit i = false := h4.2.1.trans he
    refine ⟨?_, fun hset => ?_⟩
    · unfold TBits.TestBitNumber
      rw [hre, hrb, Bool.and_false]
    · rw [hrb] at hset
      cases hset

theorem THaDecData.setupLine_reinit_bits (s : THaDecData) (sinput : String) :
    (THaDecData.setupLine true s sinput).bits = s.bits := by
  rw [THaDecData.setupLine_reinit]
  cases parseLine sinput with
  | none => rfl
  | some e =>
    dsimp only
    cases s.fWordLoc.findIdx? (fun p => e.2.fName == p.fName) with
    | some i => rfl
    | none =>
      dsimp only
      cases s.fCrateLoc.findIdx? (fun p => e.2.fName == p.fName) with
      | some i => rfl
      | none =>
        dsimp only
        unfold THaDecData.insertLoc THaDecData.DefineChannel
        cases varsNames.contains e.2.fName <;> cases e.1 <;> rfl

/-- A re-initialization keeps the property `bitsTracked`: it leaves the
pattern alone and keeps every location under its name. -/
theorem THaDecData.Init_reinit_bitsTracked (decdatafile : Option (List String))
    (s : THaDecData) (hset : s.fIsSetup = true) (h : bitsTracked s) :
    bitsTracked (THaDecData.Init decdatafile s).2 := by
  unfold THaDecData.Init
  cases s.isZombie with
  | true => exact h
  | false =>
    rw [if_neg Bool.false_ne_true]
    dsimp only
    have hset2 : (THaDecData.initPrep s).fIsSetup = true := hset
    cases decdatafile with
    | none =>
      rw [THaDecData.SetupDecData_reinit_none _ hset2]
      exact h
    | some lines =>
      rw [THaDecData.SetupDecData_reinit lines _ hset2]
      have hbits : (lines.foldl (THaDecData.setupLine true) (THaDecData.initPrep s)).bits =
          s.bits :=
        foldl_invariant (fun u => u.bits = s.bits) _
          (fun u a hu => (THaDecData.setupLine_reinit_bits u a).trans hu) lines
          (THaDecData.initPrep s) rfl
      have hkeep := (THaDecData.reinitFold_keeps lines (THaDecData.initPrep s)).1
      intro i hi hb
      have hb2 : s.bits.fAllBits.testBit i = true := by
        rw [← hbits]
        exact hb
      obtain ⟨k1, k2, d, hd, hname⟩ := h i hi hb2
      refine ⟨k1, ?_, ?_⟩
      · show i ≤ (lines.foldl (THaDecData.setupLine true) (THaDecData.initPrep s)).bits.GetNbits
        rw [hbits]
        exact k2
      · obtain ⟨n, hn⟩ := List.mem_iff_getElem?.mp hd
        obtain ⟨p2, hp2, hn2, _⟩ := hkeep n d hn
        exact ⟨p2, List.mem_iff_getElem?.mpr ⟨n, hp2⟩, hn2.trans hname⟩

/-- C22 (amended). Trigger pattern and `evtypebits` agree: for an engine with
status OK whose `fCrateLoc` holds at most one location under each name
`bit<i>`, `i < 32`, and in which every set bit of the pattern has its location
(`bitsTracked`), after a successful `Decode` bit `i` of `evtypebits` is set if
and only if `bits.TestBitNumber(i)` holds, for every `i < 32`. Both
conditions hold again after the `Decode`; `bitsTracked` holds after the
constructor and is kept by a re-initialization. -/
theorem C22_trigger_pattern_agreement (evdata : THaEvData) (s : THaDecData)
    (hok : s.IsOK = true)
    (hone : ∀ i : Nat, i < 32 → s.fCrateLoc.countP (fun d => d.nameIs (Form_bit i)) ≤ 1)
    (hH : bitsTracked s) :
    (∀ i : Nat, i < 32 →
      (THaDecData.Decode evdata s).2.evtypebits.testBit i =
        (THaDecData.Decode evdata s).2.bits.TestBitNumber i) ∧
    bitsTracked (THaDecData.Decode evdata s).2 ∧
    (∀ i : Nat, i < 32 →
      (THaDecData.Decode evdata s).2.fCrateLoc.countP (fun d => d.nameIs (Form_bit i)) ≤ 1) ∧
    (∀ (pfx : String) (nbits : Nat), bitsTracked (THaDecData.new pfx nbits)) ∧
    (∀ decdatafile : Option (List String), s.fIsSetup = true →
      bitsTracked (THaDecData.Init decdatafile s).2) := by
  have hcount : ∀ (l : List BdataLoc) (i : Nat),
      (l.map (fun x : BdataLoc => THaDecData.decodeCrateLoc evdata x.Clear)).countP
        (fun d => d.nameIs (Form_bit i)) = l.countP (fun d => d.nameIs (Form_bit i)) := by
    intro l i
    rw [List.countP_map]
    congr 1
    funext x
    show BdataLoc.nameIs _ _ = BdataLoc.nameIs _ _
    unfold BdataLoc.nameIs
    rw [THaDecData.decodeCrateLoc_fName]
  have hloc := (THaDecData.decodeBody_locs evdata s).1
  rw [THaDecData.Decode_ok evdata s hok]
  dsimp only
  have hmain : ∀ i : Nat, i < 32 →
      (THaDecData.decodeBody evdata s).evtypebits.testBit i =
        (THaDecData.decodeBody evdata s).bits.TestBitNumber i ∧
      ((THaDecData.decodeBody evdata s).bits.fAllBits.testBit i = true →
        1 ≤ i ∧ i ≤ (THaDecData.decodeBody evdata s).bits.GetNbits ∧
          ∃ d ∈ (THaDecData.decodeBody evdata s).fCrateLoc, d.fName = Form_bit i) := by
    intro i hi
    rw [hloc]
    unfold THaDecData.decodeBody
    generalize hs5 : THaDecData.decodeEvType evdata (THaDecData.decodeLocs evdata
        (THaDecData.decodeLengths evdata s.Clear)) = s5
    have h5c : s5.fCrateLoc =
        s.fCrateLoc.map (fun x : BdataLoc => THaDecData.decodeCrateLoc evdata x.Clear) := by
      rw [← hs5]
      show List.map (THaDecData.decodeCrateLoc evdata) (List.map BdataLoc.Clear s.fCrateLoc) = _
      rw [List.map_map]; rfl
    have h5b : s5.bits = s.bits := by rw [← hs5]; rfl
    have h5e : s5.evtypebits = 0 := by rw [← hs5]; rfl
    have hname5 : ∀ j : Nat, (∃ d ∈ s.fCrateLoc, d.fName = Form_bit j) →
        ∃ d ∈ s5.fCrateLoc, d.fName = Form_bit j := by
      intro j hj
      obtain ⟨d, hd, hn⟩ := hj
      refine ⟨THaDecData.decodeCrateLoc evdata d.Clear, ?_,
        (THaDecData.decodeCrateLoc_fName evdata d).trans hn⟩
      rw [h5c]
      exact List.mem_map.mpr ⟨d, hd, rfl⟩
    obtain ⟨p1, p2⟩ := THaDecData.decodeProject_agree s5 i hi
      (by rw [h5e]; exact Nat.zero_testBit i)
      (by rw [h5c, hcount]; exact hone i hi)
      (fun hb => by
        rw [h5b] at hb
        obtain ⟨k1, k2, k3⟩ := hH i hi hb
        exact ⟨k1, by rw [h5b]; exact k2, hname5 i k3⟩)
    have hv := THaDecData.VdcEff_sameBits s5.decodeProject
    rw [hv.1, hv.2, ← h5c]
    exact ⟨p1, p2⟩
  refine ⟨fun i hi => (hmain i hi).1, fun i hi hb => (hmain i hi).2 hb, ?_, ?_, ?_⟩
  · intro i hi
    rw [hloc, hcount]
    exact hone i hi
  · intro pfx nbits i _ hb
    have h0 : (THaDecData.new pfx nbits).bits.fAllBits = 0 := rfl
    rw [h0, Nat.zero_testBit] at hb
    cases hb
  · intro decdatafile hset
    exact THaDecData.Init_reinit_bitsTracked decdatafile s hset hH

/-- C22 at the default mapping with a pattern of 8 bits and the event
`evBits`: the names `bit1` to `bit8` occur once each, no bit of the pattern is
set beforehand, and after `Decode` bit 1 is set in `evtypebits` and in the
pattern. -/
theorem C22_trigger_pattern_agreement_witness :
    stDefault.IsOK = true ∧
    (∀ i : Nat, i < 32 →
      stDefault.fCrateLoc.countP (fun d => d.nameIs (Form_bit i)) ≤ 1) ∧
    stDefault.bits.fAllBits = 0 ∧
    (THaDecData.Decode evBits stDefault).2.evtypebits.testBit 1 =
      (THaDecData.Decode evBits stDefault).2.bits.TestBitNumber 1 ∧
    (THaDecData.Decode evBits stDefault).2.evtypebits = 2 :=
  ⟨by decide, by decide, by decide,
   (C22_trigger_pattern_agreement evBits stDefault (by decide) (by decide)
      (fun i _ hb => by
        have h0 : stDefault.bits.fAllBits = 0 := by decide
        rw [h0, Nat.zero_testBit] at hb
        cases hb)).1 1 (by decide),
   by decide⟩

/-- C22 at a failing input. The mapping file names `bit1` twice, at (3,5,64)
and at (3,5,65); the pattern has 8 bits, none set. The event holds the samples
100 and 2000 at the first address and nothing at the second. `TrigBits` for
the first location sets bit 1 of the pattern and of `evtypebits`; `TrigBits`
for the second clears bit 1 of the pattern only. After the successful
`Decode`, bit 1 of `evtypebits` is set and bit 1 of the pattern is not. -/
theorem C22_counterexample :
    stBit1Dup.fCrateLoc.map (fun b => (b.fName, b.crate, b.slot, b.chan)) =
      [("bit1", 3, 5, 64), ("bit1", 3, 5, 65)] ∧
    stBit1Dup.bits.GetNbits = 8 ∧ stBit1Dup.bits.fAllBits = 0 ∧
    (THaDecData.Decode evBits stBit1Dup).1 = 0 ∧
    (THaDecData.Decode evBits stBit1Dup).2.fCrateLoc.map
        (fun d => (d.fName, d.NumHits, d.Get 0, d.Get 1)) =
      [("bit1", 2, 100, 2000), ("bit1", 0, 0, 0)] ∧
    (THaDecData.Decode evBits stBit1Dup).2.evtypebits = 2 ∧
    (THaDecData.Decode evBits stBit1Dup).2.evtypebits.testBit 1 = true ∧
    (THaDecData.Decode evBits stBit1Dup).2.bits.TestBitNumber 1 = false := by
  refine ⟨by decide, by decide, by decide, by decide, by decide, by decide, by decide,
    by decide⟩

/-! ## Teardown -/

theorem addedOver_refl (V0 : List THaVar) (allowed : List String) :
    addedOver V0 V0 allowed :=
  ⟨[], (List.append_nil V0).symm, List.nodup_nil,
    fun a ha => absurd ha (List.not_mem_nil a), fun a ha => absurd ha (List.not_mem_nil a)⟩

theorem addedOver_mono {V0 V : List THaVar} {al al2 : List String}
    (h : addedOver V0 V al) (hsub : ∀ n ∈ al, n ∈ al2) : addedOver V0 V al2 := by
  obtain ⟨A, h1, h2, h3, h4⟩ := h
  exact ⟨A, h1, h2, h3, fun a ha => hsub _ (h4 a ha)⟩

theorem addedOver_varDefine {V0 V : List THaVar} {al : List String}
    (h : addedOver V0 V al) (n : String) (t : VarTarget) (hn : n ∈ al) :
    addedOver V0 (varDefine V n t) al := by
  unfold varDefine
  cases hf : varFind V n with
  | some v => exact h
  | none =>
    obtain ⟨A, h1, h2, h3, h4⟩ := h
    have hnone : ∀ v ∈ V, v.name ≠ n := by
      intro v hv hname
      unfold varFind at hf
      have := List.find?_eq_none.mp hf v hv
      exact this (beq_iff_eq.mpr hname)
    refine ⟨A ++ [{ name := n, target := t }], ?_, ?_, ?_, ?_⟩
    · show V ++ _ = _
      rw [h1, List.append_assoc]
    · rw [List.map_append, List.nodup_append]
      refine ⟨h2, List.nodup_singleton _, ?_⟩
      intro x hx hx2
      obtain ⟨a, ha, hax⟩ := List.mem_map.mp hx
      simp only [List.map_cons, List.map_nil, List.mem_singleton] at hx2
      exact hnone a (by rw [h1]; exact List.mem_append_right _ ha) (hax.trans hx2)
    · intro a ha v hv
      rcases List.mem_append.mp ha with ha1 | ha2
      · exact h3 a ha1 v hv
      · simp only [List.mem_singleton] at ha2
        rw [ha2]
        exact hnone v (by rw [h1]; exact List.mem_append_left _ hv)
    · intro a ha
      rcases List.mem_append.mp ha with ha1 | ha2
      · exact h4 a ha1
      · simp only [List.mem_singleton] at ha2
        rw [ha2]
        exact hn

/-- After the first variable of a name is erased from a list with distinct
names, no variable of that name is left. -/
theorem eraseP_name_ne (n : String) :
    ∀ l : List THaVar, (l.map (fun v => v.name)).Nodup →
      ∀ a ∈ l.eraseP (fun v => v.name == n), a.name ≠ n := by
  intro l
  induction l with
  | nil => intro _ a ha; cases ha
  | cons x xs ih =>
    intro hnd a ha
    rw [List.map_cons, List.nodup_cons] at hnd
    by_cases hx : (x.name == n) = true
    · have e : (x :: xs).eraseP (fun v : THaVar => v.name == n) = xs :=
        List.eraseP_cons_of_pos hx
      rw [e] at ha
      intro han
      apply hnd.1
      have hxn : x.name = n := beq_iff_eq.mp hx
      rw [hxn, ← han]
      exact List.mem_map.mpr ⟨a, ha, rfl⟩
    · have e : (x :: xs).eraseP (fun v : THaVar => v.name == n) =
          x :: xs.eraseP (fun v : THaVar => v.name == n) :=
        List.eraseP_cons_of_neg hx
      rw [e] at ha
      rcases List.mem_cons.mp ha with rfl | ha2
      · exact fun h => hx (beq_iff_eq.mpr h)
      · exact ih hnd.2 a ha2

/-- One `RemoveName` on a list made of a part of `V0` and a part of the added
variables. -/
theorem removeOne_split (V0 A : List THaVar) (hA : (A.map (fun v => v.name)).Nodup)
    (hdis : ∀ a ∈ A, ∀ v ∈ V0, v.name ≠ a.name) (n : String) (V1 A1 : List THaVar)
    (h1 : V1.Sublist V0) (h2 : A1.Sublist A) :
    ∃ V2 A2 : List THaVar, varRemoveName (V1 ++ A1) n = V2 ++ A2 ∧ V2.Sublist V0 ∧
      A2.Sublist A ∧ ∀ a ∈ A2, a ∈ A1 ∧ a.name ≠ n := by
  unfold varRemoveName
  by_cases h : ∃ v ∈ V1, (v.name == n) = true
  · obtain ⟨v, hv, hp⟩ := h
    refine ⟨V1.eraseP (fun v => v.name == n), A1, ?_, (List.eraseP_sublist V1).trans h1, h2, ?_⟩
    · exact List.eraseP_append_left (p := fun v : THaVar => v.name == n) hp A1 hv
    · intro a ha
      refine ⟨ha, fun han => ?_⟩
      have := hdis a (h2.subset ha) v (h1.subset hv)
      exact this ((beq_iff_eq.mp hp).trans han.symm)
  · have hnone : ∀ b ∈ V1, ¬ (b.name == n) = true := fun b hb hp => h ⟨b, hb, hp⟩
    refine ⟨V1, A1.eraseP (fun v => v.name == n), ?_, h1, (List.eraseP_sublist A1).trans h2, ?_⟩
    · exact List.eraseP_append_right A1 hnone
    · intro a ha
      exact ⟨List.mem_of_mem_eraseP ha,
        eraseP_name_ne n A1 (List.Nodup.sublist (h2.map _) hA) a ha⟩

theorem removeAll_split (V0 A : List THaVar) (hA : (A.map (fun v => v.name)).Nodup)
    (hdis : ∀ a ∈ A, ∀ v ∈ V0, v.name ≠ a.name) (rm : List String) :
    ∀ V1 A1 : List THaVar, V1.Sublist V0 → A1.Sublist A →
      ∃ V2 A2 : List THaVar, rm.foldl varRemoveName (V1 ++ A1) = V2 ++ A2 ∧
        V2.Sublist V0 ∧ A2.Sublist A ∧ ∀ a ∈ A2, a ∈ A1 ∧ a.name ∉ rm := by
  induction rm with
  | nil =>
    intro V1 A1 h1 h2
    exact ⟨V1, A1, rfl, h1, h2, fun a ha => ⟨ha, fun h => by cases h⟩⟩
  | cons n rm ih =>
    intro V1 A1 h1 h2
    obtain ⟨V2, A2, e2, s1, s2, k2⟩ := removeOne_split V0 A hA hdis n V1 A1 h1 h2
    obtain ⟨V3, A3, e3, t1, t2, k3⟩ := ih V2 A2 s1 s2
    refine ⟨V3, A3, ?_, t1, t2, ?_⟩
    · rw [List.foldl_cons, e2, e3]
    · intro a ha
      obtain ⟨m1, m2⟩ := k3 a ha
      obtain ⟨m3, m4⟩ := k2 a m1
      refine ⟨m3, fun hmem => ?_⟩
      rcases List.mem_cons.mp hmem with hh | hh
      · exact m4 hh
      · exact m2 hh

/-- Removing every allowed name leaves a part of the original list. -/
theorem addedOver_removeAll {V0 V : List THaVar} {al : List String}
    (h : addedOver V0 V al) (rm : List String) (hsub : ∀ n ∈ al, n ∈ rm) :
    (rm.foldl varRemoveName V).Sublist V0 := by
  obtain ⟨A, h1, h2, h3, h4⟩ := h
  obtain ⟨V2, A2, e2, s1, _, k2⟩ := removeAll_split V0 A h2 h3 rm V0 A
    (List.Sublist.refl V0) (List.Sublist.refl A)
  have hnil : A2 = [] := by
    apply List.eq_nil_iff_forall_not_mem.mpr
    intro a ha
    obtain ⟨m1, m2⟩ := k2 a ha
    exact m2 (hsub _ (h4 a m1))
  rw [h1, e2, hnil, List.append_nil]
  exact s1

theorem mem_nameSet (s : THaDecData) (n : String) :
    n ∈ nameSet s ↔ n ∈ varsNames ∨ (∃ d ∈ s.fCrateLoc, d.fName = n) ∨
      ∃ d ∈ s.fWordLoc, d.fName = n := by
  unfold nameSet
  simp only [List.mem_append, List.mem_map, or_assoc]

/-- One step of a load keeps `loadInv` when it keeps the flags and the names
and defines at most one variable, under the name of a location. -/
theorem loadInv_step {V0 : List THaVar} {pfx : String} {s t : THaDecData}
    (h : loadInv V0 pfx s) (hs : t.fIsSetup = s.fIsSetup) (hp : t.fPrefix = s.fPrefix)
    (hn : ∀ n ∈ nameSet s, n ∈ nameSet t)
    (hv : t.gHaVars = s.gHaVars ∨ ∃ (nm : String) (ref : VarTarget),
      nm ∈ nameSet t ∧ t.gHaVars = varDefine s.gHaVars (s.fPrefix ++ nm) ref) :
    loadInv V0 pfx t := by
  obtain ⟨h1, h2, h3⟩ := h
  have h4 : addedOver V0 s.gHaVars ((nameSet t).map (fun nm => pfx ++ nm)) :=
    addedOver_mono h3 (fun n hmem => by
      obtain ⟨m, hm, hmn⟩ := List.mem_map.mp hmem
      exact List.mem_map.mpr ⟨m, hn m hm, hmn⟩)
  refine ⟨hs.trans h1, hp.trans h2, ?_⟩
  rcases hv with hv | ⟨nm, ref, hnm, hv⟩
  · rw [hv]
    exact h4
  · rw [hv, h2]
    exact addedOver_varDefine h4 _ ref (List.mem_map.mpr ⟨nm, hnm, rfl⟩)

theorem modifyAt_map_fName (is_slot : Bool) (b : BdataLoc) :
    ∀ (l : List BdataLoc) (i : Nat),
      (modifyAt (THaDecData.updateLoc is_slot b) i l).map (fun d => d.fName) =
        l.map (fun d => d.fName) := by
  intro l
  induction l with
  | nil => intro i; cases i <;> rfl
  | cons x xs ih =>
    intro i
    cases i with
    | zero =>
      show (THaDecData.updateLoc is_slot b x).fName :: _ = _
      rw [THaDecData.updateLoc_fName]
      rfl
    | succ k =>
      show x.fName :: (modifyAt (THaDecData.updateLoc is_slot b) k xs).map _ = _
      rw [ih k]
      rfl

theorem THaDecData.insertLoc_loadInv {V0 : List THaVar} {pfx : String} (s : THaDecData)
    (found is_slot : Bool) (b : BdataLoc) (h : loadInv V0 pfx s) :
    loadInv V0 pfx (THaDecData.insertLoc s found is_slot b) := by
  have hc := THaDecData.insertLoc_fCrateLoc s found is_slot b
  have hw := THaDecData.insertLoc_fWordLoc s found is_slot b
  have hb : b.fName ∈ nameSet (THaDecData.insertLoc s found is_slot b) := by
    rw [mem_nameSet, hc, hw]
    cases is_slot
    · exact Or.inr (Or.inr ⟨b, by simp, rfl⟩)
    · exact Or.inr (Or.inl ⟨b, by simp, rfl⟩)
  apply loadInv_step h
  · unfold THaDecData.insertLoc THaDecData.DefineChannel
    cases found <;> cases is_slot <;> rfl
  · exact THaDecData.insertLoc_fPrefix s found is_slot b
  · intro n hn
    rw [mem_nameSet] at hn ⊢
    rw [hc, hw]
    rcases hn with h1 | ⟨d, hd, hdn⟩ | ⟨d, hd, hdn⟩
    · exact Or.inl h1
    · refine Or.inr (Or.inl ⟨d, ?_, hdn⟩)
      cases is_slot
      · exact hd
      · exact List.mem_append_left _ hd
    · refine Or.inr (Or.inr ⟨d, ?_, hdn⟩)
      cases is_slot
      · exact List.mem_append_left _ hd
      · exact hd
  · rw [THaDecData.insertLoc_gHaVars]
    cases found
    · exact Or.inr ⟨b.fName, _, hb, rfl⟩
    · exact Or.inl rfl

theorem THaDecData.setupLine_loadInv {V0 : List THaVar} {pfx : String} (re_init : Bool)
    (s : THaDecData) (sinput : String) (h : loadInv V0 pfx s) :
    loadInv V0 pfx (THaDecData.setupLine re_init s sinput) := by
  cases re_init with
  | false =>
    rw [THaDecData.setupLine_fresh]
    cases parseLine sinput with
    | none => exact h
    | some e => exact THaDecData.insertLoc_loadInv s _ _ _ h
  | true =>
    rw [THaDecData.setupLine_reinit]
    cases parseLine sinput with
    | none => exact h
    | some e =>
      dsimp only
      cases s.fWordLoc.findIdx? (fun p => e.2.fName == p.fName) with
      | some i =>
        dsimp only
        refine loadInv_step h ?_ ?_ ?_ ?_
        · rfl
        · rfl
        · intro n hn
          unfold nameSet at hn ⊢
          dsimp only
          rw [modifyAt_map_fName]
          exact hn
        · exact Or.inl rfl
      | none =>
        dsimp only
        cases s.fCrateLoc.findIdx? (fun p => e.2.fName == p.fName) with
        | some i =>
          dsimp only
          refine loadInv_step h ?_ ?_ ?_ ?_
          · rfl
          · rfl
          · intro n hn
            unfold nameSet at hn ⊢
            dsimp only
            rw [modifyAt_map_fName]
            exact hn
          · exact Or.inl rfl
        | none => exact THaDecData.insertLoc_loadInv s _ _ _ h

theorem defineVarsList_addedOver (pfx : String) (V0 : List THaVar) :
    addedOver V0 (defineVarsList pfx V0) (varsNames.map (fun nm => pfx ++ nm)) := by
  unfold defineVarsList
  apply foldl_invariant_mem
    (fun vs => addedOver V0 vs (varsNames.map (fun nm => pfx ++ nm)))
  · intro vs nm hnm hvs
    apply addedOver_varDefine hvs
    exact List.mem_map.mpr ⟨nm.1, (List.of_mem_zip hnm).1, rfl⟩
  · exact addedOver_refl _ _

/-- The state `SetupDecData` starts the loop over the lines from, in a Fresh
load. -/
theorem THaDecData.freshStart_loadInv (s : THaDecData) :
    loadInv s.gHaVars s.fPrefix (THaDecData.BookHist
      { (s.DefineVarsFromList EMode.kDefine).2 with
          fIsSetup := true, fCrateLoc := [], fWordLoc := [] }) := by
  have hd : (s.DefineVarsFromList EMode.kDefine).2 =
      { s with gHaVars := defineVarsList s.fPrefix s.gHaVars } := rfl
  rw [hd]
  have hW := defineVarsList_addedOver s.fPrefix s.gHaVars
  generalize defineVarsList s.fPrefix s.gHaVars = W at hW
  refine ⟨rfl, rfl, ?_⟩
  apply addedOver_mono hW
  intro n hn
  obtain ⟨m, hm, hmn⟩ := List.mem_map.mp hn
  exact List.mem_map.mpr ⟨m, (mem_nameSet _ m).mpr (Or.inl hm), hmn⟩

/-- A Fresh load establishes `loadInv` over the variable list it starts
from. -/
theorem THaDecData.SetupDecData_fresh_loadInv (decdatafile : Option (List String))
    (s : THaDecData) (hfresh : s.fIsSetup = false) :
    loadInv s.gHaVars s.fPrefix (THaDecData.SetupDecData decdatafile EMode.kDefine s).2 := by
  have h0 := THaDecData.freshStart_loadInv s
  cases decdatafile with
  | none =>
    rw [THaDecData.SetupDecData_default s hfresh]
    generalize THaDecData.BookHist
      { (s.DefineVarsFromList EMode.kDefine).2 with
          fIsSetup := true, fCrateLoc := [], fWordLoc := [] } = t0 at h0
    refine loadInv_step h0 ?_ ?_ ?_ ?_
    · rfl
    · rfl
    · intro n hn
      rw [mem_nameSet] at hn ⊢
      rcases hn with h1 | ⟨d, hd, hdn⟩ | ⟨d, hd, hdn⟩
      · exact Or.inl h1
      · exact Or.inr (Or.inl ⟨d, List.mem_append_left _ (List.mem_append_left _
          (List.mem_append_left _ hd)), hdn⟩)
      · exact Or.inr (Or.inr ⟨d, List.mem_append_left _ hd, hdn⟩)
    · exact Or.inl rfl
  | some lines =>
    rw [THaDecData.SetupDecData_fresh lines s hfresh]
    dsimp only
    exact foldl_invariant (fun u => loadInv s.gHaVars s.fPrefix u) _
      (fun u a hu => THaDecData.setupLine_loadInv false u a hu) _ _ h0

/-- A load in re-initialization mode keeps `loadInv`. -/
theorem THaDecData.SetupDecData_reinit_loadInv {V0 : List THaVar} {pfx : String}
    (decdatafile : Option (List String)) (s : THaDecData) (h : loadInv V0 pfx s) :
    loadInv V0 pfx (THaDecData.SetupDecData decdatafile EMode.kDefine s).2 := by
  cases decdatafile with
  | none =>
    rw [THaDecData.SetupDecData_reinit_none s h.1]
    exact h
  | some lines =>
    rw [THaDecData.SetupDecData_reinit lines s h.1]
    dsimp only
    exact foldl_invariant (fun u => loadInv V0 pfx u) _
      (fun u a hu => THaDecData.setupLine_loadInv true u a hu) _ _ h

theorem enumFrom_map_snd {α β : Type} (f : α → β) :
    ∀ (l : List α) (n : Nat), (l.enumFrom n).map (fun p => f p.2) = l.map f := by
  intro l
  induction l with
  | nil => intro n; rfl
  | cons x xs ih =>
    intro n
    show f x :: (xs.enumFrom (n + 1)).map (fun p => f p.2) = f x :: xs.map f
    rw [ih]

/-- The loops of delete mode over a collection: one `RemoveName` per
location, under the prefixed name. -/
theorem THaDecData.deleteFold (mk : Nat → VarTarget) :
    ∀ (l : List (Nat × BdataLoc)) (st : THaDecData),
      (l.foldl (fun st p => st.DefineChannel p.2 (mk p.1) EMode.kDelete) st).gHaVars =
        (l.map (fun p => st.fPrefix ++ p.2.fName)).foldl varRemoveName st.gHaVars ∧
      (l.foldl (fun st p => st.DefineChannel p.2 (mk p.1) EMode.kDelete) st).fPrefix =
        st.fPrefix := by
  intro l
  induction l with
  | nil => intro st; exact ⟨rfl, rfl⟩
  | cons x xs ih =>
    intro st
    rw [List.foldl_cons]
    obtain ⟨i1, i2⟩ := ih (st.DefineChannel x.2 (mk x.1) EMode.kDelete)
    rw [i1, i2]
    exact ⟨rfl, rfl⟩

/-- `SetupDecData` in delete mode: both collections end empty, and the
variable list is the result of one `RemoveName` per name of the table `vars`
and per location, under the prefixed names. -/
theorem THaDecData.SetupDecData_delete_effect (decdatafile : Option (List String))
    (s : THaDecData) :
    (THaDecData.SetupDecData decdatafile EMode.kDelete s).2.fCrateLoc = [] ∧
    (THaDecData.SetupDecData decdatafile EMode.kDelete s).2.fWordLoc = [] ∧
    (THaDecData.SetupDecData decdatafile EMode.kDelete s).2.gHaVars =
      ((nameSet s).map (fun nm => s.fPrefix ++ nm)).foldl varRemoveName s.gHaVars := by
  rw [THaDecData.SetupDecData_delete]
  refine ⟨rfl, rfl, ?_⟩
  show (THaDecData.setupDelete
    { (s.DefineVarsFromList EMode.kDelete).2 with fIsSetup := false }).gHaVars = _
  have hr : (s.DefineVarsFromList EMode.kDelete).2 =
      { s with gHaVars := removeVarsList s.fPrefix s.gHaVars } := rfl
  rw [hr]
  unfold THaDecData.setupDelete
  dsimp only
  obtain ⟨c1, c2⟩ := THaDecData.deleteFold VarTarget.crateLoc s.fCrateLoc.enum
    { s with gHaVars := removeVarsList s.fPrefix s.gHaVars, fIsSetup := false }
  obtain ⟨w1, _⟩ := THaDecData.deleteFold VarTarget.wordLoc s.fWordLoc.enum
    (s.fCrateLoc.enum.foldl
      (fun st p => st.DefineChannel p.2 (VarTarget.crateLoc p.1) EMode.kDelete)
      { s with gHaVars := removeVarsList s.fPrefix s.gHaVars, fIsSetup := false })
  rw [w1, c1, c2]
  dsimp only
  have hrm : removeVarsList s.fPrefix s.gHaVars =
      (varsNames.map (fun nm => s.fPrefix ++ nm)).foldl varRemoveName s.gHaVars := by
    unfold removeVarsList
    rw [List.foldl_map]
  have hnames : (nameSet s).map (fun nm => s.fPrefix ++ nm) =
      varsNames.map (fun nm => s.fPrefix ++ nm) ++
        s.fCrateLoc.map (fun d => s.fPrefix ++ d.fName) ++
        s.fWordLoc.map (fun d => s.fPrefix ++ d.fName) := by
    unfold nameSet
    rw [List.map_append, List.map_append, List.map_map, List.map_map]
    rfl
  have hc : s.fCrateLoc.enum.map (fun p => s.fPrefix ++ p.2.fName) =
      s.fCrateLoc.map (fun d => s.fPrefix ++ d.fName) :=
    enumFrom_map_snd (fun d : BdataLoc => s.fPrefix ++ d.fName) s.fCrateLoc 0
  have hw : s.fWordLoc.enum.map (fun p => s.fPrefix ++ p.2.fName) =
      s.fWordLoc.map (fun d => s.fPrefix ++ d.fName) :=
    enumFrom_map_snd (fun d : BdataLoc => s.fPrefix ++ d.fName) s.fWordLoc 0
  rw [hc, hw, hrm, hnames, List.foldl_append, List.foldl_append]

theorem THaDecData.loadAll_loadInv (s0 : THaDecData) (first : Option (List String))
    (later : List (Option (List String))) (hfresh : s0.fIsSetup = false) :
    loadInv s0.gHaVars s0.fPrefix (loadAll s0 first later) := by
  unfold loadAll
  exact foldl_invariant (fun u => loadInv s0.gHaVars s0.fPrefix u) _
    (fun u f hu => THaDecData.SetupDecData_reinit_loadInv f u hu) _ _
    (THaDecData.SetupDecData_fresh_loadInv first s0 hfresh)

/-- C21. Teardown: after a Fresh load (`SetupDecData` in define mode on an
engine that is not set up) and any number of further loads in define mode,
which are re-initializations, `SetupDecData` in delete mode returns 0, leaves
`fCrateLoc` and `fWordLoc` empty, and leaves a variable list that is a part
of the list the loads started from: every variable the loads defined is
removed, so a name that was not defined before the loads, the prefixed name
of a location in particular, is not defined afterwards. -/
theorem C21_teardown (s0 : THaDecData) (first : Option (List String))
    (later : List (Option (List String))) (decdatafile : Option (List String))
    (hfresh : s0.fIsSetup = false) :
    (THaDecData.SetupDecData decdatafile EMode.kDelete (loadAll s0 first later)).1 = 0 ∧
    (THaDecData.SetupDecData decdatafile EMode.kDelete (loadAll s0 first later)).2.fCrateLoc
      = [] ∧
    (THaDecData.SetupDecData decdatafile EMode.kDelete (loadAll s0 first later)).2.fWordLoc
      = [] ∧
    ((THaDecData.SetupDecData decdatafile EMode.kDelete
      (loadAll s0 first later)).2.gHaVars).Sublist s0.gHaVars ∧
    (∀ v ∈ (THaDecData.SetupDecData decdatafile EMode.kDelete
      (loadAll s0 first later)).2.gHaVars, v ∈ s0.gHaVars) ∧
    (∀ d ∈ (loadAll s0 first later).fCrateLoc ++ (loadAll s0 first later).fWordLoc,
      varFind s0.gHaVars (s0.fPrefix ++ d.fName) = none →
      varFind (THaDecData.SetupDecData decdatafile EMode.kDelete
        (loadAll s0 first later)).2.gHaVars (s0.fPrefix ++ d.fName) = none) := by
  obtain ⟨_, hp, hadd⟩ := THaDecData.loadAll_loadInv s0 first later hfresh
  obtain ⟨e1, e2, e3⟩ := THaDecData.SetupDecData_delete_effect decdatafile
    (loadAll s0 first later)
  have hsub : ((THaDecData.SetupDecData decdatafile EMode.kDelete
      (loadAll s0 first later)).2.gHaVars).Sublist s0.gHaVars := by
    rw [e3, hp]
    exact addedOver_removeAll hadd _ (fun n hn => hn)
  refine ⟨(THaDecData.SetupDecData_statics decdatafile EMode.kDelete _).2, e1, e2, hsub,
    fun v hv => hsub.subset hv, ?_⟩
  intro d _ hnone
  unfold varFind at hnone ⊢
  rw [List.find?_eq_none] at hnone ⊢
  exact fun v hv => hnone v (hsub.subset hv)

/-- C21 at a new engine with an empty variable list: a Fresh load of
`foo crate 1 2 3`, a re-initialization with `bar header 1 aa 0` and one
without a file leave the variables `D.foo` and `D.bar` bound to the two
locations; after delete mode the collections and the variable list are
empty. -/
theorem C21_teardown_witness :
    (THaDecData.new "D." 8).fIsSetup = false ∧
    (loadAll (THaDecData.new "D." 8) (some ["foo crate 1 2 3"])
      [some ["bar header 1 aa 0"], none]).fCrateLoc.map (fun d => d.fName) = ["foo"] ∧
    (loadAll (THaDecData.new "D." 8) (some ["foo crate 1 2 3"])
      [some ["bar header 1 aa 0"], none]).fWordLoc.map (fun d => d.fName) = ["bar"] ∧
    (varFind (loadAll (THaDecData.new "D." 8) (some ["foo crate 1 2 3"])
      [some ["bar header 1 aa 0"], none]).gHaVars "D.foo").map (fun v => v.target) =
        some (VarTarget.crateLoc 0) ∧
    (varFind (loadAll (THaDecData.new "D." 8) (some ["foo crate 1 2 3"])
      [some ["bar header 1 aa 0"], none]).gHaVars "D.bar").map (fun v => v.target) =
        some (VarTarget.wordLoc 0) ∧
    (THaDecData.SetupDecData none EMode.kDelete
      (loadAll (THaDecData.new "D." 8) (some ["foo crate 1 2 3"])
        [some ["bar header 1 aa 0"], none])).2.fCrateLoc = [] ∧
    (THaDecData.SetupDecData none EMode.kDelete
      (loadAll (THaDecData.new "D." 8) (some ["foo crate 1 2 3"])
        [some ["bar header 1 aa 0"], none])).2.fWordLoc = [] ∧
    (THaDecData.SetupDecData none EMode.kDelete
      (loadAll (THaDecData.new "D." 8) (some ["foo crate 1 2 3"])
        [some ["bar header 1 aa 0"], none])).2.gHaVars = [] :=
  ⟨by decide, by decide, by decide, by decide, by decide,
   (C21_teardown (THaDecData.new "D." 8) (some ["foo crate 1 2 3"])
      [some ["bar header 1 aa 0"], none] none (by decide)).2.1,
   (C21_teardown (THaDecData.new "D." 8) (some ["foo crate 1 2 3"])
      [some ["bar header 1 aa 0"], none] none (by decide)).2.2.1,
   List.eq_nil_of_subset_nil
     (C21_teardown (THaDecData.new "D." 8) (some ["foo crate 1 2 3"])
       [some ["bar header 1 aa 0"], none] none (by decide)).2.2.2.1.subset⟩

/-! ## Invariants of the counters of `VdcEff` -/

theorem ctrGrows_refl (c : List Nat × List Nat) : ctrGrows c c :=
  ⟨rfl, rfl, fun _ => ⟨le_refl _, le_refl _⟩, fun h => h, fun h => h⟩

theorem ctrGrows_trans {c d e : List Nat × List Nat} (h1 : ctrGrows c d) (h2 : ctrGrows d e) :
    ctrGrows c e :=
  ⟨h2.1.trans h1.1, h2.2.1.trans h1.2.1,
    fun k => ⟨le_trans (h1.2.2.1 k).1 (h2.2.2.1 k).1, le_trans (h1.2.2.1 k).2 (h2.2.2.1 k).2⟩,
    fun h => h2.2.2.2.1 (h1.2.2.2.1 h), fun h => h2.2.2.2.2 (h1.2.2.2.2 h)⟩

theorem bump_length (o : Option Nat) (l : List Nat) : (bump o l).length = l.length := by
  cases o with
  | none => rfl
  | some k => exact modifyAt_length _ _ _

theorem bump_getD (o : Option Nat) (l : List Nat) (j : Nat) :
    (bump o l).getD j 0 = l.getD j 0 + (if o = some j ∧ j < l.length then 1 else 0) := by
  cases o with
  | none =>
    rw [if_neg (fun h => by cases h.1)]
    rfl
  | some k =>
    show (modifyAt (fun x => x + 1) k l).getD j 0 = _
    by_cases hj : j < l.length
    · rw [modifyAt_getD _ _ _ _ hj]
      by_cases hjk : j = k
      · rw [if_pos hjk, if_pos ⟨by rw [hjk], hj⟩]
      · rw [if_neg hjk, if_neg (fun h => hjk (Option.some.inj h.1).symm)]
        rfl
    · rw [List.getD_eq_default _ _ (by rw [modifyAt_length]; omega),
        List.getD_eq_default _ _ (by omega), if_neg (fun h => hj h.2)]

theorem hitIdx_cases (ipl : Nat) (hw : List Nat) (w : Int) :
    hitIdx ipl hw w = none ∨ hitIdx ipl hw w = oppIdx ipl hw w := by
  unfold hitIdx
  split
  · exact Or.inr rfl
  · exact Or.inl rfl

/-- The counter an opportunity goes to is that of a wire between 1 and
`nwire - 2`. -/
theorem oppIdx_inner (ipl : Nat) (hw : List Nat) (w : Int) (k : Nat)
    (h : oppIdx ipl hw w = some k) :
    k % THaDecData.nwire ≠ 0 ∧ k % THaDecData.nwire ≠ THaDecData.nwire - 1 := by
  unfold oppIdx at h
  by_cases h1 : w < 0 ∨ w + 2 ≥ (THaDecData.nwire : Int)
  · rw [if_pos h1] at h
    cases h
  · rw [if_neg h1] at h
    by_cases h2 : hw.getD (w + 2).toNat 0 ≠ 0
    · rw [if_pos h2] at h
      by_cases h3 : w + 1 ≥ 0 ∧ w + 1 < (THaDecData.nwire : Int)
      · rw [if_pos h3] at h
        have hk := Option.some.inj h
        unfold THaDecData.nwire at h1 hk ⊢
        omega
      · rw [if_neg h3] at h
        cases h
    · rw [if_neg h2] at h
      cases h

/-- One turn of the neighbour loop of `VdcEff`. -/
theorem THaDecData.vdcStep_grows (ipl : Nat) (hw : List Nat) (st : List Nat × List Nat)
    (w : Int) : ctrGrows st (THaDecData.vdcStep ipl hw st w) := by
  rw [THaDecData.vdcStep_bump]
  have hin := oppIdx_inner ipl hw w
  have hc := hitIdx_cases ipl hw w
  generalize oppIdx ipl hw w = o at hin hc
  generalize hitIdx ipl hw w = h at hc
  refine ⟨bump_length _ _, bump_length _ _, fun k => ?_, fun hok => ?_, fun hz => ?_⟩
  · show st.1.getD k 0 ≤ (bump o st.1).getD k 0 ∧ st.2.getD k 0 ≤ (bump h st.2).getD k 0
    rw [bump_getD, bump_getD]
    exact ⟨Nat.le_add_right _ _, Nat.le_add_right _ _⟩
  · refine ⟨?_, fun k => ?_⟩
    · show (bump o st.1).length = (bump h st.2).length
      rw [bump_length, bump_length]
      exact hok.1
    · show (bump h st.2).getD k 0 ≤ (bump o st.1).getD k 0
      rw [bump_getD, bump_getD]
      have hk := hok.2 k
      rcases hc with hc | hc
      · rw [hc, if_neg (fun hh => by cases hh.1)]
        omega
      · rw [hc, hok.1]
        omega
  · intro k hk
    show (bump o st.1).getD k 0 = 0 ∧ (bump h st.2).getD k 0 = 0
    rw [bump_getD, bump_getD]
    have hno : o ≠ some k := by
      intro ho
      have := hin k ho
      omega
    have hnh : h ≠ some k := by
      rcases hc with hc | hc
      · rw [hc]
        exact fun hh => by cases hh
      · rw [hc]
        exact hno
    rw [if_neg (fun hh => hno hh.1), if_neg (fun hh => hnh hh.1)]
    exact hz k hk

theorem THaDecData.vdcCount_grows (ipl : Nat) (wire : List Int) (hw : List Nat)
    (c : List Nat × List Nat) : ctrGrows c (THaDecData.vdcCount ipl wire hw c) := by
  rw [THaDecData.vdcCount_eq_foldl]
  exact foldl_invariant (fun d => ctrGrows c d) _
    (fun d w hd => ctrGrows_trans hd (THaDecData.vdcStep_grows ipl hw d w)) wire c
    (ctrGrows_refl c)

theorem THaDecData.vdcPlane_grows (u : THaDecData) (j : Nat) :
    ctrGrows (u.xcnt, u.eff) ((u.vdcPlane j).xcnt, (u.vdcPlane j).eff) := by
  cases hvar : (u.varp.getD j none).bind (varFind u.gHaVars) with
  | none =>
    have : u.vdcPlane j = u := by
      unfold THaDecData.vdcPlane
      rw [hvar]
    rw [this]
    exact ctrGrows_refl _
  | some pvar =>
    rw [THaDecData.vdcPlane_counters u j pvar hvar]
    exact THaDecData.vdcCount_grows _ _ _ _

theorem replicate_zero_getD (n k : Nat) : (List.replicate n 0).getD k 0 = 0 := by
  by_cases h : k < n
  · rw [List.getD_eq_getElem _ _ (by rw [List.length_replicate]; exact h)]
    exact List.getElem_replicate _ _
  · exact List.getD_eq_default _ _ (by rw [List.length_replicate]; omega)

/-- Counters that are all zero satisfy both invariants. -/
theorem zero_counters_ok (n : Nat) :
    ctrOK (List.replicate n 0, List.replicate n 0) ∧
    edgeZero (List.replicate n 0, List.replicate n 0) :=
  ⟨⟨rfl, fun k => by
      show (List.replicate n 0).getD k 0 ≤ (List.replicate n 0).getD k 0
      exact le_refl _⟩,
   fun k _ => ⟨replicate_zero_getD n k, replicate_zero_getD n k⟩⟩

/-- The statics the plane loop starts from are the counters the call sees. -/
theorem THaDecData.vdcInit_counters (s : THaDecData) :
    (s.vdcInit.xcnt, s.vdcInit.eff) = vdcCounters s := by
  obtain ⟨_, b2, b3, _⟩ := THaDecData.vdcInit_start s
  unfold vdcCounters
  rw [b2, b3]
  by_cases h : s.fgVdcEffFirst > 1
  · rw [if_pos h, if_pos h, if_pos h]
  · rw [if_neg h, if_neg h, if_neg h]

theorem vdcCounters_of_le (s : THaDecData) (h : s.fgVdcEffFirst ≤ 1) :
    vdcCounters s = (s.xcnt, s.eff) := by
  unfold vdcCounters
  rw [if_neg (by omega)]

/-- The counters a successful `Decode` leaves. -/
theorem THaDecData.decodeBody_grows (evdata : THaEvData) (s : THaDecData) :
    ctrGrows (vdcCounters s) (vdcCounters (THaDecData.decodeBody evdata s)) ∧
    (THaDecData.decodeBody evdata s).fgVdcEffFirst ≤ 1 := by
  have hflag : (THaDecData.decodeBody evdata s).fgVdcEffFirst ≤ 1 := by
    rw [THaDecData.decodeBody_flag]
    split <;> omega
  refine ⟨?_, hflag⟩
  rw [vdcCounters_of_le _ hflag, THaDecData.decodeBody_pre]
  obtain ⟨a1, a2, a3, a4, _⟩ := THaDecData.decodePre_statics evdata s
  have hpre : vdcCounters (THaDecData.decodePre evdata s) = vdcCounters s := by
    unfold vdcCounters
    rw [a2, a3, a4]
  rw [← hpre, ← THaDecData.vdcInit_counters]
  generalize (THaDecData.decodePre evdata s).vdcInit = u
  have hfold : ctrGrows (u.xcnt, u.eff)
      (((List.range 8).foldl THaDecData.vdcPlane u).xcnt,
       ((List.range 8).foldl THaDecData.vdcPlane u).eff) :=
    foldl_invariant (fun t => ctrGrows (u.xcnt, u.eff) (t.xcnt, t.eff)) _
      (fun t j ht => ctrGrows_trans ht (THaDecData.vdcPlane_grows t j)) (List.range 8) u
      (ctrGrows_refl _)
  obtain ⟨_, _, _, f4, f5, _, _⟩ := THaDecData.vdcFlush_effect
    ((List.range 8).foldl THaDecData.vdcPlane u)
  rw [f4, f5]
  exact hfold

/-- One event: no counter decreases and the invariants are kept, whatever
the status of the engine. -/
theorem processEvent_grows (s : THaDecData) (e : THaEvData × List (List Int)) :
    ctrGrows (vdcCounters s) (vdcCounters (processEvent s e)) := by
  unfold processEvent
  have hw : vdcCounters (setWires e.2 s) = vdcCounters s := rfl
  rw [← hw]
  generalize setWires e.2 s = t
  cases hok : t.IsOK with
  | true =>
    have hg := (THaDecData.decodeBody_grows e.1 t).1
    rw [THaDecData.Decode_ok e.1 t hok]
    generalize THaDecData.decodeBody e.1 t = r at hg ⊢
    dsimp only
    exact hg
  | false =>
    have hd : THaDecData.Decode e.1 t = (-1, t) := by
      unfold THaDecData.Decode
      rw [hok]
      rfl
    rw [hd]
    dsimp only
    exact ctrGrows_refl _

/-- A call of `Init` leaves the counters as the next call of `VdcEff` sees
them. -/
theorem THaDecData.Init_counters (decdatafile : Option (List String)) (s : THaDecData) :
    vdcCounters (THaDecData.Init decdatafile s).2 = vdcCounters s := by
  obtain ⟨_, i2, i3, i4, _⟩ := THaDecData.Init_statics decdatafile s
  unfold vdcCounters
  rw [i2, i3, i4]
  by_cases hz : s.isZombie = true
  · rw [if_pos hz]
  · rw [if_neg hz]
    by_cases h0 : s.fgVdcEffFirst = 0
    · rw [if_pos h0, if_neg (by omega), if_neg (by omega)]
    · rw [if_neg h0]

theorem applyOp_grows (s : THaDecData) (op : EngineOp) :
    ctrGrows (vdcCounters s) (vdcCounters (applyOp s op)) := by
  cases op with
  | event e => exact processEvent_grows s e
  | init f =>
    show ctrGrows _ (vdcCounters (THaDecData.Init f s).2)
    rw [THaDecData.Init_counters]
    exact ctrGrows_refl _

theorem runOps_grows (ops : List EngineOp) (s : THaDecData) :
    ctrGrows (vdcCounters s) (vdcCounters (runOps s ops)) := by
  unfold runOps
  exact foldl_invariant (fun t => ctrGrows (vdcCounters s) (vdcCounters t)) _
    (fun t op ht => ctrGrows_trans ht (applyOp_grows t op)) ops s (ctrGrows_refl _)

/-- The counters right after `Reset`, as the next call of `VdcEff` sees them,
are all zero. -/
theorem THaDecData.Reset_counters (s : THaDecData) :
    vdcCounters s.Reset =
      (List.replicate (8 * THaDecData.nwire) 0, List.replicate (8 * THaDecData.nwire) 0) := by
  unfold vdcCounters
  have h : s.Reset.fgVdcEffFirst = 2 := rfl
  rw [h, if_pos (by omega)]

/-- In every state reached from a full reset the counters satisfy both
invariants and there are `8 * nwire` of each kind. -/
theorem reachable_counters (s : THaDecData) (ops : List EngineOp) :
    ctrOK (vdcCounters (runOps s.Reset ops)) ∧ edgeZero (vdcCounters (runOps s.Reset ops)) ∧
    (vdcCounters (runOps s.Reset ops)).1.length = 8 * THaDecData.nwire ∧
    (vdcCounters (runOps s.Reset ops)).2.length = 8 * THaDecData.nwire := by
  obtain ⟨g1, g2, _, g4, g5⟩ := runOps_grows ops s.Reset
  rw [THaDecData.Reset_counters] at g1 g2 g4 g5
  obtain ⟨z1, z2⟩ := zero_counters_ok (8 * THaDecData.nwire)
  exact ⟨g4 z1, g5 z2, g1.trans (List.length_replicate _ _), g2.trans (List.length_replicate _ _)⟩

/-- Every entry of a curve computed from counters with `ctrOK` lies in
`(0, 1]`; with `edgeZero` its wire number lies between 1 and `nwire - 2`. -/
theorem THaDecData.vdcCurve_bounds (ipl : Nat) (c : List Nat × List Nat) (w : Int) (v : Rat)
    (h : (w, v) ∈ THaDecData.vdcCurve ipl c.1 c.2) :
    (ctrOK c → 0 < v ∧ v ≤ 1) ∧
    (edgeZero c → 1 ≤ w ∧ w ≤ (THaDecData.nwire : Int) - 2) := by
  obtain ⟨i, hi, hw, hx, he, hv⟩ := (THaDecData.mem_vdcCurve ipl c.1 c.2 w v).mp h
  constructor
  · intro hok
    have hle := hok.2 (ipl * THaDecData.nwire + i)
    generalize c.1.getD (ipl * THaDecData.nwire + i) 0 = x at hx hv hle
    generalize c.2.getD (ipl * THaDecData.nwire + i) 0 = y at he hv hle
    have hxpos : (0 : Rat) < (x : Rat) := by
      have : 0 < x := Nat.pos_of_ne_zero hx
      exact_mod_cast this
    have hypos : (0 : Rat) < (y : Rat) := by exact_mod_cast he
    have hyx : (y : Rat) ≤ (x : Rat) := by exact_mod_cast hle
    rw [hv]
    exact ⟨div_pos hypos hxpos, (div_le_one hxpos).mpr hyx⟩
  · intro hz
    have h0 : i % THaDecData.nwire = i := Nat.mod_eq_of_lt hi
    have hmod : (ipl * THaDecData.nwire + i) % THaDecData.nwire = i := by
      rw [Nat.add_comm, Nat.add_mul_mod_self_right, h0]
    have hne : ¬ (i = 0 ∨ i = THaDecData.nwire - 1) := by
      intro hcase
      have := (hz (ipl * THaDecData.nwire + i) (by rw [hmod]; exact hcase)).1
      exact hx this
    rw [hw]
    unfold THaDecData.nwire at hi hne ⊢
    omega

theorem runOps_snoc (s : THaDecData) (ops : List EngineOp) (op : EngineOp) :
    runOps s (ops ++ [op]) = applyOp (runOps s ops) op := by
  unfold runOps
  rw [List.foldl_append]
  rfl

/-- After an event on an engine with status OK that was reached from a full
reset, the statics are the counters, they satisfy both invariants, and a
curve published by the event is the curve of these counters. -/
theorem reachable_published (s : THaDecData) (ops : List EngineOp)
    (e : THaEvData × List (List Int)) (hok : (runOps s.Reset ops).IsOK = true) :
    vdcCounters (processEvent (runOps s.Reset ops) e) =
      ((processEvent (runOps s.Reset ops) e).xcnt, (processEvent (runOps s.Reset ops) e).eff) ∧
    ctrOK ((processEvent (runOps s.Reset ops) e).xcnt,
      (processEvent (runOps s.Reset ops) e).eff) ∧
    edgeZero ((processEvent (runOps s.Reset ops) e).xcnt,
      (processEvent (runOps s.Reset ops) e).eff) ∧
    (eventCount (runOps s.Reset ops) % 500 = 0 → ∀ ipl : Nat, ipl < 8 →
      (planeVar (runOps s.Reset ops) ipl).isSome = true →
      ipl + 8 < (runOps s.Reset ops).hist.length →
      (processEvent (runOps s.Reset ops) e).hist.getD (ipl + 8) [] =
        THaDecData.vdcCurve ipl (processEvent (runOps s.Reset ops) e).xcnt
          (processEvent (runOps s.Reset ops) e).eff) := by
  obtain ⟨r1, r2, _, _⟩ := reachable_counters s (ops ++ [EngineOp.event e])
  rw [runOps_snoc] at r1 r2
  generalize runOps s.Reset ops = r at hok r1 r2 ⊢
  have ha : applyOp r (EngineOp.event e) = processEvent r e := rfl
  rw [ha] at r1 r2
  obtain ⟨_, _, p3, _, _, _, p7⟩ := processEvent_effect r e hok
  have hc := vdcCounters_of_le (processEvent r e) (by omega)
  generalize processEvent r e = r2s at r1 r2 p7 hc ⊢
  rw [hc] at r1 r2
  refine ⟨hc, r1, r2, fun h500 ipl hipl hvar hlen => ?_⟩
  have h7 := p7 h500 ipl hipl hvar hlen
  generalize THaDecData.vdcCurve ipl r2s.xcnt r2s.eff = cv at h7 ⊢
  rw [List.getD_eq_getElem?_getD, h7]
  rfl

/-- C31. Hits never exceed opportunities. In every state reached from a
full reset (`Reset`) by any sequence of events and calls of `Init`, with the
counters taken as the next call of `VdcEff` sees them (`vdcCounters`: the
statics `xcnt` and `eff`, or zero while the restart asked for by `Reset` is
pending): the hit counter of every plane and wire is at most the opportunity
counter; no counter decreases in the next operation; the quotient of a hit
counter by an opportunity counter that is not 0 lies in `[0, 1]`, and every
entry of the curve computed from the counters lies in `(0, 1]`. After an
event on an engine with status OK the counters are the statics themselves,
and the entries of a curve the event publishes lie in `(0, 1]`. The counters
are natural numbers in this development, so they are never negative. -/
theorem C31_hits_never_exceed_opportunities (s : THaDecData) (ops : List EngineOp) :
    (∀ p w : Nat,
      (vdcCounters (runOps s.Reset ops)).2.getD (p * THaDecData.nwire + w) 0 ≤
        (vdcCounters (runOps s.Reset ops)).1.getD (p * THaDecData.nwire + w) 0) ∧
    (∀ (op : EngineOp) (k : Nat),
      (vdcCounters (runOps s.Reset ops)).1.getD k 0 ≤
        (vdcCounters (applyOp (runOps s.Reset ops) op)).1.getD k 0 ∧
      (vdcCounters (runOps s.Reset ops)).2.getD k 0 ≤
        (vdcCounters (applyOp (runOps s.Reset ops) op)).2.getD k 0) ∧
    (∀ k : Nat, (vdcCounters (runOps s.Reset ops)).1.getD k 0 ≠ 0 →
      0 ≤ ((vdcCounters (runOps s.Reset ops)).2.getD k 0 : Rat) /
          ((vdcCounters (runOps s.Reset ops)).1.getD k 0 : Rat) ∧
      ((vdcCounters (runOps s.Reset ops)).2.getD k 0 : Rat) /
          ((vdcCounters (runOps s.Reset ops)).1.getD k 0 : Rat) ≤ 1) ∧
    (∀ (p : Nat) (w : Int) (v : Rat),
      (w, v) ∈ THaDecData.vdcCurve p (vdcCounters (runOps s.Reset ops)).1
        (vdcCounters (runOps s.Reset ops)).2 → 0 < v ∧ v ≤ 1) ∧
    (∀ e : THaEvData × List (List Int), (runOps s.Reset ops).IsOK = true →
      (∀ k : Nat, (processEvent (runOps s.Reset ops) e).eff.getD k 0 ≤
        (processEvent (runOps s.Reset ops) e).xcnt.getD k 0) ∧
      (eventCount (runOps s.Reset ops) % 500 = 0 → ∀ ipl : Nat, ipl < 8 →
        (planeVar (runOps s.Reset ops) ipl).isSome = true →
        ipl + 8 < (runOps s.Reset ops).hist.length →
        ∀ (w : Int) (v : Rat),
          (w, v) ∈ (processEvent (runOps s.Reset ops) e).hist.getD (ipl + 8) [] →
            0 < v ∧ v ≤ 1)) := by
  obtain ⟨hok, _, _, _⟩ := reachable_counters s ops
  refine ⟨fun p w => hok.2 _, fun op k => (applyOp_grows _ op).2.2.1 k, fun k hk => ?_,
    fun p w v h => (THaDecData.vdcCurve_bounds p _ w v h).1 hok, fun e hst => ?_⟩
  · have hle := hok.2 k
    generalize (vdcCounters (runOps s.Reset ops)).1.getD k 0 = x at hk hle
    generalize (vdcCounters (runOps s.Reset ops)).2.getD k 0 = y at hle
    have hxpos : (0 : Rat) < (x : Rat) := by
      have : 0 < x := Nat.pos_of_ne_zero hk
      exact_mod_cast this
    have hy0 : (0 : Rat) ≤ (y : Rat) := by exact_mod_cast Nat.zero_le y
    have hyx : (y : Rat) ≤ (x : Rat) := by exact_mod_cast hle
    exact ⟨div_nonneg hy0 (le_of_lt hxpos), (div_le_one hxpos).mpr hyx⟩
  · obtain ⟨_, q2, _, q4⟩ := reachable_published s ops e hst
    refine ⟨fun k => q2.2 k, fun h500 ipl hipl hvar hlen w v hmem => ?_⟩
    rw [q4 h500 ipl hipl hvar hlen] at hmem
    exact (THaDecData.vdcCurve_bounds ipl (_, _) w v hmem).1 q2

/-- C34. Edge wires never get an opportunity. In every state reached from a
full reset (`Reset`) by any sequence of events and calls of `Init`, with the
counters taken as the next call of `VdcEff` sees them, the opportunity and
the hit counter of wire 0 and of wire 399 of every plane are 0, and every
entry of the curve computed from the counters belongs to a wire between 1 and
398. After an event on an engine with status OK this holds of the statics
themselves and of a curve the event publishes. -/
theorem C34_edge_wires_never_counted (s : THaDecData) (ops : List EngineOp) :
    (∀ p : Nat,
      (vdcCounters (runOps s.Reset ops)).1.getD (p * THaDecData.nwire + 0) 0 = 0 ∧
      (vdcCounters (runOps s.Reset ops)).2.getD (p * THaDecData.nwire + 0) 0 = 0 ∧
      (vdcCounters (runOps s.Reset ops)).1.getD (p * THaDecData.nwire + 399) 0 = 0 ∧
      (vdcCounters (runOps s.Reset ops)).2.getD (p * THaDecData.nwire + 399) 0 = 0) ∧
    (∀ (p : Nat) (w : Int) (v : Rat),
      (w, v) ∈ THaDecData.vdcCurve p (vdcCounters (runOps s.Reset ops)).1
        (vdcCounters (runOps s.Reset ops)).2 → 1 ≤ w ∧ w ≤ 398) ∧
    (∀ e : THaEvData × List (List Int), (runOps s.Reset ops).IsOK = true →
      (∀ p : Nat,
        (processEvent (runOps s.Reset ops) e).xcnt.getD (p * THaDecData.nwire + 0) 0 = 0 ∧
        (processEvent (runOps s.Reset ops) e).eff.getD (p * THaDecData.nwire + 0) 0 = 0 ∧
        (processEvent (runOps s.Reset ops) e).xcnt.getD (p * THaDecData.nwire + 399) 0 = 0 ∧
        (processEvent (runOps s.Reset ops) e).eff.getD (p * THaDecData.nwire + 399) 0 = 0) ∧
      (eventCount (runOps s.Reset ops) % 500 = 0 → ∀ ipl : Nat, ipl < 8 →
        (planeVar (runOps s.Reset ops) ipl).isSome = true →
        ipl + 8 < (runOps s.Reset ops).hist.length →
        ∀ (w : Int) (v : Rat),
          (w, v) ∈ (processEvent (runOps s.Reset ops) e).hist.getD (ipl + 8) [] →
            1 ≤ w ∧ w ≤ 398)) := by
  have hm0 : ∀ p : Nat, (p * THaDecData.nwire + 0) % THaDecData.nwire = 0 ∨
      (p * THaDecData.nwire + 0) % THaDecData.nwire = THaDecData.nwire - 1 := by
    intro p
    unfold THaDecData.nwire
    omega
  have hm399 : ∀ p : Nat, (p * THaDecData.nwire + 399) % THaDecData.nwire = 0 ∨
      (p * THaDecData.nwire + 399) % THaDecData.nwire = THaDecData.nwire - 1 := by
    intro p
    unfold THaDecData.nwire
    omega
  have hb : ∀ w : Int, (1 ≤ w ∧ w ≤ (THaDecData.nwire : Int) - 2) → 1 ≤ w ∧ w ≤ 398 := by
    intro w hw
    unfold THaDecData.nwire at hw
    omega
  obtain ⟨_, hz, _, _⟩ := reachable_counters s ops
  refine ⟨fun p => ⟨(hz _ (hm0 p)).1, (hz _ (hm0 p)).2, (hz _ (hm399 p)).1, (hz _ (hm399 p)).2⟩,
    fun p w v h => hb w ((THaDecData.vdcCurve_bounds p _ w v h).2 hz), fun e hst => ?_⟩
  obtain ⟨_, _, q3, q4⟩ := reachable_published s ops e hst
  refine ⟨fun p => ⟨(q3 _ (hm0 p)).1, (q3 _ (hm0 p)).2, (q3 _ (hm399 p)).1, (q3 _ (hm399 p)).2⟩,
    fun h500 ipl hipl hvar hlen w v hmem => ?_⟩
  rw [q4 h500 ipl hipl hvar hlen] at hmem
  exact hb w ((THaDecData.vdcCurve_bounds ipl (_, _) w v hmem).2 q3)

/-- C31 at the engine `stVdc`: after `Reset`, the event with the wires 1, 2,
3, an `Init` and the event with the wires 1, 3, wire 2 of the first plane has
2 opportunities and 1 hit; the curve the first event after `Reset` publishes
holds the single entry 1 for wire 2. -/
theorem C31_hits_never_exceed_opportunities_witness :
    (vdcCounters (runOps stVdc.Reset opsTwoEvents)).1.getD (0 * THaDecData.nwire + 2) 0 = 2 ∧
    (vdcCounters (runOps stVdc.Reset opsTwoEvents)).2.getD (0 * THaDecData.nwire + 2) 0 = 1 ∧
    (vdcCounters (runOps stVdc.Reset opsTwoEvents)).2.getD (0 * THaDecData.nwire + 2) 0 ≤
      (vdcCounters (runOps stVdc.Reset opsTwoEvents)).1.getD (0 * THaDecData.nwire + 2) 0 ∧
    (processEvent (runOps stVdc.Reset []) (evNone, [[1, 2, 3]])).hist.getD (0 + 8) [] =
      [(2, 1)] ∧
    (∀ (w : Int) (v : Rat),
      (w, v) ∈ (processEvent (runOps stVdc.Reset []) (evNone, [[1, 2, 3]])).hist.getD
        (0 + 8) [] → 0 < v ∧ v ≤ 1) :=
  ⟨by decide!, by decide!,
   (C31_hits_never_exceed_opportunities stVdc opsTwoEvents).1 0 2,
   by decide!,
   ((C31_hits_never_exceed_opportunities stVdc []).2.2.2.2 (evNone, [[1, 2, 3]])
      (by decide!)).2 (by decide!) 0 (by decide) (by decide!) (by decide!)⟩

/-- C34 at the engine `stVdc`: the first event after `Reset` holds the wires
0, 1, 2, 397, 398, 399 of the first plane. The counters of the wires 0 and 399
stay 0, and the curve the event publishes holds an entry for wire 1 and for
wire 398 only. -/
theorem C34_edge_wires_never_counted_witness :
    (runOps stVdc.Reset []).IsOK = true ∧
    (processEvent (runOps stVdc.Reset []) evEdges).xcnt.getD (0 * THaDecData.nwire + 0) 0 = 0 ∧
    (processEvent (runOps stVdc.Reset []) evEdges).xcnt.getD
      (0 * THaDecData.nwire + 399) 0 = 0 ∧
    (processEvent (runOps stVdc.Reset []) evEdges).xcnt.getD (0 * THaDecData.nwire + 1) 0 = 1 ∧
    (processEvent (runOps stVdc.Reset []) evEdges).xcnt.getD
      (0 * THaDecData.nwire + 398) 0 = 1 ∧
    (processEvent (runOps stVdc.Reset []) evEdges).hist.getD (0 + 8) [] =
      [(1, 1), (398, 1)] ∧
    (∀ (w : Int) (v : Rat),
      (w, v) ∈ (processEvent (runOps stVdc.Reset []) evEdges).hist.getD (0 + 8) [] →
        1 ≤ w ∧ w ≤ 398) :=
  ⟨by decide!,
   (((C34_edge_wires_never_counted stVdc []).2.2 evEdges (by decide!)).1 0).1,
   (((C34_edge_wires_never_counted stVdc []).2.2 evEdges (by decide!)).1 0).2.2.1,
   by decide!, by decide!, by decide!,
   ((C34_edge_wires_never_counted stVdc []).2.2 evEdges (by decide!)).2
      (by decide!) 0 (by decide) (by decide!) (by decide!)⟩

/-! ## The positions read by the marker scan -/

/-- The loop with the read positions collected computes the location of the
loop without them. -/
theorem THaDecData.decodeWordFold_fst (evdata : THaEvData) (l : List Nat) :
    ∀ (d : BdataLoc) (tr : List Int),
      (l.foldl (THaDecData.decodeWordStep evdata) (d, tr)).1 =
        l.foldl (fun d (i : Nat) =>
          if toUInt_t (evdata.GetRawData d.crate (i : Int)) = d.header then
            d.Load (toUInt_t (evdata.GetRawData d.crate ((i : Int) + d.ntoskip)))
          else d) d := by
  induction l with
  | nil => intro d tr; rfl
  | cons i l ih =>
    intro d tr
    rw [List.foldl_cons, List.foldl_cons]
    unfold THaDecData.decodeWordStep
    dsimp only
    split
    · exact ih _ _
    · exact ih _ _

theorem THaDecData.decodeWordLocReads_fst (evdata : THaEvData) (dataloc : BdataLoc) :
    (THaDecData.decodeWordLocReads evdata dataloc).1 =
      THaDecData.decodeWordLoc evdata dataloc := by
  unfold THaDecData.decodeWordLocReads THaDecData.decodeWordLoc
  exact THaDecData.decodeWordFold_fst evdata _ dataloc []

theorem THaDecData.decodeWordStep_frame (evdata : THaEvData) (st : BdataLoc × List Int)
    (i : Nat) :
    (THaDecData.decodeWordStep evdata st i).1.crate = st.1.crate ∧
    (THaDecData.decodeWordStep evdata st i).1.ntoskip = st.1.ntoskip ∧
    (∀ p ∈ st.2, p ∈ (THaDecData.decodeWordStep evdata st i).2) ∧
    (i : Int) ∈ (THaDecData.decodeWordStep evdata st i).2 ∧
    (∀ p ∈ (THaDecData.decodeWordStep evdata st i).2,
      p ∈ st.2 ∨ p = (i : Int) ∨ p = (i : Int) + st.1.ntoskip) := by
  unfold THaDecData.decodeWordStep
  split
  · refine ⟨BdataLoc.Load_crate _ _, BdataLoc.Load_ntoskip _ _,
      fun p hp => List.mem_append_left _ hp,
      List.mem_append_right _ (List.mem_cons_self _ _), fun p hp => ?_⟩
    rcases List.mem_append.mp hp with h | h
    · exact Or.inl h
    · simp only [List.mem_cons, List.mem_singleton, List.not_mem_nil, or_false] at h
      exact Or.inr h
  · refine ⟨rfl, rfl, fun p hp => List.mem_append_left _ hp,
      List.mem_append_right _ (List.mem_singleton_self _), fun p hp => ?_⟩
    rcases List.mem_append.mp hp with h | h
    · exact Or.inl h
    · simp only [List.mem_singleton] at h
      exact Or.inr (Or.inl h)

/-- The positions the loop over the list `l` of scan positions reads. -/
theorem THaDecData.decodeWordFold_reads (evdata : THaEvData) (l : List Nat) :
    ∀ st : BdataLoc × List Int,
      (∀ p ∈ st.2, p ∈ (l.foldl (THaDecData.decodeWordStep evdata) st).2) ∧
      (∀ i ∈ l, (i : Int) ∈ (l.foldl (THaDecData.decodeWordStep evdata) st).2) ∧
      (∀ p ∈ (l.foldl (THaDecData.decodeWordStep evdata) st).2,
        p ∈ st.2 ∨ ∃ i ∈ l, p = (i : Int) ∨ p = (i : Int) + st.1.ntoskip) := by
  induction l with
  | nil =>
    intro st
    exact ⟨fun p hp => hp, fun i hi => absurd hi (List.not_mem_nil i), fun p hp => Or.inl hp⟩
  | cons i l ih =>
    intro st
    rw [List.foldl_cons]
    obtain ⟨f1, f2, f3, f4, f5⟩ := THaDecData.decodeWordStep_frame evdata st i
    obtain ⟨i1, i2, i3⟩ := ih (THaDecData.decodeWordStep evdata st i)
    refine ⟨fun p hp => i1 p (f3 p hp), fun j hj => ?_, fun p hp => ?_⟩
    · rcases List.mem_cons.mp hj with h | h
      · rw [h]
        exact i1 _ f4
      · exact i2 j h
    · rcases i3 p hp with h | ⟨j, hj, h⟩
      · rcases f5 p h with h2 | h2
        · exact Or.inl h2
        · exact Or.inr ⟨i, List.mem_cons_self _ _, h2⟩
      · rw [f2] at h
        exact Or.inr ⟨j, List.mem_cons_of_mem _ hj, h⟩

/-- C32 (amended). Marker scan and the stream: for every location of
`fWordLoc` with `ntoskip >= 0`, a successful `Decode` leaves the location the
scan loop computes, and every position at which that loop calls `GetRawData`
for the crate of the location, the scanned position `i` and the sampled
position `i + ntoskip`, satisfies `0 <= position <= GetRocLength(crate)`.
The upper bound is attained: when `ntoskip <= GetRocLength(crate)`, the
position `GetRocLength(crate) - ntoskip` is scanned, which is the position
`GetRocLength(crate)` itself when `ntoskip` is 0. -/
theorem C32_marker_scan_positions (evdata : THaEvData) (s : THaDecData) (idx : Nat)
    (b : BdataLoc) (hok : s.IsOK = true) (hb : s.fWordLoc[idx]? = some b)
    (hskip : 0 ≤ b.ntoskip) :
    (THaDecData.Decode evdata s).2.fWordLoc[idx]? =
      some (THaDecData.decodeWordLocReads evdata b.Clear).1 ∧
    (∀ p ∈ (THaDecData.decodeWordLocReads evdata b.Clear).2,
      0 ≤ p ∧ p ≤ evdata.GetRocLength b.crate) ∧
    (b.ntoskip ≤ evdata.GetRocLength b.crate →
      evdata.GetRocLength b.crate - b.ntoskip ∈
        (THaDecData.decodeWordLocReads evdata b.Clear).2) := by
  refine ⟨?_, ?_, ?_⟩
  · rw [THaDecData.decodeWordLocReads_fst]
    exact THaDecData.Decode_wordLoc_at evdata s idx b hok hb
  · intro p hp
    unfold THaDecData.decodeWordLocReads at hp
    have hc : b.Clear.crate = b.crate := rfl
    have hn : b.Clear.ntoskip = b.ntoskip := rfl
    rw [hc, hn] at hp
    rcases (THaDecData.decodeWordFold_reads evdata _ (b.Clear, [])).2.2 p hp with h | ⟨i, hi, h⟩
    · exact absurd h (List.not_mem_nil p)
    · have hi2 := List.mem_range.mp hi
      have h2 : p = (i : Int) ∨ p = (i : Int) + b.ntoskip := h
      omega
  · intro hle
    unfold THaDecData.decodeWordLocReads
    have hc : b.Clear.crate = b.crate := rfl
    have hn : b.Clear.ntoskip = b.ntoskip := rfl
    rw [hc, hn]
    have hmem : (evdata.GetRocLength b.crate - b.ntoskip).toNat ∈
        List.range (evdata.GetRocLength b.crate - b.ntoskip + 1).toNat := by
      rw [List.mem_range]
      omega
    have h := (THaDecData.decodeWordFold_reads evdata _ (b.Clear, [])).2.1 _ hmem
    rw [Int.toNat_of_nonneg (by omega)] at h
    exact h

/-- C32 at the engine `stMarker1` (marker `0xaa`, skip 1) and the event
`evMarker`, whose crate 1 reports a length of 3: the positions read are 0, 1,
1, 2, 3, all between 0 and 3. -/
theorem C32_marker_scan_positions_witness :
    stMarker1.IsOK = true ∧
    stMarker1.fWordLoc[0]? = some (BdataLoc.mkHeader "tdc" 1 170 1) ∧
    evMarker.GetRocLength 1 = 3 ∧
    (THaDecData.decodeWordLocReads evMarker (BdataLoc.mkHeader "tdc" 1 170 1).Clear).2 =
      [0, 1, 1, 2, 3] ∧
    (∀ p ∈ (THaDecData.decodeWordLocReads evMarker (BdataLoc.mkHeader "tdc" 1 170 1).Clear).2,
      0 ≤ p ∧ p ≤ evMarker.GetRocLength (BdataLoc.mkHeader "tdc" 1 170 1).crate) :=
  ⟨by decide, by decide, by decide, by decide,
   (C32_marker_scan_positions evMarker stMarker1 0 (BdataLoc.mkHeader "tdc" 1 170 1)
      (by decide) (by decide) (by decide)).2.1⟩

/-- C32 at a failing input. The location has the marker `0xaa` and skip 0,
crate 1 of the event reports a length of 3. `Decode` reads the positions 0, 0,
1, 2, 2, 3, 3: the position 3 is scanned and, as it holds the marker, sampled,
and 3 is not below the length 3. The location ends with three samples, the
third one taken from position 3. -/
theorem C32_counterexample :
    stMarker0.IsOK = true ∧
    stMarker0.fWordLoc = [BdataLoc.mkHeader "tdc" 1 170 0] ∧
    (BdataLoc.mkHeader "tdc" 1 170 0).ntoskip = 0 ∧
    evMarker.GetRocLength 1 = 3 ∧
    (THaDecData.decodeWordLocReads evMarker (BdataLoc.mkHeader "tdc" 1 170 0).Clear).2 =
      [0, 0, 1, 2, 2, 3, 3] ∧
    ¬ (∀ p ∈ (THaDecData.decodeWordLocReads evMarker
          (BdataLoc.mkHeader "tdc" 1 170 0).Clear).2,
        0 ≤ p ∧ p < evMarker.GetRocLength 1) ∧
    (THaDecData.Decode evMarker stMarker0).2.fWordLoc =
      [(THaDecData.decodeWordLocReads evMarker (BdataLoc.mkHeader "tdc" 1 170 0).Clear).1] ∧
    (THaDecData.Decode evMarker stMarker0).2.fWordLoc.map
      (fun d => (d.NumHits, d.Get 0, d.Get 1, d.Get 2)) = [(3, 170, 170, 170)] := by
  refine ⟨by decide, by decide, by decide, by decide, by decide, by decide, by decide,
    by decide⟩

/-! ## Re-loading the same file -/

theorem findLocIdx_names (l : List BdataLoc) (nm : String) :
    findLocIdx l nm = (l.map (fun d => d.fName)).findIdx? (fun x => nm == x) := by
  unfold findLocIdx
  rw [List.findIdx?_map]
  rfl

theorem findLocIdx_modifyAt (is_slot : Bool) (b : BdataLoc) (l : List BdataLoc) (i : Nat)
    (nm : String) :
    findLocIdx (modifyAt (THaDecData.updateLoc is_slot b) i l) nm = findLocIdx l nm := by
  rw [findLocIdx_names, findLocIdx_names, modifyAt_map_fName]

/-- A position found by the search holds a location of the name. -/
theorem findLocIdx_some (l : List BdataLoc) (nm : String) (i : Nat)
    (h : findLocIdx l nm = some i) : ∃ p : BdataLoc, l[i]? = some p ∧ p.fName = nm := by
  unfold findLocIdx at h
  obtain ⟨hlt, hp, _⟩ := List.findIdx?_eq_some_iff_getElem.mp h
  exact ⟨l[i], List.getElem?_eq_getElem hlt, (beq_iff_eq.mp hp).symm⟩

theorem findLocIn_modifyAt (is_slot : Bool) (b : BdataLoc) (l : List BdataLoc) (i : Nat)
    (nm : String) (h : findLocIdx l nm ≠ some i) :
    findLocIn (modifyAt (THaDecData.updateLoc is_slot b) i l) nm = findLocIn l nm := by
  unfold findLocIn
  rw [findLocIdx_modifyAt]
  cases hk : findLocIdx l nm with
  | none => rfl
  | some k =>
    show (modifyAt (THaDecData.updateLoc is_slot b) i l)[k]? = l[k]?
    exact modifyAt_getElem?_ne _ _ _ _ (fun hki => h (by rw [hk, hki]))

theorem findLocIdx_append_other (l : List BdataLoc) (b : BdataLoc) (nm : String)
    (h : b.fName ≠ nm) :
    findLocIdx (l ++ [b]) nm = findLocIdx l nm ∧ findLocIn (l ++ [b]) nm = findLocIn l nm := by
  have hb : List.findIdx? (fun p : BdataLoc => nm == p.fName) [b] = none := by
    rw [List.findIdx?_eq_none_iff]
    intro x hx
    rw [List.mem_singleton] at hx
    rw [hx]
    exact beq_eq_false_iff_ne.mpr (fun e => h e.symm)
  have hidx : findLocIdx (l ++ [b]) nm = findLocIdx l nm := by
    unfold findLocIdx
    rw [List.findIdx?_append, hb]
    cases List.findIdx? (fun p : BdataLoc => nm == p.fName) l <;> rfl
  refine ⟨hidx, ?_⟩
  unfold findLocIn
  rw [hidx]
  cases hk : findLocIdx l nm with
  | none => rfl
  | some k =>
    show (l ++ [b])[k]? = l[k]?
    obtain ⟨p, hp, _⟩ := findLocIdx_some l nm k hk
    have hlt : k < l.length := by
      by_contra hc
      rw [List.getElem?_eq_none (by omega)] at hp
      cases hp
    exact List.getElem?_append_left hlt

theorem findLocIdx_append_new (l : List BdataLoc) (b : BdataLoc)
    (h : findLocIdx l b.fName = none) :
    findLocIdx (l ++ [b]) b.fName = some l.length ∧ findLocIn (l ++ [b]) b.fName = some b := by
  have hb : List.findIdx? (fun p : BdataLoc => b.fName == p.fName) [b] = some 0 := by
    rw [List.findIdx?_cons, if_pos (beq_self_eq_true _)]
  have hidx : findLocIdx (l ++ [b]) b.fName = some l.length := by
    unfold findLocIdx at h ⊢
    rw [List.findIdx?_append, h, hb]
    show some (0 + l.length) = some l.length
    rw [Nat.zero_add]
  refine ⟨hidx, ?_⟩
  unfold findLocIn
  rw [hidx]
  show (l ++ [b])[l.length]? = some b
  rw [List.getElem?_append_right (le_refl _), Nat.sub_self]
  rfl

theorem modifyAt_self {α : Type} (f : α → α) :
    ∀ (l : List α) (i : Nat) (p : α), l[i]? = some p → f p = p → modifyAt f i l = l := by
  intro l
  induction l with
  | nil => intro i p _ _; cases i <;> rfl
  | cons x xs ih =>
    intro i p h hf
    cases i with
    | zero =>
      have hx : x = p := by
        simpa using h
      show f x :: xs = x :: xs
      rw [hx, hf]
    | succ k =>
      have hk : xs[k]? = some p := by
        simpa using h
      show x :: modifyAt f k xs = x :: xs
      rw [ih k p hk hf]

theorem findLoc_word (s : THaDecData) (nm : String) (i : Nat)
    (h : findLocIdx s.fWordLoc nm = some i) : findLoc s nm = findLocIn s.fWordLoc nm := by
  unfold findLoc
  rw [h]
  rfl

theorem findLoc_crate (s : THaDecData) (nm : String)
    (h : findLocIdx s.fWordLoc nm = none) : findLoc s nm = findLocIn s.fCrateLoc nm := by
  unfold findLoc
  rw [h]
  rfl

/-- A valid line that is settled changes nothing in re-initialization
mode. -/
theorem THaDecData.setupLine_reinit_noop (s : THaDecData) (sinput : String)
    (e : Bool × BdataLoc) (hp : parseLine sinput = some e) (h : settled s e) :
    THaDecData.setupLine true s sinput = s := by
  rw [THaDecData.setupLine_reinit, hp]
  dsimp only
  obtain ⟨p, hf, heq⟩ := h
  cases hw : findLocIdx s.fWordLoc e.2.fName with
  | some i =>
    have hw2 : s.fWordLoc.findIdx? (fun p => e.2.fName == p.fName) = some i := hw
    rw [hw2]
    dsimp only
    rw [findLoc_word s _ i hw] at hf
    unfold findLocIn at hf
    rw [hw] at hf
    have hi : s.fWordLoc[i]? = some p := hf
    rw [modifyAt_self _ _ i p hi (THaDecData.updateLoc_same e.1 e.2 p heq)]
  | none =>
    have hw2 : s.fWordLoc.findIdx? (fun p => e.2.fName == p.fName) = none := hw
    rw [hw2]
    dsimp only
    rw [findLoc_crate s _ hw] at hf
    unfold findLocIn at hf
    cases hc : findLocIdx s.fCrateLoc e.2.fName with
    | none =>
      rw [hc] at hf
      cases hf
    | some i =>
      have hc2 : s.fCrateLoc.findIdx? (fun p => e.2.fName == p.fName) = some i := hc
      rw [hc2]
      dsimp only
      rw [hc] at hf
      have hi : s.fCrateLoc[i]? = some p := hf
      rw [modifyAt_self _ _ i p hi (THaDecData.updateLoc_same e.1 e.2 p heq)]

theorem BdataLoc.hwEq_self (b : BdataLoc) (h : b.search_choice = 0 ∨ b.search_choice = 1) :
    b.hwEq b = true := by
  rw [BdataLoc.hwEq_iff]
  rcases h with h | h
  · exact ⟨rfl, rfl, Or.inl ⟨h, rfl, rfl⟩⟩
  · exact ⟨rfl, rfl, Or.inr ⟨h, rfl, rfl⟩⟩

/-- After its turn of the loader loop in re-initialization mode a valid line
is settled. -/
theorem THaDecData.setupLine_reinit_own (s : THaDecData) (sinput : String)
    (e : Bool × BdataLoc) (hp : parseLine sinput = some e) :
    settled (THaDecData.setupLine true s sinput) e := by
  have hm : e.2.search_choice = if e.1 then 0 else 1 := parseLine_mode sinput e.1 e.2 hp
  have hmode : e.2.search_choice = 0 ∨ e.2.search_choice = 1 := by
    cases he : e.1
    · rw [he] at hm
      exact Or.inr hm
    · rw [he] at hm
      exact Or.inl hm
  rw [THaDecData.setupLine_reinit, hp]
  dsimp only
  unfold settled
  cases hw : findLocIdx s.fWordLoc e.2.fName with
  | some i =>
    have hw2 : s.fWordLoc.findIdx? (fun p => e.2.fName == p.fName) = some i := hw
    rw [hw2]
    dsimp only
    obtain ⟨p, hpi, _⟩ := findLocIdx_some _ _ _ hw
    refine ⟨THaDecData.updateLoc e.1 e.2 p, ?_, THaDecData.updateLoc_hwEq e.1 e.2 p hm⟩
    rw [findLoc_word _ _ i ((findLocIdx_modifyAt e.1 e.2 s.fWordLoc i e.2.fName).trans hw)]
    unfold findLocIn
    dsimp only
    rw [findLocIdx_modifyAt, hw]
    show (modifyAt (THaDecData.updateLoc e.1 e.2) i s.fWordLoc)[i]? = _
    rw [modifyAt_getElem?, if_pos rfl, hpi]
    rfl
  | none =>
    have hw2 : s.fWordLoc.findIdx? (fun p => e.2.fName == p.fName) = none := hw
    rw [hw2]
    dsimp only
    cases hc : findLocIdx s.fCrateLoc e.2.fName with
    | some i =>
      have hc2 : s.fCrateLoc.findIdx? (fun p => e.2.fName == p.fName) = some i := hc
      rw [hc2]
      dsimp only
      obtain ⟨p, hpi, _⟩ := findLocIdx_some _ _ _ hc
      refine ⟨THaDecData.updateLoc e.1 e.2 p, ?_, THaDecData.updateLoc_hwEq e.1 e.2 p hm⟩
      rw [findLoc_crate
        { s with fCrateLoc := modifyAt (THaDecData.updateLoc e.1 e.2) i s.fCrateLoc } _ hw]
      unfold findLocIn
      dsimp only
      rw [findLocIdx_modifyAt, hc]
      show (modifyAt (THaDecData.updateLoc e.1 e.2) i s.fCrateLoc)[i]? = _
      rw [modifyAt_getElem?, if_pos rfl, hpi]
      rfl
    | none =>
      have hc2 : s.fCrateLoc.findIdx? (fun p => e.2.fName == p.fName) = none := hc
      rw [hc2]
      dsimp only
      refine ⟨e.2, ?_, BdataLoc.hwEq_self e.2 hmode⟩
      have ic := THaDecData.insertLoc_fCrateLoc s (varsNames.contains e.2.fName) e.1 e.2
      have iw := THaDecData.insertLoc_fWordLoc s (varsNames.contains e.2.fName) e.1 e.2
      generalize THaDecData.insertLoc s (varsNames.contains e.2.fName) e.1 e.2 = t at ic iw ⊢
      cases he : e.1 with
      | false =>
        rw [he, if_neg Bool.false_ne_true] at ic iw
        obtain ⟨a1, a2⟩ := findLocIdx_append_new s.fWordLoc e.2 hw
        rw [← iw] at a1 a2
        rw [findLoc_word t _ _ a1, a2]
      | true =>
        rw [he, if_pos rfl] at ic iw
        obtain ⟨_, a2⟩ := findLocIdx_append_new s.fCrateLoc e.2 hc
        rw [← ic] at a2
        rw [← iw] at hw
        rw [findLoc_crate t _ hw, a2]

/-- A turn of the loader loop for a line of another name leaves the location
found under the name `nm` as it is. -/
theorem THaDecData.setupLine_reinit_findLoc (s : THaDecData) (sinput : String)
    (e : Bool × BdataLoc) (nm : String) (hp : parseLine sinput = some e)
    (hne : e.2.fName ≠ nm) :
    findLoc (THaDecData.setupLine true s sinput) nm = findLoc s nm := by
  have hidx : ∀ (l : List BdataLoc) (i : Nat), findLocIdx l e.2.fName = some i →
      findLocIdx l nm ≠ some i := by
    intro l i h1 h2
    obtain ⟨p, hp1, hn1⟩ := findLocIdx_some l _ i h1
    obtain ⟨q, hq1, hn2⟩ := findLocIdx_some l _ i h2
    rw [hp1] at hq1
    rw [← Option.some.inj hq1] at hn2
    exact hne (hn1.symm.trans hn2)
  rw [THaDecData.setupLine_reinit, hp]
  dsimp only
  cases hw : findLocIdx s.fWordLoc e.2.fName with
  | some i =>
    have hw2 : s.fWordLoc.findIdx? (fun p => e.2.fName == p.fName) = some i := hw
    rw [hw2]
    dsimp only
    unfold findLoc
    dsimp only
    rw [findLocIdx_modifyAt, findLocIn_modifyAt _ _ _ _ _ (hidx _ i hw)]
  | none =>
    have hw2 : s.fWordLoc.findIdx? (fun p => e.2.fName == p.fName) = none := hw
    rw [hw2]
    dsimp only
    cases hc : findLocIdx s.fCrateLoc e.2.fName with
    | some i =>
      have hc2 : s.fCrateLoc.findIdx? (fun p => e.2.fName == p.fName) = some i := hc
      rw [hc2]
      dsimp only
      unfold findLoc
      dsimp only
      rw [findLocIn_modifyAt _ _ _ _ _ (hidx _ i hc)]
    | none =>
      have hc2 : s.fCrateLoc.findIdx? (fun p => e.2.fName == p.fName) = none := hc
      rw [hc2]
      dsimp only
      have ic := THaDecData.insertLoc_fCrateLoc s (varsNames.contains e.2.fName) e.1 e.2
      have iw := THaDecData.insertLoc_fWordLoc s (varsNames.contains e.2.fName) e.1 e.2
      generalize THaDecData.insertLoc s (varsNames.contains e.2.fName) e.1 e.2 = t at ic iw ⊢
      unfold findLoc
      rw [ic, iw]
      cases e.1 with
      | false =>
        rw [if_neg Bool.false_ne_true, if_neg Bool.false_ne_true]
        obtain ⟨a1, a2⟩ := findLocIdx_append_other s.fWordLoc e.2 nm hne
        rw [a1, a2]
      | true =>
        rw [if_pos rfl, if_pos rfl]
        obtain ⟨_, a2⟩ := findLocIdx_append_other s.fCrateLoc e.2 nm hne
        rw [a2]

theorem THaDecData.setupLine_reinit_invalid (s : THaDecData) (sinput : String)
    (hp : parseLine sinput = none) : THaDecData.setupLine true s sinput = s := by
  rw [THaDecData.setupLine_reinit, hp]

theorem THaDecData.setupLine_reinit_fIsSetup (s : THaDecData) (sinput : String) :
    (THaDecData.setupLine true s sinput).fIsSetup = s.fIsSetup := by
  rw [THaDecData.setupLine_reinit]
  cases parseLine sinput with
  | none => rfl
  | some e =>
    dsimp only
    cases s.fWordLoc.findIdx? (fun p => e.2.fName == p.fName) with
    | some i => rfl
    | none =>
      dsimp only
      cases s.fCrateLoc.findIdx? (fun p => e.2.fName == p.fName) with
      | some i => rfl
      | none =>
        dsimp only
        unfold THaDecData.insertLoc THaDecData.DefineChannel
        cases varsNames.contains e.2.fName <;> cases e.1 <;> rfl

theorem distinctNames_cons (l : String) (ls : List String) (h : distinctNames (l :: ls)) :
    distinctNames ls ∧
    ∀ e, parseLine l = some e →
      ∀ l2 ∈ ls, ∀ e2, parseLine l2 = some e2 → e2.2.fName ≠ e.2.fName := by
  unfold distinctNames at h ⊢
  cases hp : parseLine l with
  | none =>
    rw [List.filterMap_cons_none hp] at h
    exact ⟨h, fun e he => by cases he⟩
  | some e0 =>
    rw [List.filterMap_cons_some hp, List.map_cons, List.nodup_cons] at h
    refine ⟨h.2, fun e he l2 hl2 e2 hp2 hn => ?_⟩
    have he0 : e0 = e := Option.some.inj he
    apply h.1
    rw [he0, ← hn]
    exact List.mem_map.mpr ⟨e2, List.mem_filterMap.mpr ⟨l2, hl2, hp2⟩, rfl⟩

/-- Lines of other names keep a line settled. -/
theorem THaDecData.reinitFold_keeps_settled (ls : List String) (e : Bool × BdataLoc)
    (hne : ∀ l ∈ ls, ∀ e2, parseLine l = some e2 → e2.2.fName ≠ e.2.fName) :
    ∀ s : THaDecData, settled s e → settled (ls.foldl (THaDecData.setupLine true) s) e := by
  apply foldl_invariant_mem (fun u => settled u e)
  intro u l hl hu
  cases hp : parseLine l with
  | none =>
    rw [THaDecData.setupLine_reinit_invalid u l hp]
    exact hu
  | some e2 =>
    unfold settled at hu ⊢
    rw [THaDecData.setupLine_reinit_findLoc u l e2 e.2.fName hp (hne l hl e2 hp)]
    exact hu

/-- After a load in re-initialization mode of a file with distinct names
every valid line of the file is settled. -/
theorem THaDecData.reinitFold_settled (ls : List String) :
    ∀ s : THaDecData, distinctNames ls → ∀ l ∈ ls, ∀ e, parseLine l = some e →
      settled (ls.foldl (THaDecData.setupLine true) s) e := by
  induction ls with
  | nil => intro s _ l hl; cases hl
  | cons l0 ls ih =>
    intro s hd l hl e hp
    obtain ⟨hd2, hne⟩ := distinctNames_cons l0 ls hd
    rw [List.foldl_cons]
    rcases List.mem_cons.mp hl with h | h
    · rw [h] at hp
      exact THaDecData.reinitFold_keeps_settled ls e (hne e hp) _
        (THaDecData.setupLine_reinit_own s l0 e hp)
    · exact ih _ hd2 l h e hp

/-- A load in re-initialization mode of a file whose valid lines are all
settled changes nothing. -/
theorem THaDecData.reinitFold_noop (ls : List String) (t : THaDecData)
    (h : ∀ l ∈ ls, ∀ e, parseLine l = some e → settled t e) :
    ls.foldl (THaDecData.setupLine true) t = t := by
  induction ls with
  | nil => rfl
  | cons l ls ih =>
    rw [List.foldl_cons]
    have hstep : THaDecData.setupLine true t l = t := by
      cases hp : parseLine l with
      | none => exact THaDecData.setupLine_reinit_invalid t l hp
      | some e =>
        exact THaDecData.setupLine_reinit_noop t l e hp (h l (List.mem_cons_self _ _) e hp)
    rw [hstep]
    exact ih (fun l2 hl2 e hp => h l2 (List.mem_cons_of_mem _ hl2) e hp)

/-- In Fresh mode a valid line whose name is not yet registered is handled as
in re-initialization mode. -/
theorem THaDecData.setupLine_fresh_eq_reinit (s : THaDecData) (sinput : String)
    (h : ∀ e, parseLine sinput = some e →
      findLocIdx s.fWordLoc e.2.fName = none ∧ findLocIdx s.fCrateLoc e.2.fName = none) :
    THaDecData.setupLine false s sinput = THaDecData.setupLine true s sinput := by
  rw [THaDecData.setupLine_fresh, THaDecData.setupLine_reinit]
  cases hp : parseLine sinput with
  | none => rfl
  | some e =>
    dsimp only
    obtain ⟨h1, h2⟩ := h e hp
    have hw2 : s.fWordLoc.findIdx? (fun p => e.2.fName == p.fName) = none := h1
    have hc2 : s.fCrateLoc.findIdx? (fun p => e.2.fName == p.fName) = none := h2
    rw [hw2]
    dsimp only
    rw [hc2]

/-- A Fresh pass over a file with distinct names, none of them registered
yet, is the pass in re-initialization mode. -/
theorem THaDecData.freshFold_eq_reinitFold (ls : List String) :
    ∀ s : THaDecData, distinctNames ls →
      (∀ l ∈ ls, ∀ e, parseLine l = some e →
        findLocIdx s.fWordLoc e.2.fName = none ∧ findLocIdx s.fCrateLoc e.2.fName = none) →
      ls.foldl (THaDecData.setupLine false) s = ls.foldl (THaDecData.setupLine true) s := by
  induction ls with
  | nil => intro s _ _; rfl
  | cons l0 ls ih =>
    intro s hd habs
    obtain ⟨hd2, hne⟩ := distinctNames_cons l0 ls hd
    rw [List.foldl_cons, List.foldl_cons]
    have hstep := THaDecData.setupLine_fresh_eq_reinit s l0
      (fun e hp => habs l0 (List.mem_cons_self _ _) e hp)
    rw [hstep]
    apply ih _ hd2
    intro l hl e hp
    obtain ⟨a1, a2⟩ := habs l (List.mem_cons_of_mem _ hl) e hp
    rw [← hstep, THaDecData.setupLine_fresh]
    cases hp0 : parseLine l0 with
    | none => exact ⟨a1, a2⟩
    | some e0 =>
      dsimp only
      have hn : e0.2.fName ≠ e.2.fName := fun hh => hne e0 hp0 l hl e hp hh.symm
      rw [THaDecData.insertLoc_fCrateLoc, THaDecData.insertLoc_fWordLoc]
      cases e0.1 with
      | false =>
        rw [if_neg Bool.false_ne_true, if_neg Bool.false_ne_true]
        exact ⟨(findLocIdx_append_other s.fWordLoc e0.2 e.2.fName hn).1.trans a1, a2⟩
      | true =>
        rw [if_pos rfl, if_pos rfl]
        exact ⟨a1, (findLocIdx_append_other s.fCrateLoc e0.2 e.2.fName hn).1.trans a2⟩

/-- After a Fresh load of a file with distinct names every valid line of the
file is settled. -/
theorem THaDecData.SetupDecData_fresh_settled (lines : List String) (s0 : THaDecData)
    (hfresh : s0.fIsSetup = false) (hd : distinctNames lines) :
    ∀ l ∈ lines, ∀ e, parseLine l = some e →
      settled (THaDecData.SetupDecData (some lines) EMode.kDefine s0).2 e := by
  rw [THaDecData.SetupDecData_fresh lines s0 hfresh]
  dsimp only
  have hd0 : (s0.DefineVarsFromList EMode.kDefine).2 =
      { s0 with gHaVars := defineVarsList s0.fPrefix s0.gHaVars } := rfl
  rw [hd0]
  generalize defineVarsList s0.fPrefix s0.gHaVars = W
  have h1 : (THaDecData.BookHist
      { ({ s0 with gHaVars := W } : THaDecData) with
          fIsSetup := true, fCrateLoc := [], fWordLoc := [] }).fWordLoc = [] := rfl
  have h2 : (THaDecData.BookHist
      { ({ s0 with gHaVars := W } : THaDecData) with
          fIsSetup := true, fCrateLoc := [], fWordLoc := [] }).fCrateLoc = [] := rfl
  generalize THaDecData.BookHist
      { ({ s0 with gHaVars := W } : THaDecData) with
          fIsSetup := true, fCrateLoc := [], fWordLoc := [] } = t0 at h1 h2 ⊢
  rw [THaDecData.freshFold_eq_reinitFold lines t0 hd (fun l _ e _ => by
    rw [h1, h2]
    exact ⟨rfl, rfl⟩)]
  exact THaDecData.reinitFold_settled lines t0 hd

theorem settled_congr (t u : THaDecData) (e : Bool × BdataLoc)
    (h1 : t.fWordLoc = u.fWordLoc) (h2 : t.fCrateLoc = u.fCrateLoc) (h : settled u e) :
    settled t e := by
  unfold settled findLoc at h ⊢
  rw [h1, h2]
  exact h

theorem THaDecData.reinitFold_fIsSetup (ls : List String) (s : THaDecData) :
    (ls.foldl (THaDecData.setupLine true) s).fIsSetup = s.fIsSetup :=
  foldl_invariant (fun u => u.fIsSetup = s.fIsSetup) _
    (fun u l hu => (THaDecData.setupLine_reinit_fIsSetup u l).trans hu) ls s rfl

theorem THaDecData.Init_zombie (decdatafile : Option (List String)) (s : THaDecData)
    (hz : s.isZombie = true) :
    THaDecData.Init decdatafile s = (1, { s with fStatus := 1 }) := by
  unfold THaDecData.Init
  rw [if_pos hz]

theorem THaDecData.Init_not_zombie (decdatafile : Option (List String)) (s : THaDecData)
    (hz : s.isZombie = false) :
    THaDecData.Init decdatafile s =
      ((THaDecData.SetupDecData decdatafile EMode.kDefine (THaDecData.initPrep s)).1,
       { (THaDecData.SetupDecData decdatafile EMode.kDefine (THaDecData.initPrep s)).2 with
           fStatus :=
             (THaDecData.SetupDecData decdatafile EMode.kDefine (THaDecData.initPrep s)).1 }) := by
  unfold THaDecData.Init
  rw [if_neg (by rw [hz]; exact Bool.false_ne_true)]

/-- A second `Init` with a file whose valid lines are all settled leaves the
two collections and the variable list alone. -/
theorem THaDecData.Init_settled (lines : List String) (s1 : THaDecData)
    (hset : s1.fIsSetup = true)
    (h : ∀ l ∈ lines, ∀ e, parseLine l = some e → settled s1 e) :
    (THaDecData.Init (some lines) s1).2.fCrateLoc = s1.fCrateLoc ∧
    (THaDecData.Init (some lines) s1).2.fWordLoc = s1.fWordLoc ∧
    (THaDecData.Init (some lines) s1).2.gHaVars = s1.gHaVars := by
  cases hz : s1.isZombie with
  | true =>
    rw [THaDecData.Init_zombie _ s1 hz]
    exact ⟨rfl, rfl, rfl⟩
  | false =>
    rw [THaDecData.Init_not_zombie _ s1 hz]
    have hset2 : (THaDecData.initPrep s1).fIsSetup = true := hset
    rw [THaDecData.SetupDecData_reinit lines _ hset2]
    dsimp only
    rw [THaDecData.reinitFold_noop lines (THaDecData.initPrep s1)
      (fun l hl e hp => settled_congr _ s1 e rfl rfl (h l hl e hp))]
    exact ⟨rfl, rfl, rfl⟩

/-- C33. Re-loading the same file is a no-op, for a mapping file whose valid
lines carry pairwise distinct names. (1) After a Fresh load of the file
(`SetupDecData` in define mode on an engine that is not set up) a load of the
same file, which is a re-initialization, returns 0 and leaves the whole
engine state, the two collections and the variable list included, as it was.
(2) For every engine that is set up, loading the file twice leaves the state
that loading it once leaves. (3) In terms of `Init`: after a first `Init`
with the file a second `Init` with it leaves `fCrateLoc`, `fWordLoc` and the
variable list as they were. -/
theorem C33_reload_same_file_is_noop (lines : List String) (hd : distinctNames lines) :
    (∀ s0 : THaDecData, s0.fIsSetup = false →
      THaDecData.SetupDecData (some lines) EMode.kDefine
          (THaDecData.SetupDecData (some lines) EMode.kDefine s0).2 =
        (0, (THaDecData.SetupDecData (some lines) EMode.kDefine s0).2)) ∧
    (∀ s : THaDecData, s.fIsSetup = true →
      THaDecData.SetupDecData (some lines) EMode.kDefine
          (THaDecData.SetupDecData (some lines) EMode.kDefine s).2 =
        THaDecData.SetupDecData (some lines) EMode.kDefine s) ∧
    (∀ s0 : THaDecData, s0.fIsSetup = false →
      (THaDecData.Init (some lines) (THaDecData.Init (some lines) s0).2).2.fCrateLoc =
        (THaDecData.Init (some lines) s0).2.fCrateLoc ∧
      (THaDecData.Init (some lines) (THaDecData.Init (some lines) s0).2).2.fWordLoc =
        (THaDecData.Init (some lines) s0).2.fWordLoc ∧
      (THaDecData.Init (some lines) (THaDecData.Init (some lines) s0).2).2.gHaVars =
        (THaDecData.Init (some lines) s0).2.gHaVars) := by
  refine ⟨fun s0 hfresh => ?_, fun s hset => ?_, fun s0 hfresh => ?_⟩
  · have hsettled := THaDecData.SetupDecData_fresh_settled lines s0 hfresh hd
    have hset := (THaDecData.SetupDecData_fresh_loadInv (some lines) s0 hfresh).1
    generalize (THaDecData.SetupDecData (some lines) EMode.kDefine s0).2 = s1 at hsettled hset ⊢
    rw [THaDecData.SetupDecData_reinit lines s1 hset,
      THaDecData.reinitFold_noop lines s1 hsettled]
  · rw [THaDecData.SetupDecData_reinit lines s hset]
    have hset2 := (THaDecData.reinitFold_fIsSetup lines s).trans hset
    have hsettled := THaDecData.reinitFold_settled lines s hd
    generalize lines.foldl (THaDecData.setupLine true) s = t at hset2 hsettled ⊢
    dsimp only
    rw [THaDecData.SetupDecData_reinit lines t hset2, THaDecData.reinitFold_noop lines t hsettled]
  · cases hz : s0.isZombie with
    | true =>
      rw [THaDecData.Init_zombie _ s0 hz]
      dsimp only
      rw [THaDecData.Init_zombie (some lines) { s0 with fStatus := 1 } hz]
      exact ⟨rfl, rfl, rfl⟩
    | false =>
      rw [THaDecData.Init_not_zombie _ s0 hz]
      have hfresh2 : (THaDecData.initPrep s0).fIsSetup = false := hfresh
      have hsettled := THaDecData.SetupDecData_fresh_settled lines _ hfresh2 hd
      have hset := (THaDecData.SetupDecData_fresh_loadInv (some lines) _ hfresh2).1
      generalize THaDecData.SetupDecData (some lines) EMode.kDefine (THaDecData.initPrep s0) = r
        at hsettled hset ⊢
      dsimp only
      exact THaDecData.Init_settled lines { r.2 with fStatus := r.1 } hset
        (fun l hl e hp => settled_congr _ r.2 e rfl rfl (hsettled l hl e hp))

/-- C33 at the file with the lines `foo crate 4 5 6` and `baz header 1 aa 0`:
loaded into a new engine and loaded again, the second load changes nothing;
loaded into the engine `stFoo`, whose location `foo` has the address (1,2,3),
the first load gives `foo` the address (4,5,6) and adds `baz`, and a second
load leaves that state. -/
theorem C33_reload_same_file_is_noop_witness :
    distinctNames ["foo crate 4 5 6", "baz header 1 aa 0"] ∧
    (THaDecData.new "D." 8).fIsSetup = false ∧
    THaDecData.SetupDecData (some ["foo crate 4 5 6", "baz header 1 aa 0"]) EMode.kDefine
        (THaDecData.SetupDecData (some ["foo crate 4 5 6", "baz header 1 aa 0"]) EMode.kDefine
          (THaDecData.new "D." 8)).2 =
      (0, (THaDecData.SetupDecData (some ["foo crate 4 5 6", "baz header 1 aa 0"])
        EMode.kDefine (THaDecData.new "D." 8)).2) ∧
    stFoo.fIsSetup = true ∧
    stFoo.fCrateLoc.map (fun d => (d.fName, d.crate, d.slot, d.chan)) = [("foo", 1, 2, 3)] ∧
    (THaDecData.SetupDecData (some ["foo crate 4 5 6", "baz header 1 aa 0"]) EMode.kDefine
      stFoo).2.fCrateLoc.map (fun d => (d.fName, d.crate, d.slot, d.chan)) =
        [("foo", 4, 5, 6)] ∧
    (THaDecData.SetupDecData (some ["foo crate 4 5 6", "baz header 1 aa 0"]) EMode.kDefine
      stFoo).2.fWordLoc.map (fun d => (d.fName, d.crate, d.header, d.ntoskip)) =
        [("baz", 1, 170, 0)] ∧
    THaDecData.SetupDecData (some ["foo crate 4 5 6", "baz header 1 aa 0"]) EMode.kDefine
        (THaDecData.SetupDecData (some ["foo crate 4 5 6", "baz header 1 aa 0"]) EMode.kDefine
          stFoo).2 =
      THaDecData.SetupDecData (some ["foo crate 4 5 6", "baz header 1 aa 0"]) EMode.kDefine
        stFoo :=
  ⟨by unfold distinctNames; decide, by decide,
   (C33_reload_same_file_is_noop ["foo crate 4 5 6", "baz header 1 aa 0"]
      (by unfold distinctNames; decide)).1 (THaDecData.new "D." 8) (by decide),
   by decide, by decide, by decide, by decide,
   (C33_reload_same_file_is_noop ["foo crate 4 5 6", "baz header 1 aa 0"]
      (by unfold distinctNames; decide)).2.1 stFoo (by decide)⟩

end Podd
